import Mathlib

/-!
Npackd: dependency resolution and install/uninstall orchestration.

A shallow embedding of the planning and execution core of the Npackd package
manager (`abstractrepository.cpp`, `repository.cpp`, `packageversion.h`) together
with theorems about it.

* Mutable C++ lists become immutable Lean lists that are threaded through the
  functions; `clone()` is the identity on values; error out-parameters
  (`QString* err`) become the first component of the result; `QObject::tr` is the
  identity and `QString::arg` is concatenation.
* Loops become recursive functions named after the function they belong to.
* Parts of the repository that are not among the sources (versions, dependencies,
  the two planners of `PackageVersion`, jobs, the lock registry, the installed
  state) are modelled from the specification; their doc comments say so.
* The two planners are recursive; their recursion depth is bounded by a `fuel`
  argument and `none` stands for "did not return within it".
* `process` talks to the host through the collaborators of `Env`; what it does is
  recorded as a list of events.
-/

set_option autoImplicit false

namespace Npackd

/-! ## Version and Dependency -/

/-- Modelled from the spec: the `Version` value type (`version.h`/`version.cpp` are not among
the sources): an ordered sequence of numeric components. -/
structure Version where
  parts : List Nat
deriving DecidableEq, Repr

/-- Modelled from the spec: `Version::compare` on the component lists (`version.cpp` is not
among the sources): lexicographic, component-wise numeric comparison with zero-padding of the
shorter sequence.  The result is negative, zero or positive. -/
def Version.compareParts : List Nat → List Nat → Int
  | [], bs => if bs.all (fun b => b == 0) then 0 else -1
  | a :: as, [] => if a = 0 then Version.compareParts as [] else 1
  | a :: as, b :: bs =>
      if a < b then -1 else if b < a then 1 else Version.compareParts as bs

/-- Modelled from the spec: `Version::compare` (`version.cpp` is not among the sources). -/
def Version.compare (a b : Version) : Int :=
  Version.compareParts a.parts b.parts

/-- Modelled from the spec: `Version::normalize` (`version.cpp` is not among the sources):
trailing zero components carry no information and are dropped (one component is kept). -/
def Version.normalizeParts : List Nat → List Nat
  | [] => []
  | a :: as =>
      match Version.normalizeParts as with
      | [] => if a = 0 then [] else [a]
      | r :: rs => a :: r :: rs

/-- Modelled from the spec: `Version::normalize`; the version `0` is kept as the single
component `0`. -/
def Version.normalize (v : Version) : Version :=
  match Version.normalizeParts v.parts with
  | [] => ⟨[0]⟩
  | r :: rs => ⟨r :: rs⟩

/-- Modelled from the spec: `Version::getVersionString` (`version.cpp` is not among the
sources): the dotted numeric text of a version. -/
def Version.getVersionString (v : Version) : String :=
  String.intercalate "." (v.parts.map toString)

/-- Modelled from the spec: the `Dependency` record (`dependency.h` is not among the sources):
target package, minimum and maximum version and the two inclusivity flags. -/
structure Dependency where
  package : String
  min : Version
  max : Version
  minIncluded : Bool
  maxIncluded : Bool
deriving DecidableEq, Repr

/-- Modelled from the spec: `Dependency::test` (`dependency.cpp` is not among the sources):
`v >= min` (strict if not minimum-inclusive) and `v <= max` (strict if not
maximum-inclusive). -/
def Dependency.test (d : Dependency) (v : Version) : Bool :=
  (if d.minIncluded then decide (0 ≤ v.compare d.min) else decide (0 < v.compare d.min)) &&
  (if d.maxIncluded then decide (v.compare d.max ≤ 0) else decide (v.compare d.max < 0))

/-! ## Catalog data -/

/-- The `QUrl download` field of a package version: only its text and the result of
`QUrl::isValid()` matter here. -/
structure QUrl where
  url : String
  isValid : Bool
deriving DecidableEq, Repr

/-- The fields of `PackageVersion` (packageversion.h) that planning and execution read. -/
structure PackageVersion where
  package : String
  version : Version
  dependencies : List Dependency
  download : QUrl
deriving DecidableEq, Repr

/-- The `Package` record: full name and title. -/
structure Package where
  name : String
  title : String
deriving DecidableEq, Repr

/-- Modelled from the spec: `PackageVersion::indexOf` (`packageversion.cpp` is not among the
sources; documented in packageversion.h): index of the first element of `pvs` with the package
and version of `f`, or `-1`. -/
def PackageVersion.indexOf : List PackageVersion → PackageVersion → Int
  | [], _ => -1
  | pv :: rest, f =>
      if pv.package = f.package ∧ pv.version.compare f.version = 0 then 0
      else
        let r := PackageVersion.indexOf rest f
        if r < 0 then -1 else r + 1

/-- Modelled from the spec: `PackageVersion::contains` (`packageversion.cpp` is not among the
sources; documented in packageversion.h): search by package name and version number only. -/
def PackageVersion.contains (list : List PackageVersion) (pv : PackageVersion) : Bool :=
  decide (0 ≤ PackageVersion.indexOf list pv)

/-- The in-memory `Repository`: the flat list `packageVersions`, the per-package index
`package2versions` (a `QMultiMap`, most recently inserted entry first) and `packages`. -/
structure Repository where
  packages : List Package
  packageVersions : List PackageVersion
  package2versions : List (String × PackageVersion)
deriving DecidableEq, Repr

/-- The call `QMultiMap::values(key)`: all values stored under `key`, most recently inserted
first. -/
def QMultiMap.values (m : List (String × PackageVersion)) (key : String) :
    List PackageVersion :=
  (m.filter (fun e => e.1 == key)).map Prod.snd

/-- The lexical comparison of two character sequences by character code. -/
def QString.compareChars : List Char → List Char → Int
  | [], [] => 0
  | [], _ :: _ => -1
  | _ :: _, [] => 1
  | a :: as, b :: bs =>
      if a.toNat < b.toNat then -1
      else if b.toNat < a.toNat then 1
      else QString.compareChars as bs

/-- The call `QString::compare` (case sensitive): lexical comparison by character code;
negative, zero or positive. -/
def QString.compare (a b : String) : Int :=
  QString.compareChars a.data b.data

/-- The comparator `packageVersionLessThan2` of repository.cpp. -/
def packageVersionLessThan2 (a b : PackageVersion) : Bool :=
  let r := QString.compare a.package b.package
  let r := if r = 0 then a.version.compare b.version else r
  decide (r < 0)

/-- The call `qSort(begin, end, lessThan)`: the list sorted so that no element is less than
one before it (insertion sort; elements that are not ordered by `lessThan` keep their order). -/
def qSort (lessThan : PackageVersion → PackageVersion → Bool) (l : List PackageVersion) :
    List PackageVersion :=
  l.insertionSort (fun a b => lessThan b a = false)

/-- The function `Repository::getPackageVersions`. -/
def Repository.getPackageVersions (rep : Repository) (package : String) :
    List PackageVersion :=
  qSort packageVersionLessThan2 (QMultiMap.values rep.package2versions package)

/-- The function `Repository::getPackageVersions_`: the error is always empty. -/
def Repository.getPackageVersions_ (rep : Repository) (package : String) :
    String × List PackageVersion :=
  ("", qSort packageVersionLessThan2 (QMultiMap.values rep.package2versions package))

/-- The loop of `AbstractRepository::findBestMatchToInstall`; `res` is the best candidate so
far. -/
def findBestMatchToInstall.loop (dep : Dependency) (avoid : List PackageVersion) :
    List PackageVersion → Option PackageVersion → Option PackageVersion
  | [], res => res
  | pv :: rest, res =>
      if dep.test pv.version && pv.download.isValid &&
          decide (PackageVersion.indexOf avoid pv < 0) then
        match res with
        | none => findBestMatchToInstall.loop dep avoid rest (some pv)
        | some r =>
            if pv.version.compare r.version > 0 then
              findBestMatchToInstall.loop dep avoid rest (some pv)
            else findBestMatchToInstall.loop dep avoid rest (some r)
      else findBestMatchToInstall.loop dep avoid rest res

/-- The function `AbstractRepository::findBestMatchToInstall` over the in-memory repository:
the error of the catalog query and the best match (or nothing). -/
def findBestMatchToInstall (rep : Repository) (dep : Dependency)
    (avoid : List PackageVersion) : String × Option PackageVersion :=
  let q := rep.getPackageVersions_ dep.package
  let res := if q.1.isEmpty then findBestMatchToInstall.loop dep avoid q.2 none else none
  (q.1, res)

/-- The condition under which `findBestMatchToInstall` considers a catalog version. -/
def isCandidate (dep : Dependency) (avoid : List PackageVersion) (pv : PackageVersion) : Prop :=
  dep.test pv.version = true ∧ pv.download.isValid = true ∧ PackageVersion.indexOf avoid pv < 0

/-! ## Installed state, catalog lookups -/

/-- Modelled from the spec: the `InstalledPackageVersion` fact (`installedpackageversion.h` is
not among the sources): package identifier, version, installation directory. -/
structure InstalledPackageVersion where
  package : String
  version : Version
  directory : String
deriving DecidableEq, Repr

/-- Modelled from the spec: the installed-state provider `InstalledPackages`
(`installedpackages.h` is not among the sources): the externally observed installed facts. -/
structure InstalledPackages where
  data : List InstalledPackageVersion
deriving DecidableEq, Repr

/-- Modelled from the spec: `InstalledPackages::getAll` (not among the sources): every
installed fact. -/
def InstalledPackages.getAll (ip : InstalledPackages) : List InstalledPackageVersion :=
  ip.data

/-- Modelled from the spec: the scan of `InstalledPackages::getNewestInstalled` (not among the
sources): `res` is the entry of `package` with the greatest version so far. -/
def InstalledPackages.getNewestInstalled.loop (package : String) :
    List InstalledPackageVersion → Option InstalledPackageVersion →
      Option InstalledPackageVersion
  | [], res => res
  | ipv :: rest, res =>
      if ipv.package = package then
        match res with
        | none => InstalledPackages.getNewestInstalled.loop package rest (some ipv)
        | some r =>
            if ipv.version.compare r.version > 0 then
              InstalledPackages.getNewestInstalled.loop package rest (some ipv)
            else InstalledPackages.getNewestInstalled.loop package rest (some r)
      else InstalledPackages.getNewestInstalled.loop package rest res

/-- Modelled from the spec: `InstalledPackages::getNewestInstalled` (not among the sources):
the installed fact of the package with the greatest version, if any. -/
def InstalledPackages.getNewestInstalled (ip : InstalledPackages) (package : String) :
    Option InstalledPackageVersion :=
  InstalledPackages.getNewestInstalled.loop package ip.data none

/-- Modelled from the spec: `PackageVersion::getPath` (`packageversion.cpp` is not among the
sources; documented in packageversion.h): the installation path, or the empty string if the
package version is not installed. -/
def PackageVersion.getPath (ip : InstalledPackages) (pv : PackageVersion) : String :=
  match ip.data.find? (fun e => e.package = pv.package ∧ e.version.compare pv.version = 0) with
  | some e => e.directory
  | none => ""

/-- The function `Repository::findPackage`. -/
def Repository.findPackage (rep : Repository) (name : String) : Option Package :=
  rep.packages.find? (fun p => p.name = name)

/-- The function `Repository::findPackage_` (a copy of the found package). -/
def Repository.findPackage_ (rep : Repository) (name : String) : Option Package :=
  rep.findPackage name

/-- The function `Repository::findPackageVersion`: the first version of the sorted list that
compares equal. -/
def Repository.findPackageVersion (rep : Repository) (package : String) (version : Version) :
    Option PackageVersion :=
  (rep.getPackageVersions package).find? (fun pv => pv.version.compare version = 0)

/-- The function `Repository::findPackageVersion_`: the error is always empty. -/
def Repository.findPackageVersion_ (rep : Repository) (package : String) (version : Version) :
    String × Option PackageVersion :=
  ("", rep.findPackageVersion package version)

/-- The loop of `AbstractRepository::getInstalled_`. -/
def getInstalled_.loop (rep : Repository) :
    List InstalledPackageVersion → List PackageVersion → String × List PackageVersion
  | [], ret => ("", ret)
  | ipv :: rest, ret =>
      let r := rep.findPackageVersion_ ipv.package ipv.version
      if !r.1.isEmpty then (r.1, ret)
      else
        match r.2 with
        | some pv => getInstalled_.loop rep rest (ret ++ [pv])
        | none => getInstalled_.loop rep rest ret

/-- The function `AbstractRepository::getInstalled_`: the catalog versions of the installed
facts. -/
def getInstalled_ (rep : Repository) (ip : InstalledPackages) : String × List PackageVersion :=
  getInstalled_.loop rep ip.getAll []

/-- The function `AbstractRepository::findNewestInstalledPackageVersion_`. -/
def findNewestInstalledPackageVersion_ (rep : Repository) (ip : InstalledPackages)
    (name : String) : String × Option PackageVersion :=
  match ip.getNewestInstalled name with
  | some ipv => rep.findPackageVersion_ name ipv.version
  | none => ("", none)

/-- The loop of `AbstractRepository::findNewestInstallablePackageVersion_`. -/
def findNewestInstallablePackageVersion_.loop :
    List PackageVersion → Option PackageVersion → Option PackageVersion
  | [], r => r
  | p :: rest, r =>
      if (match r with
          | none => true
          | some r0 => decide (p.version.compare r0.version > 0)) then
        if p.download.isValid then findNewestInstallablePackageVersion_.loop rest (some p)
        else findNewestInstallablePackageVersion_.loop rest r
      else findNewestInstallablePackageVersion_.loop rest r

/-- The function `AbstractRepository::findNewestInstallablePackageVersion_`. -/
def findNewestInstallablePackageVersion_ (rep : Repository) (package : String) :
    String × Option PackageVersion :=
  let q := rep.getPackageVersions_ package
  (q.1, if q.1.isEmpty then findNewestInstallablePackageVersion_.loop q.2 none else none)

/-- The function `AbstractRepository::findAllInstalledMatches`. -/
def findAllInstalledMatches (ip : InstalledPackages) (dep : Dependency) :
    List InstalledPackageVersion :=
  ip.getAll.filter (fun ipv => decide (ipv.package = dep.package) && dep.test ipv.version)

/-- The loop of `AbstractRepository::findHighestInstalledMatch`. -/
def findHighestInstalledMatch.loop :
    List InstalledPackageVersion → Option InstalledPackageVersion →
      Option InstalledPackageVersion
  | [], res => res
  | ipv :: rest, res =>
      if (match res with
          | none => true
          | some r => decide (ipv.version.compare r.version > 0)) then
        findHighestInstalledMatch.loop rest (some ipv)
      else findHighestInstalledMatch.loop rest res

/-- The function `AbstractRepository::findHighestInstalledMatch`. -/
def findHighestInstalledMatch (ip : InstalledPackages) (dep : Dependency) :
    Option InstalledPackageVersion :=
  findHighestInstalledMatch.loop (findAllInstalledMatches ip dep) none

/-- The function `AbstractRepository::toString(const Dependency&, bool)`. -/
def dependencyToString (rep : Repository) (dep : Dependency) (includeFullPackageName : Bool) :
    String :=
  (match rep.findPackage_ dep.package with
    | some p => p.title
    | none => dep.package) ++
  (if includeFullPackageName then " (" ++ dep.package ++ ")" else "") ++ " " ++
  (if dep.minIncluded then "[" else "(") ++ dep.min.getVersionString ++ ", " ++
  dep.max.getVersionString ++ (if dep.maxIncluded then "]" else ")")

/-! ## Planning -/

/-- Modelled from the spec: the `InstallOperation` record (`installoperation.h` is not among
the sources): package identifier, version, install flag (true = install, false = uninstall)
and target directory (`where`, empty = choose automatically). -/
structure InstallOperation where
  package : String
  version : Version
  install : Bool
  where_ : String
deriving DecidableEq, Repr

/-- Two package versions with the same identity: same package, versions that compare equal. -/
def PackageVersion.same (a b : PackageVersion) : Bool :=
  decide (a.package = b.package) && decide (a.version.compare b.version = 0)

/-- A member `q` of the installed snapshot satisfies the dependency `d`. -/
def Dependency.satisfiedBy (d : Dependency) (q : PackageVersion) : Bool :=
  decide (q.package = d.package) && d.test q.version

/-- Modelled from the spec: the dependents found by `planUninstallation`: `x` has a dependency
that is satisfied only by `pv` among the currently installed candidates (`pv` is its last
remaining satisfying provider). -/
def isLastProvider (pv : PackageVersion) (installed : List PackageVersion)
    (x : PackageVersion) : Bool :=
  x.dependencies.any (fun d =>
    d.satisfiedBy pv &&
    installed.any (fun q => d.satisfiedBy q) &&
    installed.all (fun q => !d.satisfiedBy q || q.same pv))

/-- Modelled from the spec: the loop of `planUninstallation` over the dependents, each planned
by `recur`; it stops at the first error and yields nothing when a nested call does not
return. -/
def planUninstallation.dependents
    (recur : PackageVersion → List PackageVersion → List InstallOperation →
      Option (String × List PackageVersion × List InstallOperation)) :
    List PackageVersion → List PackageVersion → List InstallOperation →
      Option (String × List PackageVersion × List InstallOperation)
  | [], installed, ops => some ("", installed, ops)
  | x :: rest, installed, ops =>
      match recur x installed ops with
      | none => none
      | some r =>
          if !r.1.isEmpty then some r
          else planUninstallation.dependents recur rest r.2.1 r.2.2

/-- Modelled from the spec: `PackageVersion::planUninstallation` (`packageversion.cpp` is not
among the sources; section 4.3): find every member of the installed snapshot whose dependencies
are satisfied only by `pv`, recursively plan uninstallation of each such dependent first, then
append an uninstall operation for `pv` and remove it from the snapshot.  The spec walks "a
strictly shrinking installed set": the nested calls for the dependents work on the snapshot
in which `pv` no longer counts as installed, so a dependency cycle among installed versions
does not lead back to `pv`.  The recursion depth is bounded by `fuel`; `none` means that the
recursion did not return within it.  The result is the error message, the updated snapshot
and the updated operation list. -/
def planUninstallation : Nat → PackageVersion → List PackageVersion → List InstallOperation →
    Option (String × List PackageVersion × List InstallOperation)
  | 0, _, _, _ => none
  | fuel + 1, pv, installed, ops =>
      match planUninstallation.dependents (planUninstallation fuel)
          (installed.filter (isLastProvider pv installed))
          (installed.filter (fun q => !q.same pv)) ops with
      | none => none
      | some r =>
          if !r.1.isEmpty then some r
          else some ("", r.2.1.filter (fun q => !q.same pv),
            r.2.2 ++ [{ package := pv.package, version := pv.version, install := false,
                        where_ := "" }])

/-- The state threaded through `planInstallation`: the installed snapshot, the operation list
and the avoid list (all three are in-out parameters in packageversion.h). -/
structure PlanState where
  installed : List PackageVersion
  ops : List InstallOperation
  avoid : List PackageVersion
deriving DecidableEq, Repr

/-- Modelled from the spec: step 4 of `planInstallation` over the dependencies of a package
version: a dependency that no member of the installed snapshot satisfies is resolved by the
best installable match outside the avoid list, which is planned by `recur`. -/
def planInstallation.dependencies (rep : Repository)
    (recur : PackageVersion → PlanState → Option (String × PlanState)) :
    List Dependency → PlanState → Option (String × PlanState)
  | [], st => some ("", st)
  | d :: rest, st =>
      if st.installed.any (fun q => d.satisfiedBy q) then
        planInstallation.dependencies rep recur rest st
      else
        let m := findBestMatchToInstall rep d st.avoid
        if !m.1.isEmpty then some (m.1, st)
        else
          match m.2 with
          | none => some ("Unsatisfiable dependency: " ++ dependencyToString rep d true, st)
          | some c =>
              match recur c st with
              | none => none
              | some r =>
                  if !r.1.isEmpty then some r
                  else planInstallation.dependencies rep recur rest r.2

/-- Modelled from the spec: `PackageVersion::planInstallation` (`packageversion.cpp` is not
among the sources; section 4.2): (1) a version already in the installed snapshot needs no
operation; (2) a version in the avoid list fails as unsatisfiable; (3) the version joins the
avoid list; (4) its dependencies are planned; (5) an install operation for the version is
appended and the version joins the installed snapshot.  The recursion depth is bounded by
`fuel`; `none` means that the recursion did not return within it. -/
def planInstallation (rep : Repository) :
    Nat → PackageVersion → PlanState → String → Option (String × PlanState)
  | 0, _, _, _ => none
  | fuel + 1, pv, st, where_ =>
      if PackageVersion.contains st.installed pv then some ("", st)
      else if PackageVersion.contains st.avoid pv then
        some ("Unsatisfiable: " ++ pv.package ++ " " ++ pv.version.getVersionString ++
          " cannot be installed", st)
      else
        match planInstallation.dependencies rep
            (fun c s => planInstallation rep fuel c s "") pv.dependencies
            { st with avoid := st.avoid ++ [pv] } with
        | none => none
        | some r =>
            if !r.1.isEmpty then some r
            else some ("", { r.2 with
              ops := r.2.ops ++ [{ package := pv.package, version := pv.version,
                                   install := true, where_ := where_ }],
              installed := r.2.installed ++ [pv] })

/-- Two operations on the same package version. -/
def InstallOperation.sameTarget (a b : InstallOperation) : Bool :=
  decide (a.package = b.package) && decide (a.version.compare b.version = 0)

/-- Modelled from the spec: the passes of `InstallOperation::simplify` (`installoperation.cpp`
is not among the sources): an install that is followed by an uninstall of the exact same
(package, version) is collapsed together with that uninstall; otherwise the operation is
kept and its later duplicates are removed.  `n` bounds the number of passes. -/
def InstallOperation.simplify.go : Nat → List InstallOperation → List InstallOperation
  | 0, ops => ops
  | _ + 1, [] => []
  | n + 1, op :: rest =>
      if op.install && rest.any (fun o => !o.install && op.sameTarget o) then
        InstallOperation.simplify.go n (rest.eraseP (fun o => !o.install && op.sameTarget o))
      else
        op :: InstallOperation.simplify.go n
          (rest.filter (fun o => !(op.sameTarget o && decide (o.install = op.install))))

/-- Modelled from the spec: `InstallOperation::simplify` (`installoperation.cpp` is not among
the sources; section 4.4 step 4). -/
def InstallOperation.simplify (ops : List InstallOperation) : List InstallOperation :=
  InstallOperation.simplify.go ops.length ops

/-- One entry of the parallel lists `newest`, `newesti` and `used` of `planUpdates`; the three
lists are always extended together, so an entry of each forms one record. -/
structure UpdatePair where
  newest : PackageVersion
  newesti : Option PackageVersion
  used : Bool
deriving DecidableEq, Repr

/-- The first loop of `planUpdates` ("packages first"): the error and the pairs found. -/
def planUpdates.packagesLoop (rep : Repository) (ip : InstalledPackages) (install : Bool) :
    List Package → List UpdatePair → String × List UpdatePair
  | [], acc => ("", acc)
  | p :: rest, acc =>
      let ra := findNewestInstallablePackageVersion_ rep p.name
      if !ra.1.isEmpty then (ra.1, acc)
      else
        match ra.2 with
        | none => ("No installable version found for the package " ++ p.title, acc)
        | some a =>
            let rb := findNewestInstalledPackageVersion_ rep ip p.name
            if !rb.1.isEmpty then
              ("Cannot find the newest installed version for " ++ p.title ++ ": " ++ rb.1, acc)
            else if rb.2.isNone && !install then
              ("No installed version found for the package " ++ p.title, acc)
            else if (match rb.2 with
                | none => true
                | some b => decide (a.version.compare b.version > 0)) then
              planUpdates.packagesLoop rep ip install rest
                (acc ++ [{ newest := a, newesti := rb.2, used := false }])
            else planUpdates.packagesLoop rep ip install rest acc

/-- The second loop of `planUpdates` ("version ranges second"). -/
def planUpdates.rangesLoop (rep : Repository) (ip : InstalledPackages) (install : Bool) :
    List Dependency → List UpdatePair → String × List UpdatePair
  | [], acc => ("", acc)
  | d :: rest, acc =>
      match rep.findPackage_ d.package with
      | none => ("Cannot find the package " ++ d.package, acc)
      | some p =>
          let ra := findBestMatchToInstall rep d []
          if !ra.1.isEmpty then (ra.1, acc)
          else
            match ra.2 with
            | none => ("No installable version found for the package " ++ p.title, acc)
            | some a =>
                let rb : String × Option PackageVersion :=
                  match findHighestInstalledMatch ip d with
                  | some ipv => rep.findPackageVersion_ ipv.package ipv.version
                  | none => ("", none)
                if !rb.1.isEmpty then
                  ("Cannot find the newest installed version for " ++ p.title ++ ": " ++ rb.1,
                    acc)
                else if rb.2.isNone && !install then
                  ("No installed version found for the package " ++ p.title, acc)
                else if (match rb.2 with
                    | none => true
                    | some b => decide (a.version.compare b.version > 0)) then
                  planUpdates.rangesLoop rep ip install rest
                    (acc ++ [{ newest := a, newesti := rb.2, used := false }])
                else planUpdates.rangesLoop rep ip install rest acc

/-- The examination of the targets of `planUpdates`: the packages loop followed, when it
reported no error, by the ranges loop. -/
def planUpdates.examine (rep : Repository) (ip : InstalledPackages) (install : Bool)
    (packages : List Package) (ranges : List Dependency) : String × List UpdatePair :=
  let r1 := planUpdates.packagesLoop rep ip install packages []
  if r1.1.isEmpty then planUpdates.rangesLoop rep ip install ranges r1.2 else r1

/-- The directory chosen in the co-location pass for the pair with index `i`. -/
def planUpdates.coLocateWhere (ip : InstalledPackages) (keepDirectories : Bool)
    (where_ : String) (i : Nat) (b : PackageVersion) : String :=
  if i = 0 ∧ !where_.isEmpty then where_
  else if keepDirectories then b.getPath ip
  else ""

/-- The combined plan tried for one pair in the co-location pass of `planUpdates`: uninstall
`b`, then install the newest version, on the private copy `installedCopy` with the private
list `ops2`.  The result is the error, `installedCopy` and `ops2`. -/
def planUpdates.combined (rep : Repository) (ip : InstalledPackages) (fuel : Nat)
    (keepDirectories : Bool) (where_ : String) (i : Nat) (a b : PackageVersion)
    (installed : List PackageVersion) :
    Option (String × List PackageVersion × List InstallOperation) :=
  match planUninstallation fuel b installed [] with
  | none => none
  | some r =>
      if r.1.isEmpty then
        match planInstallation rep fuel a { installed := r.2.1, ops := r.2.2, avoid := [] }
            (planUpdates.coLocateWhere ip keepDirectories where_ i b) with
        | none => none
        | some r2 => some (r2.1, r2.2.installed, r2.2.ops)
      else some r

/-- The co-location pass of `planUpdates` from index `i` on: the pairs (with `used` updated),
the shared installed snapshot and the operation list. -/
def planUpdates.coLocationLoop (rep : Repository) (ip : InstalledPackages) (fuel : Nat)
    (keepDirectories : Bool) (where_ : String) :
    Nat → List UpdatePair → List PackageVersion → List InstallOperation →
      Option (List UpdatePair × List PackageVersion × List InstallOperation)
  | _, [], installed, ops => some ([], installed, ops)
  | i, t :: rest, installed, ops =>
      match t.newesti with
      | none =>
          (planUpdates.coLocationLoop rep ip fuel keepDirectories where_ (i + 1) rest
            installed ops).map (fun r => (t :: r.1, r.2))
      | some b =>
          match planUpdates.combined rep ip fuel keepDirectories where_ i t.newest b
              installed with
          | none => none
          | some r =>
              match r.1.isEmpty, r.2.2 with
              | true, [o0, o1] =>
                  (planUpdates.coLocationLoop rep ip fuel keepDirectories where_ (i + 1) rest
                    r.2.1 (ops ++ [o0, o1])).map
                    (fun r => ({ t with used := true } :: r.1, r.2))
              | _, _ =>
                  (planUpdates.coLocationLoop rep ip fuel keepDirectories where_ (i + 1) rest
                    installed ops).map (fun r => (t :: r.1, r.2))

/-- The ordinary install pass of `planUpdates` over the pairs not marked used. -/
def planUpdates.installLoop (rep : Repository) (ip : InstalledPackages) (fuel : Nat)
    (keepDirectories : Bool) :
    List UpdatePair → List PackageVersion → List InstallOperation →
      Option (String × List PackageVersion × List InstallOperation)
  | [], installed, ops => some ("", installed, ops)
  | t :: rest, installed, ops =>
      if !t.used then
        let where_ : String :=
          match t.newesti with
          | some b => if keepDirectories then b.getPath ip else ""
          | none => ""
        match planInstallation rep fuel t.newest
            { installed := installed, ops := ops, avoid := [] } where_ with
        | none => none
        | some r =>
            if !r.1.isEmpty then some (r.1, r.2.installed, r.2.ops)
            else planUpdates.installLoop rep ip fuel keepDirectories rest r.2.installed r.2.ops
      else planUpdates.installLoop rep ip fuel keepDirectories rest installed ops

/-- The ordinary uninstall pass of `planUpdates` over the pairs not marked used. -/
def planUpdates.uninstallLoop (fuel : Nat) :
    List UpdatePair → List PackageVersion → List InstallOperation →
      Option (String × List PackageVersion × List InstallOperation)
  | [], installed, ops => some ("", installed, ops)
  | t :: rest, installed, ops =>
      if !t.used then
        match t.newesti with
        | some b =>
            match planUninstallation fuel b installed ops with
            | none => none
            | some r =>
                if !r.1.isEmpty then some r
                else planUpdates.uninstallLoop fuel rest r.2.1 r.2.2
        | none => planUpdates.uninstallLoop fuel rest installed ops
      else planUpdates.uninstallLoop fuel rest installed ops

/-- The function `AbstractRepository::planUpdates` over the in-memory repository: the returned
error message and the operation list `ops` as the call leaves it.  `fuel` bounds the recursion
depth of the two planners; `none` means that a planner did not return within it. -/
def planUpdates (rep : Repository) (ip : InstalledPackages) (fuel : Nat)
    (packages : List Package) (ranges : List Dependency) (ops : List InstallOperation)
    (keepDirectories : Bool) (install : Bool) (where_ : String) :
    Option (String × List InstallOperation) :=
  let gi := getInstalled_ rep ip
  if !gi.1.isEmpty then some (gi.1, ops)
  else
    let ex := planUpdates.examine rep ip install packages ranges
    if !ex.1.isEmpty then some (ex.1, ops)
    else
      match planUpdates.coLocationLoop rep ip fuel keepDirectories where_ 0 ex.2 gi.2 ops with
      | none => none
      | some c =>
          match planUpdates.installLoop rep ip fuel keepDirectories c.1 c.2.1 c.2.2 with
          | none => none
          | some r1 =>
              if !r1.1.isEmpty then some (r1.1, r1.2.2)
              else
                match planUpdates.uninstallLoop fuel c.1 r1.2.1 r1.2.2 with
                | none => none
                | some r2 =>
                    if !r2.1.isEmpty then some (r2.1, r2.2.2)
                    else some ("", InstallOperation.simplify r2.2.2)

/-! ## Lock registry and jobs -/

/-- The function `PackageVersion::getStringId(package, version)` of packageversion.h:
`package + "/" + version`, the version normalized first. -/
def getStringId (package : String) (version : Version) : String :=
  (package ++ "/") ++ version.normalize.getVersionString

/-- The member function `PackageVersion::getStringId()`. -/
def PackageVersion.getStringId (pv : PackageVersion) : String :=
  Npackd.getStringId pv.package pv.version

/-- Modelled from the spec: `lock(id)` of the Lock Registry (`packageversion.cpp` is not among
the sources; section 4.5): fails if `id` is already a member of the locked set, otherwise
inserts it.  The result is the success flag and the new set. -/
def LockRegistry.lock (locked : List String) (id : String) : Bool × List String :=
  if id ∈ locked then (false, locked) else (true, id :: locked)

/-- Modelled from the spec: `unlock(id)` of the Lock Registry (section 4.5): removes
membership; no-op if absent. -/
def LockRegistry.unlock (locked : List String) (id : String) : List String :=
  locked.filter (fun x => x ≠ id)

/-- Modelled from the spec: `isLocked(id)` of the Lock Registry (section 4.5). -/
def LockRegistry.isLocked (locked : List String) (id : String) : Bool :=
  decide (id ∈ locked)

/-- Modelled from the spec: the `Job` node (`job.h` is not among the sources): progress
fraction, first-set error message, cancellation flag and completion flag. -/
structure Job where
  progress : ℚ
  errorMessage : String
  cancelled : Bool
  completed : Bool
deriving DecidableEq, Repr

/-- Modelled from the spec: `Job::shouldProceed` (`job.cpp` is not among the sources): no
error has been recorded and cancellation has not been requested. -/
def Job.shouldProceed (job : Job) : Bool :=
  !job.cancelled && job.errorMessage.isEmpty

/-- Modelled from the spec: `Job::setErrorMessage` (`job.cpp` is not among the sources): the
job holds the first-set error message. -/
def Job.setErrorMessage (job : Job) (msg : String) : Job :=
  if job.errorMessage.isEmpty then { job with errorMessage := msg } else job

/-- Modelled from the spec: `Job::setProgress` (`job.cpp` is not among the sources). -/
def Job.setProgress (job : Job) (p : ℚ) : Job :=
  { job with progress := p }

/-- Modelled from the spec: `Job::complete` (`job.cpp` is not among the sources): signals
completion. -/
def Job.complete (job : Job) : Job :=
  { job with completed := true }

/-- The state in which an external collaborator (download, stop, install or uninstall hook,
directory removal) leaves the sub-job it was given: the error it recorded, the progress
fraction it reached and whether cancellation was requested while it ran. -/
structure Outcome where
  errorMessage : String
  progress : ℚ
  cancelled : Bool
deriving DecidableEq, Repr

/-- Modelled from the spec: the effect on the parent of a sub-job created by
`Job::newSubJob(part, ...)` (`job.cpp` is not among the sources) that ended as `o`: the parent
progress grows by the child-weight fraction, the error of the child reaches the parent when
`updateParentErrorMessage` is set, cancellation is shared. -/
def Job.subJob (job : Job) (part : ℚ) (updateParentErrorMessage : Bool) (o : Outcome) : Job :=
  { (if updateParentErrorMessage then job.setErrorMessage o.errorMessage else job) with
    progress := job.progress + part * o.progress
    cancelled := job.cancelled || o.cancelled }

/-! ## Operation executor -/

/-- The external collaborators of `AbstractRepository::process` over an abstract host state
`W` (file system, running programs): catalog lookup of the target of an operation
(`InstallOperation::findPackageVersion`), directory helpers of `WPMUtils`/`QDir`, and the
download, stop, install and uninstall hooks of a package version. -/
structure Env (W : Type) where
  findPackageVersion : InstallOperation → String × Option PackageVersion
  getIdealInstallationDirectory : W → PackageVersion → String
  getSecondaryInstallationDirectory : W → PackageVersion → String
  findNonExistingFile : W → String → String
  dirExists : W → String → Bool
  pathEquals : String → String → Bool
  fileName : String → String
  rename : W → String → String → Bool × W
  removeDirectory : W → String → Outcome × W
  download_ : W → PackageVersion → String → Bool → (Outcome × String) × W
  stop : W → PackageVersion → Nat → Bool → Outcome × W
  install : W → PackageVersion → String → String → Bool → Nat → Outcome × W
  uninstall : W → PackageVersion → Bool → Nat → Outcome × W

/-- A step of `process` that touches the host: the index of the operation and its package
version, or the directory removed. -/
inductive Step where
  | download (i : Nat) (pv : PackageVersion) (dir : String)
  | stop (i : Nat) (pv : PackageVersion)
  | install (i : Nat) (pv : PackageVersion) (dir : String) (binary : String)
  | uninstall (i : Nat) (pv : PackageVersion)
  | removeDirectory (dir : String)
deriving DecidableEq, Repr

/-- An observable event of one run of `process`: a call of `PackageVersion::lock`, a call of
`PackageVersion::unlock`, or a step on the host. -/
inductive Event where
  | lock (id : String)
  | unlock (id : String)
  | step (s : Step)
deriving DecidableEq, Repr

/-- The local variables of `process` during the download, stop and apply stages. -/
structure Exec (W : Type) where
  job : Job
  world : W
  dirs : List String
  binaries : List String
  processed : Nat
  steps : List Step

/-- The reordering at the start of `process`: for two operations on the same package, install
first and uninstall second, `insert(0, second)` and `removeAt(2)`. -/
def process.reorder (install : List InstallOperation) : List InstallOperation :=
  if install.length = 2 then
    match install[0]?, install[1]? with
    | some first, some second =>
        if first.package = second.package ∧ first.install = true ∧ second.install = false then
          (second :: install).eraseIdx 2
        else install
    | _, _ => install
  else install

/-- The error message recorded when the target of an operation cannot be resolved; `err` is
the lookup error (empty when the version was simply not found). -/
def process.cannotFind (op : InstallOperation) (err : String) : String :=
  "Cannot find the package version " ++ op.package ++ " " ++ op.version.getVersionString ++
    (if err.isEmpty then "" else ": " ++ err)

/-- The loop "search for PackageVersion objects" of `process`. -/
def process.resolveLoop {W : Type} (env : Env W) :
    List InstallOperation → Job → List PackageVersion → Job × List PackageVersion
  | [], job, pvs => (job, pvs)
  | op :: rest, job, pvs =>
      let r := env.findPackageVersion op
      if !r.1.isEmpty then (job.setErrorMessage (process.cannotFind op r.1), pvs)
      else
        match r.2 with
        | none => (job.setErrorMessage (process.cannotFind op ""), pvs)
        | some pv => process.resolveLoop env rest job (pvs ++ [pv])

/-- The loop of `pv->lock()` calls; the result of a call is not inspected (`void lock()`). -/
def process.lockAll : List PackageVersion → List String → List String
  | [], locked => locked
  | pv :: rest, locked => process.lockAll rest (LockRegistry.lock locked pv.getStringId).2

/-- The loop of `pv->unlock()` calls. -/
def process.unlockAll : List PackageVersion → List String → List String
  | [], locked => locked
  | pv :: rest, locked => process.unlockAll rest (LockRegistry.unlock locked pv.getStringId)

/-- The body of the download loop of `process` for operation `i` (before the
`job->shouldProceed()` test that ends the iteration). -/
def process.downloadStep {W : Type} (env : Env W) (interactive : Bool) (n : Nat) (i : Nat)
    (op : InstallOperation) (pv : PackageVersion) (st : Exec W) : Exec W :=
  if op.install then
    let dir := env.findNonExistingFile st.world
      (if op.where_.isEmpty then env.getIdealInstallationDirectory st.world pv
       else op.where_)
    if env.dirExists st.world dir then
      { st with
        job := st.job.subJob (0.7 / n) true
          { errorMessage := "Directory " ++ dir ++ " already exists",
            progress := 0, cancelled := false }
        dirs := st.dirs ++ [""]
        binaries := st.binaries ++ [""] }
    else
      let r := env.download_ st.world pv dir interactive
      { st with
        job := st.job.subJob (0.7 / n) true r.1.1
        world := r.2
        dirs := st.dirs ++ [dir]
        binaries := st.binaries ++ [env.fileName r.1.2]
        steps := st.steps ++ [Step.download i pv dir] }
  else
    { st with
      job := st.job.setProgress (st.job.progress + 0.7 / n)
      dirs := st.dirs ++ [""]
      binaries := st.binaries ++ [""] }

/-- The download loop of `process` (70%) from index `i` on; `none` stands for a list access
out of range. -/
def process.downloadLoop {W : Type} (env : Env W) (interactive : Bool) (n : Nat)
    (pvs : List PackageVersion) : Nat → List InstallOperation → Exec W → Option (Exec W)
  | _, [], st => some st
  | i, op :: rest, st =>
      match pvs[i]? with
      | none => none
      | some pv =>
          if !(process.downloadStep env interactive n i op pv st).job.shouldProceed then
            some (process.downloadStep env interactive n i op pv st)
          else
            process.downloadLoop env interactive n pvs (i + 1) rest
              (process.downloadStep env interactive n i op pv st)

/-- The stop loop of `process` (10%) from index `i` on. -/
def process.stopLoop {W : Type} (env : Env W) (programCloseType : Nat)
    (printScriptOutput : Bool) (n : Nat) (pvs : List PackageVersion) :
    Nat → List InstallOperation → Exec W → Option (Exec W)
  | _, [], st => some st
  | i, op :: rest, st =>
      match pvs[i]? with
      | none => none
      | some pv =>
          if !op.install then
            let r := env.stop st.world pv programCloseType printScriptOutput
            let st1 : Exec W :=
              { st with
                job := st.job.subJob (0.1 / n) false r.1
                world := r.2
                steps := st.steps ++ [Step.stop i pv] }
            if !r.1.errorMessage.isEmpty then
              some { st1 with job := st1.job.setErrorMessage r.1.errorMessage }
            else process.stopLoop env programCloseType printScriptOutput n pvs (i + 1) rest st1
          else
            process.stopLoop env programCloseType printScriptOutput n pvs (i + 1) rest
              { st with job := st.job.setProgress (st.job.progress + 0.1 / n) }

/-- The test `WPMUtils::pathEquals(try_, dir) || (!d.exists(try_) && d.rename(dir, try_))` of
the apply stage, evaluated left to right. -/
def process.tryDirectory {W : Type} (env : Env W) (w : W) (dir try_ : String) : Bool × W :=
  if env.pathEquals try_ dir then (true, w)
  else if env.dirExists w try_ then (false, w)
  else env.rename w dir try_

/-- The choice of the final directory in the apply stage when no directory was requested:
the ideal location, else the secondary location, else an enumerated fallback, else the
provisional directory. -/
def process.chooseDirectory {W : Type} (env : Env W) (w : W) (pv : PackageVersion)
    (dir : String) : String × W :=
  let try1 := env.getIdealInstallationDirectory w pv
  let r1 := process.tryDirectory env w dir try1
  if r1.1 then (try1, r1.2)
  else
    let try2 := env.getSecondaryInstallationDirectory r1.2 pv
    let r2 := process.tryDirectory env r1.2 dir try2
    if r2.1 then (try2, r2.2)
    else
      let try3 := env.findNonExistingFile r2.2 try2
      let r3 := process.tryDirectory env r2.2 dir try3
      if r3.1 then (try3, r3.2) else (dir, r3.2)

/-- The branch of the apply stage that removes the provisional directory and records the
error `msg` before leaving the loop. -/
def process.applyConflict {W : Type} (env : Env W) (n : Nat) (st : Exec W) (dir msg : String) :
    Exec W :=
  let r := env.removeDirectory st.world dir
  { st with
    job := (st.job.subJob (0.19 / n) true
      { errorMessage := "", progress := 1 * r.1.progress, cancelled := r.1.cancelled }
      ).setErrorMessage msg
    world := r.2
    steps := st.steps ++ [Step.removeDirectory dir] }

/-- Modelled from the spec: `PackageVersion::toString` (`packageversion.cpp` is not among the
sources): a human readable title of the package version, used in the messages of the apply
stage. -/
def PackageVersion.toString (pv : PackageVersion) : String :=
  pv.package ++ " " ++ pv.version.getVersionString

/-- The apply loop of `process` (19%) from index `i` on; `none` stands for a list access out
of range. -/
def process.applyLoop {W : Type} (env : Env W) (programCloseType : Nat)
    (printScriptOutput : Bool) (n : Nat) (pvs : List PackageVersion) :
    Nat → List InstallOperation → Exec W → Option (Exec W)
  | _, [], st => some st
  | i, op :: rest, st =>
      match pvs[i]? with
      | none => none
      | some pv =>
          let continue_ : Exec W → Option (Exec W) := fun st1 =>
            if !st1.job.shouldProceed then some st1
            else process.applyLoop env programCloseType printScriptOutput n pvs (i + 1) rest
              { st1 with processed := i + 1 }
          let install_ : W → String → String → Option (Exec W) := fun w dir binary =>
            let r := env.install w pv dir binary printScriptOutput programCloseType
            continue_ { st with
              job := st.job.subJob (0.19 / n) true r.1
              world := r.2
              steps := st.steps ++ [Step.install i pv dir binary] }
          if op.install then
            match st.dirs[i]?, st.binaries[i]? with
            | some dir, some binary =>
                if op.where_.isEmpty then
                  let c := process.chooseDirectory env st.world pv dir
                  install_ c.2 c.1 binary
                else if env.dirExists st.world op.where_ then
                  if !env.pathEquals op.where_ dir then
                    some (process.applyConflict env n st dir
                      ("Cannot install " ++ pv.toString ++ " into " ++ op.where_ ++
                        ". The directory already exists."))
                  else install_ st.world dir binary
                else
                  let rn := env.rename st.world dir op.where_
                  if rn.1 then install_ rn.2 op.where_ binary
                  else
                    some (process.applyConflict env n { st with world := rn.2 } dir
                      ("Cannot install " ++ pv.toString ++ " into " ++ op.where_ ++
                        ". Cannot rename " ++ dir ++ "."))
            | _, _ => none
          else
            let r := env.uninstall st.world pv printScriptOutput programCloseType
            continue_ { st with
              job := st.job.subJob (0.19 / n) true r.1
              world := r.2
              steps := st.steps ++ [Step.uninstall i pv] }

/-- The loop "removing the binaries if we should not proceed" of `process` over the
directories from index `processed` on; `count` is `dirs.count()`. -/
def process.cleanupLoop {W : Type} (env : Env W) (count : Nat) :
    List String → Exec W → Exec W
  | [], st => st
  | dir :: rest, st =>
      if !dir.isEmpty then
        let r := env.removeDirectory st.world dir
        process.cleanupLoop env count rest
          { st with
            job := st.job.subJob (0.01 / count) false r.1
            world := r.2
            steps := st.steps ++ [Step.removeDirectory dir] }
      else
        process.cleanupLoop env count rest
          { st with job := st.job.setProgress (st.job.progress + 0.01 / count) }

/-- The download, stop, apply and cleanup stages of `process`, each behind its
`job->shouldProceed()` test. -/
def process.stages {W : Type} (env : Env W) (programCloseType : Nat)
    (printScriptOutput interactive : Bool) (install : List InstallOperation)
    (pvs : List PackageVersion) (st0 : Exec W) : Option (Exec W) :=
  let n := install.length
  (if st0.job.shouldProceed then process.downloadLoop env interactive n pvs 0 install st0
   else some st0).bind fun st1 =>
  (if st1.job.shouldProceed then
     process.stopLoop env programCloseType printScriptOutput n pvs 0 install st1
   else some st1).bind fun st2 =>
  (if st2.job.shouldProceed then
     process.applyLoop env programCloseType printScriptOutput n pvs 0 install
       { st2 with processed := 0 }
   else some { st2 with processed := 0 }).bind fun st3 =>
  some (if !st3.job.shouldProceed then
      process.cleanupLoop env st3.dirs.length (st3.dirs.drop st3.processed) st3
    else st3)

/-- What one run of `process` leaves behind: the job, the host state, the locked set, the
events in the order in which they happened, and the final values of the local lists. -/
structure ProcessResult (W : Type) where
  job : Job
  world : W
  locked : List String
  trace : List Event
  pvs : List PackageVersion
  dirs : List String
  binaries : List String
  processed : Nat

/-- The function `AbstractRepository::process`: `job`, `world` and `locked` are the job, the
host state and the locked set (`lockedPackageVersions`) on entry.  `none` stands for a list
access out of range. -/
def process {W : Type} (env : Env W) (job : Job) (world : W) (locked : List String)
    (install_ : List InstallOperation) (programCloseType : Nat)
    (printScriptOutput interactive : Bool) : Option (ProcessResult W) :=
  let install := process.reorder install_
  let rs := process.resolveLoop env install job []
  let proceed := rs.1.shouldProceed
  (process.stages env programCloseType printScriptOutput interactive install rs.2
    { job := rs.1, world := world, dirs := [], binaries := [], processed := 0,
      steps := [] }).map fun st =>
  { job := (if st.job.shouldProceed then st.job.setProgress 1 else st.job).complete
    world := st.world
    locked := process.unlockAll rs.2 (if proceed then process.lockAll rs.2 locked else locked)
    trace := (if proceed then rs.2.map (fun pv => Event.lock pv.getStringId) else []) ++
      st.steps.map Event.step ++ rs.2.map (fun pv => Event.unlock pv.getStringId)
    pvs := rs.2
    dirs := st.dirs
    binaries := st.binaries
    processed := st.processed }

/-- The host steps among the events of a run, in order. -/
def Event.steps : List Event → List Step
  | [] => []
  | Event.step s :: rest => s :: Event.steps rest
  | _ :: rest => Event.steps rest

/-- The lookup of the target of `op` fails: a lookup error or no package version. -/
def process.unresolved {W : Type} (env : Env W) (op : InstallOperation) : Prop :=
  (env.findPackageVersion op).1.isEmpty = false ∨ (env.findPackageVersion op).2 = none

/-- The target package `p` of `planUpdates` is up to date: its newest installable version `a`
and its newest installed version `b` exist and `a <= b`. -/
def planUpdates.upToDate (rep : Repository) (ip : InstalledPackages) (p : Package) : Prop :=
  ∃ a b, (findNewestInstallablePackageVersion_ rep p.name).2 = some a ∧
    (findNewestInstalledPackageVersion_ rep ip p.name).2 = some b ∧
    a.version.compare b.version ≤ 0

/-- The target range `d` of `planUpdates` is up to date: its package is known, its best
installable match `a` and the catalog version `b` of its highest installed match exist and
`a <= b`. -/
def planUpdates.upToDateRange (rep : Repository) (ip : InstalledPackages) (d : Dependency) :
    Prop :=
  (∃ p, rep.findPackage_ d.package = some p) ∧
  ∃ a ipv b, (findBestMatchToInstall rep d []).2 = some a ∧
    findHighestInstalledMatch ip d = some ipv ∧
    (rep.findPackageVersion_ ipv.package ipv.version).2 = some b ∧
    a.version.compare b.version ≤ 0

/-- Some member of `l` has the identity of `x` (same package, versions that compare
equal). -/
def memSame (l : List PackageVersion) (x : PackageVersion) : Prop :=
  ∃ q ∈ l, q.same x = true

/-- The state of the co-location pass of `planUpdates` before the pairs `rest`: no remaining
pair has both its newest version and its installed version in the installed snapshot. -/
def planUpdates.coLocationInv (installed : List PackageVersion) (rest : List UpdatePair) :
    Prop :=
  ∀ t ∈ rest, ∀ b, t.newesti = some b → ¬ (memSame installed t.newest ∧ memSame installed b)

/-- Facts about the pairs found by the examination of the targets, relative to the installed
snapshot `inst0` on entry: the newest version of a pair with an installed version is not
installed, its installed version is installed, and two pairs with the same newest version
have the same installed version. -/
def planUpdates.pairsConsistent (inst0 : List PackageVersion) (ps : List UpdatePair) : Prop :=
  (∀ t ∈ ps, ∀ b, t.newesti = some b → ¬ memSame inst0 t.newest) ∧
  (∀ t ∈ ps, ∀ b, t.newesti = some b → memSame inst0 b) ∧
  (∀ t ∈ ps, ∀ t2 ∈ ps, ∀ b b2, t.newesti = some b → t2.newesti = some b2 →
    t.newest.same t2.newest = true → b.same b2 = true)

/-- The index `package2versions` of the repository files every package version under its own
package name (as `savePackageVersion` and `loadOne` insert it). -/
def Repository.keysMatch (rep : Repository) : Prop :=
  ∀ e ∈ rep.package2versions, e.2.package = e.1

/-- Where a pair of `planUpdates` with an installed version `b` comes from: `b` is the catalog
version of an installed fact `ipv` that is the greatest among the installed facts selected by
the target (all facts of the package, or those within the range), the selection contains every
installed fact of the package between `ipv` and the newest version, and the newest version is
greater than `b`. -/
def planUpdates.pairSpec (rep : Repository) (ip : InstalledPackages) (t : UpdatePair) : Prop :=
  ∀ b, t.newesti = some b →
    ∃ (sel : InstalledPackageVersion → Prop) (ipv : InstalledPackageVersion),
      ipv ∈ ip.data ∧ sel ipv ∧
      (∀ e ∈ ip.data, sel e → e.version.compare ipv.version ≤ 0) ∧
      (∀ e ∈ ip.data, e.package = t.newest.package → ipv.version.compare e.version ≤ 0 →
        e.version.compare t.newest.version ≤ 0 → sel e) ∧
      ipv.package = t.newest.package ∧
      rep.findPackageVersion ipv.package ipv.version = some b ∧
      t.newest.version.compare b.version > 0

/-! ## Concrete scenarios -/

/-- A host on which nothing exists yet and every collaborator succeeds at once; targets are
looked up in the repository `rep`. -/
def Scenario.env (rep : Repository) : Env Unit where
  findPackageVersion := fun op => rep.findPackageVersion_ op.package op.version
  getIdealInstallationDirectory := fun _ pv => "C:\\Program Files\\" ++ pv.package
  getSecondaryInstallationDirectory := fun _ pv =>
    "C:\\Program Files\\" ++ pv.package ++ "-" ++ pv.version.getVersionString
  findNonExistingFile := fun _ dir => dir
  dirExists := fun _ _ => false
  pathEquals := fun a b => decide (a = b)
  fileName := fun f => f
  rename := fun w _ _ => (true, w)
  removeDirectory := fun w _ => ({ errorMessage := "", progress := 1, cancelled := false }, w)
  download_ := fun w _ _ _ =>
    (({ errorMessage := "", progress := 1, cancelled := false }, ""), w)
  stop := fun w _ _ _ => ({ errorMessage := "", progress := 1, cancelled := false }, w)
  install := fun w _ _ _ _ _ => ({ errorMessage := "", progress := 1, cancelled := false }, w)
  uninstall := fun w _ _ _ => ({ errorMessage := "", progress := 1, cancelled := false }, w)

/-- A job as `process` receives it from its caller: no progress, no error, not cancelled. -/
def Scenario.job : Job :=
  { progress := 0, errorMessage := "", cancelled := false, completed := false }

/-- Package version A/1.0 (no dependencies, valid download). -/
def Scenario.a1 : PackageVersion :=
  { package := "A", version := ⟨[1, 0]⟩, dependencies := [],
    download := { url := "http://example.org/a-1.0.zip", isValid := true } }

/-- Package version A/2.0 (no dependencies, valid download). -/
def Scenario.a2 : PackageVersion :=
  { package := "A", version := ⟨[2, 0]⟩, dependencies := [],
    download := { url := "http://example.org/a-2.0.zip", isValid := true } }

/-- The package A. -/
def Scenario.packageA : Package :=
  { name := "A", title := "Package A" }

/-- A catalog with A/1.0 and A/2.0 (saved in this order). -/
def Scenario.repA : Repository :=
  { packages := [Scenario.packageA],
    packageVersions := [Scenario.a1, Scenario.a2],
    package2versions := [("A", Scenario.a2), ("A", Scenario.a1)] }

/-- The operation "install A/1.0". -/
def Scenario.installA1 : InstallOperation :=
  { package := "A", version := ⟨[1, 0]⟩, install := true, where_ := "" }

/-- The operation "install B/1.0"; B is not in the catalog `Scenario.repA`. -/
def Scenario.installB1 : InstallOperation :=
  { package := "B", version := ⟨[1, 0]⟩, install := true, where_ := "" }

/-- An installed state in which A/2.0 is installed. -/
def Scenario.ipA2 : InstalledPackages :=
  { data := [{ package := "A", version := ⟨[2, 0]⟩, directory := "C:\\Program Files\\A" }] }

/-- An installed state in which A/1.0 is installed. -/
def Scenario.ipA1 : InstalledPackages :=
  { data := [{ package := "A", version := ⟨[1, 0]⟩, directory := "C:\\Program Files\\A" }] }

/-- Package version B/1.0 (no dependencies, valid download). -/
def Scenario.b1 : PackageVersion :=
  { package := "B", version := ⟨[1, 0]⟩, dependencies := [],
    download := { url := "http://example.org/b-1.0.zip", isValid := true } }

/-- Package version B/2.0 (valid download); it depends on C in [1.0, 2.0). -/
def Scenario.b2 : PackageVersion :=
  { package := "B", version := ⟨[2, 0]⟩,
    dependencies := [{ package := "C", min := ⟨[1, 0]⟩, max := ⟨[2, 0]⟩,
                       minIncluded := true, maxIncluded := false }],
    download := { url := "http://example.org/b-2.0.zip", isValid := true } }

/-- The package B. -/
def Scenario.packageB : Package :=
  { name := "B", title := "Package B" }

/-- A catalog with A/1.0, A/2.0, B/1.0 and B/2.0 (saved in this order); no version of C is in
the catalog. -/
def Scenario.repAB : Repository :=
  { packages := [Scenario.packageA, Scenario.packageB],
    packageVersions := [Scenario.a1, Scenario.a2, Scenario.b1, Scenario.b2],
    package2versions := [("B", Scenario.b2), ("B", Scenario.b1), ("A", Scenario.a2),
      ("A", Scenario.a1)] }

/-- An installed state in which A/1.0 and B/1.0 are installed. -/
def Scenario.ipA1B1 : InstalledPackages :=
  { data := [{ package := "A", version := ⟨[1, 0]⟩, directory := "C:\\Program Files\\A" },
             { package := "B", version := ⟨[1, 0]⟩, directory := "C:\\Program Files\\B" }] }

/-! ## Iterations of the loops of `process` -/

/-- One iteration of the download loop of `process` for operation `i`: the state after the
body and whether the loop goes on (the test `job->shouldProceed()` that ends the iteration);
`none` stands for a list access out of range. -/
def process.downloadIter {W : Type} (env : Env W) (interactive : Bool) (n : Nat)
    (pvs : List PackageVersion) (i : Nat) (op : InstallOperation) (st : Exec W) :
    Option (Exec W × Bool) :=
  match pvs[i]? with
  | none => none
  | some pv =>
      some (process.downloadStep env interactive n i op pv st,
        (process.downloadStep env interactive n i op pv st).job.shouldProceed)

/-- One iteration of the stop loop of `process` for operation `i`: the state after the body
and whether the loop goes on (it is left only when the sub-job of the stop hook carries an
error). -/
def process.stopIter {W : Type} (env : Env W) (programCloseType : Nat)
    (printScriptOutput : Bool) (n : Nat) (pvs : List PackageVersion) (i : Nat)
    (op : InstallOperation) (st : Exec W) : Option (Exec W × Bool) :=
  match pvs[i]? with
  | none => none
  | some pv =>
      if !op.install then
        let r := env.stop st.world pv programCloseType printScriptOutput
        let st1 : Exec W :=
          { st with
            job := st.job.subJob (0.1 / n) false r.1
            world := r.2
            steps := st.steps ++ [Step.stop i pv] }
        if !r.1.errorMessage.isEmpty then
          some ({ st1 with job := st1.job.setErrorMessage r.1.errorMessage }, false)
        else some (st1, true)
      else
        some ({ st with job := st.job.setProgress (st.job.progress + 0.1 / n) }, true)

/-- One iteration of the apply loop of `process` for operation `i`: the state after the body
and whether the loop goes on; `processed = i + 1` is assigned only when it does. -/
def process.applyIter {W : Type} (env : Env W) (programCloseType : Nat)
    (printScriptOutput : Bool) (n : Nat) (pvs : List PackageVersion) (i : Nat)
    (op : InstallOperation) (st : Exec W) : Option (Exec W × Bool) :=
  match pvs[i]? with
  | none => none
  | some pv =>
      let continue_ : Exec W → Option (Exec W × Bool) := fun st1 =>
        if !st1.job.shouldProceed then some (st1, false)
        else some ({ st1 with processed := i + 1 }, true)
      let install_ : W → String → String → Option (Exec W × Bool) := fun w dir binary =>
        let r := env.install w pv dir binary printScriptOutput programCloseType
        continue_ { st with
          job := st.job.subJob (0.19 / n) true r.1
          world := r.2
          steps := st.steps ++ [Step.install i pv dir binary] }
      if op.install then
        match st.dirs[i]?, st.binaries[i]? with
        | some dir, some binary =>
            if op.where_.isEmpty then
              let c := process.chooseDirectory env st.world pv dir
              install_ c.2 c.1 binary
            else if env.dirExists st.world op.where_ then
              if !env.pathEquals op.where_ dir then
                some (process.applyConflict env n st dir
                  ("Cannot install " ++ pv.toString ++ " into " ++ op.where_ ++
                    ". The directory already exists."), false)
              else install_ st.world dir binary
            else
              let rn := env.rename st.world dir op.where_
              if rn.1 then install_ rn.2 op.where_ binary
              else
                some (process.applyConflict env n { st with world := rn.2 } dir
                  ("Cannot install " ++ pv.toString ++ " into " ++ op.where_ ++
                    ". Cannot rename " ++ dir ++ "."), false)
        | _, _ => none
      else
        let r := env.uninstall st.world pv printScriptOutput programCloseType
        continue_ { st with
          job := st.job.subJob (0.19 / n) true r.1
          world := r.2
          steps := st.steps ++ [Step.uninstall i pv] }

/-- A loop over the operations from index `i` on with body `iter`: it ends when the body
says so (`break`) or when the operations are exhausted. -/
def process.iterate {W : Type}
    (iter : Nat → InstallOperation → Exec W → Option (Exec W × Bool)) :
    Nat → List InstallOperation → Exec W → Option (Exec W)
  | _, [], st => some st
  | i, op :: rest, st =>
      match iter i op st with
      | none => none
      | some (s, true) => process.iterate iter (i + 1) rest s
      | some (s, false) => some s

/-- The sub-job of a collaborator ended with a progress fraction in [0, 1], the range of the
progress of a job. -/
def Outcome.inRange (o : Outcome) : Prop :=
  0 ≤ o.progress ∧ o.progress ≤ 1

/-- Every download, stop, install and uninstall hook leaves its sub-job with a progress
fraction in [0, 1]. -/
def Env.progressInRange {W : Type} (env : Env W) : Prop :=
  (∀ w pv dir interactive, (env.download_ w pv dir interactive).1.1.inRange) ∧
  (∀ w pv programCloseType printScriptOutput,
    (env.stop w pv programCloseType printScriptOutput).1.inRange) ∧
  (∀ w pv dir binary printScriptOutput programCloseType,
    (env.install w pv dir binary printScriptOutput programCloseType).1.inRange) ∧
  (∀ w pv printScriptOutput programCloseType,
    (env.uninstall w pv printScriptOutput programCloseType).1.inRange)

/-- From job state `j` to job state `j2` the run went on without error or cancellation and
the progress grew by at least 0 and at most `c`; nothing is said when `j2` carries an error
or a cancellation request. -/
def Job.advances (c : ℚ) (j j2 : Job) : Prop :=
  j2.shouldProceed = true →
    j.shouldProceed = true ∧ j.progress ≤ j2.progress ∧ j2.progress ≤ j.progress + c

/-- The loop `F` started in state `st` on the operations `ops` raises the progress at every
iteration by at least 0 and at most `c`: the state `b` after the first `k + 1` iterations has
a progress not below that of the state `a` after the first `k` iterations, and at most
`c * (k + 1)` above the progress on entry. -/
def process.raisesProgress {W : Type}
    (F : List InstallOperation → Exec W → Option (Exec W)) (ops : List InstallOperation)
    (st : Exec W) (c : ℚ) : Prop :=
  ∀ k, k < ops.length → ∃ a b, F (ops.take k) st = some a ∧ F (ops.take (k + 1)) st = some b ∧
    a.job.progress ≤ b.job.progress ∧ b.job.progress ≤ st.job.progress + c * (k + 1)

/-- A host like `Scenario.env` on which the user cancels the job while a download or a stop
hook runs: the hook returns without error and the job is cancelled from then on. -/
def Scenario.cancellingEnv (rep : Repository) : Env Unit :=
  { Scenario.env rep with
    download_ := fun w _ _ _ =>
      (({ errorMessage := "", progress := 0, cancelled := true }, ""), w)
    stop := fun w _ _ _ => ({ errorMessage := "", progress := 0, cancelled := true }, w) }

/-- The operation "install A/2.0". -/
def Scenario.installA2 : InstallOperation :=
  { package := "A", version := ⟨[2, 0]⟩, install := true, where_ := "" }

/-- The operation "uninstall A/1.0". -/
def Scenario.uninstallA1 : InstallOperation :=
  { package := "A", version := ⟨[1, 0]⟩, install := false, where_ := "" }

/-- The operation "uninstall A/2.0". -/
def Scenario.uninstallA2 : InstallOperation :=
  { package := "A", version := ⟨[2, 0]⟩, install := false, where_ := "" }

/-- The directory that a step removes, when the step is a directory removal. -/
def Step.removedDirectory : Step → Option String
  | Step.removeDirectory dir => some dir
  | _ => none

/-- The directories removed by the steps of a run, in order. -/
def process.removedDirectories (steps : List Step) : List String :=
  steps.filterMap Step.removedDirectory

/-- The job state `j2` still carries the error message of the job state `j`, if `j` carries
one. -/
def Job.keepsError (j j2 : Job) : Prop :=
  j.errorMessage.isEmpty = false → j2.errorMessage = j.errorMessage

/-- Package version D/1.0 (no dependencies, valid download). -/
def Scenario.d1 : PackageVersion :=
  { package := "D", version := ⟨[1, 0]⟩, dependencies := [],
    download := { url := "http://example.org/d-1.0.zip", isValid := true } }

/-- Package version A/3.0 (valid download); it depends on D in [1.0, 2.0). -/
def Scenario.a3 : PackageVersion :=
  { package := "A", version := ⟨[3, 0]⟩,
    dependencies := [{ package := "D", min := ⟨[1, 0]⟩, max := ⟨[2, 0]⟩,
                       minIncluded := true, maxIncluded := false }],
    download := { url := "http://example.org/a-3.0.zip", isValid := true } }

/-- The package D. -/
def Scenario.packageD : Package :=
  { name := "D", title := "Package D" }

/-- A catalog with A/1.0, A/3.0 and D/1.0 (saved in this order). -/
def Scenario.repAD : Repository :=
  { packages := [Scenario.packageA, Scenario.packageD],
    packageVersions := [Scenario.a1, Scenario.a3, Scenario.d1],
    package2versions := [("D", Scenario.d1), ("A", Scenario.a3), ("A", Scenario.a1)] }

/-- The loop of `Repository::findNewestInstallablePackageVersion` (repository.cpp): `r` is
replaced by `p` when `r == 0 || p > r` and the download of `p` is valid. -/
def Repository.findNewestInstallablePackageVersion.loop :
    List PackageVersion → Option PackageVersion → Option PackageVersion
  | [], r => r
  | p :: rest, r =>
      if (match r with
          | none => true
          | some r0 => decide (p.version.compare r0.version > 0)) then
        if p.download.isValid then
          Repository.findNewestInstallablePackageVersion.loop rest (some p)
        else Repository.findNewestInstallablePackageVersion.loop rest r
      else Repository.findNewestInstallablePackageVersion.loop rest r

/-- The function `Repository::findNewestInstallablePackageVersion` (repository.cpp 74-88): the
same search over `getPackageVersions(package)`, without copies and without an error
channel. -/
def Repository.findNewestInstallablePackageVersion (rep : Repository) (package : String) :
    Option PackageVersion :=
  Repository.findNewestInstallablePackageVersion.loop (rep.getPackageVersions package) none

/-- Package version B/1.5 (no dependencies, valid download). -/
def Scenario.b15 : PackageVersion :=
  { package := "B", version := ⟨[1, 5]⟩, dependencies := [],
    download := { url := "http://example.org/b-1.5.zip", isValid := true } }

/-- Package version A/1.0 of another catalog (valid download); it depends on B in
[1.0, 2.0). -/
def Scenario.a1b : PackageVersion :=
  { package := "A", version := ⟨[1, 0]⟩,
    dependencies := [{ package := "B", min := ⟨[1, 0]⟩, max := ⟨[2, 0]⟩,
                       minIncluded := true, maxIncluded := false }],
    download := { url := "http://example.org/a-1.0.zip", isValid := true } }

/-- A catalog in which A/1.0 depends on B in [1.0, 2.0) and B/1.0 and B/1.5 are available
(saved in the order A/1.0, B/1.0, B/1.5). -/
def Scenario.repDep : Repository :=
  { packages := [Scenario.packageA, Scenario.packageB],
    packageVersions := [Scenario.a1b, Scenario.b1, Scenario.b15],
    package2versions := [("B", Scenario.b15), ("B", Scenario.b1), ("A", Scenario.a1b)] }

/-- The number of catalog entries whose version is not in the avoid list: a bound of the
recursion depth of `planInstallation`. -/
def planInstallation.remaining (rep : Repository) (avoid : List PackageVersion) : Nat :=
  (rep.package2versions.filter (fun e => !PackageVersion.contains avoid e.2)).length

/-- The operations `a` and `b` have the same package, versions that compare equal and the
same install flag. -/
def InstallOperation.sameOperation (a b : InstallOperation) : Prop :=
  a.package = b.package ∧ a.version.compare b.version = 0 ∧ a.install = b.install

/-- A plan state in which no two operations are the same and the target of every install
operation is in the installed snapshot. -/
def PlanState.planned (st : PlanState) : Prop :=
  st.ops.Pairwise (fun a b => ¬ a.sameOperation b) ∧
  ∀ o ∈ st.ops, o.install = true →
    ∃ q ∈ st.installed, q.package = o.package ∧ q.version.compare o.version = 0

/-- Package version P/1.0 (valid download); it depends on Q in [1.0, 2.0). -/
def Scenario.p1 : PackageVersion :=
  { package := "P", version := ⟨[1, 0]⟩,
    dependencies := [{ package := "Q", min := ⟨[1, 0]⟩, max := ⟨[2, 0]⟩,
                       minIncluded := true, maxIncluded := false }],
    download := { url := "http://example.org/p-1.0.zip", isValid := true } }

/-- Package version Q/1.0 (valid download); it depends on P in [1.0, 2.0). -/
def Scenario.q1 : PackageVersion :=
  { package := "Q", version := ⟨[1, 0]⟩,
    dependencies := [{ package := "P", min := ⟨[1, 0]⟩, max := ⟨[2, 0]⟩,
                       minIncluded := true, maxIncluded := false }],
    download := { url := "http://example.org/q-1.0.zip", isValid := true } }

/-- A catalog with a dependency cycle: P/1.0 needs Q and Q/1.0 needs P. -/
def Scenario.repCycle : Repository :=
  { packages := [{ name := "P", title := "Package P" }, { name := "Q", title := "Package Q" }],
    packageVersions := [Scenario.p1, Scenario.q1],
    package2versions := [("Q", Scenario.q1), ("P", Scenario.p1)] }

/-- The plan state `st2` continues the plan state `st`: it is planned, its operations are
those of `st` followed by install operations whose targets are not in the avoid list of `st`,
and its installed snapshot and avoid list contain those of `st`. -/
def PlanState.extendedBy (st st2 : PlanState) : Prop :=
  st2.planned ∧
  (∃ y, st2.ops = st.ops ++ y ∧ ∀ o ∈ y, o.install = true ∧
    ∀ a ∈ st.avoid, ¬ (a.package = o.package ∧ a.version.compare o.version = 0)) ∧
  (∀ q ∈ st.installed, q ∈ st2.installed) ∧ (∀ a ∈ st.avoid, a ∈ st2.avoid)

/-- The member function `void PackageVersion::lock()` of packageversion.h (the body is not
among the sources and is modelled from the spec): the stringId of the package version joins
the locked set; the call returns nothing. -/
def PackageVersion.lock (locked : List String) (pv : PackageVersion) : List String :=
  (LockRegistry.lock locked pv.getStringId).2

/-- The member function `void PackageVersion::unlock()` of packageversion.h (the body is not
among the sources and is modelled from the spec): the stringId leaves the locked set. -/
def PackageVersion.unlock (locked : List String) (pv : PackageVersion) : List String :=
  LockRegistry.unlock locked pv.getStringId

/-- The member function `bool PackageVersion::isLocked() const` of packageversion.h (the body
is not among the sources and is modelled from the spec): membership of the stringId in the
locked set. -/
def PackageVersion.isLocked (locked : List String) (pv : PackageVersion) : Bool :=
  LockRegistry.isLocked locked pv.getStringId

/-- The empty in-memory repository (after `clear`). -/
def Repository.empty : Repository :=
  { packages := [], packageVersions := [], package2versions := [] }

/-- The insertion of a parsed `<version>` element `pv` by `Repository::loadOne`
(repository.cpp 452-463): `pv` is dropped if `findPackageVersion(pv->package, pv->version)`
finds a stored object, otherwise it is appended to `packageVersions` and inserted into
`package2versions` under its package name. -/
def Repository.loadVersion (rep : Repository) (pv : PackageVersion) : Repository :=
  match rep.findPackageVersion pv.package pv.version with
  | some _ => rep
  | none =>
      { rep with
        packageVersions := rep.packageVersions ++ [pv]
        package2versions := (pv.package, pv) :: rep.package2versions }

/-- The function `Repository::savePackageVersion` (repository.cpp 531-543); the result is the
returned error text and the repository afterwards.  Modelled from the spec of `fillFrom` in
packageversion.h (`packageversion.cpp` is not among the sources): `fp->fillFrom(p)` transfers
all data of `p` into the stored object `fp`, which both containers hold. -/
def Repository.savePackageVersion (rep : Repository) (p : PackageVersion) :
    String × Repository :=
  match rep.findPackageVersion p.package p.version with
  | none =>
      ("", { rep with
             packageVersions := rep.packageVersions ++ [p]
             package2versions := (p.package, p) :: rep.package2versions })
  | some fp =>
      ("", { rep with
             packageVersions := rep.packageVersions.map (fun x => if x = fp then p else x)
             package2versions :=
               rep.package2versions.map (fun e => if e.2 = fp then (e.1, p) else e) })

/-- A change of the stored package versions: a call of `savePackageVersion` or a `<version>`
element met by `loadOne`. -/
inductive RepositoryChange where
  | save (p : PackageVersion)
  | load (pv : PackageVersion)
deriving DecidableEq, Repr

/-- The repository after one change. -/
def Repository.change (rep : Repository) : RepositoryChange → Repository
  | RepositoryChange.save p => (rep.savePackageVersion p).2
  | RepositoryChange.load pv => rep.loadVersion pv

/-- The repository after a sequence of changes, starting from the empty repository. -/
def Repository.after (changes : List RepositoryChange) : Repository :=
  changes.foldl Repository.change Repository.empty

/-- No two stored package versions have the same package name and versions that compare
equal. -/
def Repository.uniqueIdentities (rep : Repository) : Prop :=
  rep.packageVersions.Pairwise
    (fun x y => ¬ (x.package = y.package ∧ x.version.compare y.version = 0))

/-- The per-package index holds exactly the entries of the flat list, each under its own
package name, the most recently added first. -/
def Repository.indexMatches (rep : Repository) : Prop :=
  rep.package2versions = (rep.packageVersions.map (fun pv => (pv.package, pv))).reverse

/-- The test `QChar::isSpace` of Qt, which `QString::trimmed` applies: the characters with
codes 9 to 13, the space and the Unicode separators. -/
def QChar.isSpace (c : Char) : Bool :=
  (decide (9 ≤ c.toNat) && decide (c.toNat ≤ 13)) || decide (c.toNat = 0x20) ||
    decide (c.toNat = 0x85) || decide (c.toNat = 0xA0) || decide (c.toNat = 0x1680) ||
    (decide (0x2000 ≤ c.toNat) && decide (c.toNat ≤ 0x200A)) || decide (c.toNat = 0x2028) ||
    decide (c.toNat = 0x2029) || decide (c.toNat = 0x202F) || decide (c.toNat = 0x205F) ||
    decide (c.toNat = 0x3000)

/-- The characters of a text without its trailing white space. -/
def QString.dropTrailingSpace : List Char → List Char
  | [] => []
  | c :: cs =>
      match QString.dropTrailingSpace cs with
      | [] => if QChar.isSpace c then [] else [c]
      | r :: rs => c :: r :: rs

/-- The characters of a text without its leading and trailing white space. -/
def QString.trimmedChars (l : List Char) : List Char :=
  QString.dropTrailingSpace (l.dropWhile QChar.isSpace)

/-- The call `QString::trimmed()` of Qt: white space removed from the start and the end. -/
def QString.trimmed (s : String) : String :=
  ⟨QString.trimmedChars s.data⟩

/-- The parts of a character sequence between the occurrences of `sep`, empty parts kept. -/
def QString.splitChars (sep : Char) : List Char → List (List Char)
  | [] => [[]]
  | c :: cs =>
      if c = sep then [] :: QString.splitChars sep cs
      else (c :: (QString.splitChars sep cs).headD []) :: (QString.splitChars sep cs).tail

/-- The call `QString::split(sep, QString::KeepEmptyParts)` of Qt. -/
def QString.split (s : String) (sep : Char) : List String :=
  (QString.splitChars sep s.data).map String.mk

/-- The call `QStringList::join(sep)` of Qt. -/
def QStringList.join (parts : List String) (sep : String) : String :=
  String.intercalate sep parts

/-- The loop of `Repository::checkCategory` over the parts: every part is replaced by its
trimmed text until a part is empty after trimming, which sets the error and leaves the loop
(`goto out`) with the remaining parts untouched.  The result is the list of parts and the
error. -/
def Repository.checkCategory.loop : List String → List String × String
  | [] => ([], "")
  | p :: rest =>
      if (QString.trimmed p).isEmpty then (p :: rest, "Empty sub-category")
      else
        ((QString.trimmed p) :: (Repository.checkCategory.loop rest).1,
          (Repository.checkCategory.loop rest).2)

/-- The function `Repository::checkCategory` (repository.cpp 279-310): the result is the
returned text and the error `*err`. -/
def Repository.checkCategory (category : String) : String × String :=
  let c := QString.trimmed category
  let err := if c.isEmpty then "Empty category tag" else ""
  let parts : List String := if err.isEmpty then QString.split c '/' else []
  let err := if err.isEmpty then (if parts.length = 0 then "Empty category tag" else err)
    else err
  let r := if err.isEmpty then Repository.checkCategory.loop parts else (parts, err)
  (QStringList.join r.1 "/", r.2)

/-- The operations of the co-located pairs of `planUpdates`, as section 4.4 describes them:
for every pair marked used, from index `i` on and in target order, the uninstallation of the
installed version followed by the installation of the newest version into the directory
chosen for that index. -/
def planUpdates.coLocatedOperations (ip : InstalledPackages) (keepDirectories : Bool)
    (where_ : String) : Nat → List UpdatePair → List InstallOperation
  | _, [] => []
  | i, t :: rest =>
      (if t.used then
        (match t.newesti with
         | some b =>
             [{ package := b.package, version := b.version, install := false, where_ := "" },
              { package := t.newest.package, version := t.newest.version, install := true,
                where_ := planUpdates.coLocateWhere ip keepDirectories where_ i b }]
         | none => [])
       else []) ++
      planUpdates.coLocatedOperations ip keepDirectories where_ (i + 1) rest

/-- A catalog with B/1.0, B/1.5, A/1.0, A/3.0 and D/1.0 (saved in this order). -/
def Scenario.repABD : Repository :=
  { packages := [Scenario.packageB, Scenario.packageA, Scenario.packageD],
    packageVersions := [Scenario.b1, Scenario.b15, Scenario.a1, Scenario.a3, Scenario.d1],
    package2versions := [("D", Scenario.d1), ("A", Scenario.a3), ("A", Scenario.a1),
      ("B", Scenario.b15), ("B", Scenario.b1)] }

theorem compareParts_nil_cons (b : Nat) (bs : List Nat) :
    Version.compareParts [] (b :: bs) = if 0 < b then -1 else Version.compareParts [] bs := by
  rcases Nat.eq_zero_or_pos b with h | h
  · subst h; simp [Version.compareParts]
  · have : b ≠ 0 := by omega
    simp [Version.compareParts, this, h]

theorem compareParts_cons_nil (a : Nat) (as : List Nat) :
    Version.compareParts (a :: as) [] = if 0 < a then 1 else Version.compareParts as [] := by
  rcases Nat.eq_zero_or_pos a with h | h
  · subst h; simp [Version.compareParts]
  · have : a ≠ 0 := by omega
    simp [Version.compareParts, this, h]

theorem compareParts_cons_cons (a b : Nat) (as bs : List Nat) :
    Version.compareParts (a :: as) (b :: bs) =
      if a < b then -1 else if b < a then 1 else Version.compareParts as bs := by
  simp [Version.compareParts]

theorem compareParts_nil_le (l : List Nat) : Version.compareParts [] l ≤ 0 := by
  unfold Version.compareParts
  split <;> simp

theorem compareParts_nil_ge (l : List Nat) : 0 ≤ Version.compareParts l [] := by
  induction l with
  | nil => simp [Version.compareParts]
  | cons a as ih =>
    rw [compareParts_cons_nil]
    split <;> simp [ih]

theorem compareParts_antisymm (a b : List Nat) :
    Version.compareParts b a = - Version.compareParts a b := by
  induction a generalizing b with
  | nil =>
    induction b with
    | nil => simp [Version.compareParts]
    | cons b bs ih =>
      rw [compareParts_nil_cons, compareParts_cons_nil]
      split <;> simp [ih]
  | cons a as ih =>
    cases b with
    | nil =>
      rw [compareParts_nil_cons, compareParts_cons_nil]
      split
      · simp
      · exact ih []
    | cons b bs =>
      rw [compareParts_cons_cons, compareParts_cons_cons, ih bs]
      split_ifs <;> omega

theorem compareParts_trans_le (a b c : List Nat)
    (h1 : Version.compareParts a b ≤ 0) (h2 : Version.compareParts b c ≤ 0) :
    Version.compareParts a c ≤ 0 := by
  induction a generalizing b c with
  | nil => exact compareParts_nil_le c
  | cons a as ih =>
    cases c with
    | nil =>
      cases b with
      | nil => exact h1
      | cons b bs =>
        rw [compareParts_cons_nil] at h2 ⊢
        rw [compareParts_cons_cons] at h1
        split_ifs at h1 h2 ⊢ <;> first | omega | exact ih bs [] h1 h2
    | cons c cs =>
      cases b with
      | nil =>
        rw [compareParts_cons_nil] at h1
        rw [compareParts_cons_cons]
        split_ifs at h1 ⊢ <;>
          first | omega | exact ih [] cs h1 (compareParts_nil_le cs)
      | cons b bs =>
        rw [compareParts_cons_cons] at h1 h2 ⊢
        split_ifs at h1 h2 ⊢ <;> first | omega | exact ih bs cs h1 h2

theorem Version.compare_antisymm (a b : Version) : b.compare a = - a.compare b :=
  compareParts_antisymm a.parts b.parts

theorem Version.compare_trans_le (a b c : Version)
    (h1 : a.compare b ≤ 0) (h2 : b.compare c ≤ 0) : a.compare c ≤ 0 :=
  compareParts_trans_le a.parts b.parts c.parts h1 h2

theorem Version.compare_self (a : Version) : a.compare a = 0 := by
  have := Version.compare_antisymm a a
  omega

/-! ## Best match selection -/

theorem isCandidate_iff (dep : Dependency) (avoid : List PackageVersion) (pv : PackageVersion) :
    (dep.test pv.version && pv.download.isValid &&
      decide (PackageVersion.indexOf avoid pv < 0)) = true ↔ isCandidate dep avoid pv := by
  simp [isCandidate, and_assoc]

theorem findBestMatchToInstall.loop_none_iff (dep : Dependency) (avoid : List PackageVersion)
    (pvs : List PackageVersion) (res : Option PackageVersion) :
    findBestMatchToInstall.loop dep avoid pvs res = none ↔
      res = none ∧ ∀ pv ∈ pvs, ¬ isCandidate dep avoid pv := by
  induction pvs generalizing res with
  | nil => simp [findBestMatchToInstall.loop]
  | cons pv rest ih =>
    unfold findBestMatchToInstall.loop
    by_cases hc : isCandidate dep avoid pv
    · rw [if_pos ((isCandidate_iff dep avoid pv).2 hc)]
      cases res with
      | none =>
        simp only [ih]
        constructor
        · intro h; exact absurd h.1 (by simp)
        · intro h; exact absurd hc (h.2 pv (List.mem_cons_self _ _))
      | some r =>
        simp only []
        split <;> simp [ih]
    · rw [if_neg (fun h => hc ((isCandidate_iff dep avoid pv).1 h))]
      simp [ih, hc]

theorem findBestMatchToInstall.loop_some (dep : Dependency) (avoid : List PackageVersion)
    (pvs : List PackageVersion) (res : Option PackageVersion) (r : PackageVersion)
    (h : findBestMatchToInstall.loop dep avoid pvs res = some r) :
    (res = some r ∨ (r ∈ pvs ∧ isCandidate dep avoid r)) ∧
    (∀ pv ∈ pvs, isCandidate dep avoid pv → pv.version.compare r.version ≤ 0) ∧
    (∀ r0, res = some r0 → r0.version.compare r.version ≤ 0) := by
  induction pvs generalizing res with
  | nil =>
    simp only [findBestMatchToInstall.loop] at h
    subst h
    refine ⟨Or.inl rfl, by simp, ?_⟩
    intro r0 h0
    cases h0
    exact le_of_eq (Version.compare_self _)
  | cons pv rest ih =>
    unfold findBestMatchToInstall.loop at h
    by_cases hc : isCandidate dep avoid pv
    · rw [if_pos ((isCandidate_iff dep avoid pv).2 hc)] at h
      cases res with
      | none =>
        simp only [] at h
        obtain ⟨h1, h2, h3⟩ := ih _ h
        refine ⟨Or.inr ?_, ?_, by simp⟩
        · rcases h1 with h1 | h1
          · cases h1; exact ⟨List.mem_cons_self _ _, hc⟩
          · exact ⟨List.mem_cons_of_mem _ h1.1, h1.2⟩
        · intro q hq hqc
          rcases List.mem_cons.1 hq with rfl | hq
          · exact h3 _ rfl
          · exact h2 q hq hqc
      | some r1 =>
        simp only [] at h
        by_cases hgt : pv.version.compare r1.version > 0
        · rw [if_pos hgt] at h
          obtain ⟨h1, h2, h3⟩ := ih _ h
          have hpv : pv.version.compare r.version ≤ 0 := h3 _ rfl
          refine ⟨Or.inr ?_, ?_, ?_⟩
          · rcases h1 with h1 | h1
            · cases h1; exact ⟨List.mem_cons_self _ _, hc⟩
            · exact ⟨List.mem_cons_of_mem _ h1.1, h1.2⟩
          · intro q hq hqc
            rcases List.mem_cons.1 hq with rfl | hq
            · exact hpv
            · exact h2 q hq hqc
          · intro r0 h0
            have h0 : r1 = r0 := Option.some.inj h0
            rw [← h0]
            have := Version.compare_antisymm pv.version r1.version
            exact Version.compare_trans_le _ _ _ (by omega) hpv
        · rw [if_neg hgt] at h
          obtain ⟨h1, h2, h3⟩ := ih _ h
          have hr1 : r1.version.compare r.version ≤ 0 := h3 _ rfl
          refine ⟨?_, ?_, ?_⟩
          · rcases h1 with h1 | h1
            · exact Or.inl h1
            · exact Or.inr ⟨List.mem_cons_of_mem _ h1.1, h1.2⟩
          · intro q hq hqc
            rcases List.mem_cons.1 hq with rfl | hq
            · exact Version.compare_trans_le _ _ _ (by omega) hr1
            · exact h2 q hq hqc
          · intro r0 h0
            have h0 : r1 = r0 := Option.some.inj h0
            rw [← h0]
            exact hr1
    · rw [if_neg (fun h => hc ((isCandidate_iff dep avoid pv).1 h))] at h
      obtain ⟨h1, h2, h3⟩ := ih _ h
      refine ⟨?_, ?_, h3⟩
      · rcases h1 with h1 | h1
        · exact Or.inl h1
        · exact Or.inr ⟨List.mem_cons_of_mem _ h1.1, h1.2⟩
      · intro q hq hqc
        rcases List.mem_cons.1 hq with rfl | hq
        · exact absurd hqc hc
        · exact h2 q hq hqc

theorem mem_qSort (lessThan : PackageVersion → PackageVersion → Bool)
    (l : List PackageVersion) (x : PackageVersion) : x ∈ qSort lessThan l ↔ x ∈ l :=
  (List.perm_insertionSort _ l).mem_iff

theorem mem_getPackageVersions_ (rep : Repository) (package : String) (x : PackageVersion) :
    x ∈ (rep.getPackageVersions_ package).2 ↔
      x ∈ QMultiMap.values rep.package2versions package :=
  mem_qSort _ _ x

theorem findBestMatchToInstall_some_candidate (rep : Repository) (dep : Dependency)
    (avoid : List PackageVersion) (r : PackageVersion)
    (h : (findBestMatchToInstall rep dep avoid).2 = some r) :
    r ∈ QMultiMap.values rep.package2versions dep.package ∧ isCandidate dep avoid r := by
  have hq : (rep.getPackageVersions_ dep.package).1.isEmpty = true := rfl
  simp only [findBestMatchToInstall, hq, ↓reduceIte] at h
  obtain ⟨h1, _, _⟩ := findBestMatchToInstall.loop_some dep avoid _ none r h
  rcases h1 with h1 | h1
  · cases h1
  · exact ⟨(mem_getPackageVersions_ rep _ r).1 h1.1, h1.2⟩

/-- C1: for every dependency range, avoid list and catalog, `findBestMatchToInstall` reports no
query error; it returns nothing exactly when no catalog version stored for `dep.package` passes
`dep.test`, has a valid download and is absent from `avoid` (by package and version);
otherwise it returns such a catalog version, and no such version of the package compares
greater than the returned one. -/
theorem findBestMatchToInstall_best (rep : Repository) (dep : Dependency)
    (avoid : List PackageVersion) :
    (findBestMatchToInstall rep dep avoid).1 = "" ∧
    ((findBestMatchToInstall rep dep avoid).2 = none ↔
      ∀ pv ∈ QMultiMap.values rep.package2versions dep.package, ¬ isCandidate dep avoid pv) ∧
    (∀ r, (findBestMatchToInstall rep dep avoid).2 = some r →
      r ∈ QMultiMap.values rep.package2versions dep.package ∧ isCandidate dep avoid r ∧
      ∀ pv ∈ QMultiMap.values rep.package2versions dep.package,
        isCandidate dep avoid pv → pv.version.compare r.version ≤ 0) := by
  have hq : (rep.getPackageVersions_ dep.package).1.isEmpty = true := rfl
  have hres : (findBestMatchToInstall rep dep avoid).2 =
      findBestMatchToInstall.loop dep avoid (rep.getPackageVersions_ dep.package).2 none := by
    simp [findBestMatchToInstall, hq]
  refine ⟨rfl, ?_, ?_⟩
  · rw [hres, findBestMatchToInstall.loop_none_iff]
    simp only [true_and]
    constructor
    · intro h pv hpv
      exact h pv ((mem_getPackageVersions_ rep _ pv).2 hpv)
    · intro h pv hpv
      exact h pv ((mem_getPackageVersions_ rep _ pv).1 hpv)
  · intro r hr
    rw [hres] at hr
    obtain ⟨h1, h2, _⟩ := findBestMatchToInstall.loop_some dep avoid _ none r hr
    rcases h1 with h1 | h1
    · cases h1
    · refine ⟨(mem_getPackageVersions_ rep _ r).1 h1.1, h1.2, ?_⟩
      intro pv hpv hc
      exact h2 pv ((mem_getPackageVersions_ rep _ pv).2 hpv) hc

/-! ## Jobs and the resolve stage -/

theorem isEmpty_append_of_pos (s t : String) (h : 0 < s.length) : (s ++ t).isEmpty = false := by
  rw [Bool.eq_false_iff, Ne, String.isEmpty_iff]
  intro he
  have := congrArg String.length he
  rw [String.length_append] at this
  simp at this
  omega

theorem isEmpty_empty : ("" : String).isEmpty = true := by decide

theorem process.cannotFind_isEmpty (op : InstallOperation) (err : String) :
    (process.cannotFind op err).isEmpty = false := by
  unfold process.cannotFind
  simp only [String.append_assoc]
  exact isEmpty_append_of_pos _ _ (by decide)

theorem Job.setErrorMessage_isEmpty (job : Job) (msg : String) (h : msg.isEmpty = false) :
    (job.setErrorMessage msg).errorMessage.isEmpty = false := by
  unfold Job.setErrorMessage
  by_cases hj : job.errorMessage.isEmpty = true
  · simp [hj, h]
  · simp [hj]

theorem Job.setErrorMessage_shouldProceed (job : Job) (msg : String)
    (h : msg.isEmpty = false) : (job.setErrorMessage msg).shouldProceed = false := by
  simp [Job.shouldProceed, Job.setErrorMessage_isEmpty job msg h]

theorem Job.setErrorMessage_of_empty (job : Job) (msg : String)
    (h : job.errorMessage = "") : (job.setErrorMessage msg).errorMessage = msg := by
  simp [Job.setErrorMessage, h, isEmpty_empty]

theorem process.resolveLoop_proceed {W : Type} (env : Env W) (ops : List InstallOperation)
    (job : Job) (pvs : List PackageVersion)
    (h : (process.resolveLoop env ops job pvs).1.shouldProceed = true) :
    (process.resolveLoop env ops job pvs).2.length = pvs.length + ops.length ∧
    ∀ op ∈ ops, ¬ process.unresolved env op := by
  induction ops generalizing pvs with
  | nil => simp [process.resolveLoop]
  | cons op rest ih =>
    unfold process.resolveLoop at h ⊢
    by_cases he : (env.findPackageVersion op).1.isEmpty = true
    · simp only [he, Bool.not_true, Bool.false_eq_true, ↓reduceIte] at h ⊢
      cases hr : (env.findPackageVersion op).2 with
      | none =>
        simp only [hr] at h
        rw [Job.setErrorMessage_shouldProceed _ _ (process.cannotFind_isEmpty _ _)] at h
        exact absurd h (by simp)
      | some pv =>
        simp only [hr] at h ⊢
        obtain ⟨h1, h2⟩ := ih _ h
        refine ⟨by rw [h1]; simp; omega, ?_⟩
        intro o ho
        rcases List.mem_cons.1 ho with rfl | ho
        · simp [process.unresolved, he, hr]
        · exact h2 o ho
    · simp only [he, Bool.not_false, ↓reduceIte] at h
      rw [Job.setErrorMessage_shouldProceed _ _ (process.cannotFind_isEmpty _ _)] at h
      exact absurd h (by simp)

theorem process.resolveLoop_unresolved {W : Type} (env : Env W) (ops : List InstallOperation)
    (job : Job) (pvs : List PackageVersion) (hex : ∃ op ∈ ops, process.unresolved env op) :
    (process.resolveLoop env ops job pvs).1.shouldProceed = false ∧
    (job.errorMessage = "" → ∃ op ∈ ops, process.unresolved env op ∧
      (process.resolveLoop env ops job pvs).1.errorMessage =
        process.cannotFind op (env.findPackageVersion op).1) := by
  induction ops generalizing pvs with
  | nil => obtain ⟨op, hop, _⟩ := hex; cases hop
  | cons op rest ih =>
    unfold process.resolveLoop
    by_cases he : (env.findPackageVersion op).1.isEmpty = true
    · simp only [he, Bool.not_true, Bool.false_eq_true, ↓reduceIte]
      cases hr : (env.findPackageVersion op).2 with
      | none =>
        simp only []
        refine ⟨Job.setErrorMessage_shouldProceed _ _ (process.cannotFind_isEmpty _ _), ?_⟩
        intro hj
        refine ⟨op, List.mem_cons_self _ _, Or.inr hr, ?_⟩
        rw [Job.setErrorMessage_of_empty _ _ hj, (String.isEmpty_iff _).1 he]
      | some pv =>
        simp only []
        have hex2 : ∃ o ∈ rest, process.unresolved env o := by
          obtain ⟨o, ho, hu⟩ := hex
          rcases List.mem_cons.1 ho with rfl | ho
          · rcases hu with hu | hu
            · rw [he] at hu; cases hu
            · rw [hr] at hu; cases hu
          · exact ⟨o, ho, hu⟩
        obtain ⟨h1, h2⟩ := ih (pvs ++ [pv]) hex2
        refine ⟨h1, fun hj => ?_⟩
        obtain ⟨o, ho, hu, hm⟩ := h2 hj
        exact ⟨o, List.mem_cons_of_mem _ ho, hu, hm⟩
    · have he2 : (env.findPackageVersion op).1.isEmpty = false := by simpa using he
      simp only [he2, Bool.not_false, ↓reduceIte]
      refine ⟨Job.setErrorMessage_shouldProceed _ _ (process.cannotFind_isEmpty _ _), ?_⟩
      intro hj
      exact ⟨op, List.mem_cons_self _ _, Or.inl he2, Job.setErrorMessage_of_empty _ _ hj⟩

theorem process.reorder_perm (l : List InstallOperation) : (process.reorder l).Perm l := by
  unfold process.reorder
  split
  · rename_i h2
    match l, h2 with
    | [a, b], _ =>
      simp only [List.getElem?_cons_zero, List.getElem?_cons_succ]
      split
      · simp only [List.eraseIdx]
        exact List.Perm.swap a b []
      · exact List.Perm.refl _
  · exact List.Perm.refl _

theorem process.mem_reorder (l : List InstallOperation) (op : InstallOperation) :
    op ∈ process.reorder l ↔ op ∈ l :=
  (process.reorder_perm l).mem_iff

theorem process.length_reorder (l : List InstallOperation) :
    (process.reorder l).length = l.length :=
  (process.reorder_perm l).length_eq

/-! ## The stages of `process` return -/

theorem process.downloadStep_lengths {W : Type} (env : Env W) (interactive : Bool) (n i : Nat)
    (op : InstallOperation) (pv : PackageVersion) (st : Exec W) :
    (process.downloadStep env interactive n i op pv st).dirs.length = st.dirs.length + 1 ∧
    (process.downloadStep env interactive n i op pv st).binaries.length =
      st.binaries.length + 1 ∧
    (process.downloadStep env interactive n i op pv st).processed = st.processed := by
  unfold process.downloadStep
  by_cases h1 : op.install = true
  · simp only [h1, ↓reduceIte]
    by_cases h2 : env.dirExists st.world (env.findNonExistingFile st.world
        (if op.where_.isEmpty = true then env.getIdealInstallationDirectory st.world pv
         else op.where_)) = true
    · simp [h2]
    · simp [h2]
  · simp [h1]

theorem process.downloadLoop_some {W : Type} (env : Env W) (interactive : Bool) (n : Nat)
    (pvs : List PackageVersion) (ops : List InstallOperation) (i : Nat) (st : Exec W)
    (hlen : pvs.length = i + ops.length) :
    ∃ st1, process.downloadLoop env interactive n pvs i ops st = some st1 ∧
      st1.processed = st.processed ∧
      (st1.job.shouldProceed = true →
        st1.dirs.length = st.dirs.length + ops.length ∧
        st1.binaries.length = st.binaries.length + ops.length) := by
  induction ops generalizing i st with
  | nil => exact ⟨st, rfl, rfl, fun _ => by simp⟩
  | cons op rest ih =>
    have hi : i < pvs.length := by simp at hlen; omega
    unfold process.downloadLoop
    rw [List.getElem?_eq_getElem hi]
    simp only []
    obtain ⟨h1, h2, h3⟩ := process.downloadStep_lengths env interactive n i op pvs[i] st
    by_cases hp : (process.downloadStep env interactive n i op pvs[i] st).job.shouldProceed = true
    · simp only [hp, Bool.not_true, Bool.false_eq_true, ↓reduceIte]
      obtain ⟨st1, e1, e2, e3⟩ := ih (i + 1)
        (process.downloadStep env interactive n i op pvs[i] st) (by simp at hlen ⊢; omega)
      refine ⟨st1, e1, by rw [e2, h3], fun h => ?_⟩
      obtain ⟨a, b⟩ := e3 h
      simp only [List.length_cons]
      omega
    · have hp2 : (process.downloadStep env interactive n i op pvs[i] st).job.shouldProceed
          = false := by simpa using hp
      simp only [hp2, Bool.not_false, ↓reduceIte]
      exact ⟨_, rfl, h3, fun h => by rw [hp2] at h; cases h⟩

theorem process.stopLoop_some {W : Type} (env : Env W) (programCloseType : Nat)
    (printScriptOutput : Bool) (n : Nat)
    (pvs : List PackageVersion) (ops : List InstallOperation) (i : Nat) (st : Exec W)
    (hlen : pvs.length = i + ops.length) :
    ∃ st1, process.stopLoop env programCloseType printScriptOutput n pvs i ops st = some st1 ∧
      st1.dirs = st.dirs ∧ st1.binaries = st.binaries ∧ st1.processed = st.processed := by
  induction ops generalizing i st with
  | nil => exact ⟨st, rfl, rfl, rfl, rfl⟩
  | cons op rest ih =>
    have hi : i < pvs.length := by simp at hlen; omega
    unfold process.stopLoop
    rw [List.getElem?_eq_getElem hi]
    simp only []
    have hlen2 : pvs.length = i + 1 + rest.length := by simp at hlen ⊢; omega
    split_ifs
    · exact ⟨_, rfl, rfl, rfl, rfl⟩
    · obtain ⟨st1, e1, e2, e3, e4⟩ := ih (i + 1) _ hlen2
      exact ⟨st1, e1, e2, e3, e4⟩
    · obtain ⟨st1, e1, e2, e3, e4⟩ := ih (i + 1) _ hlen2
      exact ⟨st1, e1, e2, e3, e4⟩

theorem process.applyLoop_some {W : Type} (env : Env W) (programCloseType : Nat)
    (printScriptOutput : Bool) (n : Nat)
    (pvs : List PackageVersion) (ops : List InstallOperation) (i : Nat) (st : Exec W)
    (hlen : pvs.length = i + ops.length) (hd : st.dirs.length = i + ops.length)
    (hb : st.binaries.length = i + ops.length) :
    ∃ st1, process.applyLoop env programCloseType printScriptOutput n pvs i ops st = some st1 ∧
      st1.dirs = st.dirs ∧ st1.binaries = st.binaries := by
  induction ops generalizing i st with
  | nil => exact ⟨st, rfl, rfl, rfl⟩
  | cons op rest ih =>
    have hi : i < pvs.length := by simp at hlen; omega
    have hid : i < st.dirs.length := by simp at hd; omega
    have hib : i < st.binaries.length := by simp at hb; omega
    have hlen2 : pvs.length = i + 1 + rest.length := by simp at hlen ⊢; omega
    have hd2 : st.dirs.length = i + 1 + rest.length := by simp at hd ⊢; omega
    have hb2 : st.binaries.length = i + 1 + rest.length := by simp at hb ⊢; omega
    unfold process.applyLoop
    rw [List.getElem?_eq_getElem hi, List.getElem?_eq_getElem hid,
      List.getElem?_eq_getElem hib]
    simp only []
    split_ifs <;>
      first
      | exact ⟨_, rfl, rfl, rfl⟩
      | exact ih (i + 1) _ hlen2 hd2 hb2

theorem process.stages_of_not_proceed {W : Type} (env : Env W) (programCloseType : Nat)
    (printScriptOutput interactive : Bool) (install : List InstallOperation)
    (pvs : List PackageVersion) (st0 : Exec W)
    (h : st0.job.shouldProceed = false) (hd : st0.dirs = []) :
    process.stages env programCloseType printScriptOutput interactive install pvs st0 =
      some { st0 with processed := 0 } := by
  simp [process.stages, h, hd, process.cleanupLoop]

theorem process.stages_some {W : Type} (env : Env W) (programCloseType : Nat)
    (printScriptOutput interactive : Bool) (install : List InstallOperation)
    (pvs : List PackageVersion) (st0 : Exec W)
    (hp : st0.job.shouldProceed = true → pvs.length = install.length)
    (hd : st0.dirs = []) (hb : st0.binaries = []) :
    ∃ st, process.stages env programCloseType printScriptOutput interactive install pvs st0
      = some st := by
  by_cases h0 : st0.job.shouldProceed = true
  · have hlen : pvs.length = 0 + install.length := by simp [hp h0]
    obtain ⟨st1, e1, _, l1⟩ :=
      process.downloadLoop_some env interactive install.length pvs install 0 st0 hlen
    unfold process.stages
    simp only [h0, ↓reduceIte, e1, Option.some_bind]
    by_cases h1 : st1.job.shouldProceed = true
    · obtain ⟨st2, e2, d2, b2, _⟩ :=
        process.stopLoop_some env programCloseType printScriptOutput install.length pvs install
          0 st1 hlen
      simp only [h1, ↓reduceIte, e2, Option.some_bind]
      by_cases h2 : st2.job.shouldProceed = true
      · obtain ⟨ld, lb⟩ := l1 h1
        obtain ⟨st3, e3, _, _⟩ :=
          process.applyLoop_some env programCloseType printScriptOutput install.length pvs
            install 0 { st2 with processed := 0 } hlen
            (by simp [d2, ld, hd]) (by simp [b2, lb, hb])
        simp only [h2, ↓reduceIte, e3, Option.some_bind]
        exact ⟨_, rfl⟩
      · have h2f : st2.job.shouldProceed = false := by simpa using h2
        simp [h2f]
    · have h1f : st1.job.shouldProceed = false := by simpa using h1
      simp [h1f]
  · have h0f : st0.job.shouldProceed = false := by simpa using h0
    exact ⟨_, process.stages_of_not_proceed env _ _ _ install pvs st0 h0f hd⟩

theorem process.mem_unlockAll (pvs : List PackageVersion) (locked : List String) (id : String)
    (h : id ∈ process.unlockAll pvs locked) :
    id ∈ locked ∧ ∀ pv ∈ pvs, pv.getStringId ≠ id := by
  induction pvs generalizing locked with
  | nil => exact ⟨h, by simp⟩
  | cons pv rest ih =>
    unfold process.unlockAll at h
    obtain ⟨h1, h2⟩ := ih _ h
    unfold LockRegistry.unlock at h1
    rw [List.mem_filter] at h1
    refine ⟨h1.1, ?_⟩
    intro q hq
    rcases List.mem_cons.1 hq with rfl | hq
    · intro he
      have := h1.2
      simp [he] at this
    · exact h2 q hq

/-- C7: on every run of `process` (whatever the catalog lookups, the collaborators and the
cancellation requests do, and whatever the job carried on entry), the run returns and signals
completion, and no identifier for which this invocation called `lock` is still in the locked
set afterwards. -/
theorem process_releases_every_lock {W : Type} (env : Env W) (job : Job) (world : W)
    (locked : List String) (install_ : List InstallOperation) (programCloseType : Nat)
    (printScriptOutput interactive : Bool) :
    ∃ r, process env job world locked install_ programCloseType printScriptOutput interactive
        = some r ∧
      r.job.completed = true ∧ ∀ id, Event.lock id ∈ r.trace → id ∉ r.locked := by
  obtain ⟨st, hst⟩ := process.stages_some env programCloseType printScriptOutput interactive
    (process.reorder install_) (process.resolveLoop env (process.reorder install_) job []).2
    { job := (process.resolveLoop env (process.reorder install_) job []).1, world := world,
      dirs := [], binaries := [], processed := 0, steps := [] }
    (fun h => by
      have := (process.resolveLoop_proceed env _ job [] h).1
      simpa using this) rfl rfl
  refine ⟨_, by unfold process; simp only []; rw [hst]; rfl, by simp [Job.complete], ?_⟩
  intro id hid hmem
  simp only [List.mem_append, List.mem_map] at hid
  rcases hid with (hid | hid) | hid
  · split at hid
    · simp only [List.mem_map] at hid
      obtain ⟨pv, hpv, he⟩ := hid
      have he : pv.getStringId = id := by injection he
      exact (process.mem_unlockAll _ _ _ hmem).2 pv hpv he
    · cases hid
  · obtain ⟨s, _, hs⟩ := hid
    cases hs
  · obtain ⟨pv, _, hs⟩ := hid
    cases hs

/-- C10: if the job carries no error on entry and the target of some operation of the list
cannot be resolved (lookup error or not found), `process` returns and signals completion with
the error "Cannot find the package version ..." of an unresolved operation, calls `lock` for no
package version, adds nothing to the locked set, leaves the host untouched and performs no
download, stop, install, uninstall or directory-removal step. -/
theorem process_unresolved_target {W : Type} (env : Env W) (job : Job) (world : W)
    (locked : List String) (install_ : List InstallOperation) (programCloseType : Nat)
    (printScriptOutput interactive : Bool) (hjob : job.errorMessage = "")
    (hex : ∃ op ∈ install_, process.unresolved env op) :
    ∃ r, process env job world locked install_ programCloseType printScriptOutput interactive
        = some r ∧
      r.job.completed = true ∧
      (∃ op ∈ install_, process.unresolved env op ∧
        r.job.errorMessage = process.cannotFind op (env.findPackageVersion op).1) ∧
      r.job.errorMessage ≠ "" ∧
      (∀ id, Event.lock id ∉ r.trace) ∧ (∀ s, Event.step s ∉ r.trace) ∧
      (∀ id ∈ r.locked, id ∈ locked) ∧ r.world = world := by
  have hex2 : ∃ op ∈ process.reorder install_, process.unresolved env op := by
    obtain ⟨op, hop, hu⟩ := hex
    exact ⟨op, (process.mem_reorder _ _).2 hop, hu⟩
  obtain ⟨hnp, hmsg⟩ := process.resolveLoop_unresolved env _ job [] hex2
  obtain ⟨op, hop, hu, he⟩ := hmsg hjob
  have hst := process.stages_of_not_proceed env programCloseType printScriptOutput interactive
    (process.reorder install_) (process.resolveLoop env (process.reorder install_) job []).2
    { job := (process.resolveLoop env (process.reorder install_) job []).1, world := world,
      dirs := [], binaries := [], processed := 0, steps := [] } hnp rfl
  refine ⟨_, by unfold process; simp only []; rw [hst]; rfl, by simp [Job.complete], ?_, ?_, ?_, ?_, ?_, rfl⟩
  · refine ⟨op, (process.mem_reorder _ _).1 hop, hu, ?_⟩
    simp only [hnp, Bool.false_eq_true, ↓reduceIte, Job.complete]
    exact he
  · simp only [hnp, Bool.false_eq_true, ↓reduceIte, Job.complete, he]
    intro h
    have := process.cannotFind_isEmpty op (env.findPackageVersion op).1
    rw [h] at this
    exact absurd this (by decide)
  · intro id hid
    simp only [hnp, Bool.false_eq_true, ↓reduceIte, List.map_nil, List.nil_append,
      List.mem_map] at hid
    obtain ⟨pv, _, hs⟩ := hid
    cases hs
  · intro s hs
    simp only [hnp, Bool.false_eq_true, ↓reduceIte, List.map_nil, List.nil_append,
      List.mem_map] at hs
    obtain ⟨pv, _, hs⟩ := hs
    cases hs
  · intro id hid
    simp only [hnp, Bool.false_eq_true, ↓reduceIte] at hid
    exact (process.mem_unlockAll _ _ _ hid).1

/-- C10 at a concrete batch: "install A/1.0, install B/1.0" with B/1.0 missing from the
catalog and a fresh job. -/
theorem process_unresolved_target_witness :
    Scenario.job.errorMessage = "" ∧
    (∃ op ∈ [Scenario.installA1, Scenario.installB1],
      process.unresolved (Scenario.env Scenario.repA) op) ∧
    ∃ r, process (Scenario.env Scenario.repA) Scenario.job () []
        [Scenario.installA1, Scenario.installB1] 0 false false = some r ∧
      r.job.completed = true ∧
      (∃ op ∈ [Scenario.installA1, Scenario.installB1],
        process.unresolved (Scenario.env Scenario.repA) op ∧
        r.job.errorMessage =
          process.cannotFind op ((Scenario.env Scenario.repA).findPackageVersion op).1) ∧
      r.job.errorMessage ≠ "" ∧
      (∀ id, Event.lock id ∉ r.trace) ∧ (∀ s, Event.step s ∉ r.trace) ∧
      (∀ id ∈ r.locked, id ∈ ([] : List String)) ∧ r.world = () :=
  ⟨rfl, ⟨Scenario.installB1, by simp, Or.inr (by decide)⟩,
    process_unresolved_target (Scenario.env Scenario.repA) Scenario.job () []
      [Scenario.installA1, Scenario.installB1] 0 false false rfl
      ⟨Scenario.installB1, by simp, Or.inr (by decide)⟩⟩

/-- C8 (code at the failing inputs): for the batch "install A/1.0, install B/1.0" with B/1.0
missing from the catalog, `process` makes no `lock` call and one `unlock` call (for A/1.0,
which this invocation never locked).  For the batch "install A/1.0" started with a cancelled
job while another batch holds the lock of A/1.0, `process` again makes no `lock` call and one
`unlock` call, and the lock of the other batch is gone afterwards. -/
theorem process_unlocks_without_lock :
    (process (Scenario.env Scenario.repA) Scenario.job () []
        [Scenario.installA1, Scenario.installB1] 0 false false).map (fun r => r.trace) =
      some [Event.unlock "A/1"] ∧
    (process (Scenario.env Scenario.repA) { Scenario.job with cancelled := true } () ["A/1"]
        [Scenario.installA1] 0 false false).map (fun r => (r.trace, r.locked)) =
      some ([Event.unlock "A/1"], []) := by
  decide

/-- C9 (counterexample): A/1.0 is locked by another batch when `process` starts on the batch
"install A/1.0"; no error is recorded, the download and install steps run, and the lock of the
other batch is gone afterwards. -/
theorem process_locked_target_counterexample :
    LockRegistry.isLocked ["A/1"] Scenario.a1.getStringId = true ∧
    (process (Scenario.env Scenario.repA) Scenario.job () ["A/1"]
        [Scenario.installA1] 0 false false).map
        (fun r => (r.job.errorMessage, r.trace, r.locked)) =
      some ("", [Event.lock "A/1",
        Event.step (Step.download 0 Scenario.a1 "C:\\Program Files\\A"),
        Event.step (Step.install 0 Scenario.a1 "C:\\Program Files\\A" ""),
        Event.unlock "A/1"], []) := by
  decide

/-- C9 (amended): if a package version targeted by the operation list is already locked when
`process` starts, no Locked error is recorded and the batch is not aborted for that reason.
A `lock` call for a member of the locked set leaves the set as it is, its failure is not
reported to `process` (`void lock()`), and `process` never consults the locked set: started
with any two locked sets, the run returns the same job (in particular the same error message),
the same host state and the same download, stop, install, uninstall and directory-removal
steps. -/
theorem process_ignores_locked_set {W : Type} (env : Env W) (job : Job) (world : W)
    (locked locked2 : List String) (install_ : List InstallOperation) (programCloseType : Nat)
    (printScriptOutput interactive : Bool) :
    (∀ id ∈ locked, LockRegistry.lock locked id = (false, locked)) ∧
    (process env job world locked install_ programCloseType printScriptOutput
        interactive).map (fun r => (r.job, r.world, Event.steps r.trace)) =
    (process env job world locked2 install_ programCloseType printScriptOutput
        interactive).map (fun r => (r.job, r.world, Event.steps r.trace)) := by
  refine ⟨fun id hid => by simp [LockRegistry.lock, hid], ?_⟩
  unfold process
  simp only [Option.map_map]
  rfl

/-! ## Update planning: examination of the targets -/

theorem findNewestInstallablePackageVersion__err (rep : Repository) (package : String) :
    (findNewestInstallablePackageVersion_ rep package).1 = "" := rfl

theorem findNewestInstalledPackageVersion__err (rep : Repository) (ip : InstalledPackages)
    (name : String) : (findNewestInstalledPackageVersion_ rep ip name).1 = "" := by
  unfold findNewestInstalledPackageVersion_
  split <;> rfl

theorem findBestMatchToInstall_err (rep : Repository) (dep : Dependency)
    (avoid : List PackageVersion) : (findBestMatchToInstall rep dep avoid).1 = "" := rfl

theorem getInstalled_.loop_err (rep : Repository) (l : List InstalledPackageVersion)
    (ret : List PackageVersion) : (getInstalled_.loop rep l ret).1 = "" := by
  induction l generalizing ret with
  | nil => rfl
  | cons ipv rest ih =>
    unfold getInstalled_.loop
    have e : (rep.findPackageVersion_ ipv.package ipv.version).1 = "" := rfl
    simp only [e, isEmpty_empty, Bool.not_true, Bool.false_eq_true, ↓reduceIte]
    split <;> exact ih _

theorem getInstalled__err (rep : Repository) (ip : InstalledPackages) :
    (getInstalled_ rep ip).1 = "" :=
  getInstalled_.loop_err rep _ _

theorem planUpdates.packagesLoop_cons_upToDate (rep : Repository) (ip : InstalledPackages)
    (install : Bool) (p : Package) (rest : List Package) (acc : List UpdatePair)
    (h : planUpdates.upToDate rep ip p) :
    planUpdates.packagesLoop rep ip install (p :: rest) acc =
      planUpdates.packagesLoop rep ip install rest acc := by
  obtain ⟨a, b, ha, hb, hle⟩ := h
  have hgt : ¬ (a.version.compare b.version > 0) := by omega
  rw [planUpdates.packagesLoop]
  simp [findNewestInstallablePackageVersion__err, findNewestInstalledPackageVersion__err,
    isEmpty_empty, ha, hb, hgt]

theorem planUpdates.rangesLoop_cons_upToDate (rep : Repository) (ip : InstalledPackages)
    (install : Bool) (d : Dependency) (rest : List Dependency) (acc : List UpdatePair)
    (h : planUpdates.upToDateRange rep ip d) :
    planUpdates.rangesLoop rep ip install (d :: rest) acc =
      planUpdates.rangesLoop rep ip install rest acc := by
  obtain ⟨⟨p, hp⟩, a, ipv, b, ha, hi, hb, hle⟩ := h
  have hgt : ¬ (a.version.compare b.version > 0) := by omega
  have e : (rep.findPackageVersion_ ipv.package ipv.version).1 = "" := rfl
  rw [planUpdates.rangesLoop]
  simp [hp, findBestMatchToInstall_err, isEmpty_empty, ha, hi, hb, e, hgt]

theorem planUpdates.packagesLoop_append (rep : Repository) (ip : InstalledPackages)
    (install : Bool) (pre post : List Package) (acc : List UpdatePair) :
    planUpdates.packagesLoop rep ip install (pre ++ post) acc =
      if (planUpdates.packagesLoop rep ip install pre acc).1.isEmpty then
        planUpdates.packagesLoop rep ip install post
          (planUpdates.packagesLoop rep ip install pre acc).2
      else planUpdates.packagesLoop rep ip install pre acc := by
  induction pre generalizing acc with
  | nil => simp [planUpdates.packagesLoop, isEmpty_empty]
  | cons p rest ih =>
    rw [List.cons_append, planUpdates.packagesLoop, planUpdates.packagesLoop]
    simp only [findNewestInstallablePackageVersion__err,
      findNewestInstalledPackageVersion__err, isEmpty_empty, Bool.not_true,
      Bool.false_eq_true, ↓reduceIte]
    split
    · rw [if_neg]
      simp only [String.append_assoc]
      rw [isEmpty_append_of_pos _ _ (by decide)]
      simp
    · split
      · rw [if_neg]
        simp only [String.append_assoc]
        rw [isEmpty_append_of_pos _ _ (by decide)]
        simp
      · split
        · exact ih _
        · exact ih _

theorem planUpdates.rangesLoop_append (rep : Repository) (ip : InstalledPackages)
    (install : Bool) (pre post : List Dependency) (acc : List UpdatePair) :
    planUpdates.rangesLoop rep ip install (pre ++ post) acc =
      if (planUpdates.rangesLoop rep ip install pre acc).1.isEmpty then
        planUpdates.rangesLoop rep ip install post
          (planUpdates.rangesLoop rep ip install pre acc).2
      else planUpdates.rangesLoop rep ip install pre acc := by
  induction pre generalizing acc with
  | nil => simp [planUpdates.rangesLoop, isEmpty_empty]
  | cons d rest ih =>
    rw [List.cons_append, planUpdates.rangesLoop, planUpdates.rangesLoop]
    have e : ∀ ipv : InstalledPackageVersion,
        (rep.findPackageVersion_ ipv.package ipv.version).1 = "" := fun _ => rfl
    have e2 : (match findHighestInstalledMatch ip d with
        | some ipv => rep.findPackageVersion_ ipv.package ipv.version
        | none => ("", none)).1 = "" := by
      split <;> rfl
    split
    · rw [if_neg]
      rw [isEmpty_append_of_pos _ _ (by decide)]
      simp
    · simp only [findBestMatchToInstall_err, isEmpty_empty, Bool.not_true,
        Bool.false_eq_true, ↓reduceIte, e2]
      split
      · rw [if_neg]
        simp only [String.append_assoc]
        rw [isEmpty_append_of_pos _ _ (by decide)]
        simp
      · split
        · rw [if_neg]
          simp only [String.append_assoc]
          rw [isEmpty_append_of_pos _ _ (by decide)]
          simp
        · split
          · exact ih _
          · exact ih _

theorem planUpdates.packagesLoop_all_upToDate (rep : Repository) (ip : InstalledPackages)
    (install : Bool) (packages : List Package) (acc : List UpdatePair)
    (h : ∀ p ∈ packages, planUpdates.upToDate rep ip p) :
    planUpdates.packagesLoop rep ip install packages acc = ("", acc) := by
  induction packages with
  | nil => rfl
  | cons p rest ih =>
    rw [planUpdates.packagesLoop_cons_upToDate rep ip install p rest acc
      (h p (List.mem_cons_self _ _))]
    exact ih (fun q hq => h q (List.mem_cons_of_mem _ hq))

theorem planUpdates.rangesLoop_all_upToDate (rep : Repository) (ip : InstalledPackages)
    (install : Bool) (ranges : List Dependency) (acc : List UpdatePair)
    (h : ∀ d ∈ ranges, planUpdates.upToDateRange rep ip d) :
    planUpdates.rangesLoop rep ip install ranges acc = ("", acc) := by
  induction ranges with
  | nil => rfl
  | cons d rest ih =>
    rw [planUpdates.rangesLoop_cons_upToDate rep ip install d rest acc
      (h d (List.mem_cons_self _ _))]
    exact ih (fun q hq => h q (List.mem_cons_of_mem _ hq))

theorem InstallOperation.simplify.go_sublist (n : Nat) (ops : List InstallOperation) :
    (InstallOperation.simplify.go n ops).Sublist ops := by
  induction n generalizing ops with
  | zero => simp [InstallOperation.simplify.go]
  | succ n ih =>
    cases ops with
    | nil => simp [InstallOperation.simplify.go]
    | cons op rest =>
      rw [InstallOperation.simplify.go]
      split
      · exact ((ih _).trans (List.eraseP_sublist _)).trans (List.sublist_cons_self _ _)
      · exact ((ih _).trans (List.filter_sublist _)).cons₂ _

theorem InstallOperation.simplify_sublist (ops : List InstallOperation) :
    (InstallOperation.simplify ops).Sublist ops :=
  InstallOperation.simplify.go_sublist _ _

theorem planUpdates_of_examine_nil (rep : Repository) (ip : InstalledPackages) (fuel : Nat)
    (packages : List Package) (ranges : List Dependency) (ops : List InstallOperation)
    (keepDirectories install : Bool) (where_ : String)
    (h : planUpdates.examine rep ip install packages ranges = ("", [])) :
    planUpdates rep ip fuel packages ranges ops keepDirectories install where_ =
      some ("", InstallOperation.simplify ops) := by
  unfold planUpdates
  simp [getInstalled__err, isEmpty_empty, h, planUpdates.coLocationLoop,
    planUpdates.installLoop, planUpdates.uninstallLoop]

theorem planUpdates.examine_skip_package (rep : Repository) (ip : InstalledPackages)
    (install : Bool) (pre post : List Package) (p : Package) (ranges : List Dependency)
    (h : planUpdates.upToDate rep ip p) :
    planUpdates.examine rep ip install (pre ++ p :: post) ranges =
      planUpdates.examine rep ip install (pre ++ post) ranges := by
  unfold planUpdates.examine
  rw [planUpdates.packagesLoop_append, planUpdates.packagesLoop_append,
    planUpdates.packagesLoop_cons_upToDate rep ip install p post _ h]

theorem planUpdates.examine_skip_range (rep : Repository) (ip : InstalledPackages)
    (install : Bool) (packages : List Package) (pre post : List Dependency) (d : Dependency)
    (h : planUpdates.upToDateRange rep ip d) :
    planUpdates.examine rep ip install packages (pre ++ d :: post) =
      planUpdates.examine rep ip install packages (pre ++ post) := by
  unfold planUpdates.examine
  simp only []
  rw [planUpdates.rangesLoop_append, planUpdates.rangesLoop_append,
    planUpdates.rangesLoop_cons_upToDate rep ip install d post _ h]

theorem planUpdates_congr_examine (rep : Repository) (ip : InstalledPackages) (fuel : Nat)
    (packages packages2 : List Package) (ranges ranges2 : List Dependency)
    (ops : List InstallOperation) (keepDirectories install : Bool) (where_ : String)
    (h : planUpdates.examine rep ip install packages ranges =
      planUpdates.examine rep ip install packages2 ranges2) :
    planUpdates rep ip fuel packages ranges ops keepDirectories install where_ =
      planUpdates rep ip fuel packages2 ranges2 ops keepDirectories install where_ := by
  unfold planUpdates
  rw [h]

/-- C5: `planUpdates` skips up-to-date targets.  If every target package and every target
range is up to date (newest installed version `b` present, newest installable version `a`
with `compare(a, b) <= 0`), `planUpdates` returns an empty error and adds no operation: `ops`
is left as `simplify` of its value on entry, a sublist of it (empty if it was empty).  More
generally an up-to-date target contributes nothing: removing it from the targets does not
change the result. -/
theorem planUpdates_skips_up_to_date (rep : Repository) (ip : InstalledPackages) (fuel : Nat)
    (ops : List InstallOperation) (keepDirectories install : Bool) (where_ : String) :
    (∀ packages ranges, (∀ p ∈ packages, planUpdates.upToDate rep ip p) →
      (∀ d ∈ ranges, planUpdates.upToDateRange rep ip d) →
      planUpdates rep ip fuel packages ranges ops keepDirectories install where_ =
        some ("", InstallOperation.simplify ops) ∧
      (InstallOperation.simplify ops).Sublist ops ∧
      (ops = [] → InstallOperation.simplify ops = [])) ∧
    (∀ pre p post ranges, planUpdates.upToDate rep ip p →
      planUpdates rep ip fuel (pre ++ p :: post) ranges ops keepDirectories install where_ =
        planUpdates rep ip fuel (pre ++ post) ranges ops keepDirectories install where_) ∧
    (∀ packages pre d post, planUpdates.upToDateRange rep ip d →
      planUpdates rep ip fuel packages (pre ++ d :: post) ops keepDirectories install where_ =
        planUpdates rep ip fuel packages (pre ++ post) ops keepDirectories install where_) := by
  refine ⟨?_, ?_, ?_⟩
  · intro packages ranges hp hr
    refine ⟨?_, InstallOperation.simplify_sublist ops, fun h => by subst h; rfl⟩
    apply planUpdates_of_examine_nil
    unfold planUpdates.examine
    rw [planUpdates.packagesLoop_all_upToDate rep ip install packages [] hp]
    simp only [isEmpty_empty, ↓reduceIte]
    exact planUpdates.rangesLoop_all_upToDate rep ip install ranges [] hr
  · intro pre p post ranges h
    exact planUpdates_congr_examine _ _ _ _ _ _ _ _ _ _ _
      (planUpdates.examine_skip_package rep ip install pre post p ranges h)
  · intro packages pre d post h
    exact planUpdates_congr_examine _ _ _ _ _ _ _ _ _ _ _
      (planUpdates.examine_skip_range rep ip install packages pre post d h)

/-- C5 at a concrete state: A/2.0 is installed and is the newest installable version of A. -/
theorem planUpdates_skips_up_to_date_witness :
    (∀ p ∈ [Scenario.packageA], planUpdates.upToDate Scenario.repA Scenario.ipA2 p) ∧
    planUpdates Scenario.repA Scenario.ipA2 0 [Scenario.packageA] [] [] false false "" =
      some ("", []) :=
  have h : ∀ p ∈ [Scenario.packageA], planUpdates.upToDate Scenario.repA Scenario.ipA2 p := by
    intro p hp
    rw [List.mem_singleton] at hp
    subst hp
    exact ⟨Scenario.a2, Scenario.a2, by decide, by decide, by decide⟩
  ⟨h, ((planUpdates_skips_up_to_date Scenario.repA Scenario.ipA2 0 [] false false "").1
    [Scenario.packageA] [] h (by simp)).1⟩

theorem findNewestInstallable_loop_none (l : List PackageVersion)
    (h : ∀ pv ∈ l, pv.download.isValid = false) :
    findNewestInstallablePackageVersion_.loop l none = none := by
  induction l with
  | nil => rfl
  | cons p rest ih =>
    rw [findNewestInstallablePackageVersion_.loop]
    simp only [h p (List.mem_cons_self _ _), Bool.false_eq_true, ↓reduceIte]
    exact ih (fun q hq => h q (List.mem_cons_of_mem _ hq))

theorem findNewestInstallablePackageVersion__none (rep : Repository) (package : String)
    (h : ∀ pv ∈ QMultiMap.values rep.package2versions package, pv.download.isValid = false) :
    findNewestInstallablePackageVersion_ rep package = ("", none) := by
  unfold findNewestInstallablePackageVersion_
  have e : (rep.getPackageVersions_ package).1 = "" := rfl
  simp only [e, isEmpty_empty, ↓reduceIte]
  rw [findNewestInstallable_loop_none]
  intro pv hpv
  exact h pv ((mem_getPackageVersions_ rep package pv).1 hpv)

theorem getNewestInstalled_loop_none (package : String)
    (l : List InstalledPackageVersion) (h : ∀ e ∈ l, e.package ≠ package) :
    InstalledPackages.getNewestInstalled.loop package l none = none := by
  induction l with
  | nil => rfl
  | cons e rest ih =>
    rw [InstalledPackages.getNewestInstalled.loop]
    rw [if_neg (h e (List.mem_cons_self _ _))]
    exact ih (fun q hq => h q (List.mem_cons_of_mem _ hq))

theorem findNewestInstalledPackageVersion__none (rep : Repository) (ip : InstalledPackages)
    (name : String) (h : ∀ e ∈ ip.data, e.package ≠ name) :
    findNewestInstalledPackageVersion_ rep ip name = ("", none) := by
  unfold findNewestInstalledPackageVersion_ InstalledPackages.getNewestInstalled
  rw [getNewestInstalled_loop_none name ip.data h]

theorem planUpdates_of_examine_error (rep : Repository) (ip : InstalledPackages) (fuel : Nat)
    (packages : List Package) (ranges : List Dependency) (ops : List InstallOperation)
    (keepDirectories install : Bool) (where_ : String)
    (h : (planUpdates.examine rep ip install packages ranges).1.isEmpty = false) :
    planUpdates rep ip fuel packages ranges ops keepDirectories install where_ =
      some ((planUpdates.examine rep ip install packages ranges).1, ops) := by
  unfold planUpdates
  simp [getInstalled__err, isEmpty_empty, h]

theorem planUpdates.examine_of_packages_error (rep : Repository) (ip : InstalledPackages)
    (install : Bool) (packages : List Package) (ranges : List Dependency)
    (h : (planUpdates.packagesLoop rep ip install packages []).1.isEmpty = false) :
    planUpdates.examine rep ip install packages ranges =
      planUpdates.packagesLoop rep ip install packages [] := by
  unfold planUpdates.examine
  simp [h]

theorem ne_empty_of_isEmpty (s : String) (h : s.isEmpty = false) : s ≠ "" := by
  intro he
  rw [he, isEmpty_empty] at h
  cases h

/-- C6: let the target packages before `p` be examined without error.  (1) If no catalog
version of `p` has a valid download, `planUpdates` returns the non-empty error "No installable
version found for the package ..." and leaves `ops` alone.  (2) If `install` is false and no
version of `p` is installed, `planUpdates` returns a non-empty error and leaves `ops` alone.
(3) If `install` is true and no version of `p` is installed, `p` is not an error: with newest
installable version `a` it joins the pairs as (`a`, no installed version), and as the only
target it is planned by ordinary install planning of `a` with an automatically chosen
directory. -/
theorem planUpdates_target_errors (rep : Repository) (ip : InstalledPackages) (fuel : Nat)
    (pre : List Package) (p : Package) (post : List Package) (ranges : List Dependency)
    (ops : List InstallOperation) (keepDirectories install : Bool) (where_ : String)
    (hpre : (planUpdates.packagesLoop rep ip install pre []).1 = "") :
    ((∀ pv ∈ QMultiMap.values rep.package2versions p.name, pv.download.isValid = false) →
      planUpdates rep ip fuel (pre ++ p :: post) ranges ops keepDirectories install where_ =
        some ("No installable version found for the package " ++ p.title, ops) ∧
      "No installable version found for the package " ++ p.title ≠ "") ∧
    (install = false → (∀ e ∈ ip.data, e.package ≠ p.name) →
      ∃ e, planUpdates rep ip fuel (pre ++ p :: post) ranges ops keepDirectories install
        where_ = some (e, ops) ∧ e ≠ "") ∧
    (install = true → (∀ e ∈ ip.data, e.package ≠ p.name) →
      ∀ a, (findNewestInstallablePackageVersion_ rep p.name).2 = some a →
        planUpdates.packagesLoop rep ip install (pre ++ p :: post) [] =
          planUpdates.packagesLoop rep ip install post
            ((planUpdates.packagesLoop rep ip install pre []).2 ++
              [{ newest := a, newesti := none, used := false }]) ∧
        planUpdates rep ip fuel [p] [] ops keepDirectories install where_ =
          (planInstallation rep fuel a
            { installed := (getInstalled_ rep ip).2, ops := ops, avoid := [] } "").map
            (fun r => if r.1.isEmpty then ("", InstallOperation.simplify r.2.ops)
              else (r.1, r.2.ops))) := by
  have hsplit : planUpdates.packagesLoop rep ip install (pre ++ p :: post) [] =
      planUpdates.packagesLoop rep ip install (p :: post)
        (planUpdates.packagesLoop rep ip install pre []).2 := by
    rw [planUpdates.packagesLoop_append, hpre]
    simp [isEmpty_empty]
  have hmsg1 : ("No installable version found for the package " ++ p.title).isEmpty = false :=
    isEmpty_append_of_pos _ _ (by decide)
  have hmsg2 : ("No installed version found for the package " ++ p.title).isEmpty = false :=
    isEmpty_append_of_pos _ _ (by decide)
  refine ⟨?_, ?_, ?_⟩
  · intro hno
    have hloop : planUpdates.packagesLoop rep ip install (pre ++ p :: post) [] =
        ("No installable version found for the package " ++ p.title,
          (planUpdates.packagesLoop rep ip install pre []).2) := by
      rw [hsplit, planUpdates.packagesLoop]
      simp [findNewestInstallablePackageVersion__none rep p.name hno, isEmpty_empty]
    have hex := planUpdates.examine_of_packages_error rep ip install (pre ++ p :: post) ranges
      (by rw [hloop]; exact hmsg1)
    have := planUpdates_of_examine_error rep ip fuel (pre ++ p :: post) ranges ops
      keepDirectories install where_ (by rw [hex, hloop]; exact hmsg1)
    rw [hex, hloop] at this
    exact ⟨this, ne_empty_of_isEmpty _ hmsg1⟩
  · intro hinst hnone
    subst hinst
    have hb := findNewestInstalledPackageVersion__none rep ip p.name hnone
    have hloop : (planUpdates.packagesLoop rep ip false (pre ++ p :: post) []).1.isEmpty
        = false := by
      rw [hsplit, planUpdates.packagesLoop]
      simp only [findNewestInstallablePackageVersion__err, isEmpty_empty, Bool.not_true,
        Bool.false_eq_true, ↓reduceIte, hb]
      split
      · exact hmsg1
      · simp [hmsg2]
    have hex := planUpdates.examine_of_packages_error rep ip false (pre ++ p :: post) ranges
      hloop
    have := planUpdates_of_examine_error rep ip fuel (pre ++ p :: post) ranges ops
      keepDirectories false where_ (by rw [hex]; exact hloop)
    exact ⟨_, this, ne_empty_of_isEmpty _ (by rw [hex]; exact hloop)⟩
  · intro hinst hnone a ha
    subst hinst
    have hb := findNewestInstalledPackageVersion__none rep ip p.name hnone
    have hstep : ∀ rest acc, planUpdates.packagesLoop rep ip true (p :: rest) acc =
        planUpdates.packagesLoop rep ip true rest
          (acc ++ [{ newest := a, newesti := none, used := false }]) := by
      intro rest acc
      rw [planUpdates.packagesLoop]
      simp [findNewestInstallablePackageVersion__err, isEmpty_empty, ha, hb]
    refine ⟨by rw [hsplit, hstep], ?_⟩
    have hex : planUpdates.examine rep ip true [p] [] =
        ("", [{ newest := a, newesti := none, used := false }]) := by
      unfold planUpdates.examine
      rw [hstep]
      simp [planUpdates.packagesLoop, planUpdates.rangesLoop, isEmpty_empty]
    unfold planUpdates
    simp only [getInstalled__err, isEmpty_empty, hex, Bool.not_true, Bool.false_eq_true,
      ↓reduceIte, planUpdates.coLocationLoop, Option.map_some', planUpdates.installLoop]
    cases hpi : planInstallation rep fuel a
        { installed := (getInstalled_ rep ip).2, ops := ops, avoid := [] } "" with
    | none => rfl
    | some r =>
      simp only [Option.map_some']
      by_cases he : r.1.isEmpty = true
      · simp [he, planUpdates.uninstallLoop, isEmpty_empty]
      · simp [he]

/-- C6 at a concrete state: the target B has no version in the catalog and `install` is
false. -/
theorem planUpdates_target_errors_witness :
    (planUpdates.packagesLoop Scenario.repA Scenario.ipA1 false [] []).1 = "" ∧
    (∀ e ∈ Scenario.ipA1.data, e.package ≠ "B") ∧
    ∃ e, planUpdates Scenario.repA Scenario.ipA1 0
      ([] ++ { name := "B", title := "Package B" } :: []) [] [] false false "" =
        some (e, []) ∧ e ≠ "" :=
  ⟨rfl, by decide,
    (planUpdates_target_errors Scenario.repA Scenario.ipA1 0 []
      { name := "B", title := "Package B" } [] [] [] false false "" rfl).2.1 rfl (by decide)⟩

/-! ## The planners only append to the operation list -/

theorem planUninstallation.dependents_appends
    (recur : PackageVersion → List PackageVersion → List InstallOperation →
      Option (String × List PackageVersion × List InstallOperation))
    (hrec : ∀ x inst ops r, recur x inst ops = some r → ∃ t, r.2.2 = ops ++ t)
    (l : List PackageVersion) (inst : List PackageVersion) (ops : List InstallOperation)
    (r : String × List PackageVersion × List InstallOperation)
    (h : planUninstallation.dependents recur l inst ops = some r) :
    ∃ t, r.2.2 = ops ++ t := by
  induction l generalizing inst ops with
  | nil =>
    simp only [planUninstallation.dependents, Option.some.injEq] at h
    subst h
    exact ⟨[], by simp⟩
  | cons x rest ih =>
    rw [planUninstallation.dependents] at h
    cases hx : recur x inst ops with
    | none => rw [hx] at h; cases h
    | some r1 =>
      rw [hx] at h
      simp only [] at h
      obtain ⟨t1, ht1⟩ := hrec x inst ops r1 hx
      split at h
      · simp only [Option.some.injEq] at h
        subst h
        exact ⟨t1, ht1⟩
      · obtain ⟨t2, ht2⟩ := ih _ _ h
        exact ⟨t1 ++ t2, by rw [ht2, ht1, List.append_assoc]⟩

theorem planUninstallation_appends (fuel : Nat) (pv : PackageVersion)
    (inst : List PackageVersion) (ops : List InstallOperation)
    (r : String × List PackageVersion × List InstallOperation)
    (h : planUninstallation fuel pv inst ops = some r) : ∃ t, r.2.2 = ops ++ t := by
  induction fuel generalizing pv inst ops r with
  | zero => simp [planUninstallation] at h
  | succ fuel ih =>
    rw [planUninstallation] at h
    cases hd : planUninstallation.dependents (planUninstallation fuel)
        (inst.filter (isLastProvider pv inst)) (inst.filter (fun q => !q.same pv)) ops with
    | none => rw [hd] at h; cases h
    | some r1 =>
      rw [hd] at h
      simp only [] at h
      obtain ⟨t1, ht1⟩ := planUninstallation.dependents_appends _
        (fun x i o r hr => ih x i o r hr) _ _ _ _ hd
      split at h
      · simp only [Option.some.injEq] at h
        subst h
        exact ⟨t1, ht1⟩
      · simp only [Option.some.injEq] at h
        subst h
        exact ⟨t1 ++ [_], by simp only [ht1, List.append_assoc]; rfl⟩

theorem planInstallation.dependencies_appends (rep : Repository)
    (recur : PackageVersion → PlanState → Option (String × PlanState))
    (hrec : ∀ c st r, recur c st = some r → ∃ t, r.2.ops = st.ops ++ t)
    (l : List Dependency) (st : PlanState) (r : String × PlanState)
    (h : planInstallation.dependencies rep recur l st = some r) :
    ∃ t, r.2.ops = st.ops ++ t := by
  induction l generalizing st with
  | nil =>
    simp only [planInstallation.dependencies, Option.some.injEq] at h
    subst h
    exact ⟨[], by simp⟩
  | cons d rest ih =>
    rw [planInstallation.dependencies] at h
    split at h
    · exact ih _ h
    · simp only [findBestMatchToInstall_err, isEmpty_empty, Bool.not_true,
        Bool.false_eq_true, ↓reduceIte] at h
      split at h
      · simp only [Option.some.injEq] at h
        subst h
        exact ⟨[], by simp⟩
      · rename_i c hc
        cases hx : recur c st with
        | none => rw [hx] at h; cases h
        | some r1 =>
          rw [hx] at h
          simp only [] at h
          obtain ⟨t1, ht1⟩ := hrec c st r1 hx
          split at h
          · simp only [Option.some.injEq] at h
            subst h
            exact ⟨t1, ht1⟩
          · obtain ⟨t2, ht2⟩ := ih _ h
            exact ⟨t1 ++ t2, by rw [ht2, ht1, List.append_assoc]⟩

theorem planInstallation_appends (rep : Repository) (fuel : Nat) (pv : PackageVersion)
    (st : PlanState) (where_ : String) (r : String × PlanState)
    (h : planInstallation rep fuel pv st where_ = some r) : ∃ t, r.2.ops = st.ops ++ t := by
  induction fuel generalizing pv st where_ r with
  | zero => simp [planInstallation] at h
  | succ fuel ih =>
    rw [planInstallation] at h
    split at h
    · simp only [Option.some.injEq] at h
      subst h
      exact ⟨[], by simp⟩
    · split at h
      · simp only [Option.some.injEq] at h
        subst h
        exact ⟨[], by simp⟩
      · cases hd : planInstallation.dependencies rep
            (fun c s => planInstallation rep fuel c s "") pv.dependencies
            { st with avoid := st.avoid ++ [pv] } with
        | none => rw [hd] at h; cases h
        | some r1 =>
          rw [hd] at h
          simp only [] at h
          obtain ⟨t1, ht1⟩ := planInstallation.dependencies_appends rep _
            (fun c s r hr => ih c s "" r hr) _ _ _ hd
          split at h
          · simp only [Option.some.injEq] at h
            subst h
            exact ⟨t1, ht1⟩
          · simp only [Option.some.injEq] at h
            subst h
            exact ⟨t1 ++ [_], by simp only [ht1, List.append_assoc]; rfl⟩

theorem planUpdates.coLocationLoop_appends (rep : Repository) (ip : InstalledPackages)
    (fuel : Nat) (keepDirectories : Bool) (where_ : String) (l : List UpdatePair) (i : Nat)
    (inst : List PackageVersion) (ops : List InstallOperation)
    (r : List UpdatePair × List PackageVersion × List InstallOperation)
    (h : planUpdates.coLocationLoop rep ip fuel keepDirectories where_ i l inst ops = some r) :
    ∃ t, r.2.2 = ops ++ t := by
  induction l generalizing i inst ops r with
  | nil =>
    simp only [planUpdates.coLocationLoop, Option.some.injEq] at h
    subst h
    exact ⟨[], by simp⟩
  | cons t rest ih =>
    rw [planUpdates.coLocationLoop] at h
    split at h
    · simp only [Option.map_eq_some'] at h
      obtain ⟨r1, hr1, rfl⟩ := h
      exact ih _ _ _ r1 hr1
    · split at h
      · cases h
      · split at h
        · simp only [Option.map_eq_some'] at h
          obtain ⟨r1, hr1, rfl⟩ := h
          obtain ⟨t2, ht2⟩ := ih _ _ _ r1 hr1
          exact ⟨_ ++ t2, by simp only [ht2, List.append_assoc]; rfl⟩
        · simp only [Option.map_eq_some'] at h
          obtain ⟨r1, hr1, rfl⟩ := h
          exact ih _ _ _ r1 hr1

theorem planUpdates.installLoop_appends (rep : Repository) (ip : InstalledPackages)
    (fuel : Nat) (keepDirectories : Bool) (l : List UpdatePair)
    (inst : List PackageVersion) (ops : List InstallOperation)
    (r : String × List PackageVersion × List InstallOperation)
    (h : planUpdates.installLoop rep ip fuel keepDirectories l inst ops = some r) :
    ∃ t, r.2.2 = ops ++ t := by
  induction l generalizing inst ops r with
  | nil =>
    simp only [planUpdates.installLoop, Option.some.injEq] at h
    subst h
    exact ⟨[], by simp⟩
  | cons t rest ih =>
    rw [planUpdates.installLoop] at h
    split at h
    · simp only [] at h
      split at h
      · cases h
      · rename_i r1 hr1
        obtain ⟨t1, ht1⟩ := planInstallation_appends rep fuel _ _ _ _ hr1
        simp only [] at ht1
        split at h
        · simp only [Option.some.injEq] at h
          subst h
          exact ⟨t1, ht1⟩
        · obtain ⟨t2, ht2⟩ := ih _ _ _ h
          exact ⟨t1 ++ t2, by rw [ht2, ht1, List.append_assoc]⟩
    · exact ih _ _ _ h

theorem planUpdates.uninstallLoop_appends (fuel : Nat) (l : List UpdatePair)
    (inst : List PackageVersion) (ops : List InstallOperation)
    (r : String × List PackageVersion × List InstallOperation)
    (h : planUpdates.uninstallLoop fuel l inst ops = some r) :
    ∃ t, r.2.2 = ops ++ t := by
  induction l generalizing inst ops r with
  | nil =>
    simp only [planUpdates.uninstallLoop, Option.some.injEq] at h
    subst h
    exact ⟨[], by simp⟩
  | cons t rest ih =>
    rw [planUpdates.uninstallLoop] at h
    split at h
    · split at h
      · split at h
        · cases h
        · rename_i r1 hr1
          obtain ⟨t1, ht1⟩ := planUninstallation_appends fuel _ _ _ _ hr1
          split at h
          · simp only [Option.some.injEq] at h
            subst h
            exact ⟨t1, ht1⟩
          · obtain ⟨t2, ht2⟩ := ih _ _ _ h
            exact ⟨t1 ++ t2, by rw [ht2, ht1, List.append_assoc]⟩
      · exact ih _ _ _ h
    · exact ih _ _ _ h

/-- C3 (counterexample): targets A and B, A/1.0 and B/1.0 installed; the update of A is
co-located, then planning B/2.0 fails because no version of C is available.  `planUpdates`
returns a non-empty error and leaves the two operations planned for A in `ops`, which was
empty on entry. -/
theorem planUpdates_partial_plan_counterexample :
    planUpdates Scenario.repAB Scenario.ipA1B1 3 [Scenario.packageA, Scenario.packageB] [] []
        false false "" =
      some ("Unsatisfiable dependency: C (C) [1.0, 2.0)",
        [{ package := "A", version := ⟨[1, 0]⟩, install := false, where_ := "" },
         { package := "A", version := ⟨[2, 0]⟩, install := true, where_ := "" }]) := by
  decide

/-- C3 (amended): whenever `planUpdates` returns a non-empty error, the operations that were in
`ops` on entry are still there, unchanged and in order, as the leading part of `ops` (nothing
is removed and `simplify` is not run), and `ops` is exactly as it was on entry when the error
arises while the targets are examined.  Operations added by the co-location pass or by
ordinary planning before the failure stay in `ops`. -/
theorem planUpdates_error_keeps_entry_operations (rep : Repository) (ip : InstalledPackages)
    (fuel : Nat) (packages : List Package) (ranges : List Dependency)
    (ops : List InstallOperation) (keepDirectories install : Bool) (where_ : String)
    (e : String) (ops2 : List InstallOperation)
    (h : planUpdates rep ip fuel packages ranges ops keepDirectories install where_ =
      some (e, ops2))
    (he : e ≠ "") :
    (∃ t, ops2 = ops ++ t) ∧
    ((planUpdates.examine rep ip install packages ranges).1 ≠ "" → ops2 = ops) := by
  unfold planUpdates at h
  simp only [getInstalled__err, isEmpty_empty, Bool.not_true, Bool.false_eq_true,
    ↓reduceIte] at h
  by_cases hex : (planUpdates.examine rep ip install packages ranges).1.isEmpty = true
  · have hex2 : (planUpdates.examine rep ip install packages ranges).1 = "" :=
      (String.isEmpty_iff _).1 hex
    simp only [hex, Bool.not_true, Bool.false_eq_true, ↓reduceIte] at h
    refine ⟨?_, fun hne => absurd hex2 hne⟩
    cases hc : planUpdates.coLocationLoop rep ip fuel keepDirectories where_ 0
        (planUpdates.examine rep ip install packages ranges).2 (getInstalled_ rep ip).2 ops with
    | none => rw [hc] at h; cases h
    | some c =>
      rw [hc] at h
      simp only [] at h
      obtain ⟨t0, ht0⟩ := planUpdates.coLocationLoop_appends _ _ _ _ _ _ _ _ _ _ hc
      cases hi : planUpdates.installLoop rep ip fuel keepDirectories c.1 c.2.1 c.2.2 with
      | none => rw [hi] at h; cases h
      | some r1 =>
        rw [hi] at h
        simp only [] at h
        obtain ⟨t1, ht1⟩ := planUpdates.installLoop_appends _ _ _ _ _ _ _ _ hi
        split at h
        · simp only [Option.some.injEq, Prod.mk.injEq] at h
          exact ⟨t0 ++ t1, by rw [← h.2, ht1, ht0, List.append_assoc]⟩
        · cases hu : planUpdates.uninstallLoop fuel c.1 r1.2.1 r1.2.2 with
          | none => rw [hu] at h; cases h
          | some r2 =>
            rw [hu] at h
            simp only [] at h
            obtain ⟨t2, ht2⟩ := planUpdates.uninstallLoop_appends _ _ _ _ _ hu
            split at h
            · simp only [Option.some.injEq, Prod.mk.injEq] at h
              exact ⟨t0 ++ t1 ++ t2, by
                rw [← h.2, ht2, ht1, ht0]; simp only [List.append_assoc]⟩
            · simp only [Option.some.injEq, Prod.mk.injEq] at h
              exact absurd h.1.symm he
  · simp only [hex, Bool.not_false, ↓reduceIte, Option.some.injEq, Prod.mk.injEq] at h
    exact ⟨⟨[], by simp [h.2]⟩, fun _ => h.2.symm⟩

/-- C3 (amended) at a concrete state: `ops` holds one operation on entry, the update of A is
co-located and planning B/2.0 fails. -/
theorem planUpdates_error_keeps_entry_operations_witness :
    planUpdates Scenario.repAB Scenario.ipA1B1 3 [Scenario.packageA, Scenario.packageB] []
        [Scenario.installB1] false false "" =
      some ("Unsatisfiable dependency: C (C) [1.0, 2.0)",
        [Scenario.installB1,
         { package := "A", version := ⟨[1, 0]⟩, install := false, where_ := "" },
         { package := "A", version := ⟨[2, 0]⟩, install := true, where_ := "" }]) ∧
    "Unsatisfiable dependency: C (C) [1.0, 2.0)" ≠ "" ∧
    (∃ t, [Scenario.installB1,
         { package := "A", version := ⟨[1, 0]⟩, install := false, where_ := "" },
         { package := "A", version := ⟨[2, 0]⟩, install := true, where_ := "" }] =
      [Scenario.installB1] ++ t) ∧
    ((planUpdates.examine Scenario.repAB Scenario.ipA1B1 false
        [Scenario.packageA, Scenario.packageB] []).1 ≠ "" →
      [Scenario.installB1,
         { package := "A", version := ⟨[1, 0]⟩, install := false, where_ := "" },
         { package := "A", version := ⟨[2, 0]⟩, install := true, where_ := "" }] =
      [Scenario.installB1]) :=
  ⟨by decide, by decide,
    planUpdates_error_keeps_entry_operations Scenario.repAB Scenario.ipA1B1 3
      [Scenario.packageA, Scenario.packageB] [] [Scenario.installB1] false false ""
      "Unsatisfiable dependency: C (C) [1.0, 2.0)"
      [Scenario.installB1,
         { package := "A", version := ⟨[1, 0]⟩, install := false, where_ := "" },
         { package := "A", version := ⟨[2, 0]⟩, install := true, where_ := "" }]
      (by decide) (by decide)⟩

/-! ## Update planning: a co-located update -/

theorem PackageVersion.indexOf_nonneg_iff (l : List PackageVersion) (f : PackageVersion) :
    0 ≤ PackageVersion.indexOf l f ↔
      ∃ q ∈ l, q.package = f.package ∧ q.version.compare f.version = 0 := by
  induction l with
  | nil => simp [PackageVersion.indexOf]
  | cons pv rest ih =>
    rw [PackageVersion.indexOf]
    by_cases hm : pv.package = f.package ∧ pv.version.compare f.version = 0
    · rw [if_pos hm]
      simp only [le_refl, true_iff]
      exact ⟨pv, List.mem_cons_self _ _, hm⟩
    · rw [if_neg hm]
      simp only []
      constructor
      · intro h
        split at h
        · omega
        · rename_i hr
          obtain ⟨q, hq, hs⟩ := ih.1 (by omega)
          exact ⟨q, List.mem_cons_of_mem _ hq, hs⟩
      · rintro ⟨q, hq, hs⟩
        rcases List.mem_cons.1 hq with rfl | hq
        · exact absurd hs hm
        · have := ih.2 ⟨q, hq, hs⟩
          split <;> omega

theorem PackageVersion.contains_eq_false (l : List PackageVersion) (f : PackageVersion)
    (h : ∀ q ∈ l, ¬ (q.package = f.package ∧ q.version.compare f.version = 0)) :
    PackageVersion.contains l f = false := by
  unfold PackageVersion.contains
  rw [decide_eq_false_iff_not, PackageVersion.indexOf_nonneg_iff]
  rintro ⟨q, hq, hs⟩
  exact h q hq hs

theorem planUninstallation_no_dependents (fuel : Nat) (pv : PackageVersion)
    (installed : List PackageVersion) (ops : List InstallOperation)
    (h : installed.filter (isLastProvider pv installed) = []) :
    planUninstallation (fuel + 1) pv installed ops =
      some ("", installed.filter (fun q => !q.same pv),
        ops ++ [{ package := pv.package, version := pv.version, install := false,
                  where_ := "" }]) := by
  rw [planUninstallation, h]
  simp [planUninstallation.dependents, isEmpty_empty, List.filter_filter]

theorem planInstallation.dependencies_satisfied (rep : Repository)
    (recur : PackageVersion → PlanState → Option (String × PlanState))
    (l : List Dependency) (st : PlanState)
    (h : ∀ d ∈ l, st.installed.any (fun q => d.satisfiedBy q) = true) :
    planInstallation.dependencies rep recur l st = some ("", st) := by
  induction l with
  | nil => rfl
  | cons d rest ih =>
    rw [planInstallation.dependencies, if_pos (h d (List.mem_cons_self _ _))]
    exact ih (fun q hq => h q (List.mem_cons_of_mem _ hq))

theorem planInstallation_no_unmet (rep : Repository) (fuel : Nat) (pv : PackageVersion)
    (st : PlanState) (where_ : String)
    (hi : PackageVersion.contains st.installed pv = false)
    (ha : PackageVersion.contains st.avoid pv = false)
    (hd : ∀ d ∈ pv.dependencies, st.installed.any (fun q => d.satisfiedBy q) = true) :
    planInstallation rep (fuel + 1) pv st where_ =
      some ("", { installed := st.installed ++ [pv],
                  ops := st.ops ++ [{ package := pv.package, version := pv.version,
                                      install := true, where_ := where_ }],
                  avoid := st.avoid ++ [pv] }) := by
  rw [planInstallation]
  simp only [hi, ha, Bool.false_eq_true, ↓reduceIte]
  rw [planInstallation.dependencies_satisfied rep _ pv.dependencies
    { installed := st.installed, ops := st.ops, avoid := st.avoid ++ [pv] } hd]
  simp [isEmpty_empty]

theorem isLastProvider_eq_false (pv : PackageVersion) (installed : List PackageVersion)
    (x : PackageVersion) (h : ∀ d ∈ x.dependencies, d.satisfiedBy pv = false) :
    isLastProvider pv installed x = false := by
  unfold isLastProvider
  rw [List.any_eq_false]
  intro d hd
  simp [h d hd]

theorem InstallOperation.simplify_uninstall_install (u i : InstallOperation)
    (hu : u.install = false) (hi : i.install = true) :
    InstallOperation.simplify [u, i] = [u, i] := by
  simp [InstallOperation.simplify, InstallOperation.simplify.go, hu, hi]

/-- C2: end-to-end update.  Let `b` be the newest installed version of package `A` and the
only installed version of the package of `a`, let `a` be the newest installable version of `A`
with `a > b`, let no installed package version have a dependency that `b` satisfies, and let
every dependency of `a` be satisfied by an installed version other than `b`.  Then
`planUpdates` for the single target `A`, started with an empty operation list and enough
recursion depth, returns no error and exactly the list [uninstall `b`, install `a`], in that
order; the install goes to the directory chosen by the co-location pass. -/
theorem planUpdates_end_to_end_update (rep : Repository) (ip : InstalledPackages) (fuel : Nat)
    (A : Package) (a b : PackageVersion) (keepDirectories install : Bool) (where_ : String)
    (ha : (findNewestInstallablePackageVersion_ rep A.name).2 = some a)
    (hb : (findNewestInstalledPackageVersion_ rep ip A.name).2 = some b)
    (hgt : a.version.compare b.version > 0)
    (honly : ∀ q ∈ (getInstalled_ rep ip).2, q.package = a.package → q.same b = true)
    (hnodep : ∀ x ∈ (getInstalled_ rep ip).2, ∀ d ∈ x.dependencies, d.satisfiedBy b = false)
    (hdeps : ∀ d ∈ a.dependencies,
      ∃ q ∈ (getInstalled_ rep ip).2, q.same b = false ∧ d.satisfiedBy q = true) :
    planUpdates rep ip (fuel + 1) [A] [] [] keepDirectories install where_ =
      some ("",
        [{ package := b.package, version := b.version, install := false, where_ := "" },
         { package := a.package, version := a.version, install := true,
           where_ := planUpdates.coLocateWhere ip keepDirectories where_ 0 b }]) := by
  have hex : planUpdates.examine rep ip install [A] [] =
      ("", [{ newest := a, newesti := some b, used := false }]) := by
    unfold planUpdates.examine
    rw [planUpdates.packagesLoop]
    simp [findNewestInstallablePackageVersion__err, findNewestInstalledPackageVersion__err,
      isEmpty_empty, ha, hb, hgt, planUpdates.packagesLoop, planUpdates.rangesLoop]
  have hun : planUninstallation (fuel + 1) b (getInstalled_ rep ip).2 [] =
      some ("", (getInstalled_ rep ip).2.filter (fun q => !q.same b),
        [{ package := b.package, version := b.version, install := false, where_ := "" }]) := by
    rw [planUninstallation_no_dependents]
    · rfl
    · rw [List.filter_eq_nil_iff]
      intro x hx
      rw [isLastProvider_eq_false b _ x (hnodep x hx)]
      simp
  have hin : planInstallation rep (fuel + 1) a
      { installed := (getInstalled_ rep ip).2.filter (fun q => !q.same b),
        ops := [{ package := b.package, version := b.version, install := false,
                  where_ := "" }],
        avoid := [] } (planUpdates.coLocateWhere ip keepDirectories where_ 0 b) =
      some ("", { installed := (getInstalled_ rep ip).2.filter (fun q => !q.same b) ++ [a],
                  ops := [{ package := b.package, version := b.version, install := false,
                            where_ := "" },
                          { package := a.package, version := a.version, install := true,
                            where_ := planUpdates.coLocateWhere ip keepDirectories
                              where_ 0 b }],
                  avoid := [a] }) := by
    rw [planInstallation_no_unmet]
    · rfl
    · apply PackageVersion.contains_eq_false
      intro q hq hs
      rw [List.mem_filter] at hq
      have := honly q hq.1 hs.1
      simp [this] at hq
    · rfl
    · intro d hd
      obtain ⟨q, hq, hqb, hsat⟩ := hdeps d hd
      rw [List.any_eq_true]
      exact ⟨q, List.mem_filter.2 ⟨hq, by simp [hqb]⟩, hsat⟩
  unfold planUpdates
  simp only [getInstalled__err, isEmpty_empty, hex, Bool.not_true, Bool.false_eq_true,
    ↓reduceIte, planUpdates.coLocationLoop, planUpdates.combined, hun, hin,
    Option.map_some', List.nil_append, planUpdates.installLoop, planUpdates.uninstallLoop]
  rw [InstallOperation.simplify_uninstall_install _ _ rfl rfl]

/-- C2 at the concrete state of the spec: A/1.0 installed, A/2.0 installable. -/
theorem planUpdates_end_to_end_update_witness :
    planUpdates Scenario.repA Scenario.ipA1 (0 + 1) [Scenario.packageA] [] [] false false "" =
      some ("",
        [{ package := "A", version := ⟨[1, 0]⟩, install := false, where_ := "" },
         { package := "A", version := ⟨[2, 0]⟩, install := true, where_ := "" }]) :=
  planUpdates_end_to_end_update Scenario.repA Scenario.ipA1 0 Scenario.packageA
    Scenario.a2 Scenario.a1 false false "" (by decide) (by decide) (by decide) (by decide)
    (by decide) (by decide)

/-! ## Identity of package versions -/

theorem Version.compare_eq_zero_trans (a b c : Version)
    (h1 : a.compare b = 0) (h2 : b.compare c = 0) : a.compare c = 0 := by
  have l1 := Version.compare_trans_le a b c (by omega) (by omega)
  have e1 := Version.compare_antisymm a b
  have e2 := Version.compare_antisymm b c
  have e3 := Version.compare_antisymm a c
  have l2 := Version.compare_trans_le c b a (by omega) (by omega)
  omega

theorem PackageVersion.same_iff (a b : PackageVersion) :
    a.same b = true ↔ a.package = b.package ∧ a.version.compare b.version = 0 := by
  simp [PackageVersion.same]

theorem PackageVersion.same_symm (a b : PackageVersion) (h : a.same b = true) :
    b.same a = true := by
  rw [PackageVersion.same_iff] at h ⊢
  have := Version.compare_antisymm a.version b.version
  exact ⟨h.1.symm, by omega⟩

theorem PackageVersion.same_trans (a b c : PackageVersion) (h1 : a.same b = true)
    (h2 : b.same c = true) : a.same c = true := by
  rw [PackageVersion.same_iff] at h1 h2 ⊢
  exact ⟨h1.1.trans h2.1, Version.compare_eq_zero_trans _ _ _ h1.2 h2.2⟩

theorem PackageVersion.contains_iff (l : List PackageVersion) (x : PackageVersion) :
    PackageVersion.contains l x = true ↔ memSame l x := by
  unfold PackageVersion.contains memSame
  rw [decide_eq_true_iff, PackageVersion.indexOf_nonneg_iff]
  constructor
  · rintro ⟨q, hq, hs⟩
    exact ⟨q, hq, (PackageVersion.same_iff q x).2 hs⟩
  · rintro ⟨q, hq, hs⟩
    exact ⟨q, hq, (PackageVersion.same_iff q x).1 hs⟩

theorem memSame_congr (l : List PackageVersion) (x y : PackageVersion)
    (h : x.same y = true) (hx : memSame l x) : memSame l y := by
  obtain ⟨q, hq, hs⟩ := hx
  exact ⟨q, hq, PackageVersion.same_trans q x y hs h⟩

/-! ## Shape of the plans of the two planners -/

theorem planUninstallation_dependents_shape
    (recur : PackageVersion → List PackageVersion → List InstallOperation →
      Option (String × List PackageVersion × List InstallOperation))
    (hrec : ∀ x inst ops r, recur x inst ops = some r → r.1.isEmpty = true →
      (∃ z, r.2.2 = ops ++ z ∧ z ≠ []) ∧ ∀ q ∈ r.2.1, q ∈ inst)
    (l : List PackageVersion) (inst : List PackageVersion) (ops : List InstallOperation)
    (r : String × List PackageVersion × List InstallOperation)
    (h : planUninstallation.dependents recur l inst ops = some r)
    (he : r.1.isEmpty = true) :
    (∃ x, r.2.2 = ops ++ x ∧ (l = [] → x = [] ∧ r.2.1 = inst) ∧ (l ≠ [] → x ≠ [])) ∧
    ∀ q ∈ r.2.1, q ∈ inst := by
  induction l generalizing inst ops with
  | nil =>
    simp only [planUninstallation.dependents, Option.some.injEq] at h
    subst h
    exact ⟨⟨[], by simp, fun _ => ⟨rfl, rfl⟩, fun hne => absurd rfl hne⟩, fun q hq => hq⟩
  | cons y rest ih =>
    rw [planUninstallation.dependents] at h
    cases hx : recur y inst ops with
    | none => rw [hx] at h; cases h
    | some r1 =>
      rw [hx] at h
      simp only [] at h
      by_cases he1 : r1.1.isEmpty = true
      · simp only [he1, Bool.not_true, Bool.false_eq_true, ↓reduceIte] at h
        obtain ⟨⟨z, hz, hzne⟩, hsub⟩ := hrec y inst ops r1 hx he1
        obtain ⟨⟨x, hx2, _, _⟩, hsub2⟩ := ih _ _ h
        refine ⟨⟨z ++ x, by rw [hx2, hz, List.append_assoc], by simp, fun _ => by simp [hzne]⟩,
          fun q hq => hsub q (hsub2 q hq)⟩
      · simp only [he1, Bool.not_false, ↓reduceIte, Option.some.injEq] at h
        subst h
        exact absurd he he1

theorem planUninstallation_shape (fuel : Nat) (pv : PackageVersion)
    (inst : List PackageVersion) (ops : List InstallOperation)
    (r : String × List PackageVersion × List InstallOperation)
    (h : planUninstallation fuel pv inst ops = some r) (he : r.1.isEmpty = true) :
    (∃ x, r.2.2 = ops ++ x ++ [{ package := pv.package, version := pv.version,
                                  install := false, where_ := "" }] ∧
      (inst.filter (isLastProvider pv inst) = [] →
        x = [] ∧ r.2.1 = inst.filter (fun q => !q.same pv)) ∧
      (inst.filter (isLastProvider pv inst) ≠ [] → x ≠ [])) ∧
    ∀ q ∈ r.2.1, q ∈ inst := by
  induction fuel generalizing pv inst ops r with
  | zero => simp [planUninstallation] at h
  | succ fuel ih =>
    rw [planUninstallation] at h
    cases hd : planUninstallation.dependents (planUninstallation fuel)
        (inst.filter (isLastProvider pv inst)) (inst.filter (fun q => !q.same pv)) ops with
    | none => rw [hd] at h; cases h
    | some r1 =>
      rw [hd] at h
      simp only [] at h
      by_cases he1 : r1.1.isEmpty = true
      · simp only [he1, Bool.not_true, Bool.false_eq_true, ↓reduceIte,
          Option.some.injEq] at h
        have hrec : ∀ x i o r, planUninstallation fuel x i o = some r → r.1.isEmpty = true →
            (∃ z, r.2.2 = o ++ z ∧ z ≠ []) ∧ ∀ q ∈ r.2.1, q ∈ i := by
          intro x i o r hr her
          obtain ⟨⟨z, hz, _, _⟩, hs⟩ := ih x i o r hr her
          exact ⟨⟨z ++ [_], by rw [hz, List.append_assoc], by simp⟩, hs⟩
        obtain ⟨⟨x, hx, hnil, hne⟩, hsub⟩ :=
          planUninstallation_dependents_shape _ hrec _ _ _ _ hd he1
        subst h
        refine ⟨⟨x, by simp only [hx], ?_, hne⟩, ?_⟩
        · intro hD
          obtain ⟨hx0, hi0⟩ := hnil hD
          exact ⟨hx0, by simp only [hi0, List.filter_filter, Bool.and_self]⟩
        · intro q hq
          exact (List.mem_filter.1 (hsub q (List.mem_filter.1 hq).1)).1
      · simp only [he1, Bool.not_false, ↓reduceIte, Option.some.injEq] at h
        subst h
        exact absurd he he1

theorem planInstallation_dependencies_shape (rep : Repository)
    (recur : PackageVersion → PlanState → Option (String × PlanState))
    (hrec : ∀ c s r, recur c s = some r → r.1.isEmpty = true →
      ∃ z, r.2.ops = s.ops ++ z ∧ (z = [] → r.2.installed = s.installed))
    (l : List Dependency) (st : PlanState) (r : String × PlanState)
    (h : planInstallation.dependencies rep recur l st = some r) (he : r.1.isEmpty = true) :
    ∃ y, r.2.ops = st.ops ++ y ∧ (y = [] → r.2.installed = st.installed) := by
  induction l generalizing st with
  | nil =>
    simp only [planInstallation.dependencies, Option.some.injEq] at h
    subst h
    exact ⟨[], by simp⟩
  | cons d rest ih =>
    rw [planInstallation.dependencies] at h
    split at h
    · exact ih _ h
    · simp only [findBestMatchToInstall_err, isEmpty_empty, Bool.not_true,
        Bool.false_eq_true, ↓reduceIte] at h
      split at h
      · simp only [Option.some.injEq] at h
        subst h
        simp only [String.append_assoc] at he
        rw [isEmpty_append_of_pos _ _ (by decide)] at he
        cases he
      · rename_i c hc
        cases hx : recur c st with
        | none => rw [hx] at h; cases h
        | some r1 =>
          rw [hx] at h
          simp only [] at h
          by_cases he1 : r1.1.isEmpty = true
          · simp only [he1, Bool.not_true, Bool.false_eq_true, ↓reduceIte] at h
            obtain ⟨z, hz, hz0⟩ := hrec c st r1 hx he1
            obtain ⟨y, hy, hy0⟩ := ih _ h
            refine ⟨z ++ y, by rw [hy, hz, List.append_assoc], ?_⟩
            intro hzy
            obtain ⟨hzn, hyn⟩ := List.append_eq_nil.1 hzy
            rw [hy0 hyn, hz0 hzn]
          · simp only [he1, Bool.not_false, ↓reduceIte, Option.some.injEq] at h
            subst h
            exact absurd he he1

theorem planInstallation_shape (rep : Repository) (fuel : Nat) (pv : PackageVersion)
    (st : PlanState) (where_ : String) (r : String × PlanState)
    (h : planInstallation rep fuel pv st where_ = some r) (he : r.1.isEmpty = true) :
    (PackageVersion.contains st.installed pv = true → r.2 = st) ∧
    (PackageVersion.contains st.installed pv = false →
      ∃ y, r.2.ops = st.ops ++ y ++ [{ package := pv.package, version := pv.version,
                                       install := true, where_ := where_ }] ∧
        (y = [] → r.2.installed = st.installed ++ [pv])) := by
  induction fuel generalizing pv st where_ r with
  | zero => simp [planInstallation] at h
  | succ fuel ih =>
    rw [planInstallation] at h
    by_cases hc : PackageVersion.contains st.installed pv = true
    · simp only [hc, ↓reduceIte, Option.some.injEq] at h
      subst h
      exact ⟨fun _ => rfl, fun hf => by rw [hc] at hf; cases hf⟩
    · have hcf : PackageVersion.contains st.installed pv = false := by simpa using hc
      simp only [hcf, Bool.false_eq_true, ↓reduceIte] at h
      refine ⟨fun ht => (by rw [hcf] at ht; cases ht), fun _ => ?_⟩
      split at h
      · simp only [Option.some.injEq] at h
        subst h
        simp only [String.append_assoc] at he
        rw [isEmpty_append_of_pos _ _ (by decide)] at he
        cases he
      · cases hd : planInstallation.dependencies rep
            (fun c s => planInstallation rep fuel c s "") pv.dependencies
            { st with avoid := st.avoid ++ [pv] } with
        | none => rw [hd] at h; cases h
        | some r1 =>
          rw [hd] at h
          simp only [] at h
          by_cases he1 : r1.1.isEmpty = true
          · simp only [he1, Bool.not_true, Bool.false_eq_true, ↓reduceIte,
              Option.some.injEq] at h
            have hrec : ∀ c s r, (fun c s => planInstallation rep fuel c s "") c s = some r →
                r.1.isEmpty = true →
                ∃ z, r.2.ops = s.ops ++ z ∧ (z = [] → r.2.installed = s.installed) := by
              intro c s r hr her
              obtain ⟨h1, h2⟩ := ih c s "" r hr her
              by_cases hcc : PackageVersion.contains s.installed c = true
              · rw [h1 hcc]
                exact ⟨[], by simp⟩
              · obtain ⟨y, hy, _⟩ := h2 (by simpa using hcc)
                exact ⟨y ++ [_], by rw [hy, List.append_assoc], by simp⟩
            obtain ⟨y, hy, hy0⟩ :=
              planInstallation_dependencies_shape rep _ hrec _ _ _ hd he1
            subst h
            exact ⟨y, by simp only [hy], fun hyn => by simp only [hy0 hyn]⟩
          · simp only [he1, Bool.not_false, ↓reduceIte, Option.some.injEq] at h
            subst h
            exact absurd he he1

/-! ## The co-location pass accepts only "uninstall old, install new" -/

theorem memSame_of_isLastProvider (pv : PackageVersion) (installed : List PackageVersion)
    (x : PackageVersion) (h : isLastProvider pv installed x = true) : memSame installed pv := by
  unfold isLastProvider at h
  rw [List.any_eq_true] at h
  obtain ⟨d, _, hd⟩ := h
  simp only [Bool.and_eq_true, List.any_eq_true, List.all_eq_true, Bool.or_eq_true,
    Bool.not_eq_true'] at hd
  obtain ⟨⟨_, q, hq, hsat⟩, hall⟩ := hd
  rcases hall q hq with hn | hs
  · rw [hsat] at hn; cases hn
  · exact ⟨q, hq, hs⟩

theorem planUpdates_combined_accepted (rep : Repository) (ip : InstalledPackages) (fuel : Nat)
    (keepDirectories : Bool) (where_ : String) (i : Nat) (a b : PackageVersion)
    (installed : List PackageVersion)
    (r : String × List PackageVersion × List InstallOperation)
    (hc : planUpdates.combined rep ip fuel keepDirectories where_ i a b installed = some r)
    (he : r.1.isEmpty = true) (hlen : r.2.2.length = 2)
    (hinv : ¬ (memSame installed a ∧ memSame installed b)) :
    r.2.2 = [{ package := b.package, version := b.version, install := false, where_ := "" },
             { package := a.package, version := a.version, install := true,
               where_ := planUpdates.coLocateWhere ip keepDirectories where_ i b }] ∧
    r.2.1 = installed.filter (fun q => !q.same b) ++ [a] := by
  unfold planUpdates.combined at hc
  cases hu : planUninstallation fuel b installed [] with
  | none => rw [hu] at hc; cases hc
  | some ru =>
    rw [hu] at hc
    simp only [] at hc
    by_cases heu : ru.1.isEmpty = true
    · simp only [heu, ↓reduceIte] at hc
      cases hi : planInstallation rep fuel a
          { installed := ru.2.1, ops := ru.2.2, avoid := [] }
          (planUpdates.coLocateWhere ip keepDirectories where_ i b) with
      | none => rw [hi] at hc; cases hc
      | some r2 =>
        rw [hi] at hc
        simp only [Option.some.injEq] at hc
        subst hc
        simp only [] at he hlen ⊢
        obtain ⟨⟨x, hx, hD0, hD1⟩, hsub⟩ := planUninstallation_shape fuel b installed [] ru hu heu
        obtain ⟨p1, p2⟩ := planInstallation_shape rep fuel a _ _ r2 hi he
        simp only [List.nil_append] at hx
        by_cases hcon : PackageVersion.contains ru.2.1 a = true
        · exfalso
          have hr2 := p1 hcon
          rw [hr2] at hlen
          simp only [hx, List.length_append, List.length_singleton] at hlen
          have hxne : x ≠ [] := by
            intro h0
            rw [h0] at hlen
            simp at hlen
          have hDne : installed.filter (isLastProvider b installed) ≠ [] := by
            intro h0
            exact hxne (hD0 h0).1
          obtain ⟨y, hy⟩ := List.exists_mem_of_ne_nil _ hDne
          have hb : memSame installed b :=
            memSame_of_isLastProvider b installed y (List.mem_filter.1 hy).2
          obtain ⟨q, hq, hs⟩ := (PackageVersion.contains_iff _ _).1 hcon
          exact hinv ⟨⟨q, hsub q hq, hs⟩, hb⟩
        · obtain ⟨y, hy, hy0⟩ := p2 (by simpa using hcon)
          simp only [] at hy hy0
          rw [hy, hx] at hlen
          simp only [List.length_append, List.length_singleton] at hlen
          have hx0 : x = [] := List.eq_nil_of_length_eq_zero (by omega)
          have hy00 : y = [] := List.eq_nil_of_length_eq_zero (by omega)
          have hD : installed.filter (isLastProvider b installed) = [] := by
            by_contra hne
            exact hD1 hne hx0
          rw [hy, hx, hx0, hy00, hy0 hy00, (hD0 hD).2]
          simp
    · simp only [heu, Bool.false_eq_true, ↓reduceIte, Option.some.injEq] at hc
      subst hc
      exact absurd he heu

theorem memSame_filter_append (installed : List PackageVersion) (a b x : PackageVersion)
    (h : memSame (installed.filter (fun q => !q.same b) ++ [a]) x) :
    (memSame installed x ∧ x.same b = false) ∨ a.same x = true := by
  obtain ⟨q, hq, hs⟩ := h
  rcases List.mem_append.1 hq with hq | hq
  · rw [List.mem_filter] at hq
    left
    refine ⟨⟨q, hq.1, hs⟩, ?_⟩
    by_contra hxb
    have hxb : x.same b = true := by simpa using hxb
    have := PackageVersion.same_trans q x b hs hxb
    simp [this] at hq
  · rw [List.mem_singleton] at hq
    subst hq
    exact Or.inr hs

theorem planUpdates_coLocationInv_accept (inst0 : List PackageVersion) (ps : List UpdatePair)
    (hG : planUpdates.pairsConsistent inst0 ps) (s : UpdatePair) (bs : PackageVersion)
    (hs : s ∈ ps) (hbs : s.newesti = some bs) (installed : List PackageVersion)
    (rest : List UpdatePair) (hR : ∀ t ∈ rest, t ∈ ps)
    (hinv : planUpdates.coLocationInv installed rest) :
    planUpdates.coLocationInv (installed.filter (fun q => !q.same bs) ++ [s.newest]) rest := by
  obtain ⟨g1, g2, g3⟩ := hG
  intro t ht b hb ⟨h1, h2⟩
  rcases memSame_filter_append _ _ _ _ h2 with ⟨hB, hBne⟩ | hB
  · rcases memSame_filter_append _ _ _ _ h1 with ⟨hA, _⟩ | hA
    · exact hinv t ht b hb ⟨hA, hB⟩
    · have := g3 s hs t (hR t ht) bs b hbs hb hA
      have := PackageVersion.same_symm _ _ this
      rw [this] at hBne
      cases hBne
  · exact g1 s hs bs hbs
      (memSame_congr inst0 b s.newest (PackageVersion.same_symm _ _ hB) (g2 t (hR t ht) b hb))

theorem planUpdates_coLocationLoop_inv (rep : Repository) (ip : InstalledPackages)
    (fuel : Nat) (keepDirectories : Bool) (where_ : String) (inst0 : List PackageVersion)
    (ps : List UpdatePair) (hG : planUpdates.pairsConsistent inst0 ps)
    (l : List UpdatePair) (rest : List UpdatePair) (i : Nat)
    (installed : List PackageVersion) (ops : List InstallOperation)
    (r : List UpdatePair × List PackageVersion × List InstallOperation)
    (hsub : ∀ t ∈ l ++ rest, t ∈ ps)
    (hinv : planUpdates.coLocationInv installed (l ++ rest))
    (h : planUpdates.coLocationLoop rep ip fuel keepDirectories where_ i l installed ops
      = some r) :
    planUpdates.coLocationInv r.2.1 rest := by
  induction l generalizing i installed ops r with
  | nil =>
    simp only [planUpdates.coLocationLoop, Option.some.injEq] at h
    subst h
    exact hinv
  | cons s tl ih =>
    have hsub2 : ∀ t ∈ tl ++ rest, t ∈ ps :=
      fun t ht => hsub t (List.mem_cons_of_mem _ ht)
    have hinv2 : planUpdates.coLocationInv installed (tl ++ rest) :=
      fun t ht => hinv t (List.mem_cons_of_mem _ ht)
    rw [planUpdates.coLocationLoop] at h
    split at h
    · simp only [Option.map_eq_some'] at h
      obtain ⟨r1, hr1, rfl⟩ := h
      exact ih _ _ _ r1 hsub2 hinv2 hr1
    · rename_i b hb
      split at h
      · cases h
      · rename_i rc hrc
        split at h
        · rename_i o0 o1 hemp hops
          simp only [Option.map_eq_some'] at h
          obtain ⟨r1, hr1, rfl⟩ := h
          obtain ⟨_, hinst⟩ := planUpdates_combined_accepted rep ip fuel keepDirectories
            where_ i s.newest b installed rc hrc hemp (by rw [hops]; rfl)
            (hinv s (List.mem_cons_self _ _) b hb)
          rw [hinst] at hr1
          exact ih _ _ _ r1 hsub2
            (planUpdates_coLocationInv_accept inst0 ps hG s b
              (hsub s (List.mem_cons_self _ _)) hb installed _ hsub2 hinv2) hr1
        · simp only [Option.map_eq_some'] at h
          obtain ⟨r1, hr1, rfl⟩ := h
          exact ih _ _ _ r1 hsub2 hinv2 hr1

/-! ## The pairs found by the examination of the targets -/

theorem Dependency.test_convex (d : Dependency) (lo x hi : Version)
    (hlo : d.test lo = true) (hhi : d.test hi = true)
    (h1 : lo.compare x ≤ 0) (h2 : x.compare hi ≤ 0) : d.test x = true := by
  unfold Dependency.test at hlo hhi ⊢
  simp only [Bool.and_eq_true] at hlo hhi ⊢
  have a1 := Version.compare_antisymm lo d.min
  have a2 := Version.compare_antisymm x d.min
  have a3 := Version.compare_antisymm hi d.max
  have a4 := Version.compare_antisymm x d.max
  constructor
  · have hl := hlo.1
    cases hmi : d.minIncluded
    · simp only [hmi, Bool.false_eq_true, ↓reduceIte, decide_eq_true_eq] at hl ⊢
      by_contra hc
      have := Version.compare_trans_le lo x d.min h1 (by omega)
      omega
    · simp only [hmi, ↓reduceIte, decide_eq_true_eq] at hl ⊢
      have := Version.compare_trans_le d.min lo x (by omega) h1
      omega
  · have hh := hhi.2
    cases hma : d.maxIncluded
    · simp only [hma, Bool.false_eq_true, ↓reduceIte, decide_eq_true_eq] at hh ⊢
      by_contra hc
      have := Version.compare_trans_le d.max x hi (by omega) h2
      omega
    · simp only [hma, ↓reduceIte, decide_eq_true_eq] at hh ⊢
      exact Version.compare_trans_le x hi d.max h2 hh

theorem getNewestInstalled_loop_some (package : String) (l : List InstalledPackageVersion)
    (res : Option InstalledPackageVersion) (r : InstalledPackageVersion)
    (h : InstalledPackages.getNewestInstalled.loop package l res = some r) :
    (res = some r ∨ (r ∈ l ∧ r.package = package)) ∧
    (∀ e ∈ l, e.package = package → e.version.compare r.version ≤ 0) ∧
    (∀ r0, res = some r0 → r0.version.compare r.version ≤ 0) := by
  induction l generalizing res with
  | nil =>
    simp only [InstalledPackages.getNewestInstalled.loop] at h
    subst h
    refine ⟨Or.inl rfl, by simp, ?_⟩
    intro r0 h0
    have h0 : r = r0 := Option.some.inj h0
    rw [← h0]
    exact le_of_eq (Version.compare_self _)
  | cons e rest ih =>
    unfold InstalledPackages.getNewestInstalled.loop at h
    by_cases hp : e.package = package
    · rw [if_pos hp] at h
      cases res with
      | none =>
        simp only [] at h
        obtain ⟨h1, h2, h3⟩ := ih _ h
        refine ⟨Or.inr ?_, ?_, by simp⟩
        · rcases h1 with h1 | h1
          · have h1 : e = r := Option.some.inj h1
            rw [← h1]
            exact ⟨List.mem_cons_self _ _, hp⟩
          · exact ⟨List.mem_cons_of_mem _ h1.1, h1.2⟩
        · intro q hq hqp
          rcases List.mem_cons.1 hq with rfl | hq
          · exact h3 _ rfl
          · exact h2 q hq hqp
      | some r1 =>
        simp only [] at h
        by_cases hgt : e.version.compare r1.version > 0
        · rw [if_pos hgt] at h
          obtain ⟨h1, h2, h3⟩ := ih _ h
          have he : e.version.compare r.version ≤ 0 := h3 _ rfl
          refine ⟨Or.inr ?_, ?_, ?_⟩
          · rcases h1 with h1 | h1
            · have h1 : e = r := Option.some.inj h1
              rw [← h1]
              exact ⟨List.mem_cons_self _ _, hp⟩
            · exact ⟨List.mem_cons_of_mem _ h1.1, h1.2⟩
          · intro q hq hqp
            rcases List.mem_cons.1 hq with rfl | hq
            · exact he
            · exact h2 q hq hqp
          · intro r0 h0
            have h0 : r1 = r0 := Option.some.inj h0
            rw [← h0]
            have := Version.compare_antisymm e.version r1.version
            exact Version.compare_trans_le _ _ _ (by omega) he
        · rw [if_neg hgt] at h
          obtain ⟨h1, h2, h3⟩ := ih _ h
          have hr1 : r1.version.compare r.version ≤ 0 := h3 _ rfl
          refine ⟨?_, ?_, ?_⟩
          · rcases h1 with h1 | h1
            · exact Or.inl h1
            · exact Or.inr ⟨List.mem_cons_of_mem _ h1.1, h1.2⟩
          · intro q hq hqp
            rcases List.mem_cons.1 hq with rfl | hq
            · exact Version.compare_trans_le _ _ _ (by omega) hr1
            · exact h2 q hq hqp
          · intro r0 h0
            have h0 : r1 = r0 := Option.some.inj h0
            rw [← h0]
            exact hr1
    · rw [if_neg hp] at h
      obtain ⟨h1, h2, h3⟩ := ih _ h
      refine ⟨?_, ?_, h3⟩
      · rcases h1 with h1 | h1
        · exact Or.inl h1
        · exact Or.inr ⟨List.mem_cons_of_mem _ h1.1, h1.2⟩
      · intro q hq hqp
        rcases List.mem_cons.1 hq with rfl | hq
        · exact absurd hqp hp
        · exact h2 q hq hqp

theorem getNewestInstalled_some (ip : InstalledPackages) (package : String)
    (r : InstalledPackageVersion) (h : ip.getNewestInstalled package = some r) :
    r ∈ ip.data ∧ r.package = package ∧
    ∀ e ∈ ip.data, e.package = package → e.version.compare r.version ≤ 0 := by
  obtain ⟨h1, h2, _⟩ := getNewestInstalled_loop_some package ip.data none r h
  rcases h1 with h1 | h1
  · cases h1
  · exact ⟨h1.1, h1.2, h2⟩

theorem findHighestInstalledMatch_loop_some (l : List InstalledPackageVersion)
    (res : Option InstalledPackageVersion) (r : InstalledPackageVersion)
    (h : findHighestInstalledMatch.loop l res = some r) :
    (res = some r ∨ r ∈ l) ∧
    (∀ e ∈ l, e.version.compare r.version ≤ 0) ∧
    (∀ r0, res = some r0 → r0.version.compare r.version ≤ 0) := by
  induction l generalizing res with
  | nil =>
    simp only [findHighestInstalledMatch.loop] at h
    subst h
    refine ⟨Or.inl rfl, by simp, ?_⟩
    intro r0 h0
    have h0 : r = r0 := Option.some.inj h0
    rw [← h0]
    exact le_of_eq (Version.compare_self _)
  | cons e rest ih =>
    unfold findHighestInstalledMatch.loop at h
    cases res with
    | none =>
      simp only [↓reduceIte] at h
      obtain ⟨h1, h2, h3⟩ := ih _ h
      refine ⟨Or.inr ?_, ?_, by simp⟩
      · rcases h1 with h1 | h1
        · have h1 : e = r := Option.some.inj h1
          rw [← h1]
          exact List.mem_cons_self _ _
        · exact List.mem_cons_of_mem _ h1
      · intro q hq
        rcases List.mem_cons.1 hq with rfl | hq
        · exact h3 _ rfl
        · exact h2 q hq
    | some r1 =>
      simp only [decide_eq_true_eq] at h
      by_cases hgt : e.version.compare r1.version > 0
      · rw [if_pos hgt] at h
        obtain ⟨h1, h2, h3⟩ := ih _ h
        have he : e.version.compare r.version ≤ 0 := h3 _ rfl
        refine ⟨Or.inr ?_, ?_, ?_⟩
        · rcases h1 with h1 | h1
          · have h1 : e = r := Option.some.inj h1
            rw [← h1]
            exact List.mem_cons_self _ _
          · exact List.mem_cons_of_mem _ h1
        · intro q hq
          rcases List.mem_cons.1 hq with rfl | hq
          · exact he
          · exact h2 q hq
        · intro r0 h0
          have h0 : r1 = r0 := Option.some.inj h0
          rw [← h0]
          have := Version.compare_antisymm e.version r1.version
          exact Version.compare_trans_le _ _ _ (by omega) he
      · rw [if_neg hgt] at h
        obtain ⟨h1, h2, h3⟩ := ih _ h
        have hr1 : r1.version.compare r.version ≤ 0 := h3 _ rfl
        refine ⟨?_, ?_, ?_⟩
        · rcases h1 with h1 | h1
          · exact Or.inl h1
          · exact Or.inr (List.mem_cons_of_mem _ h1)
        · intro q hq
          rcases List.mem_cons.1 hq with rfl | hq
          · exact Version.compare_trans_le _ _ _ (by omega) hr1
          · exact h2 q hq
        · intro r0 h0
          have h0 : r1 = r0 := Option.some.inj h0
          rw [← h0]
          exact hr1

theorem findHighestInstalledMatch_some (ip : InstalledPackages) (d : Dependency)
    (r : InstalledPackageVersion) (h : findHighestInstalledMatch ip d = some r) :
    r ∈ ip.data ∧ r.package = d.package ∧ d.test r.version = true ∧
    ∀ e ∈ ip.data, e.package = d.package → d.test e.version = true →
      e.version.compare r.version ≤ 0 := by
  obtain ⟨h1, h2, _⟩ := findHighestInstalledMatch_loop_some _ none r h
  have hmem : ∀ e, e ∈ findAllInstalledMatches ip d ↔
      e ∈ ip.data ∧ e.package = d.package ∧ d.test e.version = true := by
    intro e
    simp [findAllInstalledMatches, InstalledPackages.getAll, List.mem_filter]
  rcases h1 with h1 | h1
  · cases h1
  · obtain ⟨m1, m2, m3⟩ := (hmem r).1 h1
    exact ⟨m1, m2, m3, fun e he hp ht => h2 e ((hmem e).2 ⟨he, hp, ht⟩)⟩

theorem findNewestInstallable_loop_mem (l : List PackageVersion)
    (r0 : Option PackageVersion) (a : PackageVersion)
    (h : findNewestInstallablePackageVersion_.loop l r0 = some a) : r0 = some a ∨ a ∈ l := by
  induction l generalizing r0 with
  | nil => exact Or.inl h
  | cons p rest ih =>
    unfold findNewestInstallablePackageVersion_.loop at h
    split at h
    · split at h
      · rcases ih _ h with h1 | h1
        · have h1 : p = a := Option.some.inj h1
          rw [← h1]
          exact Or.inr (List.mem_cons_self _ _)
        · exact Or.inr (List.mem_cons_of_mem _ h1)
      · rcases ih _ h with h1 | h1
        · exact Or.inl h1
        · exact Or.inr (List.mem_cons_of_mem _ h1)
    · rcases ih _ h with h1 | h1
      · exact Or.inl h1
      · exact Or.inr (List.mem_cons_of_mem _ h1)

theorem findNewestInstallable_mem (rep : Repository) (package : String) (a : PackageVersion)
    (h : (findNewestInstallablePackageVersion_ rep package).2 = some a) :
    a ∈ QMultiMap.values rep.package2versions package := by
  unfold findNewestInstallablePackageVersion_ at h
  have e : (rep.getPackageVersions_ package).1.isEmpty = true := rfl
  simp only [e, ↓reduceIte] at h
  rcases findNewestInstallable_loop_mem _ none a h with h1 | h1
  · cases h1
  · exact (mem_getPackageVersions_ rep package a).1 h1

theorem mem_values_package (rep : Repository) (hkey : rep.keysMatch) (package : String)
    (x : PackageVersion) (h : x ∈ QMultiMap.values rep.package2versions package) :
    x.package = package := by
  unfold QMultiMap.values at h
  rw [List.mem_map] at h
  obtain ⟨e, he, rfl⟩ := h
  rw [List.mem_filter] at he
  have := hkey e he.1
  have h2 : e.1 = package := by simpa using he.2
  rw [this, h2]

theorem findPackageVersion_some (rep : Repository) (package : String) (v : Version)
    (b : PackageVersion) (h : rep.findPackageVersion package v = some b) :
    b ∈ QMultiMap.values rep.package2versions package ∧ b.version.compare v = 0 := by
  unfold Repository.findPackageVersion at h
  have h1 := List.mem_of_find?_eq_some h
  have h2 := List.find?_some h
  exact ⟨(mem_qSort _ _ b).1 h1, by simpa using h2⟩

theorem getInstalled_loop_mem (rep : Repository) (l : List InstalledPackageVersion)
    (ret : List PackageVersion) (q : PackageVersion) :
    q ∈ (getInstalled_.loop rep l ret).2 ↔
      q ∈ ret ∨ ∃ e ∈ l, rep.findPackageVersion e.package e.version = some q := by
  induction l generalizing ret with
  | nil => simp [getInstalled_.loop]
  | cons e rest ih =>
    rw [getInstalled_.loop]
    have e1 : (rep.findPackageVersion_ e.package e.version).1 = "" := rfl
    have e2 : (rep.findPackageVersion_ e.package e.version).2 =
        rep.findPackageVersion e.package e.version := rfl
    simp only [e1, e2, isEmpty_empty, Bool.not_true, Bool.false_eq_true, ↓reduceIte]
    cases hf : rep.findPackageVersion e.package e.version with
    | none =>
      simp only []
      rw [ih]
      simp [hf]
    | some pv =>
      simp only []
      rw [ih]
      constructor
      · rintro (h | ⟨e2, he2, hf2⟩)
        · rcases List.mem_append.1 h with h | h
          · exact Or.inl h
          · rw [List.mem_singleton] at h
            subst h
            exact Or.inr ⟨e, List.mem_cons_self _ _, hf⟩
        · exact Or.inr ⟨e2, List.mem_cons_of_mem _ he2, hf2⟩
      · rintro (h | ⟨e2, he2, hf2⟩)
        · exact Or.inl (List.mem_append_left _ h)
        · rcases List.mem_cons.1 he2 with rfl | he2
          · rw [hf] at hf2
            have hf2 : pv = q := Option.some.inj hf2
            rw [← hf2]
            exact Or.inl (List.mem_append_right _ (List.mem_singleton_self _))
          · exact Or.inr ⟨e2, he2, hf2⟩

theorem mem_getInstalled_ (rep : Repository) (ip : InstalledPackages) (q : PackageVersion) :
    q ∈ (getInstalled_ rep ip).2 ↔
      ∃ e ∈ ip.data, rep.findPackageVersion e.package e.version = some q := by
  unfold getInstalled_ InstalledPackages.getAll
  rw [getInstalled_loop_mem]
  simp

theorem planUpdates_pairSpec_of_package (rep : Repository) (ip : InstalledPackages)
    (hkey : rep.keysMatch) (name : String) (a b : PackageVersion)
    (ha : (findNewestInstallablePackageVersion_ rep name).2 = some a)
    (hb : (findNewestInstalledPackageVersion_ rep ip name).2 = some b)
    (hgt : a.version.compare b.version > 0) :
    planUpdates.pairSpec rep ip { newest := a, newesti := some b, used := false } := by
  intro b2 hb2
  have hb2 : b = b2 := Option.some.inj hb2
  subst hb2
  have hap : a.package = name :=
    mem_values_package rep hkey name a (findNewestInstallable_mem rep name a ha)
  unfold findNewestInstalledPackageVersion_ at hb
  cases hn : ip.getNewestInstalled name with
  | none => rw [hn] at hb; cases hb
  | some ipv =>
    rw [hn] at hb
    obtain ⟨m1, m2, m3⟩ := getNewestInstalled_some ip name ipv hn
    refine ⟨fun e => e.package = name, ipv, m1, m2, fun e he hs => m3 e he hs,
      fun e _ hp _ _ => hp.trans hap, by rw [m2]; exact hap.symm, ?_, hgt⟩
    rw [m2]
    exact hb

theorem planUpdates_pairSpec_of_range (rep : Repository) (ip : InstalledPackages)
    (hkey : rep.keysMatch) (d : Dependency) (a b : PackageVersion)
    (ipv : InstalledPackageVersion)
    (ha : (findBestMatchToInstall rep d []).2 = some a)
    (hi : findHighestInstalledMatch ip d = some ipv)
    (hb : (rep.findPackageVersion_ ipv.package ipv.version).2 = some b)
    (hgt : a.version.compare b.version > 0) :
    planUpdates.pairSpec rep ip { newest := a, newesti := some b, used := false } := by
  intro b2 hb2
  have hb2 : b = b2 := Option.some.inj hb2
  subst hb2
  obtain ⟨hmem, hcand⟩ := findBestMatchToInstall_some_candidate rep d [] a ha
  have hap : a.package = d.package := mem_values_package rep hkey _ a hmem
  obtain ⟨m1, m2, m3, m4⟩ := findHighestInstalledMatch_some ip d ipv hi
  refine ⟨fun e => e.package = d.package ∧ d.test e.version = true, ipv, m1, ⟨m2, m3⟩,
    fun e he hs => m4 e he hs.1 hs.2, ?_, by rw [m2]; exact hap.symm, hb, hgt⟩
  intro e _ hp h1 h2
  exact ⟨hp.trans hap, Dependency.test_convex d ipv.version e.version a.version m3
    hcand.1 h1 h2⟩

theorem planUpdates_packagesLoop_pairSpec (rep : Repository) (ip : InstalledPackages)
    (hkey : rep.keysMatch) (install : Bool) (l : List Package) (acc : List UpdatePair)
    (hacc : ∀ t ∈ acc, planUpdates.pairSpec rep ip t) :
    ∀ t ∈ (planUpdates.packagesLoop rep ip install l acc).2, planUpdates.pairSpec rep ip t := by
  induction l generalizing acc with
  | nil => simpa [planUpdates.packagesLoop] using hacc
  | cons p rest ih =>
    rw [planUpdates.packagesLoop]
    simp only [findNewestInstallablePackageVersion__err,
      findNewestInstalledPackageVersion__err, isEmpty_empty, Bool.not_true,
      Bool.false_eq_true, ↓reduceIte]
    split
    · exact hacc
    · rename_i a ha
      split
      · exact hacc
      · split
        · rename_i hcond
          apply ih
          intro t ht
          rcases List.mem_append.1 ht with ht | ht
          · exact hacc t ht
          · rw [List.mem_singleton] at ht
            subst ht
            cases hb : (findNewestInstalledPackageVersion_ rep ip p.name).2 with
            | none => intro b2 hb2; cases hb2
            | some b =>
              rw [hb] at hcond
              exact planUpdates_pairSpec_of_package rep ip hkey p.name a b ha hb
                (by simpa using hcond)
        · exact ih acc hacc

theorem planUpdates_rangesLoop_pairSpec (rep : Repository) (ip : InstalledPackages)
    (hkey : rep.keysMatch) (install : Bool) (l : List Dependency) (acc : List UpdatePair)
    (hacc : ∀ t ∈ acc, planUpdates.pairSpec rep ip t) :
    ∀ t ∈ (planUpdates.rangesLoop rep ip install l acc).2, planUpdates.pairSpec rep ip t := by
  induction l generalizing acc with
  | nil => simpa [planUpdates.rangesLoop] using hacc
  | cons d rest ih =>
    rw [planUpdates.rangesLoop]
    split
    · exact hacc
    · simp only [findBestMatchToInstall_err, isEmpty_empty, Bool.not_true,
        Bool.false_eq_true, ↓reduceIte]
      split
      · exact hacc
      · rename_i a ha
        cases hi : findHighestInstalledMatch ip d with
        | none =>
          simp only [isEmpty_empty, Bool.not_true, Bool.false_eq_true, ↓reduceIte]
          split
          · exact hacc
          · apply ih
            intro t ht
            rcases List.mem_append.1 ht with ht | ht
            · exact hacc t ht
            · rw [List.mem_singleton] at ht
              subst ht
              intro b2 hb2
              cases hb2
        | some ipv =>
          have e : (rep.findPackageVersion_ ipv.package ipv.version).1 = "" := rfl
          simp only [e, isEmpty_empty, Bool.not_true, Bool.false_eq_true, ↓reduceIte]
          split
          · exact hacc
          · split
            · rename_i hcond
              apply ih
              intro t ht
              rcases List.mem_append.1 ht with ht | ht
              · exact hacc t ht
              · rw [List.mem_singleton] at ht
                subst ht
                cases hb : (rep.findPackageVersion_ ipv.package ipv.version).2 with
                | none => intro b2 hb2; cases hb2
                | some b =>
                  rw [hb] at hcond
                  exact planUpdates_pairSpec_of_range rep ip hkey d a b ipv ha hi hb
                    (by simpa using hcond)
            · exact ih acc hacc

theorem planUpdates_examine_pairSpec (rep : Repository) (ip : InstalledPackages)
    (hkey : rep.keysMatch) (install : Bool) (packages : List Package)
    (ranges : List Dependency) :
    ∀ t ∈ (planUpdates.examine rep ip install packages ranges).2,
      planUpdates.pairSpec rep ip t := by
  unfold planUpdates.examine
  simp only []
  split
  · exact planUpdates_rangesLoop_pairSpec rep ip hkey install ranges _
      (planUpdates_packagesLoop_pairSpec rep ip hkey install packages [] (by simp))
  · exact planUpdates_packagesLoop_pairSpec rep ip hkey install packages [] (by simp)

theorem Version.ge_of_eq_zero (a b : Version) (h : a.compare b = 0) : b.compare a ≤ 0 := by
  have := Version.compare_antisymm a b
  omega

theorem Version.le_of_gt (a b : Version) (h : a.compare b > 0) : b.compare a ≤ 0 := by
  have := Version.compare_antisymm a b
  omega

theorem PackageVersion.same_refl (a : PackageVersion) : a.same a = true := by
  rw [PackageVersion.same_iff]
  exact ⟨rfl, Version.compare_self _⟩

theorem planUpdates_pairsConsistent (rep : Repository) (ip : InstalledPackages)
    (hkey : rep.keysMatch) (ps : List UpdatePair)
    (hps : ∀ t ∈ ps, planUpdates.pairSpec rep ip t) :
    planUpdates.pairsConsistent (getInstalled_ rep ip).2 ps := by
  refine ⟨?_, ?_, ?_⟩
  · intro t ht b hb
    obtain ⟨sel, ipv, m_in, _, m_max, m_conv, _, m_find, m_gt⟩ := hps t ht b hb
    obtain ⟨_, hbv⟩ := findPackageVersion_some rep _ _ b m_find
    rintro ⟨q, hq, hs⟩
    obtain ⟨e, he, hfe⟩ := (mem_getInstalled_ rep ip q).1 hq
    obtain ⟨hqm, hqv⟩ := findPackageVersion_some rep _ _ q hfe
    have hqp : q.package = e.package := mem_values_package rep hkey _ q hqm
    rw [PackageVersion.same_iff] at hs
    have hep : e.package = t.newest.package := hqp.symm.trans hs.1
    have c1 : ipv.version.compare b.version ≤ 0 := Version.ge_of_eq_zero _ _ hbv
    have c2 : b.version.compare t.newest.version ≤ 0 := Version.le_of_gt _ _ m_gt
    have c3 : t.newest.version.compare q.version ≤ 0 := Version.ge_of_eq_zero _ _ hs.2
    have c4 : q.version.compare e.version ≤ 0 := le_of_eq hqv
    have c5 : e.version.compare q.version ≤ 0 := Version.ge_of_eq_zero _ _ hqv
    have c6 : q.version.compare t.newest.version ≤ 0 := le_of_eq hs.2
    have c7 : b.version.compare ipv.version ≤ 0 := le_of_eq hbv
    have h1 : ipv.version.compare e.version ≤ 0 :=
      Version.compare_trans_le _ _ _ c1
        (Version.compare_trans_le _ _ _ c2 (Version.compare_trans_le _ _ _ c3 c4))
    have h2 : e.version.compare t.newest.version ≤ 0 := Version.compare_trans_le _ _ _ c5 c6
    have h3 := m_max e he (m_conv e he hep h1 h2)
    have h4 : t.newest.version.compare b.version ≤ 0 :=
      Version.compare_trans_le _ _ _ c3
        (Version.compare_trans_le _ _ _ c4 (Version.compare_trans_le _ _ _ h3 c1))
    omega
  · intro t ht b hb
    obtain ⟨sel, ipv, m_in, _, _, _, _, m_find, _⟩ := hps t ht b hb
    exact ⟨b, (mem_getInstalled_ rep ip b).2 ⟨ipv, m_in, m_find⟩, PackageVersion.same_refl b⟩
  · intro t ht t2 ht2 b b2 hb hb2 hsame
    obtain ⟨sel, ipv, m_in, _, m_max, m_conv, m_pkg, m_find, m_gt⟩ := hps t ht b hb
    obtain ⟨sel2, ipv2, n_in, _, n_max, n_conv, n_pkg, n_find, n_gt⟩ := hps t2 ht2 b2 hb2
    obtain ⟨hbm, hbv⟩ := findPackageVersion_some rep _ _ b m_find
    obtain ⟨hbm2, hbv2⟩ := findPackageVersion_some rep _ _ b2 n_find
    have hbp : b.package = ipv.package := mem_values_package rep hkey _ b hbm
    have hbp2 : b2.package = ipv2.package := mem_values_package rep hkey _ b2 hbm2
    rw [PackageVersion.same_iff] at hsame
    have a12 : t.newest.version.compare t2.newest.version ≤ 0 := le_of_eq hsame.2
    have a21 : t2.newest.version.compare t.newest.version ≤ 0 :=
      Version.ge_of_eq_zero _ _ hsame.2
    have u1 : ipv.version.compare t.newest.version ≤ 0 :=
      Version.compare_trans_le _ _ _ (Version.ge_of_eq_zero _ _ hbv) (Version.le_of_gt _ _ m_gt)
    have u2 : ipv2.version.compare t2.newest.version ≤ 0 :=
      Version.compare_trans_le _ _ _ (Version.ge_of_eq_zero _ _ hbv2)
        (Version.le_of_gt _ _ n_gt)
    have hii : ipv.version.compare ipv2.version = 0 := by
      have anti := Version.compare_antisymm ipv.version ipv2.version
      by_cases hle : ipv.version.compare ipv2.version ≤ 0
      · have hs2 := m_conv ipv2 n_in (by rw [n_pkg, hsame.1]) hle
          (Version.compare_trans_le _ _ _ u2 a21)
        have := m_max ipv2 n_in hs2
        omega
      · have hle2 : ipv2.version.compare ipv.version ≤ 0 := by omega
        have hs1 := n_conv ipv m_in (by rw [m_pkg, hsame.1]) hle2
          (Version.compare_trans_le _ _ _ u1 a12)
        have := n_max ipv m_in hs1
        omega
    rw [PackageVersion.same_iff]
    refine ⟨by rw [hbp, hbp2, m_pkg, n_pkg, hsame.1], ?_⟩
    have hi2b2 : ipv2.version.compare b2.version = 0 := by
      have := Version.compare_antisymm b2.version ipv2.version
      omega
    exact Version.compare_eq_zero_trans _ _ _ hbv
      (Version.compare_eq_zero_trans _ _ _ hii hi2b2)

theorem planUpdates_coLocationLoop_append (rep : Repository) (ip : InstalledPackages)
    (fuel : Nat) (keepDirectories : Bool) (where_ : String) (pre post : List UpdatePair)
    (i : Nat) (installed : List PackageVersion) (ops : List InstallOperation) :
    planUpdates.coLocationLoop rep ip fuel keepDirectories where_ i (pre ++ post) installed
        ops =
      (planUpdates.coLocationLoop rep ip fuel keepDirectories where_ i pre installed ops).bind
        (fun r1 =>
          (planUpdates.coLocationLoop rep ip fuel keepDirectories where_ (i + pre.length)
            post r1.2.1 r1.2.2).map (fun r2 => (r1.1 ++ r2.1, r2.2))) := by
  induction pre generalizing i installed ops with
  | nil => simp [planUpdates.coLocationLoop]
  | cons s tl ih =>
    have hidx : i + 1 + tl.length = i + (s :: tl).length := by simp; omega
    rw [List.cons_append, planUpdates.coLocationLoop, planUpdates.coLocationLoop]
    split
    · rw [ih, hidx]
      cases planUpdates.coLocationLoop rep ip fuel keepDirectories where_ (i + 1) tl
          installed ops with
      | none => rfl
      | some r1 =>
        simp only [Option.map_some', Option.some_bind, Option.map_map]
        rfl
    · split
      · rfl
      · split
        · rw [ih, hidx]
          rename_i rc _ _ _ o0 o1 _ _
          cases planUpdates.coLocationLoop rep ip fuel keepDirectories where_ (i + 1) tl
              rc.2.1 (ops ++ [o0, o1]) with
          | none => rfl
          | some r1 =>
            simp only [Option.map_some', Option.some_bind, Option.map_map]
            rfl
        · rw [ih, hidx]
          cases planUpdates.coLocationLoop rep ip fuel keepDirectories where_ (i + 1) tl
              installed ops with
          | none => rfl
          | some r1 =>
            simp only [Option.map_some', Option.some_bind, Option.map_map]
            rfl

/-- C4: in the co-location pass of `planUpdates` over a repository whose index files every
version under its own package name, let `t` be a pair with installed version `b`, reached
after the pairs `pre` with installed snapshot `r0.2.1`.  If the acceptance test of the pass
succeeds for `t` (the combined plan reports no error and holds two operations), then the
combined plan is exactly [uninstall `b`, install the newest version of `t`], in this order,
and these are the two operations folded into `ops` when the pair is marked used.  The two
planners are modelled from the spec. -/
theorem planUpdates_coLocation_accepts_only_uninstall_install (rep : Repository)
    (ip : InstalledPackages) (fuel : Nat) (keepDirectories install : Bool) (where_ : String)
    (packages : List Package) (ranges : List Dependency) (ops : List InstallOperation)
    (pre : List UpdatePair) (t : UpdatePair) (post : List UpdatePair)
    (r0 : List UpdatePair × List PackageVersion × List InstallOperation)
    (b : PackageVersion) (r : String × List PackageVersion × List InstallOperation)
    (hkey : rep.keysMatch)
    (hex : planUpdates.examine rep ip install packages ranges = ("", pre ++ t :: post))
    (hpre : planUpdates.coLocationLoop rep ip fuel keepDirectories where_ 0 pre
      (getInstalled_ rep ip).2 ops = some r0)
    (hb : t.newesti = some b)
    (hc : planUpdates.combined rep ip fuel keepDirectories where_ pre.length t.newest b
      r0.2.1 = some r)
    (he : r.1.isEmpty = true) (hlen : r.2.2.length = 2) :
    r.2.2 = [{ package := b.package, version := b.version, install := false, where_ := "" },
             { package := t.newest.package, version := t.newest.version, install := true,
               where_ := planUpdates.coLocateWhere ip keepDirectories where_ pre.length b }] ∧
    planUpdates.coLocationLoop rep ip fuel keepDirectories where_ pre.length (t :: post)
        r0.2.1 r0.2.2 =
      (planUpdates.coLocationLoop rep ip fuel keepDirectories where_ (pre.length + 1) post
        r.2.1
        (r0.2.2 ++
          [{ package := b.package, version := b.version, install := false, where_ := "" },
           { package := t.newest.package, version := t.newest.version, install := true,
             where_ := planUpdates.coLocateWhere ip keepDirectories where_
               pre.length b }])).map
        (fun r1 => ({ t with used := true } :: r1.1, r1.2)) := by
  have hspec := planUpdates_examine_pairSpec rep ip hkey install packages ranges
  rw [hex] at hspec
  have hG := planUpdates_pairsConsistent rep ip hkey (pre ++ t :: post) hspec
  have hinv0 : planUpdates.coLocationInv (getInstalled_ rep ip).2 (pre ++ t :: post) :=
    fun t2 ht2 b2 hb2 h => hG.1 t2 ht2 b2 hb2 h.1
  have hinv := planUpdates_coLocationLoop_inv rep ip fuel keepDirectories where_ _ _ hG pre
    (t :: post) 0 _ ops r0 (fun _ h => h) hinv0 hpre
  obtain ⟨hshape, _⟩ := planUpdates_combined_accepted rep ip fuel keepDirectories where_
    pre.length t.newest b r0.2.1 r hc he hlen (hinv t (List.mem_cons_self _ _) b hb)
  refine ⟨hshape, ?_⟩
  rw [planUpdates.coLocationLoop]
  simp only [hb, hc, he, hshape]

/-- C4 at a concrete state: A/1.0 installed, A/2.0 installable, target A. -/
theorem planUpdates_coLocation_accepts_only_uninstall_install_witness :
    Scenario.repA.keysMatch ∧
    planUpdates.examine Scenario.repA Scenario.ipA1 false [Scenario.packageA] [] =
      ("", [] ++ { newest := Scenario.a2, newesti := some Scenario.a1, used := false } :: []) ∧
    planUpdates.combined Scenario.repA Scenario.ipA1 1 false "" 0 Scenario.a2 Scenario.a1
      [Scenario.a1] = some ("", [Scenario.a2],
        [{ package := "A", version := ⟨[1, 0]⟩, install := false, where_ := "" },
         { package := "A", version := ⟨[2, 0]⟩, install := true, where_ := "" }]) ∧
    [({ package := "A", version := ⟨[1, 0]⟩, install := false, where_ := "" } :
        InstallOperation),
      { package := "A", version := ⟨[2, 0]⟩, install := true, where_ := "" }] =
      [{ package := Scenario.a1.package, version := Scenario.a1.version, install := false,
         where_ := "" },
       { package := Scenario.a2.package, version := Scenario.a2.version, install := true,
         where_ := planUpdates.coLocateWhere Scenario.ipA1 false "" 0 Scenario.a1 }] :=
  ⟨by unfold Repository.keysMatch; decide, by decide, by decide,
    (planUpdates_coLocation_accepts_only_uninstall_install Scenario.repA Scenario.ipA1 1
      false false "" [Scenario.packageA] [] [] []
      { newest := Scenario.a2, newesti := some Scenario.a1, used := false } []
      ([], [Scenario.a1], []) Scenario.a1
      ("", [Scenario.a2],
        [{ package := "A", version := ⟨[1, 0]⟩, install := false, where_ := "" },
         { package := "A", version := ⟨[2, 0]⟩, install := true, where_ := "" }])
      (by unfold Repository.keysMatch; decide) (by decide) (by decide) rfl (by decide)
      (by decide) (by decide)).1⟩

/-! ## The reorder stage of `process` -/

/-- C11: the reorder stage of `process`.  For a list of exactly two operations on the same
package, the first an install and the second an uninstall, the executor works on
`[second, first]`; for a list that is not of this shape (another length, different packages or
other install flags) the working list is the given list; in every case the working list is a
permutation of the given list and has its length. -/
theorem process_reorder_swaps_update_pair (l : List InstallOperation) :
    (∀ first second, l = [first, second] → first.package = second.package →
      first.install = true → second.install = false →
      process.reorder l = [second, first]) ∧
    ((∀ first second, l = [first, second] →
      ¬ (first.package = second.package ∧ first.install = true ∧ second.install = false)) →
      process.reorder l = l) ∧
    (process.reorder l).Perm l ∧ (process.reorder l).length = l.length := by
  refine ⟨?_, ?_, process.reorder_perm l, process.length_reorder l⟩
  · intro first second hl hp hi hu
    subst hl
    simp [process.reorder, hp, hi, hu, List.eraseIdx]
  · intro h
    unfold process.reorder
    split
    · rename_i h2
      match l, h2, h with
      | [a, b], _, h =>
        simp only [List.getElem?_cons_zero, List.getElem?_cons_succ]
        rw [if_neg (h a b rfl)]
    · rfl

/-- C11 at concrete lists: "install A/2.0, uninstall A/1.0" is worked on as "uninstall A/1.0,
install A/2.0"; "uninstall A/1.0, install A/2.0", "install A/1.0, install B/1.0" and a single
operation keep their order. -/
theorem process_reorder_swaps_update_pair_witness :
    process.reorder
        [{ package := "A", version := ⟨[2, 0]⟩, install := true, where_ := "" },
         { package := "A", version := ⟨[1, 0]⟩, install := false, where_ := "" }] =
      [{ package := "A", version := ⟨[1, 0]⟩, install := false, where_ := "" },
       { package := "A", version := ⟨[2, 0]⟩, install := true, where_ := "" }] ∧
    process.reorder [Scenario.installA1, Scenario.installB1] =
      [Scenario.installA1, Scenario.installB1] ∧
    process.reorder [Scenario.installA1] = [Scenario.installA1] :=
  ⟨(process_reorder_swaps_update_pair _).1 _ _ rfl rfl rfl rfl,
   (process_reorder_swaps_update_pair _).2.1 (by
      intro first second hl
      simp only [List.cons.injEq, and_true] at hl
      obtain ⟨h1, h2⟩ := hl
      subst h1 h2
      decide),
   (process_reorder_swaps_update_pair _).2.1 (by
      intro first second hl
      simp at hl)⟩

/-! ## The loops of `process` as iterations -/

theorem process.downloadLoop_eq_iterate {W : Type} (env : Env W) (interactive : Bool) (n : Nat)
    (pvs : List PackageVersion) (ops : List InstallOperation) (i : Nat) (st : Exec W) :
    process.downloadLoop env interactive n pvs i ops st =
      process.iterate (process.downloadIter env interactive n pvs) i ops st := by
  induction ops generalizing i st with
  | nil => rfl
  | cons op rest ih =>
    unfold process.downloadLoop process.iterate process.downloadIter
    cases pvs[i]? with
    | none => rfl
    | some pv =>
      simp only []
      by_cases hp : (process.downloadStep env interactive n i op pv st).job.shouldProceed = true
      · simp only [hp, Bool.not_true, Bool.false_eq_true, ↓reduceIte]
        exact ih _ _
      · have hp2 : (process.downloadStep env interactive n i op pv st).job.shouldProceed
            = false := by simpa using hp
        simp only [hp2, Bool.not_false, ↓reduceIte]

theorem process.stopLoop_eq_iterate {W : Type} (env : Env W) (programCloseType : Nat)
    (printScriptOutput : Bool) (n : Nat)
    (pvs : List PackageVersion) (ops : List InstallOperation) (i : Nat) (st : Exec W) :
    process.stopLoop env programCloseType printScriptOutput n pvs i ops st =
      process.iterate (process.stopIter env programCloseType printScriptOutput n pvs) i ops
        st := by
  induction ops generalizing i st with
  | nil => rfl
  | cons op rest ih =>
    unfold process.stopLoop process.iterate process.stopIter
    cases pvs[i]? with
    | none => rfl
    | some pv =>
      simp only []
      split_ifs
      · rfl
      · exact ih _ _
      · exact ih _ _

theorem process.applyLoop_eq_iterate {W : Type} (env : Env W) (programCloseType : Nat)
    (printScriptOutput : Bool) (n : Nat)
    (pvs : List PackageVersion) (ops : List InstallOperation) (i : Nat) (st : Exec W) :
    process.applyLoop env programCloseType printScriptOutput n pvs i ops st =
      process.iterate (process.applyIter env programCloseType printScriptOutput n pvs) i ops
        st := by
  induction ops generalizing i st with
  | nil => rfl
  | cons op rest ih =>
    have hc : ∀ (j : Job) (w : W) (steps : List Step),
        (if (!j.shouldProceed) = true then
            some ({ st with job := j, world := w, steps := steps } : Exec W)
          else process.applyLoop env programCloseType printScriptOutput n pvs (i + 1) rest
            { st with job := j, world := w, steps := steps, processed := i + 1 }) =
        (match (if (!j.shouldProceed) = true then
              some (({ st with job := j, world := w, steps := steps } : Exec W), false)
            else some ({ st with job := j, world := w, steps := steps, processed := i + 1 },
              true) : Option (Exec W × Bool)) with
          | none => none
          | some (s, true) => process.iterate
              (process.applyIter env programCloseType printScriptOutput n pvs) (i + 1) rest s
          | some (s, false) => some s) := by
      intro j w steps
      by_cases hp : j.shouldProceed = true
      · simp only [hp, Bool.not_true, Bool.false_eq_true, ↓reduceIte]
        exact ih _ _
      · have hp2 : j.shouldProceed = false := by simpa using hp
        simp only [hp2, Bool.not_false, ↓reduceIte]
    unfold process.applyLoop process.iterate process.applyIter
    cases pvs[i]? with
    | none => rfl
    | some pv =>
      simp only []
      by_cases hi : op.install = true
      · simp only [hi, ↓reduceIte]
        cases hd : st.dirs[i]? with
        | none => rfl
        | some dir =>
          cases hb : st.binaries[i]? with
          | none => rfl
          | some binary =>
            simp only []
            by_cases hw : op.where_.isEmpty = true
            · simp only [hw, ↓reduceIte]
              exact hc _ _ _
            · simp only [hw, Bool.false_eq_true, ↓reduceIte]
              by_cases he : env.dirExists st.world op.where_ = true
              · simp only [he, ↓reduceIte]
                by_cases hq : env.pathEquals op.where_ dir = true
                · simp only [hq, Bool.not_true, Bool.false_eq_true, ↓reduceIte]
                  exact hc _ _ _
                · have hq2 : env.pathEquals op.where_ dir = false := by simpa using hq
                  simp only [hq2, Bool.not_false, ↓reduceIte]
              · simp only [he, Bool.false_eq_true, ↓reduceIte]
                by_cases hr : (env.rename st.world dir op.where_).1 = true
                · simp only [hr, ↓reduceIte]
                  exact hc _ _ _
                · simp only [hr, Bool.false_eq_true, ↓reduceIte]
      · simp only [hi, Bool.false_eq_true, ↓reduceIte]
        exact hc _ _ _

theorem process.iterate_take_some {W : Type}
    (iter : Nat → InstallOperation → Exec W → Option (Exec W × Bool))
    (ops : List InstallOperation) (k i : Nat) (st b : Exec W)
    (h : process.iterate iter i ops st = some b) :
    ∃ a, process.iterate iter i (ops.take k) st = some a := by
  induction ops generalizing k i st with
  | nil => exact ⟨st, by simp [process.iterate]⟩
  | cons op rest ih =>
    cases k with
    | zero => exact ⟨st, by simp [process.iterate]⟩
    | succ k =>
      simp only [List.take_succ_cons]
      unfold process.iterate at h ⊢
      cases hi : iter i op st with
      | none => rw [hi] at h; cases h
      | some r =>
        obtain ⟨s, c⟩ := r
        cases c with
        | true =>
          simp only [hi] at h ⊢
          exact ih k _ _ h
        | false => exact ⟨s, rfl⟩

theorem process.iterate_take_rel {W : Type}
    (iter : Nat → InstallOperation → Exec W → Option (Exec W × Bool))
    (Q : Exec W → Exec W → Prop) (hrefl : ∀ s, Q s s)
    (htrans : ∀ s1 s2 s3, Q s1 s2 → Q s2 s3 → Q s1 s3)
    (hiter : ∀ i op st s c, iter i op st = some (s, c) → Q st s)
    (ops : List InstallOperation) (k i : Nat) (st a b : Exec W)
    (ha : process.iterate iter i (ops.take k) st = some a)
    (hb : process.iterate iter i ops st = some b) : Q a b := by
  induction ops generalizing k i st a b with
  | nil =>
    simp only [List.take_nil, process.iterate, Option.some.injEq] at ha hb
    rw [← ha, ← hb]
    exact hrefl _
  | cons op rest ih =>
    unfold process.iterate at hb
    cases hi : iter i op st with
    | none => rw [hi] at hb; cases hb
    | some r =>
      obtain ⟨s, c⟩ := r
      have hq := hiter i op st s c hi
      cases k with
      | zero =>
        simp only [List.take_zero, process.iterate, Option.some.injEq] at ha
        rw [← ha]
        cases c with
        | true =>
          simp only [hi] at hb
          exact htrans _ _ _ hq (ih 0 _ _ _ _ (by simp [process.iterate]) hb)
        | false =>
          simp only [hi, Option.some.injEq] at hb
          rw [← hb]
          exact hq
      | succ k =>
        simp only [List.take_succ_cons] at ha
        unfold process.iterate at ha
        cases c with
        | true =>
          simp only [hi] at ha hb
          exact ih k _ _ _ _ ha hb
        | false =>
          simp only [hi, Option.some.injEq] at ha hb
          rw [← ha, ← hb]
          exact hrefl _

theorem process.iterate_rel {W : Type}
    (iter : Nat → InstallOperation → Exec W → Option (Exec W × Bool))
    (Q : Exec W → Exec W → Prop) (hrefl : ∀ s, Q s s)
    (htrans : ∀ s1 s2 s3, Q s1 s2 → Q s2 s3 → Q s1 s3)
    (hiter : ∀ i op st s c, iter i op st = some (s, c) → Q st s)
    (ops : List InstallOperation) (i : Nat) (st b : Exec W)
    (hb : process.iterate iter i ops st = some b) : Q st b :=
  process.iterate_take_rel iter Q hrefl htrans hiter ops 0 i st st b
    (by simp [process.iterate]) hb

theorem process.iterate_take_bound {W : Type}
    (iter : Nat → InstallOperation → Exec W → Option (Exec W × Bool)) (c : ℚ) (hc : 0 ≤ c)
    (hsticky : ∀ i op st s f, iter i op st = some (s, f) → s.job.shouldProceed = true →
      st.job.shouldProceed = true)
    (hiter : ∀ i op st s f, iter i op st = some (s, f) → s.job.shouldProceed = true →
      s.job.progress ≤ st.job.progress + c)
    (ops : List InstallOperation) (k i : Nat) (st a : Exec W)
    (ha : process.iterate iter i (ops.take k) st = some a)
    (hp : a.job.shouldProceed = true) :
    a.job.progress ≤ st.job.progress + c * k := by
  induction k generalizing ops i st a with
  | zero =>
    simp only [List.take_zero, process.iterate, Option.some.injEq] at ha
    rw [← ha]
    simp
  | succ k ih =>
    cases ops with
    | nil =>
      simp only [List.take_nil, process.iterate, Option.some.injEq] at ha
      rw [← ha]
      have : 0 ≤ c * ((k + 1 : Nat) : ℚ) := mul_nonneg hc (by positivity)
      linarith
    | cons op rest =>
      simp only [List.take_succ_cons] at ha
      unfold process.iterate at ha
      cases hi : iter i op st with
      | none => rw [hi] at ha; cases ha
      | some r =>
        obtain ⟨s, f⟩ := r
        cases f with
        | true =>
          simp only [hi] at ha
          have h1 := ih rest _ _ _ ha hp
          have hs : s.job.shouldProceed = true :=
            process.iterate_rel iter
              (fun x y => y.job.shouldProceed = true → x.job.shouldProceed = true)
              (fun _ h => h) (fun _ _ _ h1 h2 h => h1 (h2 h))
              hsticky _ _ _ _ ha hp
          have h2 := hiter i op st s true hi hs
          push_cast
          linarith
        | false =>
          simp only [hi, Option.some.injEq] at ha
          rw [← ha] at hp ⊢
          have h2 := hiter i op st s false hi hp
          have : 0 ≤ c * (k : ℚ) := mul_nonneg hc (by positivity)
          push_cast
          linarith

/-! ## Progress of a successful run -/

theorem Job.advances_subJob (job : Job) (part : ℚ) (u : Bool) (o : Outcome)
    (hpart : 0 ≤ part) (ho : o.inRange) : Job.advances part job (job.subJob part u o) := by
  intro h
  obtain ⟨h0, h1⟩ := ho
  refine ⟨?_, ?_, ?_⟩
  · unfold Job.subJob Job.shouldProceed at h
    unfold Job.shouldProceed
    cases u
    · simp only [Bool.false_eq_true, ↓reduceIte, Bool.not_or, Bool.and_eq_true,
        Bool.not_eq_eq_eq_not, Bool.not_true] at h ⊢
      simp [h.1.1, h.2]
    · simp only [↓reduceIte, Bool.not_or, Bool.and_eq_true,
        Bool.not_eq_eq_eq_not, Bool.not_true] at h ⊢
      refine ⟨by simp [h.1.1], ?_⟩
      by_cases hj : job.errorMessage.isEmpty = true
      · exact hj
      · have := h.2
        simp only [Job.setErrorMessage, hj, Bool.false_eq_true, ↓reduceIte] at this
  · show job.progress ≤ job.progress + part * o.progress
    have := mul_nonneg hpart h0
    linarith
  · show job.progress + part * o.progress ≤ job.progress + part
    have := mul_le_mul_of_nonneg_left h1 hpart
    linarith

theorem Job.advances_setProgress (job : Job) (c : ℚ) (hc : 0 ≤ c) :
    Job.advances c job (job.setProgress (job.progress + c)) := by
  intro h
  refine ⟨h, ?_, le_refl _⟩
  show job.progress ≤ job.progress + c
  linarith

theorem Job.advances_setErrorMessage (c : ℚ) (j job : Job) (msg : String)
    (h : Job.advances c j job) : Job.advances c j (job.setErrorMessage msg) := by
  intro hp
  unfold Job.setErrorMessage at hp ⊢
  by_cases hj : job.errorMessage.isEmpty = true
  · simp only [hj, ↓reduceIte] at hp ⊢
    have hp0 : job.shouldProceed = true := by
      unfold Job.shouldProceed at hp ⊢
      simp only [Bool.and_eq_true] at hp ⊢
      exact ⟨hp.1, hj⟩
    exact h hp0
  · simp only [hj, Bool.false_eq_true, ↓reduceIte] at hp ⊢
    exact h hp

theorem process.share_nonneg (a : ℚ) (n : Nat) (ha : 0 ≤ a) : 0 ≤ a / (n : ℚ) :=
  div_nonneg ha (Nat.cast_nonneg n)

theorem process.downloadIter_advances {W : Type} (env : Env W) (hr : env.progressInRange)
    (interactive : Bool) (n : Nat) (pvs : List PackageVersion) (i : Nat)
    (op : InstallOperation) (st s : Exec W) (f : Bool)
    (h : process.downloadIter env interactive n pvs i op st = some (s, f)) :
    Job.advances (0.7 / n) st.job s.job := by
  have hc : (0 : ℚ) ≤ 0.7 / n := process.share_nonneg _ n (by norm_num)
  unfold process.downloadIter at h
  cases hpv : pvs[i]? with
  | none => rw [hpv] at h; cases h
  | some pv =>
    simp only [hpv, Option.some.injEq, Prod.mk.injEq] at h
    rw [← h.1]
    unfold process.downloadStep
    by_cases h1 : op.install = true
    · simp only [h1, ↓reduceIte]
      by_cases h2 : env.dirExists st.world (env.findNonExistingFile st.world
          (if op.where_.isEmpty = true then env.getIdealInstallationDirectory st.world pv
           else op.where_)) = true
      · simp only [h2, ↓reduceIte]
        exact Job.advances_subJob _ _ _ _ hc ⟨le_refl _, by norm_num⟩
      · simp only [h2, Bool.false_eq_true, ↓reduceIte]
        exact Job.advances_subJob _ _ _ _ hc (hr.1 _ _ _ _)
    · simp only [h1, Bool.false_eq_true, ↓reduceIte]
      exact Job.advances_setProgress _ _ hc

theorem process.stopIter_advances {W : Type} (env : Env W) (hr : env.progressInRange)
    (programCloseType : Nat) (printScriptOutput : Bool) (n : Nat) (pvs : List PackageVersion)
    (i : Nat) (op : InstallOperation) (st s : Exec W) (f : Bool)
    (h : process.stopIter env programCloseType printScriptOutput n pvs i op st = some (s, f)) :
    Job.advances (0.1 / n) st.job s.job := by
  have hc : (0 : ℚ) ≤ 0.1 / n := process.share_nonneg _ n (by norm_num)
  unfold process.stopIter at h
  cases hpv : pvs[i]? with
  | none => rw [hpv] at h; cases h
  | some pv =>
    simp only [hpv] at h
    by_cases h1 : op.install = true
    · simp only [h1, Bool.not_true, Bool.false_eq_true, ↓reduceIte, Option.some.injEq,
        Prod.mk.injEq] at h
      rw [← h.1]
      exact Job.advances_setProgress _ _ hc
    · simp only [h1, Bool.not_false, ↓reduceIte] at h
      by_cases h2 : (env.stop st.world pv programCloseType printScriptOutput).1.errorMessage.isEmpty
          = true
      · simp only [h2, Bool.not_true, Bool.false_eq_true, ↓reduceIte, Option.some.injEq,
          Prod.mk.injEq] at h
        rw [← h.1]
        exact Job.advances_subJob _ _ _ _ hc (hr.2.1 _ _ _ _)
      · simp only [h2, Bool.not_false, ↓reduceIte, Option.some.injEq, Prod.mk.injEq] at h
        rw [← h.1]
        exact Job.advances_setErrorMessage _ _ _ _
          (Job.advances_subJob _ _ _ _ hc (hr.2.1 _ _ _ _))

theorem process.conflict_message_isEmpty (a b : String) :
    ("Cannot install " ++ a ++ b).isEmpty = false := by
  simp only [String.append_assoc]
  exact isEmpty_append_of_pos _ _ (by decide)

theorem process.applyIter_cases {W : Type} (env : Env W) (programCloseType : Nat)
    (printScriptOutput : Bool) (n : Nat) (pvs : List PackageVersion) (i : Nat)
    (op : InstallOperation) (st s : Exec W) (f : Bool)
    (h : process.applyIter env programCloseType printScriptOutput n pvs i op st = some (s, f)) :
    ∃ pv, pvs[i]? = some pv ∧
      ((∃ o w stp,
          ((∃ w0 d b, o = (env.install w0 pv d b printScriptOutput programCloseType).1) ∨
            (∃ w0, o = (env.uninstall w0 pv printScriptOutput programCloseType).1)) ∧
          (∀ d, stp ≠ Step.removeDirectory d) ∧
          (s, f) =
            if (st.job.subJob (0.19 / n) true o).shouldProceed then
              (({ st with job := st.job.subJob (0.19 / n) true o, world := w,
                          steps := st.steps ++ [stp], processed := i + 1 } : Exec W), true)
            else
              (({ st with job := st.job.subJob (0.19 / n) true o, world := w,
                          steps := st.steps ++ [stp] } : Exec W), false)) ∨
        (∃ w dir msg, st.dirs[i]? = some dir ∧ msg.isEmpty = false ∧ f = false ∧
          s = process.applyConflict env n { st with world := w } dir msg)) := by
  unfold process.applyIter at h
  cases hpv : pvs[i]? with
  | none => rw [hpv] at h; cases h
  | some pv =>
    refine ⟨pv, rfl, ?_⟩
    simp only [hpv] at h
    have hk : ∀ (o : Outcome) (w : W) (stp : Step),
        (if (!(st.job.subJob (0.19 / n) true o).shouldProceed) = true then
            some (({ st with job := st.job.subJob (0.19 / n) true o, world := w,
                             steps := st.steps ++ [stp] } : Exec W), false)
          else
            some (({ st with job := st.job.subJob (0.19 / n) true o, world := w,
                             steps := st.steps ++ [stp], processed := i + 1 } : Exec W), true))
          = some (s, f) →
        (s, f) =
          if (st.job.subJob (0.19 / n) true o).shouldProceed then
            (({ st with job := st.job.subJob (0.19 / n) true o, world := w,
                        steps := st.steps ++ [stp], processed := i + 1 } : Exec W), true)
          else
            (({ st with job := st.job.subJob (0.19 / n) true o, world := w,
                        steps := st.steps ++ [stp] } : Exec W), false) := by
      intro o w stp hh
      by_cases hp : (st.job.subJob (0.19 / n) true o).shouldProceed = true
      · simp only [hp, Bool.not_true, Bool.false_eq_true, ↓reduceIte, Option.some.injEq] at hh ⊢
        exact hh.symm
      · have hp2 : (st.job.subJob (0.19 / n) true o).shouldProceed = false := by simpa using hp
        simp only [hp2, Bool.not_false, Bool.false_eq_true, ↓reduceIte,
          Option.some.injEq] at hh ⊢
        exact hh.symm
    by_cases hi : op.install = true
    · simp only [hi, ↓reduceIte] at h
      cases hd : st.dirs[i]? with
      | none => simp only [hd] at h; cases h
      | some dir =>
        cases hb : st.binaries[i]? with
        | none => simp only [hd, hb] at h; cases h
        | some binary =>
          simp only [hd, hb] at h
          by_cases hw : op.where_.isEmpty = true
          · simp only [hw, ↓reduceIte] at h
            exact Or.inl ⟨_, _, _, Or.inl ⟨_, _, _, rfl⟩, (fun d hd => by cases hd), hk _ _ _ h⟩
          · simp only [hw, Bool.false_eq_true, ↓reduceIte] at h
            by_cases he : env.dirExists st.world op.where_ = true
            · simp only [he, ↓reduceIte] at h
              by_cases hq : env.pathEquals op.where_ dir = true
              · simp only [hq, Bool.not_true, Bool.false_eq_true, ↓reduceIte] at h
                exact Or.inl ⟨_, _, _, Or.inl ⟨_, _, _, rfl⟩, (fun d hd => by cases hd),
                  hk _ _ _ h⟩
              · have hq2 : env.pathEquals op.where_ dir = false := by simpa using hq
                simp only [hq2, Bool.not_false, ↓reduceIte, Option.some.injEq,
                  Prod.mk.injEq] at h
                exact Or.inr ⟨st.world, dir, _, rfl,
                  process.conflict_message_isEmpty _ _, h.2.symm, h.1.symm⟩
            · simp only [he, Bool.false_eq_true, ↓reduceIte] at h
              by_cases hr : (env.rename st.world dir op.where_).1 = true
              · simp only [hr, ↓reduceIte] at h
                exact Or.inl ⟨_, _, _, Or.inl ⟨_, _, _, rfl⟩, (fun d hd => by cases hd),
                  hk _ _ _ h⟩
              · simp only [hr, Bool.false_eq_true, ↓reduceIte, Option.some.injEq,
                  Prod.mk.injEq] at h
                exact Or.inr ⟨_, dir, _, rfl,
                  process.conflict_message_isEmpty _ _, h.2.symm, h.1.symm⟩
    · simp only [hi, Bool.false_eq_true, ↓reduceIte] at h
      exact Or.inl ⟨_, _, _, Or.inr ⟨_, rfl⟩, (fun d hd => by cases hd), hk _ _ _ h⟩

theorem process.applyConflict_shouldProceed {W : Type} (env : Env W) (n : Nat) (st : Exec W)
    (dir msg : String) (h : msg.isEmpty = false) :
    (process.applyConflict env n st dir msg).job.shouldProceed = false :=
  Job.setErrorMessage_shouldProceed _ _ h

theorem process.applyIter_advances {W : Type} (env : Env W) (hr : env.progressInRange)
    (programCloseType : Nat) (printScriptOutput : Bool) (n : Nat) (pvs : List PackageVersion)
    (i : Nat) (op : InstallOperation) (st s : Exec W) (f : Bool)
    (h : process.applyIter env programCloseType printScriptOutput n pvs i op st = some (s, f)) :
    Job.advances (0.19 / n) st.job s.job := by
  have hc : (0 : ℚ) ≤ 0.19 / n := process.share_nonneg _ n (by norm_num)
  obtain ⟨pv, _, hcase⟩ := process.applyIter_cases env _ _ n pvs i op st s f h
  rcases hcase with ⟨o, w, stp, ho, _, hs⟩ | ⟨w, dir, msg, _, hm, _, hs⟩
  · have hin : o.inRange := by
      rcases ho with ⟨w0, d, b, rfl⟩ | ⟨w0, rfl⟩
      · exact hr.2.2.1 _ _ _ _ _ _
      · exact hr.2.2.2 _ _ _ _
    have hj : s.job = st.job.subJob (0.19 / n) true o := by
      by_cases hp : (st.job.subJob (0.19 / n) true o).shouldProceed = true
      · simp only [hp, ↓reduceIte, Prod.mk.injEq] at hs
        rw [hs.1]
      · simp only [hp, Bool.false_eq_true, ↓reduceIte, Prod.mk.injEq] at hs
        rw [hs.1]
    rw [hj]
    exact Job.advances_subJob _ _ _ _ hc hin
  · intro hp
    rw [hs, process.applyConflict_shouldProceed env n _ dir msg hm] at hp
    cases hp

theorem process.iterate_raisesProgress {W : Type}
    (iter : Nat → InstallOperation → Exec W → Option (Exec W × Bool)) (c : ℚ) (hc : 0 ≤ c)
    (hadv : ∀ i op st s f, iter i op st = some (s, f) → Job.advances c st.job s.job)
    (ops : List InstallOperation) (i : Nat) (st b : Exec W)
    (hb : process.iterate iter i ops st = some b) (hp : b.job.shouldProceed = true) :
    process.raisesProgress (process.iterate iter i) ops st c := by
  intro k hk
  obtain ⟨a, ha⟩ := process.iterate_take_some iter ops k i st b hb
  obtain ⟨b1, hb1⟩ := process.iterate_take_some iter ops (k + 1) i st b hb
  have hrel : ∀ (l : List InstallOperation) (j : Nat) (x y : Exec W),
      process.iterate iter i (l.take j) st = some x → process.iterate iter i l st = some y →
      y.job.shouldProceed = true → x.job.shouldProceed = true ∧ x.job.progress ≤ y.job.progress :=
    fun l j x y hx hy =>
      process.iterate_take_rel iter
        (fun x y => y.job.shouldProceed = true →
          x.job.shouldProceed = true ∧ x.job.progress ≤ y.job.progress)
        (fun _ h => ⟨h, le_refl _⟩)
        (fun _ _ _ h1 h2 h => ⟨(h1 (h2 h).1).1, le_trans (h1 (h2 h).1).2 (h2 h).2⟩)
        (fun i op st s f h hs => ⟨(hadv i op st s f h hs).1, (hadv i op st s f h hs).2.1⟩)
        l j i st x y hx hy
  have hpb1 : b1.job.shouldProceed = true := (hrel ops (k + 1) b1 b hb1 hb hp).1
  have ha2 : process.iterate iter i ((ops.take (k + 1)).take k) st = some a := by
    rw [List.take_take, min_eq_left (Nat.le_succ k)]
    exact ha
  refine ⟨a, b1, ha, hb1, (hrel _ k a b1 ha2 hb1 hpb1).2, ?_⟩
  have := process.iterate_take_bound iter c hc
    (fun i op st s f h hs => (hadv i op st s f h hs).1)
    (fun i op st s f h hs => (hadv i op st s f h hs).2.2) ops (k + 1) i st b1 hb1 hpb1
  push_cast at this
  exact this

theorem process.iterate_shouldProceed {W : Type}
    (iter : Nat → InstallOperation → Exec W → Option (Exec W × Bool)) (c : ℚ)
    (hadv : ∀ i op st s f, iter i op st = some (s, f) → Job.advances c st.job s.job)
    (ops : List InstallOperation) (i : Nat) (st b : Exec W)
    (hb : process.iterate iter i ops st = some b) (hp : b.job.shouldProceed = true) :
    st.job.shouldProceed = true :=
  process.iterate_rel iter (fun x y => y.job.shouldProceed = true → x.job.shouldProceed = true)
    (fun _ h => h) (fun _ _ _ h1 h2 h => h1 (h2 h))
    (fun i op st s f h hs => (hadv i op st s f h hs).1) ops i st b hb hp

theorem process.resolveLoop_job {W : Type} (env : Env W) (ops : List InstallOperation)
    (job : Job) (pvs : List PackageVersion)
    (h : (process.resolveLoop env ops job pvs).1.shouldProceed = true) :
    (process.resolveLoop env ops job pvs).1 = job := by
  induction ops generalizing pvs with
  | nil => rfl
  | cons op rest ih =>
    unfold process.resolveLoop at h ⊢
    by_cases he : (env.findPackageVersion op).1.isEmpty = true
    · simp only [he, Bool.not_true, Bool.false_eq_true, ↓reduceIte] at h ⊢
      cases hr : (env.findPackageVersion op).2 with
      | none =>
        simp only [hr] at h
        rw [Job.setErrorMessage_shouldProceed _ _ (process.cannotFind_isEmpty _ _)] at h
        cases h
      | some pv =>
        simp only [hr] at h ⊢
        exact ih _ h
    · simp only [he, Bool.not_false, ↓reduceIte] at h
      rw [Job.setErrorMessage_shouldProceed _ _ (process.cannotFind_isEmpty _ _)] at h
      cases h

theorem Job.subJob_not_shouldProceed (job : Job) (part : ℚ) (u : Bool) (o : Outcome)
    (h : job.shouldProceed = false) : (job.subJob part u o).shouldProceed = false := by
  unfold Job.subJob Job.shouldProceed at *
  cases hc : job.cancelled
  · simp only [hc, Bool.not_false, Bool.true_and] at h
    cases u <;> simp [Job.setErrorMessage, h]
  · simp

theorem process.cleanupLoop_not_shouldProceed {W : Type} (env : Env W) (count : Nat)
    (dirs : List String) (st : Exec W) (h : st.job.shouldProceed = false) :
    (process.cleanupLoop env count dirs st).job.shouldProceed = false := by
  induction dirs generalizing st with
  | nil => exact h
  | cons dir rest ih =>
    unfold process.cleanupLoop
    split_ifs
    · exact ih _ (Job.subJob_not_shouldProceed _ _ _ _ h)
    · exact ih _ h

theorem process.stages_chain {W : Type} (env : Env W) (programCloseType : Nat)
    (printScriptOutput interactive : Bool) (install : List InstallOperation)
    (pvs : List PackageVersion) (st0 : Exec W)
    (hp : st0.job.shouldProceed = true → pvs.length = install.length)
    (hd : st0.dirs = []) (hb : st0.binaries = []) :
    ∃ st1 st2 st3,
      (if st0.job.shouldProceed then
          process.downloadLoop env interactive install.length pvs 0 install st0
        else some st0) = some st1 ∧
      (if st1.job.shouldProceed then
          process.stopLoop env programCloseType printScriptOutput install.length pvs 0 install
            st1
        else some st1) = some st2 ∧
      (if st2.job.shouldProceed then
          process.applyLoop env programCloseType printScriptOutput install.length pvs 0 install
            { st2 with processed := 0 }
        else some { st2 with processed := 0 }) = some st3 ∧
      process.stages env programCloseType printScriptOutput interactive install pvs st0 =
        some (if !st3.job.shouldProceed then
            process.cleanupLoop env st3.dirs.length (st3.dirs.drop st3.processed) st3
          else st3) := by
  by_cases h0 : st0.job.shouldProceed = true
  · have hlen : pvs.length = 0 + install.length := by simp [hp h0]
    obtain ⟨st1, e1, _, l1⟩ :=
      process.downloadLoop_some env interactive install.length pvs install 0 st0 hlen
    by_cases h1 : st1.job.shouldProceed = true
    · obtain ⟨st2, e2, d2, b2, _⟩ :=
        process.stopLoop_some env programCloseType printScriptOutput install.length pvs install
          0 st1 hlen
      by_cases h2 : st2.job.shouldProceed = true
      · obtain ⟨ld, lb⟩ := l1 h1
        obtain ⟨st3, e3, _, _⟩ :=
          process.applyLoop_some env programCloseType printScriptOutput install.length pvs
            install 0 { st2 with processed := 0 } hlen
            (by simp [d2, ld, hd]) (by simp [b2, lb, hb])
        refine ⟨st1, st2, st3, by simp only [h0, ↓reduceIte, e1],
          by simp only [h1, ↓reduceIte, e2], by simp only [h2, ↓reduceIte, e3], ?_⟩
        unfold process.stages
        simp only [h0, ↓reduceIte, e1, Option.some_bind, h1, e2, h2, e3]
      · have h2f : st2.job.shouldProceed = false := by simpa using h2
        refine ⟨st1, st2, { st2 with processed := 0 }, by simp only [h0, ↓reduceIte, e1],
          by simp only [h1, ↓reduceIte, e2], by simp [h2f], ?_⟩
        unfold process.stages
        simp only [h0, ↓reduceIte, e1, Option.some_bind, h1, e2, h2f, Bool.false_eq_true]
    · have h1f : st1.job.shouldProceed = false := by simpa using h1
      refine ⟨st1, st1, { st1 with processed := 0 }, by simp only [h0, ↓reduceIte, e1],
        by simp [h1f], by simp [h1f], ?_⟩
      unfold process.stages
      simp only [h0, ↓reduceIte, e1, Option.some_bind, h1f, Bool.false_eq_true]
  · have h0f : st0.job.shouldProceed = false := by simpa using h0
    refine ⟨st0, st0, { st0 with processed := 0 }, by simp [h0f], by simp [h0f],
      by simp [h0f], ?_⟩
    unfold process.stages
    simp only [h0f, Bool.false_eq_true, ↓reduceIte, Option.some_bind]

theorem process.share_total (a : ℚ) (n : Nat) (ha : 0 ≤ a) : a / (n : ℚ) * (n : ℚ) ≤ a := by
  by_cases hn : (n : ℚ) = 0
  · rw [hn]; simpa using ha
  · rw [div_mul_cancel₀ _ hn]

theorem Event.steps_append (l1 l2 : List Event) :
    Event.steps (l1 ++ l2) = Event.steps l1 ++ Event.steps l2 := by
  induction l1 with
  | nil => rfl
  | cons e rest ih => cases e <;> simp [Event.steps, ih]

theorem Event.steps_map_step (ss : List Step) : Event.steps (ss.map Event.step) = ss := by
  induction ss with
  | nil => rfl
  | cons s rest ih => simp [Event.steps, ih]

theorem Event.steps_map_lock (pvs : List PackageVersion) :
    Event.steps (pvs.map (fun pv => Event.lock pv.getStringId)) = [] := by
  induction pvs with
  | nil => rfl
  | cons s rest ih => simp [Event.steps, ih]

theorem Event.steps_map_unlock (pvs : List PackageVersion) :
    Event.steps (pvs.map (fun pv => Event.unlock pv.getStringId)) = [] := by
  induction pvs with
  | nil => rfl
  | cons s rest ih => simp [Event.steps, ih]

theorem process.run_chain {W : Type} (env : Env W) (job : Job) (world : W)
    (locked : List String) (install_ : List InstallOperation) (programCloseType : Nat)
    (printScriptOutput interactive : Bool) :
    ∃ (st0 st1 st2 st3 st4 : Exec W) (r : ProcessResult W),
      st0 = { job := (process.resolveLoop env (process.reorder install_) job []).1,
              world := world, dirs := [], binaries := [], processed := 0, steps := [] } ∧
      (if st0.job.shouldProceed then
          process.downloadLoop env interactive (process.reorder install_).length
            (process.resolveLoop env (process.reorder install_) job []).2 0
            (process.reorder install_) st0
        else some st0) = some st1 ∧
      (if st1.job.shouldProceed then
          process.stopLoop env programCloseType printScriptOutput
            (process.reorder install_).length
            (process.resolveLoop env (process.reorder install_) job []).2 0
            (process.reorder install_) st1
        else some st1) = some st2 ∧
      (if st2.job.shouldProceed then
          process.applyLoop env programCloseType printScriptOutput
            (process.reorder install_).length
            (process.resolveLoop env (process.reorder install_) job []).2 0
            (process.reorder install_) { st2 with processed := 0 }
        else some { st2 with processed := 0 }) = some st3 ∧
      st4 = (if !st3.job.shouldProceed then
          process.cleanupLoop env st3.dirs.length (st3.dirs.drop st3.processed) st3
        else st3) ∧
      process env job world locked install_ programCloseType printScriptOutput interactive
        = some r ∧
      r.job = (if st4.job.shouldProceed then st4.job.setProgress 1 else st4.job).complete ∧
      r.pvs = (process.resolveLoop env (process.reorder install_) job []).2 ∧
      r.dirs = st4.dirs ∧ r.processed = st4.processed ∧
      Event.steps r.trace = st4.steps := by
  have hp : (process.resolveLoop env (process.reorder install_) job []).1.shouldProceed = true →
      (process.resolveLoop env (process.reorder install_) job []).2.length
        = (process.reorder install_).length := by
    intro h
    have := (process.resolveLoop_proceed env _ job [] h).1
    simpa using this
  obtain ⟨st1, st2, st3, e1, e2, e3, e4⟩ :=
    process.stages_chain env programCloseType printScriptOutput interactive
      (process.reorder install_) (process.resolveLoop env (process.reorder install_) job []).2
      { job := (process.resolveLoop env (process.reorder install_) job []).1,
        world := world, dirs := [], binaries := [], processed := 0, steps := [] } hp rfl rfl
  refine ⟨_, st1, st2, st3,
    (if !st3.job.shouldProceed then
      process.cleanupLoop env st3.dirs.length (st3.dirs.drop st3.processed) st3 else st3),
    { job := ((if (if !st3.job.shouldProceed then
          process.cleanupLoop env st3.dirs.length (st3.dirs.drop st3.processed) st3
          else st3).job.shouldProceed then
        (if !st3.job.shouldProceed then
          process.cleanupLoop env st3.dirs.length (st3.dirs.drop st3.processed) st3
          else st3).job.setProgress 1
        else (if !st3.job.shouldProceed then
          process.cleanupLoop env st3.dirs.length (st3.dirs.drop st3.processed) st3
          else st3).job).complete)
      world := (if !st3.job.shouldProceed then
          process.cleanupLoop env st3.dirs.length (st3.dirs.drop st3.processed) st3
          else st3).world
      locked := process.unlockAll (process.resolveLoop env (process.reorder install_) job []).2
        (if (process.resolveLoop env (process.reorder install_) job []).1.shouldProceed then
          process.lockAll (process.resolveLoop env (process.reorder install_) job []).2 locked
         else locked)
      trace := (if (process.resolveLoop env (process.reorder install_) job []).1.shouldProceed
          then (process.resolveLoop env (process.reorder install_) job []).2.map
            (fun pv => Event.lock pv.getStringId) else []) ++
        (if !st3.job.shouldProceed then
          process.cleanupLoop env st3.dirs.length (st3.dirs.drop st3.processed) st3
          else st3).steps.map Event.step ++
        (process.resolveLoop env (process.reorder install_) job []).2.map
          (fun pv => Event.unlock pv.getStringId)
      pvs := (process.resolveLoop env (process.reorder install_) job []).2
      dirs := (if !st3.job.shouldProceed then
          process.cleanupLoop env st3.dirs.length (st3.dirs.drop st3.processed) st3
          else st3).dirs
      binaries := (if !st3.job.shouldProceed then
          process.cleanupLoop env st3.dirs.length (st3.dirs.drop st3.processed) st3
          else st3).binaries
      processed := (if !st3.job.shouldProceed then
          process.cleanupLoop env st3.dirs.length (st3.dirs.drop st3.processed) st3
          else st3).processed },
    rfl, e1, e2, e3, rfl, ?_, rfl, rfl, rfl, rfl, ?_⟩
  · unfold process
    simp only []
    rw [e4]
    rfl
  · simp only [Event.steps_append, Event.steps_map_step, Event.steps_map_unlock]
    split_ifs <;> simp [Event.steps_map_lock, Event.steps]

theorem process.iterate_total {W : Type}
    (iter : Nat → InstallOperation → Exec W → Option (Exec W × Bool)) (c : ℚ) (hc : 0 ≤ c)
    (hadv : ∀ i op st s f, iter i op st = some (s, f) → Job.advances c st.job s.job)
    (ops : List InstallOperation) (i : Nat) (st b : Exec W)
    (hb : process.iterate iter i ops st = some b) (hp : b.job.shouldProceed = true) :
    st.job.progress ≤ b.job.progress ∧ b.job.progress ≤ st.job.progress + c * ops.length := by
  refine ⟨?_, ?_⟩
  · exact (process.iterate_rel iter
      (fun x y => y.job.shouldProceed = true →
        x.job.shouldProceed = true ∧ x.job.progress ≤ y.job.progress)
      (fun _ h => ⟨h, le_refl _⟩)
      (fun _ _ _ h1 h2 h => ⟨(h1 (h2 h).1).1, le_trans (h1 (h2 h).1).2 (h2 h).2⟩)
      (fun i op st s f h hs => ⟨(hadv i op st s f h hs).1, (hadv i op st s f h hs).2.1⟩)
      ops i st b hb hp).2
  · exact process.iterate_take_bound iter c hc
      (fun i op st s f h hs => (hadv i op st s f h hs).1)
      (fun i op st s f h hs => (hadv i op st s f h hs).2.2) ops ops.length i st b
      (by rw [List.take_length]; exact hb) hp

/-- C12: a run of `process` that starts with progress 0 and ends without error or
cancellation (every step succeeded and nobody cancelled; the sub-jobs of the hooks end with a
progress in [0, 1]) drives the progress monotonically to exactly 1.  The run is the download
loop from the entry state `st0` to `st1`, the stop loop to `st2` and the apply loop to `st3`;
within each loop every iteration raises the progress by at least 0 and at most the share
`0.7 / n`, `0.1 / n` or `0.19 / n` of the stage; the progress is at most 0.7, 0.8 and 0.99
(with exact arithmetic) at the end of the three loops, and the job is completed with
progress 1. -/
theorem process_progress_reaches_one {W : Type} (env : Env W) (job : Job) (world : W)
    (locked : List String) (install_ : List InstallOperation) (programCloseType : Nat)
    (printScriptOutput interactive : Bool) (r : ProcessResult W)
    (h0 : job.progress = 0) (hrange : env.progressInRange)
    (hr : process env job world locked install_ programCloseType printScriptOutput interactive
      = some r)
    (hok : r.job.shouldProceed = true) :
    ∃ (install : List InstallOperation) (n : Nat) (st0 st1 st2 st3 : Exec W),
      install = process.reorder install_ ∧ n = install.length ∧
      st0 = { job := job, world := world, dirs := [], binaries := [], processed := 0,
              steps := [] } ∧
      process.downloadLoop env interactive n r.pvs 0 install st0 = some st1 ∧
      process.stopLoop env programCloseType printScriptOutput n r.pvs 0 install st1
        = some st2 ∧
      process.applyLoop env programCloseType printScriptOutput n r.pvs 0 install
        { st2 with processed := 0 } = some st3 ∧
      process.raisesProgress (process.downloadLoop env interactive n r.pvs 0) install st0
        (0.7 / n) ∧
      process.raisesProgress
        (process.stopLoop env programCloseType printScriptOutput n r.pvs 0) install st1
        (0.1 / n) ∧
      process.raisesProgress
        (process.applyLoop env programCloseType printScriptOutput n r.pvs 0) install
        { st2 with processed := 0 } (0.19 / n) ∧
      st0.job.progress = 0 ∧ st0.job.progress ≤ st1.job.progress ∧
      st1.job.progress ≤ 0.7 ∧ st1.job.progress ≤ st2.job.progress ∧
      st2.job.progress ≤ 0.8 ∧ st2.job.progress ≤ st3.job.progress ∧
      st3.job.progress ≤ 0.99 ∧
      r.job = (st3.job.setProgress 1).complete ∧ r.job.progress = 1 ∧
      r.job.completed = true := by
  obtain ⟨st0, st1, st2, st3, st4, r1, e0, e1, e2, e3, e4, er, ej, epvs, _, _, _⟩ :=
    process.run_chain env job world locked install_ programCloseType printScriptOutput
      interactive
  rw [hr, Option.some.injEq] at er
  subst er
  have p4 : st4.job.shouldProceed = true := by
    rw [ej] at hok
    by_cases h : st4.job.shouldProceed = true
    · exact h
    · simp only [h, Bool.false_eq_true, ↓reduceIte] at hok
      exact absurd hok h
  have p3 : st3.job.shouldProceed = true := by
    by_cases h : st3.job.shouldProceed = true
    · exact h
    · have hf : st3.job.shouldProceed = false := by simpa using h
      rw [e4] at p4
      simp only [hf, Bool.not_false, ↓reduceIte] at p4
      rw [process.cleanupLoop_not_shouldProceed env _ _ _ hf] at p4
      cases p4
  have e43 : st4 = st3 := by rw [e4]; simp [p3]
  have p2 : st2.job.shouldProceed = true := by
    by_cases h : st2.job.shouldProceed = true
    · exact h
    · simp only [h, Bool.false_eq_true, ↓reduceIte, Option.some.injEq] at e3
      rw [← e3] at p3
      exact absurd p3 h
  simp only [p2, ↓reduceIte] at e3
  have p1 : st1.job.shouldProceed = true := by
    by_cases h : st1.job.shouldProceed = true
    · exact h
    · simp only [h, Bool.false_eq_true, ↓reduceIte, Option.some.injEq] at e2
      rw [← e2] at p2
      exact absurd p2 h
  simp only [p1, ↓reduceIte] at e2
  have p0 : st0.job.shouldProceed = true := by
    by_cases h : st0.job.shouldProceed = true
    · exact h
    · simp only [h, Bool.false_eq_true, ↓reduceIte, Option.some.injEq] at e1
      rw [← e1] at p1
      exact absurd p1 h
  simp only [p0, ↓reduceIte] at e1
  have hjob : (process.resolveLoop env (process.reorder install_) job []).1 = job :=
    process.resolveLoop_job env _ job [] (by rw [e0] at p0; exact p0)
  rw [hjob] at e0
  rw [← epvs] at e1 e2 e3
  have c7 : (0 : ℚ) ≤ 0.7 / ((process.reorder install_).length : ℚ) :=
    process.share_nonneg _ _ (by norm_num)
  have c1 : (0 : ℚ) ≤ 0.1 / ((process.reorder install_).length : ℚ) :=
    process.share_nonneg _ _ (by norm_num)
  have c19 : (0 : ℚ) ≤ 0.19 / ((process.reorder install_).length : ℚ) :=
    process.share_nonneg _ _ (by norm_num)
  have t7 := process.share_total 0.7 (process.reorder install_).length (by norm_num)
  have t1 := process.share_total 0.1 (process.reorder install_).length (by norm_num)
  have t19 := process.share_total 0.19 (process.reorder install_).length (by norm_num)
  have i1 := e1
  have i2 := e2
  have i3 := e3
  rw [process.downloadLoop_eq_iterate] at i1
  rw [process.stopLoop_eq_iterate] at i2
  rw [process.applyLoop_eq_iterate] at i3
  have a1 := process.iterate_total _ _ c7
    (process.downloadIter_advances env hrange interactive _ r.pvs) _ _ _ _ i1 p1
  have a2 := process.iterate_total _ _ c1
    (process.stopIter_advances env hrange programCloseType printScriptOutput _ r.pvs)
    _ _ _ _ i2 p2
  have a3 := process.iterate_total _ _ c19
    (process.applyIter_advances env hrange programCloseType printScriptOutput _ r.pvs)
    _ _ _ _ i3 p3
  have hp0 : st0.job.progress = 0 := by rw [e0]; exact h0
  have hfin : r.job = (st3.job.setProgress 1).complete := by
    rw [ej, e43]; simp [p3]
  refine ⟨process.reorder install_, _, st0, st1, st2, st3, rfl, rfl, e0, e1, e2, e3, ?_, ?_, ?_,
    hp0, a1.1, ?_, a2.1, ?_, a3.1, ?_, hfin, by rw [hfin]; rfl, by rw [hfin]; rfl⟩
  · have := process.iterate_raisesProgress _ _ c7
      (process.downloadIter_advances env hrange interactive _ r.pvs) _ _ _ _ i1 p1
    unfold process.raisesProgress at this ⊢
    simpa only [process.downloadLoop_eq_iterate] using this
  · have := process.iterate_raisesProgress _ _ c1
      (process.stopIter_advances env hrange programCloseType printScriptOutput _ r.pvs)
      _ _ _ _ i2 p2
    unfold process.raisesProgress at this ⊢
    simpa only [process.stopLoop_eq_iterate] using this
  · have := process.iterate_raisesProgress _ _ c19
      (process.applyIter_advances env hrange programCloseType printScriptOutput _ r.pvs)
      _ _ _ _ i3 p3
    unfold process.raisesProgress at this ⊢
    simpa only [process.applyLoop_eq_iterate] using this
  · linarith [a1.2]
  · have := a2.2
    norm_num at *
    linarith
  · have := a3.2
    have := a2.2
    have : (st3.job.progress) ≤ 0.7 + 0.1 + 0.19 := by
      simp only [] at *
      linarith
    norm_num at this ⊢
    exact this

/-- C12 at a concrete batch: the update "install A/2.0, uninstall A/1.0" on a host where every
collaborator succeeds ends without error with progress 1. -/
theorem process_progress_reaches_one_witness :
    Scenario.job.progress = 0 ∧ (Scenario.env Scenario.repA).progressInRange ∧
    ∃ r, process (Scenario.env Scenario.repA) Scenario.job () []
        [{ package := "A", version := ⟨[2, 0]⟩, install := true, where_ := "" },
         { package := "A", version := ⟨[1, 0]⟩, install := false, where_ := "" }]
        0 false false = some r ∧
      r.job.shouldProceed = true ∧ r.job.progress = 1 ∧ r.job.completed = true := by
  have hrange : (Scenario.env Scenario.repA).progressInRange := by
    refine ⟨fun _ _ _ _ => ?_, fun _ _ _ _ => ?_, fun _ _ _ _ _ _ => ?_, fun _ _ _ _ => ?_⟩ <;>
      exact ⟨zero_le_one, le_refl _⟩
  have hok : (process (Scenario.env Scenario.repA) Scenario.job () []
        [{ package := "A", version := ⟨[2, 0]⟩, install := true, where_ := "" },
         { package := "A", version := ⟨[1, 0]⟩, install := false, where_ := "" }]
        0 false false).map (fun r => r.job.shouldProceed) = some true := by
    decide
  obtain ⟨r, hr, hp⟩ := Option.map_eq_some'.1 hok
  obtain ⟨_, _, _, _, _, _, _, _, _, _, _, _, _, _, _, _, _, _, _, _, _, _, _, h1, h2⟩ :=
    process_progress_reaches_one (Scenario.env Scenario.repA) Scenario.job () []
      [{ package := "A", version := ⟨[2, 0]⟩, install := true, where_ := "" },
       { package := "A", version := ⟨[1, 0]⟩, install := false, where_ := "" }]
      0 false false r rfl hrange hr hp
  exact ⟨rfl, hrange, r, hr, hp, h1, h2⟩

/-! ## Cancellation -/

/-- C13 (code at the failing input): the batch "uninstall A/1.0, uninstall A/2.0" on a host
where the job is cancelled while A/1.0 is being stopped.  After the first iteration of the
stop loop the job is cancelled, yet the stop step of the second operation is dispatched: the
stop loop tests only the error message of its sub-job.  By contrast the download loop of the
batch "install A/1.0, install A/2.0", cancelled while A/1.0 is being downloaded, dispatches no
second download. -/
theorem process_stop_stage_ignores_cancellation :
    (process.stopLoop (Scenario.cancellingEnv Scenario.repA) 0 false 2
        [Scenario.a1, Scenario.a2] 0 [Scenario.uninstallA1]
        { job := Scenario.job, world := (), dirs := ["", ""], binaries := ["", ""],
          processed := 0, steps := [] }).map (fun st => (st.job.cancelled, st.steps))
      = some (true, [Step.stop 0 Scenario.a1]) ∧
    (process (Scenario.cancellingEnv Scenario.repA) Scenario.job () []
        [Scenario.uninstallA1, Scenario.uninstallA2] 0 false false).map
        (fun r => (r.job.cancelled, r.job.errorMessage, Event.steps r.trace))
      = some (true, "", [Step.stop 0 Scenario.a1, Step.stop 1 Scenario.a2]) ∧
    (process (Scenario.cancellingEnv Scenario.repA) Scenario.job () []
        [Scenario.installA1, Scenario.installA2] 0 false false).map
        (fun r => (r.job.cancelled, r.job.errorMessage, Event.steps r.trace))
      = some (true, "", [Step.download 0 Scenario.a1 "C:\\Program Files\\A",
          Step.removeDirectory "C:\\Program Files\\A"]) := by
  decide

/-! ## Abort cleanup -/

theorem process.removedDirectories_append (l1 l2 : List Step) :
    process.removedDirectories (l1 ++ l2) =
      process.removedDirectories l1 ++ process.removedDirectories l2 := by
  simp [process.removedDirectories, List.filterMap_append]

theorem process.cleanupLoop_removes {W : Type} (env : Env W) (count : Nat)
    (dirs : List String) (st : Exec W) :
    process.removedDirectories (process.cleanupLoop env count dirs st).steps =
      process.removedDirectories st.steps ++ dirs.filter (fun d => !d.isEmpty) ∧
    (process.cleanupLoop env count dirs st).dirs = st.dirs ∧
    (process.cleanupLoop env count dirs st).processed = st.processed := by
  induction dirs generalizing st with
  | nil => simp [process.cleanupLoop]
  | cons dir rest ih =>
    unfold process.cleanupLoop
    by_cases hd : dir.isEmpty = true
    · simp only [hd, Bool.not_true, Bool.false_eq_true, ↓reduceIte]
      obtain ⟨h1, h2, h3⟩ := ih { st with job := st.job.setProgress (st.job.progress + 0.01 / count) }
      refine ⟨?_, h2, h3⟩
      rw [h1]
      simp [List.filter, hd]
    · have hd2 : dir.isEmpty = false := by simpa using hd
      simp only [hd2, Bool.not_false, ↓reduceIte]
      obtain ⟨h1, h2, h3⟩ := ih
        { st with
          job := st.job.subJob (0.01 / count) false (env.removeDirectory st.world dir).1
          world := (env.removeDirectory st.world dir).2
          steps := st.steps ++ [Step.removeDirectory dir] }
      refine ⟨?_, h2, h3⟩
      rw [h1]
      simp [List.filter, hd2, process.removedDirectories_append, process.removedDirectories,
        Step.removedDirectory]

theorem process.downloadIter_removes {W : Type} (env : Env W)
    (interactive : Bool) (n : Nat) (pvs : List PackageVersion) (i : Nat)
    (op : InstallOperation) (st s : Exec W) (f : Bool)
    (h : process.downloadIter env interactive n pvs i op st = some (s, f)) :
    process.removedDirectories s.steps = process.removedDirectories st.steps := by
  unfold process.downloadIter at h
  cases hpv : pvs[i]? with
  | none => rw [hpv] at h; cases h
  | some pv =>
    simp only [hpv, Option.some.injEq, Prod.mk.injEq] at h
    rw [← h.1]
    unfold process.downloadStep
    by_cases h1 : op.install = true
    · simp only [h1, ↓reduceIte]
      by_cases h2 : env.dirExists st.world (env.findNonExistingFile st.world
          (if op.where_.isEmpty = true then env.getIdealInstallationDirectory st.world pv
           else op.where_)) = true
      · simp only [h2, ↓reduceIte]
      · simp only [h2, Bool.false_eq_true, ↓reduceIte]
        simp [process.removedDirectories_append, process.removedDirectories,
          Step.removedDirectory]
    · simp only [h1, Bool.false_eq_true, ↓reduceIte]

theorem process.stopIter_removes {W : Type} (env : Env W)
    (programCloseType : Nat) (printScriptOutput : Bool) (n : Nat) (pvs : List PackageVersion)
    (i : Nat) (op : InstallOperation) (st s : Exec W) (f : Bool)
    (h : process.stopIter env programCloseType printScriptOutput n pvs i op st = some (s, f)) :
    process.removedDirectories s.steps = process.removedDirectories st.steps := by
  unfold process.stopIter at h
  cases hpv : pvs[i]? with
  | none => rw [hpv] at h; cases h
  | some pv =>
    simp only [hpv] at h
    by_cases h1 : op.install = true
    · simp only [h1, Bool.not_true, Bool.false_eq_true, ↓reduceIte, Option.some.injEq,
        Prod.mk.injEq] at h
      rw [← h.1]
    · simp only [h1, Bool.not_false, ↓reduceIte] at h
      by_cases h2 : (env.stop st.world pv programCloseType printScriptOutput).1.errorMessage.isEmpty
          = true
      · simp only [h2, Bool.not_true, Bool.false_eq_true, ↓reduceIte, Option.some.injEq,
          Prod.mk.injEq] at h
        rw [← h.1]
        simp [process.removedDirectories_append, process.removedDirectories,
          Step.removedDirectory]
      · simp only [h2, Bool.not_false, ↓reduceIte, Option.some.injEq, Prod.mk.injEq] at h
        rw [← h.1]
        simp [process.removedDirectories_append, process.removedDirectories,
          Step.removedDirectory]

theorem process.applyLoop_removes {W : Type} (env : Env W) (programCloseType : Nat)
    (printScriptOutput : Bool) (n : Nat) (pvs : List PackageVersion)
    (ops : List InstallOperation) (i : Nat) (st b : Exec W) (hi : st.processed = i)
    (hb : process.iterate (process.applyIter env programCloseType printScriptOutput n pvs) i
      ops st = some b) :
    b.dirs = st.dirs ∧
    (b.job.shouldProceed = true →
      process.removedDirectories b.steps = process.removedDirectories st.steps) ∧
    (b.job.shouldProceed = false →
      ∃ early, (early = [] ∨ ∃ d, b.dirs[b.processed]? = some d ∧ early = [d]) ∧
        process.removedDirectories b.steps = process.removedDirectories st.steps ++ early) := by
  induction ops generalizing i st with
  | nil =>
    simp only [process.iterate, Option.some.injEq] at hb
    subst hb
    exact ⟨rfl, fun _ => rfl, fun _ => ⟨[], Or.inl rfl, by simp⟩⟩
  | cons op rest ih =>
    unfold process.iterate at hb
    cases hit : process.applyIter env programCloseType printScriptOutput n pvs i op st with
    | none => rw [hit] at hb; cases hb
    | some q =>
      obtain ⟨s, f⟩ := q
      obtain ⟨pv, _, hcase⟩ := process.applyIter_cases env _ _ n pvs i op st s f hit
      rcases hcase with ⟨o, w, stp, _, hstp, hs⟩ | ⟨w, dir, msg, hdir, hm, hf, hs⟩
      · have hrem : process.removedDirectories (st.steps ++ [stp])
            = process.removedDirectories st.steps := by
          rw [process.removedDirectories_append]
          cases stp with
          | removeDirectory d => exact absurd rfl (hstp d)
          | _ => simp [process.removedDirectories, Step.removedDirectory]
        by_cases hp : (st.job.subJob (0.19 / n) true o).shouldProceed = true
        · simp only [hp, ↓reduceIte, Prod.mk.injEq] at hs
          obtain ⟨hs1, hs2⟩ := hs
          subst hs2
          simp only [hit] at hb
          obtain ⟨h1, h2, h3⟩ := ih (i + 1) s (by rw [hs1]) hb
          rw [hs1] at h1 h2 h3
          simp only [hrem] at h2 h3
          exact ⟨h1, h2, h3⟩
        · simp only [hp, Bool.false_eq_true, ↓reduceIte, Prod.mk.injEq] at hs
          obtain ⟨hs1, hs2⟩ := hs
          subst hs2
          simp only [hit, Option.some.injEq] at hb
          subst hb
          rw [hs1]
          exact ⟨rfl, fun _ => hrem, fun _ => ⟨[], Or.inl rfl, by simp [hrem]⟩⟩
      · subst hf
        simp only [hit, Option.some.injEq] at hb
        subst hb
        have hnp := process.applyConflict_shouldProceed env n { st with world := w } dir msg hm
        rw [hs]
        refine ⟨rfl, fun h => ?_, fun _ => ⟨[dir], Or.inr ⟨dir, ?_, rfl⟩, ?_⟩⟩
        · rw [hnp] at h; cases h
        · show st.dirs[st.processed]? = some dir
          rw [hi]; exact hdir
        · show process.removedDirectories (st.steps ++ [Step.removeDirectory dir]) = _
          rw [process.removedDirectories_append]
          rfl

theorem process.iterate_removes {W : Type}
    (iter : Nat → InstallOperation → Exec W → Option (Exec W × Bool))
    (hiter : ∀ i op st s f, iter i op st = some (s, f) →
      process.removedDirectories s.steps = process.removedDirectories st.steps)
    (ops : List InstallOperation) (i : Nat) (st b : Exec W)
    (hb : process.iterate iter i ops st = some b) :
    process.removedDirectories b.steps = process.removedDirectories st.steps :=
  process.iterate_rel iter
    (fun x y => process.removedDirectories y.steps = process.removedDirectories x.steps)
    (fun _ => rfl) (fun _ _ _ h1 h2 => h2.trans h1) hiter ops i st b hb

theorem Job.shouldProceed_finish (j : Job) :
    ((if j.shouldProceed then j.setProgress 1 else j).complete).shouldProceed
      = j.shouldProceed := by
  split_ifs <;> rfl

/-- The calls of `WPMUtils::removeDirectory` made by a run of `process`.  Every run returns.
When the batch runs to completion (the job ends without error or cancellation) no removal is
called at all.  When it does not, the names passed to the removal during the run are, in
order: possibly the entry of `dirs` at index `processed` (passed by the apply stage itself
when the directory could not be moved to the requested place), then every non-empty entry of
`dirs` (the names recorded by the download stage) from index `processed` on, where
`processed` is the number of fully processed operations; no entry below that index is passed
to the removal.  The entries are names: what the host holds under a name when the removal is
called is not part of this statement. -/
theorem process.removal_calls {W : Type} (env : Env W) (job : Job) (world : W)
    (locked : List String) (install_ : List InstallOperation) (programCloseType : Nat)
    (printScriptOutput interactive : Bool) :
    ∃ r, process env job world locked install_ programCloseType printScriptOutput interactive
        = some r ∧
      (r.job.shouldProceed = true →
        process.removedDirectories (Event.steps r.trace) = []) ∧
      (r.job.shouldProceed = false →
        ∃ early, (early = [] ∨ ∃ d, r.dirs[r.processed]? = some d ∧ early = [d]) ∧
          process.removedDirectories (Event.steps r.trace) =
            early ++ (r.dirs.drop r.processed).filter (fun d => !d.isEmpty)) := by
  obtain ⟨st0, st1, st2, st3, st4, r, e0, e1, e2, e3, e4, er, ej, _, ed, ep, et⟩ :=
    process.run_chain env job world locked install_ programCloseType printScriptOutput
      interactive
  have r0 : process.removedDirectories st0.steps = [] := by rw [e0]; rfl
  have r1 : process.removedDirectories st1.steps = [] := by
    by_cases h : st0.job.shouldProceed = true
    · simp only [h, ↓reduceIte] at e1
      rw [process.downloadLoop_eq_iterate] at e1
      rw [process.iterate_removes _ (process.downloadIter_removes env interactive _ _) _ _ _ _ e1]
      exact r0
    · simp only [h, Bool.false_eq_true, ↓reduceIte, Option.some.injEq] at e1
      rw [← e1]; exact r0
  have r2 : process.removedDirectories st2.steps = [] := by
    by_cases h : st1.job.shouldProceed = true
    · simp only [h, ↓reduceIte] at e2
      rw [process.stopLoop_eq_iterate] at e2
      rw [process.iterate_removes _
        (process.stopIter_removes env programCloseType printScriptOutput _ _) _ _ _ _ e2]
      exact r1
    · simp only [h, Bool.false_eq_true, ↓reduceIte, Option.some.injEq] at e2
      rw [← e2]; exact r1
  have r3 : (st3.job.shouldProceed = true → process.removedDirectories st3.steps = []) ∧
      (st3.job.shouldProceed = false →
        ∃ early, (early = [] ∨ ∃ d, st3.dirs[st3.processed]? = some d ∧ early = [d]) ∧
          process.removedDirectories st3.steps = early) := by
    by_cases h : st2.job.shouldProceed = true
    · simp only [h, ↓reduceIte] at e3
      rw [process.applyLoop_eq_iterate] at e3
      obtain ⟨_, h2, h3⟩ := process.applyLoop_removes env programCloseType printScriptOutput _ _
        _ 0 _ st3 rfl e3
      refine ⟨fun hp => by rw [h2 hp]; exact r2, fun hp => ?_⟩
      obtain ⟨early, he, hr⟩ := h3 hp
      refine ⟨early, he, ?_⟩
      rw [hr]
      show process.removedDirectories st2.steps ++ early = early
      rw [r2]; rfl
    · simp only [h, Bool.false_eq_true, ↓reduceIte, Option.some.injEq] at e3
      rw [← e3]
      exact ⟨fun _ => r2, fun _ => ⟨[], Or.inl rfl, r2⟩⟩
  refine ⟨r, er, ?_, ?_⟩
  · intro hp
    rw [ej, Job.shouldProceed_finish] at hp
    have p3 : st3.job.shouldProceed = true := by
      by_cases h : st3.job.shouldProceed = true
      · exact h
      · have hf : st3.job.shouldProceed = false := by simpa using h
        rw [e4] at hp
        simp only [hf, Bool.not_false, ↓reduceIte] at hp
        rw [process.cleanupLoop_not_shouldProceed env _ _ _ hf] at hp
        cases hp
    have e43 : st4 = st3 := by rw [e4]; simp [p3]
    rw [et, e43]
    exact r3.1 p3
  · intro hp
    rw [ej, Job.shouldProceed_finish] at hp
    have p3 : st3.job.shouldProceed = false := by
      by_cases h : st3.job.shouldProceed = true
      · rw [e4] at hp
        simp only [h, Bool.not_true, Bool.false_eq_true, ↓reduceIte] at hp
        cases hp
      · simpa using h
    have e43 : st4 = process.cleanupLoop env st3.dirs.length (st3.dirs.drop st3.processed)
        st3 := by
      rw [e4]; simp [p3]
    obtain ⟨c1, c2, c3⟩ := process.cleanupLoop_removes env st3.dirs.length
      (st3.dirs.drop st3.processed) st3
    obtain ⟨early, he, hr⟩ := r3.2 p3
    rw [et, ed, ep, e43, c1, c2, c3, hr]
    exact ⟨early, he, rfl⟩

theorem Job.keepsError_refl (j : Job) : Job.keepsError j j := fun _ => rfl

theorem Job.keepsError_trans (j1 j2 j3 : Job) (h1 : Job.keepsError j1 j2)
    (h2 : Job.keepsError j2 j3) : Job.keepsError j1 j3 := by
  intro h
  have e1 := h1 h
  have : j2.errorMessage.isEmpty = false := by rw [e1]; exact h
  rw [h2 this, e1]

theorem Job.keepsError_setErrorMessage (j : Job) (msg : String) :
    Job.keepsError j (j.setErrorMessage msg) := by
  intro h
  simp [Job.setErrorMessage, h]

theorem Job.keepsError_subJob (j : Job) (part : ℚ) (u : Bool) (o : Outcome) :
    Job.keepsError j (j.subJob part u o) := by
  intro h
  cases u
  · rfl
  · exact Job.keepsError_setErrorMessage j o.errorMessage h

theorem Job.keepsError_setProgress (j : Job) (p : ℚ) : Job.keepsError j (j.setProgress p) :=
  fun _ => rfl

theorem Job.keepsError_finish (j : Job) :
    Job.keepsError j ((if j.shouldProceed then j.setProgress 1 else j).complete) := by
  intro _
  split_ifs <;> rfl

theorem process.downloadIter_keepsError {W : Type} (env : Env W)
    (interactive : Bool) (n : Nat) (pvs : List PackageVersion) (i : Nat)
    (op : InstallOperation) (st s : Exec W) (f : Bool)
    (h : process.downloadIter env interactive n pvs i op st = some (s, f)) :
    Job.keepsError st.job s.job := by
  unfold process.downloadIter at h
  cases hpv : pvs[i]? with
  | none => rw [hpv] at h; cases h
  | some pv =>
    simp only [hpv, Option.some.injEq, Prod.mk.injEq] at h
    rw [← h.1]
    unfold process.downloadStep
    by_cases h1 : op.install = true
    · simp only [h1, ↓reduceIte]
      by_cases h2 : env.dirExists st.world (env.findNonExistingFile st.world
          (if op.where_.isEmpty = true then env.getIdealInstallationDirectory st.world pv
           else op.where_)) = true
      · simp only [h2, ↓reduceIte]
        exact Job.keepsError_subJob _ _ _ _
      · simp only [h2, Bool.false_eq_true, ↓reduceIte]
        exact Job.keepsError_subJob _ _ _ _
    · simp only [h1, Bool.false_eq_true, ↓reduceIte]
      exact Job.keepsError_setProgress _ _

theorem process.stopIter_keepsError {W : Type} (env : Env W)
    (programCloseType : Nat) (printScriptOutput : Bool) (n : Nat) (pvs : List PackageVersion)
    (i : Nat) (op : InstallOperation) (st s : Exec W) (f : Bool)
    (h : process.stopIter env programCloseType printScriptOutput n pvs i op st = some (s, f)) :
    Job.keepsError st.job s.job := by
  unfold process.stopIter at h
  cases hpv : pvs[i]? with
  | none => rw [hpv] at h; cases h
  | some pv =>
    simp only [hpv] at h
    by_cases h1 : op.install = true
    · simp only [h1, Bool.not_true, Bool.false_eq_true, ↓reduceIte, Option.some.injEq,
        Prod.mk.injEq] at h
      rw [← h.1]
      exact Job.keepsError_setProgress _ _
    · simp only [h1, Bool.not_false, ↓reduceIte] at h
      by_cases h2 : (env.stop st.world pv programCloseType printScriptOutput).1.errorMessage.isEmpty
          = true
      · simp only [h2, Bool.not_true, Bool.false_eq_true, ↓reduceIte, Option.some.injEq,
          Prod.mk.injEq] at h
        rw [← h.1]
        exact Job.keepsError_subJob _ _ _ _
      · simp only [h2, Bool.not_false, ↓reduceIte, Option.some.injEq, Prod.mk.injEq] at h
        rw [← h.1]
        exact Job.keepsError_trans _ _ _ (Job.keepsError_subJob _ _ _ _)
          (Job.keepsError_setErrorMessage _ _)

theorem process.applyIter_keepsError {W : Type} (env : Env W)
    (programCloseType : Nat) (printScriptOutput : Bool) (n : Nat) (pvs : List PackageVersion)
    (i : Nat) (op : InstallOperation) (st s : Exec W) (f : Bool)
    (h : process.applyIter env programCloseType printScriptOutput n pvs i op st = some (s, f)) :
    Job.keepsError st.job s.job := by
  obtain ⟨pv, _, hcase⟩ := process.applyIter_cases env _ _ n pvs i op st s f h
  rcases hcase with ⟨o, w, stp, _, _, hs⟩ | ⟨w, dir, msg, _, _, _, hs⟩
  · have hj : s.job = st.job.subJob (0.19 / n) true o := by
      by_cases hp : (st.job.subJob (0.19 / n) true o).shouldProceed = true
      · simp only [hp, ↓reduceIte, Prod.mk.injEq] at hs
        rw [hs.1]
      · simp only [hp, Bool.false_eq_true, ↓reduceIte, Prod.mk.injEq] at hs
        rw [hs.1]
    rw [hj]
    exact Job.keepsError_subJob _ _ _ _
  · rw [hs]
    exact Job.keepsError_trans _ _ _ (Job.keepsError_subJob _ _ _ _)
      (Job.keepsError_setErrorMessage _ _)

theorem process.iterate_keepsError {W : Type}
    (iter : Nat → InstallOperation → Exec W → Option (Exec W × Bool))
    (hiter : ∀ i op st s f, iter i op st = some (s, f) → Job.keepsError st.job s.job)
    (ops : List InstallOperation) (k i : Nat) (st a b : Exec W)
    (ha : process.iterate iter i (ops.take k) st = some a)
    (hb : process.iterate iter i ops st = some b) : Job.keepsError a.job b.job :=
  process.iterate_take_rel iter (fun x y => Job.keepsError x.job y.job)
    (fun _ => Job.keepsError_refl _) (fun _ _ _ h1 h2 => Job.keepsError_trans _ _ _ h1 h2)
    hiter ops k i st a b ha hb

theorem process.resolveLoop_keepsError {W : Type} (env : Env W) (ops : List InstallOperation)
    (k : Nat) (job : Job) (pvs : List PackageVersion) :
    Job.keepsError (process.resolveLoop env (ops.take k) job pvs).1
      (process.resolveLoop env ops job pvs).1 := by
  induction ops generalizing k pvs with
  | nil => simp only [List.take_nil]; exact Job.keepsError_refl _
  | cons op rest ih =>
    have hstep : ∀ l : List InstallOperation,
        (∀ pvs2, Job.keepsError job (process.resolveLoop env l job pvs2).1) →
        Job.keepsError job (process.resolveLoop env (op :: l) job pvs).1 := by
      intro l hl
      unfold process.resolveLoop
      simp only []
      split_ifs
      · exact Job.keepsError_setErrorMessage _ _
      · split
        · exact Job.keepsError_setErrorMessage _ _
        · exact hl _
    cases k with
    | zero =>
      simp only [List.take_zero]
      show Job.keepsError job _
      exact hstep rest (fun pvs2 => by
        have := ih 0 pvs2
        simpa only [List.take_zero] using this)
    | succ k =>
      simp only [List.take_succ_cons]
      unfold process.resolveLoop
      simp only []
      split_ifs
      · exact Job.keepsError_refl _
      · split
        · exact Job.keepsError_refl _
        · exact ih k _

theorem process.cleanupLoop_keepsError {W : Type} (env : Env W) (count : Nat)
    (dirs : List String) (k : Nat) (st : Exec W) :
    Job.keepsError (process.cleanupLoop env count (dirs.take k) st).job
      (process.cleanupLoop env count dirs st).job := by
  induction dirs generalizing k st with
  | nil => simp only [List.take_nil]; exact Job.keepsError_refl _
  | cons dir rest ih =>
    cases k with
    | zero =>
      simp only [List.take_zero]
      show Job.keepsError st.job _
      unfold process.cleanupLoop
      split_ifs
      · exact Job.keepsError_trans _ _ _ (Job.keepsError_subJob st.job _ false _)
          (by have := ih 0 { st with
                job := st.job.subJob (0.01 / count) false (env.removeDirectory st.world dir).1
                world := (env.removeDirectory st.world dir).2
                steps := st.steps ++ [Step.removeDirectory dir] }
              simpa only [List.take_zero] using this)
      · exact Job.keepsError_trans _ _ _ (Job.keepsError_setProgress st.job _)
          (by have := ih 0 { st with
                job := st.job.setProgress (st.job.progress + 0.01 / count) }
              simpa only [List.take_zero] using this)
    | succ k =>
      simp only [List.take_succ_cons]
      unfold process.cleanupLoop
      split_ifs
      · exact ih k _
      · exact ih k _

/-- C15: first error wins in `process`.  A run goes through the job states `job` (on entry),
`st0` (after the lookup of the package versions), `st1` (after the download stage), `st2`
(after the stop stage), `st3` (after the apply stage) and `st4` (after the abort cleanup), and
returns the completed job of `r` after releasing the locks, which does not touch the job.
Whichever of these states is the first to carry a non-empty error message, the completed job
carries that same message; the same holds for the state after any number `k` of iterations of
the lookup loop, of the download, stop and apply loops (when the stage is entered) and of the
cleanup loop (when it runs). -/
theorem process_first_error_wins {W : Type} (env : Env W) (job : Job) (world : W)
    (locked : List String) (install_ : List InstallOperation) (programCloseType : Nat)
    (printScriptOutput interactive : Bool) :
    ∃ (st0 st1 st2 st3 st4 : Exec W) (r : ProcessResult W),
      st0 = { job := (process.resolveLoop env (process.reorder install_) job []).1,
              world := world, dirs := [], binaries := [], processed := 0, steps := [] } ∧
      (if st0.job.shouldProceed then
          process.downloadLoop env interactive (process.reorder install_).length r.pvs 0
            (process.reorder install_) st0
        else some st0) = some st1 ∧
      (if st1.job.shouldProceed then
          process.stopLoop env programCloseType printScriptOutput
            (process.reorder install_).length r.pvs 0 (process.reorder install_) st1
        else some st1) = some st2 ∧
      (if st2.job.shouldProceed then
          process.applyLoop env programCloseType printScriptOutput
            (process.reorder install_).length r.pvs 0 (process.reorder install_)
            { st2 with processed := 0 }
        else some { st2 with processed := 0 }) = some st3 ∧
      st4 = (if !st3.job.shouldProceed then
          process.cleanupLoop env st3.dirs.length (st3.dirs.drop st3.processed) st3
        else st3) ∧
      process env job world locked install_ programCloseType printScriptOutput interactive
        = some r ∧
      (∀ j ∈ [job, st0.job, st1.job, st2.job, st3.job, st4.job], Job.keepsError j r.job) ∧
      (∀ k, Job.keepsError
        (process.resolveLoop env ((process.reorder install_).take k) job []).1 r.job) ∧
      (st0.job.shouldProceed = true → ∀ k a,
        process.downloadLoop env interactive (process.reorder install_).length r.pvs 0
          ((process.reorder install_).take k) st0 = some a → Job.keepsError a.job r.job) ∧
      (st1.job.shouldProceed = true → ∀ k a,
        process.stopLoop env programCloseType printScriptOutput
          (process.reorder install_).length r.pvs 0
          ((process.reorder install_).take k) st1 = some a → Job.keepsError a.job r.job) ∧
      (st2.job.shouldProceed = true → ∀ k a,
        process.applyLoop env programCloseType printScriptOutput
          (process.reorder install_).length r.pvs 0
          ((process.reorder install_).take k) { st2 with processed := 0 } = some a →
        Job.keepsError a.job r.job) ∧
      (st3.job.shouldProceed = false → ∀ k, Job.keepsError
        (process.cleanupLoop env st3.dirs.length ((st3.dirs.drop st3.processed).take k)
          st3).job r.job) := by
  obtain ⟨st0, st1, st2, st3, st4, r, e0, e1, e2, e3, e4, er, ej, epvs, _, _, _⟩ :=
    process.run_chain env job world locked install_ programCloseType printScriptOutput
      interactive
  rw [← epvs] at e1 e2 e3
  have k4 : Job.keepsError st4.job r.job := by rw [ej]; exact Job.keepsError_finish _
  have k34 : Job.keepsError st3.job st4.job := by
    rw [e4]
    split_ifs
    · have := process.cleanupLoop_keepsError env st3.dirs.length
        (st3.dirs.drop st3.processed) 0 st3
      simpa only [List.take_zero] using this
    · exact Job.keepsError_refl _
  have k3 : Job.keepsError st3.job r.job := Job.keepsError_trans _ _ _ k34 k4
  have a3 : st2.job.shouldProceed = true → ∀ k a,
      process.applyLoop env programCloseType printScriptOutput
        (process.reorder install_).length r.pvs 0
        ((process.reorder install_).take k) { st2 with processed := 0 } = some a →
      Job.keepsError a.job st3.job := by
    intro hp k a ha
    simp only [hp, ↓reduceIte] at e3
    rw [process.applyLoop_eq_iterate] at e3 ha
    exact process.iterate_keepsError _
      (process.applyIter_keepsError env programCloseType printScriptOutput _ _) _ k _ _ _ _ ha e3
  have k23 : Job.keepsError st2.job st3.job := by
    by_cases hp : st2.job.shouldProceed = true
    · exact a3 hp 0 { st2 with processed := 0 } (by simp [process.applyLoop])
    · simp only [hp, Bool.false_eq_true, ↓reduceIte, Option.some.injEq] at e3
      rw [← e3]; exact Job.keepsError_refl _
  have k2 : Job.keepsError st2.job r.job := Job.keepsError_trans _ _ _ k23 k3
  have a2 : st1.job.shouldProceed = true → ∀ k a,
      process.stopLoop env programCloseType printScriptOutput
        (process.reorder install_).length r.pvs 0
        ((process.reorder install_).take k) st1 = some a →
      Job.keepsError a.job st2.job := by
    intro hp k a ha
    simp only [hp, ↓reduceIte] at e2
    rw [process.stopLoop_eq_iterate] at e2 ha
    exact process.iterate_keepsError _
      (process.stopIter_keepsError env programCloseType printScriptOutput _ _) _ k _ _ _ _ ha e2
  have k12 : Job.keepsError st1.job st2.job := by
    by_cases hp : st1.job.shouldProceed = true
    · exact a2 hp 0 st1 (by simp [process.stopLoop])
    · simp only [hp, Bool.false_eq_true, ↓reduceIte, Option.some.injEq] at e2
      rw [← e2]; exact Job.keepsError_refl _
  have k1 : Job.keepsError st1.job r.job := Job.keepsError_trans _ _ _ k12 k2
  have a1 : st0.job.shouldProceed = true → ∀ k a,
      process.downloadLoop env interactive (process.reorder install_).length r.pvs 0
        ((process.reorder install_).take k) st0 = some a →
      Job.keepsError a.job st1.job := by
    intro hp k a ha
    simp only [hp, ↓reduceIte] at e1
    rw [process.downloadLoop_eq_iterate] at e1 ha
    exact process.iterate_keepsError _
      (process.downloadIter_keepsError env interactive _ _) _ k _ _ _ _ ha e1
  have k01 : Job.keepsError st0.job st1.job := by
    by_cases hp : st0.job.shouldProceed = true
    · exact a1 hp 0 st0 (by simp [process.downloadLoop])
    · simp only [hp, Bool.false_eq_true, ↓reduceIte, Option.some.injEq] at e1
      rw [← e1]; exact Job.keepsError_refl _
  have k0 : Job.keepsError st0.job r.job := Job.keepsError_trans _ _ _ k01 k1
  have ar : ∀ k, Job.keepsError
      (process.resolveLoop env ((process.reorder install_).take k) job []).1 st0.job := by
    intro k
    rw [e0]
    exact process.resolveLoop_keepsError env _ k job []
  have kj : Job.keepsError job r.job := by
    have := ar 0
    simp only [List.take_zero] at this
    exact Job.keepsError_trans _ _ _ this k0
  refine ⟨st0, st1, st2, st3, st4, r, e0, e1, e2, e3, e4, er, ?_,
    fun k => Job.keepsError_trans _ _ _ (ar k) k0,
    fun hp k a ha => Job.keepsError_trans _ _ _ (a1 hp k a ha) k1,
    fun hp k a ha => Job.keepsError_trans _ _ _ (a2 hp k a ha) k2,
    fun hp k a ha => Job.keepsError_trans _ _ _ (a3 hp k a ha) k3, ?_⟩
  · intro j hj
    simp only [List.mem_cons, List.mem_singleton, List.not_mem_nil, or_false] at hj
    rcases hj with rfl | rfl | rfl | rfl | rfl | rfl
    · exact kj
    · exact k0
    · exact k1
    · exact k2
    · exact k3
    · exact k4
  · intro hp k
    have h4 : st4 = process.cleanupLoop env st3.dirs.length (st3.dirs.drop st3.processed)
        st3 := by
      rw [e4]; simp [hp]
    refine Job.keepsError_trans _ _ _ ?_ k4
    rw [h4]
    exact process.cleanupLoop_keepsError env _ _ k st3

/-! ## The co-location fallback of `planUpdates` -/

/-- C16: permissive co-location fallback in `planUpdates`.  Let the pair `t` (newest version
`t.newest`, installed version `b`, not yet marked used) be examined by the co-location pass
with the shared installed snapshot `installed` and the operation list `ops`, and let the
combined attempt on the private copy return `r` with an error or with a number of operations
other than two.  Then the pass goes on to the next pair with `installed` and `ops` exactly as
they were and with the pair unchanged (not marked used); the pass has no error to report.  The
ordinary install pass plans an installation of `t.newest` for such a pair and the ordinary
uninstall pass plans an uninstallation of `b`. -/
theorem planUpdates_coLocation_fallback (rep : Repository) (ip : InstalledPackages)
    (fuel : Nat) (keepDirectories : Bool) (where_ : String) (i : Nat) (t : UpdatePair)
    (rest : List UpdatePair) (installed : List PackageVersion) (ops : List InstallOperation)
    (b : PackageVersion) (r : String × List PackageVersion × List InstallOperation)
    (hb : t.newesti = some b) (hu : t.used = false)
    (hc : planUpdates.combined rep ip fuel keepDirectories where_ i t.newest b installed
      = some r)
    (hf : r.1.isEmpty = false ∨ r.2.2.length ≠ 2) :
    planUpdates.coLocationLoop rep ip fuel keepDirectories where_ i (t :: rest) installed ops =
      (planUpdates.coLocationLoop rep ip fuel keepDirectories where_ (i + 1) rest installed
        ops).map (fun q => (t :: q.1, q.2)) ∧
    (∀ rest2 installed2 ops2,
      planUpdates.installLoop rep ip fuel keepDirectories (t :: rest2) installed2 ops2 =
        (planInstallation rep fuel t.newest
          { installed := installed2, ops := ops2, avoid := [] }
          (if keepDirectories then b.getPath ip else "")).bind (fun q =>
            if !q.1.isEmpty then some (q.1, q.2.installed, q.2.ops)
            else planUpdates.installLoop rep ip fuel keepDirectories rest2 q.2.installed
              q.2.ops)) ∧
    (∀ rest2 installed2 ops2,
      planUpdates.uninstallLoop fuel (t :: rest2) installed2 ops2 =
        (planUninstallation fuel b installed2 ops2).bind (fun q =>
          if !q.1.isEmpty then some q
          else planUpdates.uninstallLoop fuel rest2 q.2.1 q.2.2)) := by
  refine ⟨?_, ?_, ?_⟩
  · rw [planUpdates.coLocationLoop]
    simp only [hb, hc]
    split
    · rename_i o0 o1 h1 h2
      exfalso
      rcases hf with hf | hf
      · rw [hf] at h1; cases h1
      · rw [h2] at hf; exact hf rfl
    · rfl
  · intro rest2 installed2 ops2
    rw [planUpdates.installLoop]
    simp only [hu, hb, Bool.not_false, ↓reduceIte]
    cases planInstallation rep fuel t.newest
        { installed := installed2, ops := ops2, avoid := [] }
        (if keepDirectories = true then b.getPath ip else "") <;> rfl
  · intro rest2 installed2 ops2
    rw [planUpdates.uninstallLoop]
    simp only [hu, hb, Bool.not_false, ↓reduceIte]
    cases planUninstallation fuel b installed2 ops2 <;> rfl

/-- C16 at a concrete update: A/1.0 is installed, the newest version A/3.0 needs D, which is
not installed.  The combined attempt yields three operations, so the pair is planned by the
ordinary passes: `planUpdates` returns no error and the plan "install D/1.0, install A/3.0,
uninstall A/1.0". -/
theorem planUpdates_coLocation_fallback_witness :
    planUpdates.combined Scenario.repAD Scenario.ipA1 5 false "" 0 Scenario.a3 Scenario.a1
        [Scenario.a1] =
      some ("", [Scenario.d1, Scenario.a3],
        [{ package := "A", version := ⟨[1, 0]⟩, install := false, where_ := "" },
         { package := "D", version := ⟨[1, 0]⟩, install := true, where_ := "" },
         { package := "A", version := ⟨[3, 0]⟩, install := true, where_ := "" }]) ∧
    planUpdates.coLocationLoop Scenario.repAD Scenario.ipA1 5 false "" 0
        [{ newest := Scenario.a3, newesti := some Scenario.a1, used := false }]
        [Scenario.a1] [] =
      some ([{ newest := Scenario.a3, newesti := some Scenario.a1, used := false }],
        [Scenario.a1], []) ∧
    planUpdates Scenario.repAD Scenario.ipA1 5 [Scenario.packageA] [] [] false false "" =
      some ("",
        [{ package := "D", version := ⟨[1, 0]⟩, install := true, where_ := "" },
         { package := "A", version := ⟨[3, 0]⟩, install := true, where_ := "" },
         { package := "A", version := ⟨[1, 0]⟩, install := false, where_ := "" }]) := by
  have hc : planUpdates.combined Scenario.repAD Scenario.ipA1 5 false "" 0 Scenario.a3
      Scenario.a1 [Scenario.a1] =
      some ("", [Scenario.d1, Scenario.a3],
        [{ package := "A", version := ⟨[1, 0]⟩, install := false, where_ := "" },
         { package := "D", version := ⟨[1, 0]⟩, install := true, where_ := "" },
         { package := "A", version := ⟨[3, 0]⟩, install := true, where_ := "" }]) := by
    decide
  refine ⟨hc, ?_, by decide⟩
  rw [(planUpdates_coLocation_fallback Scenario.repAD Scenario.ipA1 5 false "" 0
    { newest := Scenario.a3, newesti := some Scenario.a1, used := false } [] [Scenario.a1] []
    Scenario.a1 _ rfl rfl hc (Or.inr (by decide))).1]
  rfl

/-! ## The newest installable version -/

theorem findNewestInstallable_loop_isSome (l : List PackageVersion) (r : PackageVersion) :
    ∃ a, findNewestInstallablePackageVersion_.loop l (some r) = some a := by
  induction l generalizing r with
  | nil => exact ⟨r, rfl⟩
  | cons p rest ih =>
    unfold findNewestInstallablePackageVersion_.loop
    split_ifs
    · exact ih p
    · exact ih r
    · exact ih r

theorem findNewestInstallable_loop_valid (l : List PackageVersion) (p : PackageVersion)
    (hp : p ∈ l) (hv : p.download.isValid = true) :
    ∃ a, findNewestInstallablePackageVersion_.loop l none = some a := by
  induction l with
  | nil => cases hp
  | cons q rest ih =>
    unfold findNewestInstallablePackageVersion_.loop
    simp only [↓reduceIte]
    by_cases hq : q.download.isValid = true
    · simp only [hq, ↓reduceIte]
      exact findNewestInstallable_loop_isSome rest q
    · simp only [hq, Bool.false_eq_true, ↓reduceIte]
      rcases List.mem_cons.1 hp with rfl | hp
      · exact absurd hv hq
      · exact ih hp

theorem findNewestInstallable_loop_max (l : List PackageVersion)
    (r0 : Option PackageVersion) (a : PackageVersion)
    (h0 : ∀ r, r0 = some r → r.download.isValid = true)
    (h : findNewestInstallablePackageVersion_.loop l r0 = some a) :
    a.download.isValid = true ∧
    (∀ r, r0 = some r → r.version.compare a.version ≤ 0) ∧
    (∀ pv ∈ l, pv.download.isValid = true → pv.version.compare a.version ≤ 0) := by
  induction l generalizing r0 with
  | nil =>
    simp only [findNewestInstallablePackageVersion_.loop] at h
    refine ⟨h0 a h, ?_, fun pv hpv => by cases hpv⟩
    intro r hr
    rw [hr] at h
    have : r = a := Option.some.inj h
    rw [this, Version.compare_self]
  | cons p rest ih =>
    have hvalid : p.download.isValid = true →
        findNewestInstallablePackageVersion_.loop rest (some p) = some a →
        a.download.isValid = true ∧ p.version.compare a.version ≤ 0 ∧
        (∀ pv ∈ rest, pv.download.isValid = true → pv.version.compare a.version ≤ 0) := by
      intro hv h
      obtain ⟨h1, h2, h3⟩ := ih (some p) (fun r hr => by
        have : p = r := Option.some.inj hr
        rw [← this]; exact hv) h
      exact ⟨h1, h2 p rfl, h3⟩
    unfold findNewestInstallablePackageVersion_.loop at h
    by_cases hv : p.download.isValid = true
    · cases r0 with
      | none =>
        simp only [hv, ↓reduceIte] at h
        obtain ⟨h1, hpa, h3⟩ := hvalid hv h
        refine ⟨h1, (fun r hr => by cases hr), ?_⟩
        intro pv hpv hval
        rcases List.mem_cons.1 hpv with rfl | hpv
        · exact hpa
        · exact h3 pv hpv hval
      | some r =>
        by_cases hc : p.version.compare r.version > 0
        · simp only [hc, decide_True, hv, ↓reduceIte] at h
          obtain ⟨h1, hpa, h3⟩ := hvalid hv h
          refine ⟨h1, ?_, ?_⟩
          · intro r1 hr1
            have : r = r1 := Option.some.inj hr1
            rw [← this]
            exact Version.compare_trans_le _ _ _ (Version.le_of_gt _ _ hc) hpa
          · intro pv hpv hval
            rcases List.mem_cons.1 hpv with rfl | hpv
            · exact hpa
            · exact h3 pv hpv hval
        · simp only [hc, decide_False, Bool.false_eq_true, ↓reduceIte] at h
          obtain ⟨h1, h2, h3⟩ := ih (some r) h0 h
          refine ⟨h1, h2, ?_⟩
          intro pv hpv hval
          rcases List.mem_cons.1 hpv with rfl | hpv
          · exact Version.compare_trans_le _ _ _ (not_lt.1 hc) (h2 r rfl)
          · exact h3 pv hpv hval
    · have hres : findNewestInstallablePackageVersion_.loop rest r0 = some a := by
        cases r0 with
        | none => simpa only [hv, Bool.false_eq_true, ↓reduceIte] using h
        | some r =>
          by_cases hc : p.version.compare r.version > 0
          · simpa only [hc, decide_True, hv, Bool.false_eq_true, ↓reduceIte] using h
          · simpa only [hc, decide_False, Bool.false_eq_true, ↓reduceIte] using h
      obtain ⟨h1, h2, h3⟩ := ih r0 h0 hres
      refine ⟨h1, h2, ?_⟩
      intro pv hpv hval
      rcases List.mem_cons.1 hpv with rfl | hpv
      · exact absurd hval hv
      · exact h3 pv hpv hval

theorem findNewestInstallable_loop_eq (l : List PackageVersion) (r : Option PackageVersion) :
    Repository.findNewestInstallablePackageVersion.loop l r =
      findNewestInstallablePackageVersion_.loop l r := by
  induction l generalizing r with
  | nil => rfl
  | cons p rest ih =>
    unfold Repository.findNewestInstallablePackageVersion.loop
      findNewestInstallablePackageVersion_.loop
    cases r <;> simp only [ih]

/-- C17: `findNewestInstallablePackageVersion_` returns the newest installable version.  It
reports no error; the result is absent exactly when no version filed under the package in the
catalog has a valid download; a result is one of the versions of the package, has a valid
download, and no version of the package with a valid download compares greater (a version
without a valid download is never the result and never blocks a lower installable one).
`Repository::findNewestInstallablePackageVersion` selects the same version. -/
theorem findNewestInstallablePackageVersion__newest (rep : Repository) (package : String) :
    (findNewestInstallablePackageVersion_ rep package).1 = "" ∧
    ((findNewestInstallablePackageVersion_ rep package).2 = none ↔
      ∀ pv ∈ QMultiMap.values rep.package2versions package, pv.download.isValid = false) ∧
    (∀ r, (findNewestInstallablePackageVersion_ rep package).2 = some r →
      r ∈ QMultiMap.values rep.package2versions package ∧ r.download.isValid = true ∧
      ∀ pv ∈ QMultiMap.values rep.package2versions package, pv.download.isValid = true →
        pv.version.compare r.version ≤ 0) ∧
    rep.findNewestInstallablePackageVersion package =
      (findNewestInstallablePackageVersion_ rep package).2 := by
  have e : (rep.getPackageVersions_ package).1.isEmpty = true := rfl
  have hdef : (findNewestInstallablePackageVersion_ rep package).2 =
      findNewestInstallablePackageVersion_.loop (rep.getPackageVersions_ package).2 none := by
    unfold findNewestInstallablePackageVersion_
    simp only [e, ↓reduceIte]
  refine ⟨rfl, ⟨fun hn pv hpv => ?_, fun hall => ?_⟩, fun r hr => ?_, ?_⟩
  · by_cases hv : pv.download.isValid = true
    · obtain ⟨a, ha⟩ := findNewestInstallable_loop_valid _ pv
        ((mem_getPackageVersions_ rep package pv).2 hpv) hv
      rw [hdef, ha] at hn
      cases hn
    · simpa using hv
  · rw [hdef]
    exact findNewestInstallable_loop_none _
      (fun pv hpv => hall pv ((mem_getPackageVersions_ rep package pv).1 hpv))
  · rw [hdef] at hr
    obtain ⟨h1, _, h3⟩ := findNewestInstallable_loop_max _ none r (fun _ h => by cases h) hr
    refine ⟨?_, h1, fun pv hpv hv =>
      h3 pv ((mem_getPackageVersions_ rep package pv).2 hpv) hv⟩
    rcases findNewestInstallable_loop_mem _ none r hr with h | h
    · cases h
    · exact (mem_getPackageVersions_ rep package r).1 h
  · rw [hdef]
    unfold Repository.findNewestInstallablePackageVersion
    rw [findNewestInstallable_loop_eq]
    rfl

/-! ## Recursion depth of the planners -/

theorem planInstallation.dependencies_mono (rep : Repository)
    (recur1 recur2 : PackageVersion → PlanState → Option (String × PlanState))
    (hrec : ∀ c s r, recur1 c s = some r → recur2 c s = some r)
    (deps : List Dependency) (st : PlanState) (r : String × PlanState)
    (h : planInstallation.dependencies rep recur1 deps st = some r) :
    planInstallation.dependencies rep recur2 deps st = some r := by
  induction deps generalizing st with
  | nil => exact h
  | cons d rest ih =>
    rw [planInstallation.dependencies] at h ⊢
    by_cases h1 : st.installed.any (fun q => d.satisfiedBy q) = true
    · simp only [h1, ↓reduceIte] at h ⊢
      exact ih _ h
    · simp only [h1, Bool.false_eq_true, ↓reduceIte] at h ⊢
      by_cases h2 : (findBestMatchToInstall rep d st.avoid).1.isEmpty = true
      · simp only [h2, Bool.not_true, Bool.false_eq_true, ↓reduceIte] at h ⊢
        cases hm : (findBestMatchToInstall rep d st.avoid).2 with
        | none => simpa only [hm] using h
        | some c =>
          simp only [hm] at h ⊢
          cases hc : recur1 c st with
          | none => rw [hc] at h; cases h
          | some r1 =>
            rw [hc] at h
            rw [hrec c st r1 hc]
            simp only [] at h ⊢
            by_cases h3 : r1.1.isEmpty = true
            · simp only [h3, Bool.not_true, Bool.false_eq_true, ↓reduceIte] at h ⊢
              exact ih _ h
            · simp only [h3, Bool.not_false, ↓reduceIte] at h ⊢
              exact h
      · simp only [h2, Bool.not_false, ↓reduceIte] at h ⊢
        exact h

theorem planInstallation_mono (rep : Repository) (fuel : Nat) (pv : PackageVersion)
    (st : PlanState) (where_ : String) (r : String × PlanState)
    (h : planInstallation rep fuel pv st where_ = some r) :
    planInstallation rep (fuel + 1) pv st where_ = some r := by
  induction fuel generalizing pv st where_ r with
  | zero => simp [planInstallation] at h
  | succ fuel ih =>
    rw [planInstallation] at h ⊢
    split_ifs at h ⊢
    · exact h
    · exact h
    · cases hd : planInstallation.dependencies rep (fun c s => planInstallation rep fuel c s "")
          pv.dependencies { st with avoid := st.avoid ++ [pv] } with
      | none => rw [hd] at h; cases h
      | some r1 =>
        rw [hd] at h
        rw [planInstallation.dependencies_mono rep _
          (fun c s => planInstallation rep (fuel + 1) c s "")
          (fun c s r hr => ih c s "" r hr) _ _ _ hd]
        exact h

theorem planInstallation_mono_le (rep : Repository) (fuel fuel2 : Nat) (hle : fuel ≤ fuel2)
    (pv : PackageVersion) (st : PlanState) (where_ : String) (r : String × PlanState)
    (h : planInstallation rep fuel pv st where_ = some r) :
    planInstallation rep fuel2 pv st where_ = some r := by
  induction hle with
  | refl => exact h
  | step _ ih => exact planInstallation_mono rep _ pv st where_ r ih

/-- C18: end-to-end installation plan.  In the catalog where A/1.0 depends on B in [1.0, 2.0)
and B/1.0 and B/1.5 are available with valid downloads, `planInstallation` of A/1.0 against an
empty installed snapshot, an empty operation list and an empty avoid list returns, for every
recursion bound of at least two, no error and exactly the plan "install B/1.5, install
A/1.0". -/
theorem planInstallation_end_to_end (k : Nat) :
    (planInstallation Scenario.repDep (k + 2) Scenario.a1b
        { installed := [], ops := [], avoid := [] } "").map (fun r => (r.1, r.2.ops)) =
      some ("",
        [{ package := "B", version := ⟨[1, 5]⟩, install := true, where_ := "" },
         { package := "A", version := ⟨[1, 0]⟩, install := true, where_ := "" }]) := by
  have h2 : planInstallation Scenario.repDep 2 Scenario.a1b
      { installed := [], ops := [], avoid := [] } "" =
      some ("", { installed := [Scenario.b15, Scenario.a1b],
                  ops := [{ package := "B", version := ⟨[1, 5]⟩, install := true, where_ := "" },
                          { package := "A", version := ⟨[1, 0]⟩, install := true,
                            where_ := "" }],
                  avoid := [Scenario.a1b, Scenario.b15] }) := by
    decide
  rw [planInstallation_mono_le Scenario.repDep 2 (k + 2) (by omega) _ _ _ _ h2]
  rfl

/-! ## Termination of `planInstallation` -/

theorem memSame_append_left (l m : List PackageVersion) (x : PackageVersion)
    (h : memSame l x) : memSame (l ++ m) x := by
  obtain ⟨q, hq, hs⟩ := h
  exact ⟨q, List.mem_append_left _ hq, hs⟩

theorem PackageVersion.contains_append_self (l : List PackageVersion) (pv : PackageVersion) :
    PackageVersion.contains (l ++ [pv]) pv = true :=
  (PackageVersion.contains_iff _ _).2 ⟨pv, by simp, PackageVersion.same_refl pv⟩

theorem length_filter_lt_of_imp {α : Type} (p q : α → Bool) (l : List α)
    (himp : ∀ e, q e = true → p e = true) (e : α) (he : e ∈ l) (hp : p e = true)
    (hq : q e = false) : (l.filter q).length < (l.filter p).length := by
  induction l with
  | nil => cases he
  | cons x rest ih =>
    have hle : (rest.filter q).length ≤ (rest.filter p).length :=
      (List.monotone_filter_right rest (fun a ha => himp a ha)).length_le
    rcases List.mem_cons.1 he with rfl | he
    · simp only [List.filter, hp, hq]
      simp only [List.length_cons]
      omega
    · have := ih he
      by_cases hqx : q x = true
      · simp only [List.filter, hqx, himp x hqx, List.length_cons]
        omega
      · have hqx2 : q x = false := by simpa using hqx
        by_cases hpx : p x = true
        · simp only [List.filter, hqx2, hpx, List.length_cons]
          omega
        · have hpx2 : p x = false := by simpa using hpx
          simp only [List.filter, hqx2, hpx2]
          exact this

theorem planInstallation.remaining_mono (rep : Repository) (a b : List PackageVersion)
    (h : ∀ x, PackageVersion.contains a x = true → PackageVersion.contains b x = true) :
    planInstallation.remaining rep b ≤ planInstallation.remaining rep a := by
  unfold planInstallation.remaining
  apply List.Sublist.length_le
  apply List.monotone_filter_right
  intro e he
  simp only [Bool.not_eq_true', Bool.not_eq_eq_eq_not, Bool.not_true] at he ⊢
  by_contra hc
  have hc2 : PackageVersion.contains a e.2 = true := by simpa using hc
  rw [h _ hc2] at he
  cases he

theorem planInstallation.remaining_lt (rep : Repository) (a : List PackageVersion)
    (pv : PackageVersion) (key : String) (hmem : (key, pv) ∈ rep.package2versions)
    (hc : PackageVersion.contains a pv = false) :
    planInstallation.remaining rep (a ++ [pv]) < planInstallation.remaining rep a := by
  unfold planInstallation.remaining
  refine length_filter_lt_of_imp _ _ _ ?_ (key, pv) hmem (by simp [hc])
    (by simp [PackageVersion.contains_append_self])
  intro e he
  simp only [Bool.not_eq_true', Bool.not_eq_eq_eq_not, Bool.not_true] at he ⊢
  by_contra hc2
  have hc3 : PackageVersion.contains a e.2 = true := by simpa using hc2
  rw [(PackageVersion.contains_iff _ _).2
    (memSame_append_left _ _ _ ((PackageVersion.contains_iff _ _).1 hc3))] at he
  cases he

theorem planInstallation.remaining_le (rep : Repository) (a : List PackageVersion) :
    planInstallation.remaining rep a ≤ rep.package2versions.length :=
  List.length_filter_le _ _

theorem mem_of_mem_values (m : List (String × PackageVersion)) (key : String)
    (x : PackageVersion) (h : x ∈ QMultiMap.values m key) : (key, x) ∈ m := by
  unfold QMultiMap.values at h
  simp only [List.mem_map, List.mem_filter, beq_iff_eq] at h
  obtain ⟨e, ⟨he, hk⟩, hx⟩ := h
  have : e = (key, x) := by
    cases e
    simp only at hk hx
    rw [hk, hx]
  rw [← this]
  exact he

theorem planInstallation.remaining_of_subset (rep : Repository) (a b : List PackageVersion)
    (h : ∀ x ∈ a, x ∈ b) :
    planInstallation.remaining rep b ≤ planInstallation.remaining rep a := by
  apply planInstallation.remaining_mono
  intro x hx
  obtain ⟨q, hq, hs⟩ := (PackageVersion.contains_iff _ _).1 hx
  exact (PackageVersion.contains_iff _ _).2 ⟨q, h q hq, hs⟩

theorem planInstallation.dependencies_returns (rep : Repository)
    (recur : PackageVersion → PlanState → Option (String × PlanState)) (f : Nat)
    (hrec : ∀ c s, (∃ key, (key, c) ∈ rep.package2versions) →
      planInstallation.remaining rep s.avoid ≤ f →
      ∃ r, recur c s = some r ∧ ∀ a ∈ s.avoid, a ∈ r.2.avoid)
    (deps : List Dependency) (st : PlanState)
    (h : planInstallation.remaining rep st.avoid ≤ f) :
    ∃ r, planInstallation.dependencies rep recur deps st = some r ∧
      ∀ a ∈ st.avoid, a ∈ r.2.avoid := by
  induction deps generalizing st with
  | nil => exact ⟨("", st), rfl, fun a ha => ha⟩
  | cons d rest ih =>
    rw [planInstallation.dependencies]
    by_cases h1 : st.installed.any (fun q => d.satisfiedBy q) = true
    · simp only [h1, ↓reduceIte]
      exact ih st h
    · simp only [h1, Bool.false_eq_true, ↓reduceIte, findBestMatchToInstall_err, isEmpty_empty,
        Bool.not_true]
      cases hm : (findBestMatchToInstall rep d st.avoid).2 with
      | none => exact ⟨_, rfl, fun a ha => ha⟩
      | some c =>
        simp only []
        have hcat : ∃ key, (key, c) ∈ rep.package2versions :=
          ⟨d.package, mem_of_mem_values _ _ _
            (findBestMatchToInstall_some_candidate rep d st.avoid c hm).1⟩
        obtain ⟨r1, hr1, hg1⟩ := hrec c st hcat h
        rw [hr1]
        simp only []
        by_cases h3 : r1.1.isEmpty = true
        · simp only [h3, Bool.not_true, Bool.false_eq_true, ↓reduceIte]
          obtain ⟨r2, hr2, hg2⟩ := ih r1.2
            (le_trans (planInstallation.remaining_of_subset rep _ _ hg1) h)
          exact ⟨r2, hr2, fun a ha => hg2 a (hg1 a ha)⟩
        · simp only [h3, Bool.not_false, ↓reduceIte]
          exact ⟨r1, rfl, hg1⟩

theorem planInstallation_returns_catalog (rep : Repository) (fuel : Nat)
    (pv : PackageVersion) (st : PlanState) (where_ : String)
    (hcat : ∃ key, (key, pv) ∈ rep.package2versions)
    (h : planInstallation.remaining rep st.avoid ≤ fuel) :
    ∃ r, planInstallation rep (fuel + 1) pv st where_ = some r ∧
      ∀ a ∈ st.avoid, a ∈ r.2.avoid := by
  induction fuel generalizing pv st where_ with
  | zero =>
    rw [planInstallation]
    by_cases h1 : PackageVersion.contains st.installed pv = true
    · simp only [h1, ↓reduceIte]
      exact ⟨_, rfl, fun a ha => ha⟩
    · simp only [h1, Bool.false_eq_true, ↓reduceIte]
      by_cases h2 : PackageVersion.contains st.avoid pv = true
      · simp only [h2, ↓reduceIte]
        exact ⟨_, rfl, fun a ha => ha⟩
      · exfalso
        obtain ⟨key, hk⟩ := hcat
        have := planInstallation.remaining_lt rep st.avoid pv key hk (by simpa using h2)
        omega
  | succ f ih =>
    rw [planInstallation]
    by_cases h1 : PackageVersion.contains st.installed pv = true
    · simp only [h1, ↓reduceIte]
      exact ⟨_, rfl, fun a ha => ha⟩
    · simp only [h1, Bool.false_eq_true, ↓reduceIte]
      by_cases h2 : PackageVersion.contains st.avoid pv = true
      · simp only [h2, ↓reduceIte]
        exact ⟨_, rfl, fun a ha => ha⟩
      · simp only [h2, Bool.false_eq_true, ↓reduceIte]
        obtain ⟨key, hk⟩ := hcat
        have hlt := planInstallation.remaining_lt rep st.avoid pv key hk (by simpa using h2)
        obtain ⟨r1, hr1, hg1⟩ := planInstallation.dependencies_returns rep
          (fun c s => planInstallation rep (f + 1) c s "") f
          (fun c s hc hs => ih c s "" hc hs) pv.dependencies
          { st with avoid := st.avoid ++ [pv] } (by simp only []; omega)
        rw [hr1]
        simp only []
        have hg : ∀ a ∈ st.avoid, a ∈ r1.2.avoid :=
          fun a ha => hg1 a (List.mem_append_left _ ha)
        by_cases h3 : r1.1.isEmpty = true
        · simp only [h3, Bool.not_true, Bool.false_eq_true, ↓reduceIte]
          exact ⟨_, rfl, hg⟩
        · simp only [h3, Bool.not_false, ↓reduceIte]
          exact ⟨_, rfl, hg⟩

theorem planInstallation_returns (rep : Repository) (fuel : Nat)
    (hfuel : rep.package2versions.length + 2 ≤ fuel)
    (pv : PackageVersion) (st : PlanState) (where_ : String) :
    ∃ r, planInstallation rep fuel pv st where_ = some r := by
  obtain ⟨f, rfl⟩ : ∃ f, fuel = f + 2 := ⟨fuel - 2, by omega⟩
  rw [planInstallation]
  by_cases h1 : PackageVersion.contains st.installed pv = true
  · simp only [h1, ↓reduceIte]
    exact ⟨_, rfl⟩
  · simp only [h1, Bool.false_eq_true, ↓reduceIte]
    by_cases h2 : PackageVersion.contains st.avoid pv = true
    · simp only [h2, ↓reduceIte]
      exact ⟨_, rfl⟩
    · simp only [h2, Bool.false_eq_true, ↓reduceIte]
      obtain ⟨r1, hr1, _⟩ := planInstallation.dependencies_returns rep
        (fun c s => planInstallation rep (f + 1) c s "") f
        (fun c s hc hs => planInstallation_returns_catalog rep f c s "" hc hs) pv.dependencies
        { st with avoid := st.avoid ++ [pv] }
        (le_trans (planInstallation.remaining_le rep _) (by omega))
      rw [hr1]
      simp only []
      by_cases h3 : r1.1.isEmpty = true
      · simp only [h3, Bool.not_true, Bool.false_eq_true, ↓reduceIte]
        exact ⟨_, rfl⟩
      · simp only [h3, Bool.not_false, ↓reduceIte]
        exact ⟨_, rfl⟩

theorem planInstallation.dependencies_error (rep : Repository)
    (recur : PackageVersion → PlanState → Option (String × PlanState))
    (hrec : ∀ c s r, recur c s = some r → r.1.isEmpty = false →
      ∃ t, r.1 = "Unsatisfiable" ++ t)
    (deps : List Dependency) (st : PlanState) (r : String × PlanState)
    (h : planInstallation.dependencies rep recur deps st = some r)
    (he : r.1.isEmpty = false) : ∃ t, r.1 = "Unsatisfiable" ++ t := by
  induction deps generalizing st with
  | nil =>
    simp only [planInstallation.dependencies, Option.some.injEq] at h
    rw [← h] at he
    exact absurd isEmpty_empty (by simp only [] at he; rw [he]; decide)
  | cons d rest ih =>
    rw [planInstallation.dependencies] at h
    by_cases h1 : st.installed.any (fun q => d.satisfiedBy q) = true
    · simp only [h1, ↓reduceIte] at h
      exact ih st h
    · simp only [h1, Bool.false_eq_true, ↓reduceIte, findBestMatchToInstall_err, isEmpty_empty,
        Bool.not_true] at h
      cases hm : (findBestMatchToInstall rep d st.avoid).2 with
      | none =>
        simp only [hm, Option.some.injEq] at h
        rw [← h]
        exact ⟨" dependency: " ++ dependencyToString rep d true, by
          simp only []
          rw [← String.append_assoc]
          rfl⟩
      | some c =>
        simp only [hm] at h
        cases hc : recur c st with
        | none => rw [hc] at h; cases h
        | some r1 =>
          rw [hc] at h
          simp only [] at h
          by_cases h3 : r1.1.isEmpty = true
          · simp only [h3, Bool.not_true, Bool.false_eq_true, ↓reduceIte] at h
            exact ih _ h
          · simp only [h3, Bool.not_false, ↓reduceIte, Option.some.injEq] at h
            rw [← h]
            exact hrec c st r1 hc (by simpa using h3)

theorem planInstallation_error (rep : Repository) (fuel : Nat) (pv : PackageVersion)
    (st : PlanState) (where_ : String) (r : String × PlanState)
    (h : planInstallation rep fuel pv st where_ = some r) (he : r.1.isEmpty = false) :
    ∃ t, r.1 = "Unsatisfiable" ++ t := by
  induction fuel generalizing pv st where_ r with
  | zero => simp [planInstallation] at h
  | succ fuel ih =>
    rw [planInstallation] at h
    by_cases h1 : PackageVersion.contains st.installed pv = true
    · simp only [h1, ↓reduceIte, Option.some.injEq] at h
      rw [← h] at he
      exact absurd isEmpty_empty (by simp only [] at he; rw [he]; decide)
    · simp only [h1, Bool.false_eq_true, ↓reduceIte] at h
      by_cases h2 : PackageVersion.contains st.avoid pv = true
      · simp only [h2, ↓reduceIte, Option.some.injEq] at h
        rw [← h]
        exact ⟨": " ++ pv.package ++ " " ++ pv.version.getVersionString ++
          " cannot be installed", by
          simp only [String.append_assoc]
          rw [← String.append_assoc]
          rfl⟩
      · simp only [h2, Bool.false_eq_true, ↓reduceIte] at h
        cases hd : planInstallation.dependencies rep
            (fun c s => planInstallation rep fuel c s "") pv.dependencies
            { st with avoid := st.avoid ++ [pv] } with
        | none => rw [hd] at h; cases h
        | some r1 =>
          rw [hd] at h
          simp only [] at h
          by_cases h3 : r1.1.isEmpty = true
          · simp only [h3, Bool.not_true, Bool.false_eq_true, ↓reduceIte,
              Option.some.injEq] at h
            rw [← h] at he
            exact absurd isEmpty_empty (by simp only [] at he; rw [he]; decide)
          · simp only [h3, Bool.not_false, ↓reduceIte, Option.some.injEq] at h
            rw [← h]
            exact planInstallation.dependencies_error rep _
              (fun c s r hr her => ih c s "" r hr her) _ _ _ hd (by simpa using h3)

theorem PlanState.extendedBy_refl (st : PlanState) (h : st.planned) : st.extendedBy st :=
  ⟨h, ⟨[], by simp, fun o ho => by cases ho⟩, fun _ hq => hq, fun _ ha => ha⟩

theorem PlanState.extendedBy_trans (s1 s2 s3 : PlanState) (h1 : s1.extendedBy s2)
    (h2 : s2.extendedBy s3) : s1.extendedBy s3 := by
  obtain ⟨_, ⟨y1, e1, n1⟩, i1, a1⟩ := h1
  obtain ⟨p3, ⟨y2, e2, n2⟩, i2, a2⟩ := h2
  refine ⟨p3, ⟨y1 ++ y2, by rw [e2, e1, List.append_assoc], ?_⟩, fun q hq => i2 q (i1 q hq),
    fun a ha => a2 a (a1 a ha)⟩
  intro o ho
  rcases List.mem_append.1 ho with ho | ho
  · exact n1 o ho
  · exact ⟨(n2 o ho).1, fun a ha => (n2 o ho).2 a (a1 a ha)⟩

theorem planInstallation.dependencies_planned (rep : Repository)
    (recur : PackageVersion → PlanState → Option (String × PlanState))
    (hrec : ∀ c s r, recur c s = some r → r.1.isEmpty = true → s.planned →
      s.extendedBy r.2)
    (deps : List Dependency) (st : PlanState) (r : String × PlanState)
    (h : planInstallation.dependencies rep recur deps st = some r)
    (he : r.1.isEmpty = true) (hp : st.planned) : st.extendedBy r.2 := by
  induction deps generalizing st with
  | nil =>
    simp only [planInstallation.dependencies, Option.some.injEq] at h
    rw [← h]
    exact PlanState.extendedBy_refl st hp
  | cons d rest ih =>
    rw [planInstallation.dependencies] at h
    by_cases h1 : st.installed.any (fun q => d.satisfiedBy q) = true
    · simp only [h1, ↓reduceIte] at h
      exact ih st h hp
    · simp only [h1, Bool.false_eq_true, ↓reduceIte, findBestMatchToInstall_err, isEmpty_empty,
        Bool.not_true] at h
      cases hm : (findBestMatchToInstall rep d st.avoid).2 with
      | none =>
        simp only [hm, Option.some.injEq] at h
        rw [← h] at he
        simp only [String.append_assoc] at he
        rw [isEmpty_append_of_pos _ _ (by decide)] at he
        cases he
      | some c =>
        simp only [hm] at h
        cases hc : recur c st with
        | none => rw [hc] at h; cases h
        | some r1 =>
          rw [hc] at h
          simp only [] at h
          by_cases h3 : r1.1.isEmpty = true
          · simp only [h3, Bool.not_true, Bool.false_eq_true, ↓reduceIte] at h
            have e1 := hrec c st r1 hc h3 hp
            exact PlanState.extendedBy_trans _ _ _ e1 (ih _ h e1.1)
          · simp only [h3, Bool.not_false, ↓reduceIte, Option.some.injEq] at h
            rw [← h] at he
            exact absurd he h3

theorem planInstallation_planned (rep : Repository) (fuel : Nat) (pv : PackageVersion)
    (st : PlanState) (where_ : String) (r : String × PlanState)
    (h : planInstallation rep fuel pv st where_ = some r) (he : r.1.isEmpty = true)
    (hp : st.planned) : st.extendedBy r.2 := by
  induction fuel generalizing pv st where_ r with
  | zero => simp [planInstallation] at h
  | succ fuel ih =>
    rw [planInstallation] at h
    by_cases h1 : PackageVersion.contains st.installed pv = true
    · simp only [h1, ↓reduceIte, Option.some.injEq] at h
      rw [← h]
      exact PlanState.extendedBy_refl st hp
    · simp only [h1, Bool.false_eq_true, ↓reduceIte] at h
      by_cases h2 : PackageVersion.contains st.avoid pv = true
      · simp only [h2, ↓reduceIte, Option.some.injEq] at h
        rw [← h] at he
        simp only [String.append_assoc] at he
        rw [isEmpty_append_of_pos _ _ (by decide)] at he
        cases he
      · simp only [h2, Bool.false_eq_true, ↓reduceIte] at h
        cases hd : planInstallation.dependencies rep
            (fun c s => planInstallation rep fuel c s "") pv.dependencies
            { st with avoid := st.avoid ++ [pv] } with
        | none => rw [hd] at h; cases h
        | some r1 =>
          rw [hd] at h
          simp only [] at h
          by_cases h3 : r1.1.isEmpty = true
          · simp only [h3, Bool.not_true, Bool.false_eq_true, ↓reduceIte,
              Option.some.injEq] at h
            obtain ⟨⟨pw, pin⟩, ⟨y, ey, ny⟩, hi, ha⟩ :=
              planInstallation.dependencies_planned rep _
                (fun c s r hr her hs => ih c s "" r hr her hs) _
                { st with avoid := st.avoid ++ [pv] } r1 hd h3 hp
            simp only [] at ey ny hi ha
            have hninst : ¬ memSame st.installed pv := by
              rw [← PackageVersion.contains_iff]; exact h1
            have hnavoid : ¬ memSame st.avoid pv := by
              rw [← PackageVersion.contains_iff]; exact h2
            rw [← h]
            refine ⟨⟨?_, ?_⟩, ⟨y ++ [InstallOperation.mk pv.package pv.version true where_],
              by simp only [ey, List.append_assoc], ?_⟩, ?_, ?_⟩
            · rw [List.pairwise_append]
              refine ⟨pw, List.pairwise_singleton _ _, ?_⟩
              intro o ho b hb
              rw [List.mem_singleton] at hb
              subst hb
              rintro ⟨e1, e2, e3⟩
              simp only [] at e1 e2 e3
              rw [ey] at ho
              rcases List.mem_append.1 ho with ho | ho
              · obtain ⟨q, hq, hq1, hq2⟩ := hp.2 o ho e3
                exact hninst ⟨q, hq, (PackageVersion.same_iff _ _).2
                  ⟨hq1.trans e1, Version.compare_eq_zero_trans _ _ _ hq2 e2⟩⟩
              · refine (ny o ho).2 pv (by simp) ⟨e1.symm, ?_⟩
                have := Version.compare_antisymm o.version pv.version
                omega
            · intro o ho hins
              simp only [] at ho ⊢
              rcases List.mem_append.1 ho with ho | ho
              · obtain ⟨q, hq, hq1⟩ := pin o ho hins
                exact ⟨q, List.mem_append_left _ hq, hq1⟩
              · rw [List.mem_singleton] at ho
                subst ho
                exact ⟨pv, by simp, rfl, Version.compare_self _⟩
            · intro o ho
              rcases List.mem_append.1 ho with ho | ho
              · exact ⟨(ny o ho).1, fun a ha2 => (ny o ho).2 a (List.mem_append_left _ ha2)⟩
              · rw [List.mem_singleton] at ho
                subst ho
                refine ⟨rfl, fun a ha2 hs => hnavoid ⟨a, ha2, (PackageVersion.same_iff _ _).2 hs⟩⟩
            · intro q hq
              exact List.mem_append_left _ (hi q hq)
            · intro a ha2
              exact ha a (List.mem_append_left _ ha2)
          · simp only [h3, Bool.not_false, ↓reduceIte, Option.some.injEq] at h
            rw [← h] at he
            exact absurd he h3

/-- C19: `planInstallation` terminates on every finite catalog, cyclic or not.  With a
recursion bound of at least the number of catalog entries plus two, the planner returns for
every package version, every planned state on entry (in particular the empty plan) and every
target directory; the result is either an error that starts with "Unsatisfiable" or no error
and a plan in which no two operations have the same package, version and install flag. -/
theorem planInstallation_terminates (rep : Repository) (fuel : Nat)
    (hfuel : rep.package2versions.length + 2 ≤ fuel) (pv : PackageVersion) (st : PlanState)
    (where_ : String) (hp : st.planned) :
    ∃ r, planInstallation rep fuel pv st where_ = some r ∧
      ((∃ t, r.1 = "Unsatisfiable" ++ t) ∨
        (r.1 = "" ∧ r.2.ops.Pairwise (fun a b => ¬ a.sameOperation b))) := by
  obtain ⟨r, hr⟩ := planInstallation_returns rep fuel hfuel pv st where_
  refine ⟨r, hr, ?_⟩
  by_cases he : r.1.isEmpty = true
  · exact Or.inr ⟨(String.isEmpty_iff _).1 he,
      (planInstallation_planned rep fuel pv st where_ r hr he hp).1.1⟩
  · exact Or.inl (planInstallation_error rep fuel pv st where_ r hr (by simpa using he))

/-- C19 at a catalog with a dependency cycle (P/1.0 needs Q, Q/1.0 needs P): with the
recursion bound 4 the planner returns for P/1.0 and reports an unsatisfiable dependency. -/
theorem planInstallation_terminates_witness :
    Scenario.repCycle.package2versions.length + 2 ≤ 4 ∧
    (planInstallation Scenario.repCycle 4 Scenario.p1
        { installed := [], ops := [], avoid := [] } "").map (fun r => r.1) =
      some "Unsatisfiable dependency: Package P (P) [1.0, 2.0)" ∧
    ∃ r, planInstallation Scenario.repCycle 4 Scenario.p1
        { installed := [], ops := [], avoid := [] } "" = some r ∧
      ((∃ t, r.1 = "Unsatisfiable" ++ t) ∨
        (r.1 = "" ∧ r.2.ops.Pairwise (fun a b => ¬ a.sameOperation b))) :=
  ⟨by decide, by decide,
    planInstallation_terminates Scenario.repCycle 4 (by decide) Scenario.p1
      { installed := [], ops := [], avoid := [] } "" ⟨List.Pairwise.nil, fun _ h => by cases h⟩⟩

/-! ## Uninstall planning: dependents first -/

theorem planUninstallation.dependents_returns
    (recur : PackageVersion → List PackageVersion → List InstallOperation →
      Option (String × List PackageVersion × List InstallOperation))
    (base : List PackageVersion) (l : List PackageVersion)
    (hrec : ∀ x ∈ l, ∀ inst ops, inst.Sublist base →
      ∃ inst2 t, recur x inst ops = some ("", inst2, ops ++ t ++
          [{ package := x.package, version := x.version, install := false, where_ := "" }]) ∧
        inst2.Sublist inst ∧ ∀ q ∈ inst2, q.same x = false)
    (inst : List PackageVersion) (ops : List InstallOperation)
    (hsub : inst.Sublist base) :
    ∃ inst2 t, planUninstallation.dependents recur l inst ops = some ("", inst2, ops ++ t) ∧
      inst2.Sublist inst ∧ (∀ q ∈ inst2, ∀ x ∈ l, q.same x = false) ∧
      ∀ x ∈ l, ∃ pre post, t = pre ++
        [{ package := x.package, version := x.version, install := false, where_ := "" }] ++
        post := by
  induction l generalizing inst ops with
  | nil =>
    exact ⟨inst, [], (by simp [planUninstallation.dependents]), List.Sublist.refl _,
      (fun q _ x hx => by cases hx), (fun x hx => by cases hx)⟩
  | cons y rest ih =>
    obtain ⟨i1, t1, e1, s1, n1⟩ := hrec y (List.mem_cons_self _ _) inst ops hsub
    obtain ⟨i2, t2, e2, s2, n2, o2⟩ := ih
      (fun x hx => hrec x (List.mem_cons_of_mem _ hx)) i1
      (ops ++ t1 ++ [{ package := y.package, version := y.version, install := false,
                       where_ := "" }])
      (s1.trans hsub)
    refine ⟨i2, t1 ++ [{ package := y.package, version := y.version, install := false,
                         where_ := "" }] ++ t2, ?_, s2.trans s1, ?_, ?_⟩
    · rw [planUninstallation.dependents, e1]
      simp only [isEmpty_empty, Bool.not_true, Bool.false_eq_true, ↓reduceIte]
      rw [e2]
      simp only [List.append_assoc]
    · intro q hq x hx
      rcases List.mem_cons.1 hx with rfl | hx
      · exact n1 q (s2.subset hq)
      · exact n2 q hq x hx
    · intro x hx
      rcases List.mem_cons.1 hx with rfl | hx
      · exact ⟨t1, t2, rfl⟩
      · obtain ⟨pre, post, hpp⟩ := o2 x hx
        exact ⟨t1 ++ [{ package := y.package, version := y.version, install := false,
                        where_ := "" }] ++ pre, post, by rw [hpp]; simp only [List.append_assoc]⟩

theorem length_lt_of_sublist_of_not_mem (l1 l2 : List PackageVersion) (x : PackageVersion)
    (hs : l1.Sublist l2) (hx : x ∈ l2) (hn : x ∉ l1) : l1.length < l2.length := by
  rcases Nat.lt_or_ge l1.length l2.length with h | h
  · exact h
  · have := hs.eq_of_length_le h
    rw [this] at hn
    exact absurd hx hn

theorem planUninstallation_returns (fuel : Nat) (pv : PackageVersion)
    (inst : List PackageVersion) (ops : List InstallOperation)
    (hfuel : 2 * inst.length + (if pv ∈ inst then 0 else 1) < fuel) :
    ∃ inst2 t, planUninstallation fuel pv inst ops = some ("", inst2, ops ++ t ++
        [{ package := pv.package, version := pv.version, install := false, where_ := "" }]) ∧
      inst2.Sublist (inst.filter (fun q => !q.same pv)) ∧
      ∀ x ∈ inst.filter (isLastProvider pv inst), (∀ q ∈ inst2, q.same x = false) ∧
        ∃ pre post, t = pre ++
          [{ package := x.package, version := x.version, install := false, where_ := "" }] ++
          post := by
  induction fuel generalizing pv inst ops with
  | zero => omega
  | succ f ih =>
    have hbase : (inst.filter (fun q => !q.same pv)).Sublist inst := List.filter_sublist _
    have hrec : ∀ x ∈ inst.filter (isLastProvider pv inst), ∀ inst1 ops1,
        inst1.Sublist (inst.filter (fun q => !q.same pv)) →
        ∃ inst2 t, planUninstallation f x inst1 ops1 = some ("", inst2, ops1 ++ t ++
            [{ package := x.package, version := x.version, install := false,
               where_ := "" }]) ∧
          inst2.Sublist inst1 ∧ ∀ q ∈ inst2, q.same x = false := by
      intro x hx inst1 ops1 hs1
      have hxi : x ∈ inst := (List.mem_filter.1 hx).1
      have hl1 : inst1.length ≤ (inst.filter (fun q => !q.same pv)).length := hs1.length_le
      have hl2 : (inst.filter (fun q => !q.same pv)).length ≤ inst.length := hbase.length_le
      have hm : 2 * inst1.length + (if x ∈ inst1 then 0 else 1) < f := by
        by_cases hpv : pv ∈ inst
        · have hlt : (inst.filter (fun q => !q.same pv)).length < inst.length :=
            length_lt_of_sublist_of_not_mem _ _ pv hbase hpv (by
              intro hm
              have := (List.mem_filter.1 hm).2
              simp [PackageVersion.same_refl] at this)
          simp only [hpv, ↓reduceIte] at hfuel
          split_ifs <;> omega
        · simp only [hpv, ↓reduceIte] at hfuel
          by_cases hx1 : x ∈ inst1
          · simp only [hx1, ↓reduceIte]
            omega
          · have hlt : inst1.length < inst.length :=
              length_lt_of_sublist_of_not_mem _ _ x (hs1.trans hbase) hxi hx1
            simp only [hx1, ↓reduceIte]
            omega
      obtain ⟨i2, t, e, s, _⟩ := ih x inst1 ops1 hm
      refine ⟨i2, t, e, s.trans (List.filter_sublist _), ?_⟩
      intro q hq
      have := (List.mem_filter.1 (s.subset hq)).2
      simpa using this
    obtain ⟨i2, t2, e2, s2, n2, o2⟩ := planUninstallation.dependents_returns
      (planUninstallation f) _ _ hrec (inst.filter (fun q => !q.same pv)) ops
      (List.Sublist.refl _)
    refine ⟨i2.filter (fun q => !q.same pv), t2, ?_, ?_, ?_⟩
    · rw [planUninstallation, e2]
      simp only [isEmpty_empty, Bool.not_true, Bool.false_eq_true, ↓reduceIte]
    · exact (List.filter_sublist _).trans s2
    · intro x hx
      exact ⟨fun q hq => n2 q (List.mem_filter.1 hq).1 x hx, o2 x hx⟩

/-- C20: for every installed snapshot in which `b` is installed and `a` is installed and is
the only installed package version satisfying one of the dependencies of `b`,
`planUninstallation` of `a` returns (for every recursion bound above twice the size of the
snapshot) no error and a plan that contains an uninstall operation for `b` placed before the
uninstall operation for `a`, which comes last; neither `a` nor `b` is left in the installed
snapshot.  This includes snapshots with a dependency cycle. -/
theorem planUninstallation_dependent_first (installed : List PackageVersion)
    (a b : PackageVersion) (ha : a ∈ installed) (hb : b ∈ installed)
    (hdep : ∃ d ∈ b.dependencies, d.satisfiedBy a = true ∧
      ∀ q ∈ installed, d.satisfiedBy q = true → q.same a = true)
    (fuel : Nat) (hfuel : 2 * installed.length < fuel) (ops : List InstallOperation) :
    ∃ inst2 pre post,
      planUninstallation fuel a installed ops = some ("", inst2,
        ops ++ pre ++
          [{ package := b.package, version := b.version, install := false, where_ := "" }] ++
          post ++
          [{ package := a.package, version := a.version, install := false, where_ := "" }]) ∧
      ∀ q ∈ inst2, q ∈ installed ∧ q.same a = false ∧ q.same b = false := by
  have hlast : isLastProvider a installed b = true := by
    obtain ⟨d, hd, hs, honly⟩ := hdep
    unfold isLastProvider
    rw [List.any_eq_true]
    refine ⟨d, hd, ?_⟩
    simp only [Bool.and_eq_true, List.any_eq_true, List.all_eq_true, Bool.or_eq_true,
      Bool.not_eq_true']
    refine ⟨⟨hs, a, ha, hs⟩, fun q hq => ?_⟩
    by_cases hq2 : d.satisfiedBy q = true
    · exact Or.inr (honly q hq hq2)
    · exact Or.inl (by simpa using hq2)
  obtain ⟨inst2, t, e, s, o⟩ := planUninstallation_returns fuel a installed ops
    (by simp only [ha, ↓reduceIte]; omega)
  obtain ⟨sb, pre, post, hpp⟩ := o b (List.mem_filter.2 ⟨hb, hlast⟩)
  refine ⟨inst2, pre, post, ?_, fun q hq => ?_⟩
  · rw [e, hpp]
    simp only [List.append_assoc]
  · have hq2 := List.mem_filter.1 (s.subset hq)
    exact ⟨hq2.1, by simpa using hq2.2, sb q hq⟩

/-- C20 at concrete snapshots.  With P/1.0 and Q/1.0 installed, where P/1.0 needs Q and
Q/1.0 needs P, uninstalling P/1.0 is planned as "uninstall Q/1.0, uninstall P/1.0" and
leaves nothing installed.  With B/1.5 and A/1.0 installed, where A/1.0 needs B in [1.0, 2.0),
uninstalling B/1.5 is planned as "uninstall A/1.0, uninstall B/1.5", also when P/1.0 and
Q/1.0 are installed next to them. -/
theorem planUninstallation_dependent_first_witness :
    planUninstallation 5 Scenario.p1 [Scenario.p1, Scenario.q1] [] =
      some ("", [],
        [{ package := "Q", version := ⟨[1, 0]⟩, install := false, where_ := "" },
         { package := "P", version := ⟨[1, 0]⟩, install := false, where_ := "" }]) ∧
    planUninstallation 5 Scenario.b15 [Scenario.b15, Scenario.a1b] [] =
      some ("", [],
        [{ package := "A", version := ⟨[1, 0]⟩, install := false, where_ := "" },
         { package := "B", version := ⟨[1, 5]⟩, install := false, where_ := "" }]) ∧
    planUninstallation 9 Scenario.b15
        [Scenario.b15, Scenario.a1b, Scenario.p1, Scenario.q1] [] =
      some ("", [Scenario.p1, Scenario.q1],
        [{ package := "A", version := ⟨[1, 0]⟩, install := false, where_ := "" },
         { package := "B", version := ⟨[1, 5]⟩, install := false, where_ := "" }]) ∧
    ∃ inst2 pre post,
      planUninstallation 5 Scenario.p1 [Scenario.p1, Scenario.q1] [] = some ("", inst2,
        [] ++ pre ++
          [{ package := Scenario.q1.package, version := Scenario.q1.version,
             install := false, where_ := "" }] ++
          post ++
          [{ package := Scenario.p1.package, version := Scenario.p1.version,
             install := false, where_ := "" }]) ∧
      ∀ q ∈ inst2, q ∈ [Scenario.p1, Scenario.q1] ∧ q.same Scenario.p1 = false ∧
        q.same Scenario.q1 = false :=
  ⟨by decide, by decide, by decide,
    planUninstallation_dependent_first [Scenario.p1, Scenario.q1]
      Scenario.p1 Scenario.q1 (by decide) (by decide)
      ⟨_, List.mem_cons_self _ _, by decide, by decide⟩ 5 (by decide) []⟩

/-! ## Version comparison is a total order -/

theorem compareParts_zeros_nil (k : Nat) :
    Version.compareParts (List.replicate k 0) [] = 0 := by
  induction k with
  | zero => simp [Version.compareParts]
  | succ k ih =>
    rw [List.replicate_succ, compareParts_cons_nil]
    simpa using ih

theorem compareParts_append_zeros (p : List Nat) (k : Nat) :
    Version.compareParts (p ++ List.replicate k 0) p = 0 := by
  induction p with
  | nil => simpa using compareParts_zeros_nil k
  | cons a as ih =>
    rw [List.cons_append, compareParts_cons_cons]
    simp [ih]

theorem Version.compare_trans_lt (a b c : Version)
    (h1 : a.compare b < 0) (h2 : b.compare c < 0) : a.compare c < 0 := by
  have hle : a.compare c ≤ 0 := Version.compare_trans_le a b c (by omega) (by omega)
  by_contra hn
  have h0 : a.compare c = 0 := by omega
  have hca : c.compare a ≤ 0 := by
    have := Version.compare_antisymm a c
    omega
  have hcb : c.compare b ≤ 0 := Version.compare_trans_le c a b hca (by omega)
  have := Version.compare_antisymm b c
  omega

/-- C21: version comparison is a total order.  `compare(b, a)` is the negation of
`compare(a, b)`, so for all versions exactly one of `a < b`, `a = b` (they compare equal) and
`a > b` holds, and `a < b` holds exactly when `b > a`; `a < b` and `b < c` imply `a < c`; a
version compares equal to itself and to itself followed by any number of zero components. -/
theorem Version.compare_total_order (a b c : Version) :
    b.compare a = - a.compare b ∧
    ((a.compare b < 0 ∧ a.compare b ≠ 0 ∧ ¬ 0 < a.compare b) ∨
      (¬ a.compare b < 0 ∧ a.compare b = 0 ∧ ¬ 0 < a.compare b) ∨
      (¬ a.compare b < 0 ∧ a.compare b ≠ 0 ∧ 0 < a.compare b)) ∧
    (a.compare b < 0 ↔ 0 < b.compare a) ∧
    (a.compare b = 0 ↔ b.compare a = 0) ∧
    (a.compare b < 0 → b.compare c < 0 → a.compare c < 0) ∧
    a.compare a = 0 ∧
    (∀ k, (Version.mk (a.parts ++ List.replicate k 0)).compare a = 0 ∧
      a.compare (Version.mk (a.parts ++ List.replicate k 0)) = 0) := by
  have hanti := Version.compare_antisymm a b
  refine ⟨hanti, by omega, by omega, by omega, Version.compare_trans_lt a b c,
    Version.compare_self a, fun k => ?_⟩
  have h1 : (Version.mk (a.parts ++ List.replicate k 0)).compare a = 0 :=
    compareParts_append_zeros a.parts k
  have := Version.compare_antisymm (Version.mk (a.parts ++ List.replicate k 0)) a
  exact ⟨h1, by omega⟩

/-- C21 at concrete versions: 1.0 and 1.0.0 compare equal, 1.2 is below 1.10, and 1.2 below
1.10 below 2 gives 1.2 below 2. -/
theorem Version.compare_total_order_witness :
    (Version.mk [1, 0, 0]).compare (Version.mk [1, 0]) = 0 ∧
    (Version.mk [1, 2]).compare (Version.mk [1, 10]) < 0 ∧
    (Version.mk [1, 10]).compare (Version.mk [2]) < 0 ∧
    (Version.mk [1, 2]).compare (Version.mk [2]) < 0 :=
  ⟨((Version.compare_total_order (Version.mk [1, 0]) (Version.mk [1, 0]) (Version.mk [1, 0])
      ).2.2.2.2.2.2 1).1,
    by decide, by decide,
    (Version.compare_total_order (Version.mk [1, 2]) (Version.mk [1, 10]) (Version.mk [2])
      ).2.2.2.2.1 (by decide) (by decide)⟩

/-! ## Lock registry -/

/-- C22 (counterexample): `lock()` on A/1.0 while A/1.0 is already locked and `lock()` on
A/1.0 while nothing is locked leave the caller with the same locked set and, `lock()` being
declared `void`, with nothing else: the call on the locked version reports no failure. -/
theorem PackageVersion.lock_reports_nothing_counterexample :
    PackageVersion.isLocked ["A/1"] Scenario.a1 = true ∧
    PackageVersion.isLocked [] Scenario.a1 = false ∧
    PackageVersion.lock ["A/1"] Scenario.a1 = ["A/1"] ∧
    PackageVersion.lock [] Scenario.a1 = ["A/1"] := by
  decide

/-- C22 (amended): the lock registry behind `lock()`, `unlock()` and `isLocked()`.
`isLocked` reflects membership of the stringId in the locked set at every point.  `lock` on a
locked version leaves the set unchanged (the registry operation of the spec fails, but
`void lock()` passes no result to the caller); `lock` on a version that is not locked inserts
its stringId and changes the state of no other stringId.  `unlock` removes membership, changes
the state of no other stringId and leaves the set as it is when the version is not locked.
After `lock` and `unlock` the version is not locked and a further `lock` inserts it again (the
registry operation succeeds). -/
theorem PackageVersion.lock_registry (locked : List String) (pv : PackageVersion) :
    (PackageVersion.isLocked locked pv = true ↔ pv.getStringId ∈ locked) ∧
    (PackageVersion.isLocked locked pv = true →
      PackageVersion.lock locked pv = locked ∧
      (LockRegistry.lock locked pv.getStringId).1 = false) ∧
    (PackageVersion.isLocked locked pv = false →
      PackageVersion.lock locked pv = pv.getStringId :: locked ∧
      (LockRegistry.lock locked pv.getStringId).1 = true) ∧
    PackageVersion.isLocked (PackageVersion.lock locked pv) pv = true ∧
    (∀ id, id ≠ pv.getStringId →
      (id ∈ PackageVersion.lock locked pv ↔ id ∈ locked) ∧
      (id ∈ PackageVersion.unlock locked pv ↔ id ∈ locked)) ∧
    PackageVersion.isLocked (PackageVersion.unlock locked pv) pv = false ∧
    (PackageVersion.isLocked locked pv = false → PackageVersion.unlock locked pv = locked) ∧
    PackageVersion.isLocked (PackageVersion.unlock (PackageVersion.lock locked pv) pv) pv
      = false ∧
    (LockRegistry.lock (PackageVersion.unlock (PackageVersion.lock locked pv) pv)
      pv.getStringId).1 = true ∧
    PackageVersion.isLocked
      (PackageVersion.lock (PackageVersion.unlock (PackageVersion.lock locked pv) pv) pv) pv
      = true := by
  have hun : ∀ l : List String, PackageVersion.isLocked (PackageVersion.unlock l pv) pv
      = false := by
    intro l
    simp [PackageVersion.isLocked, PackageVersion.unlock, LockRegistry.isLocked,
      LockRegistry.unlock]
  have hlk : ∀ l : List String, PackageVersion.isLocked (PackageVersion.lock l pv) pv
      = true := by
    intro l
    by_cases h : pv.getStringId ∈ l <;>
      simp [PackageVersion.isLocked, PackageVersion.lock, LockRegistry.isLocked,
        LockRegistry.lock, h]
  have hfree : ∀ l : List String, PackageVersion.isLocked l pv = false →
      (LockRegistry.lock l pv.getStringId).1 = true := by
    intro l h
    simp only [PackageVersion.isLocked, LockRegistry.isLocked, decide_eq_false_iff_not] at h
    simp [LockRegistry.lock, h]
  refine ⟨by simp [PackageVersion.isLocked, LockRegistry.isLocked], ?_, ?_, hlk locked, ?_,
    hun locked, ?_, hun _, hfree _ (hun _), hlk _⟩
  · intro h
    simp only [PackageVersion.isLocked, LockRegistry.isLocked, decide_eq_true_eq] at h
    simp [PackageVersion.lock, LockRegistry.lock, h]
  · intro h
    refine ⟨?_, hfree locked h⟩
    simp only [PackageVersion.isLocked, LockRegistry.isLocked, decide_eq_false_iff_not] at h
    simp [PackageVersion.lock, LockRegistry.lock, h]
  · intro id hid
    constructor
    · by_cases h : pv.getStringId ∈ locked <;>
        simp [PackageVersion.lock, LockRegistry.lock, h, hid]
    · simp [PackageVersion.unlock, LockRegistry.unlock, hid]
  · intro h
    simp only [PackageVersion.isLocked, LockRegistry.isLocked, decide_eq_false_iff_not] at h
    simp only [PackageVersion.unlock, LockRegistry.unlock]
    rw [List.filter_eq_self]
    intro x hx
    simp only [ne_eq, decide_not, Bool.not_eq_true', decide_eq_false_iff_not]
    rintro rfl
    exact h hx

/-! ## The sorted list of the versions of a package -/

theorem QString.compareChars_antisymm (a b : List Char) :
    QString.compareChars b a = - QString.compareChars a b := by
  induction a generalizing b with
  | nil => cases b <;> simp [QString.compareChars]
  | cons x xs ih =>
    cases b with
    | nil => simp [QString.compareChars]
    | cons y ys =>
      simp only [QString.compareChars]
      rw [ih ys]
      split_ifs <;> omega

theorem Char.eq_of_toNat_eq (x y : Char) (h : x.toNat = y.toNat) : x = y := by
  apply Char.ext
  apply UInt32.ext
  exact h

theorem QString.compareChars_eq_zero (a b : List Char) (h : QString.compareChars a b = 0) :
    a = b := by
  induction a generalizing b with
  | nil =>
    cases b with
    | nil => rfl
    | cons y ys => simp [QString.compareChars] at h
  | cons x xs ih =>
    cases b with
    | nil => simp [QString.compareChars] at h
    | cons y ys =>
      simp only [QString.compareChars] at h
      by_cases h1 : x.toNat < y.toNat
      · simp [h1] at h
      · by_cases h2 : y.toNat < x.toNat
        · simp [h1, h2] at h
        · simp only [h1, h2, ↓reduceIte] at h
          have hxy : x = y := Char.eq_of_toNat_eq x y (by omega)
          rw [hxy, ih ys h]

theorem QString.compareChars_self (a : List Char) : QString.compareChars a a = 0 := by
  have := QString.compareChars_antisymm a a
  omega

theorem QString.compareChars_trans_le (a b c : List Char)
    (h1 : QString.compareChars a b ≤ 0) (h2 : QString.compareChars b c ≤ 0) :
    QString.compareChars a c ≤ 0 := by
  induction a generalizing b c with
  | nil => cases c <;> simp [QString.compareChars]
  | cons x xs ih =>
    cases b with
    | nil => simp [QString.compareChars] at h1
    | cons y ys =>
      cases c with
      | nil => simp [QString.compareChars] at h2
      | cons z zs =>
        simp only [QString.compareChars] at h1 h2 ⊢
        split_ifs at h1 h2 ⊢ <;> first | omega | exact ih ys zs h1 h2

theorem QString.compare_neg (a b : String) :
    QString.compare b a = - QString.compare a b :=
  QString.compareChars_antisymm a.data b.data

theorem QString.compare_eq_zero (a b : String) (h : QString.compare a b = 0) : a = b :=
  String.ext (QString.compareChars_eq_zero a.data b.data h)

theorem QString.compare_refl (a : String) : QString.compare a a = 0 :=
  QString.compareChars_self a.data

theorem QString.compare_le_trans (a b c : String)
    (h1 : QString.compare a b ≤ 0) (h2 : QString.compare b c ≤ 0) :
    QString.compare a c ≤ 0 :=
  QString.compareChars_trans_le a.data b.data c.data h1 h2

theorem packageVersionLessThan2_eq_false (a b : PackageVersion) :
    packageVersionLessThan2 b a = false ↔
      (if QString.compare a.package b.package = 0 then a.version.compare b.version
       else QString.compare a.package b.package) ≤ 0 := by
  have hs := QString.compare_neg a.package b.package
  have hv := Version.compare_antisymm a.version b.version
  unfold packageVersionLessThan2
  simp only [decide_eq_false_iff_not, not_lt]
  by_cases h0 : QString.compare a.package b.package = 0
  · have h1 : QString.compare b.package a.package = 0 := by omega
    simp only [h0, h1, ↓reduceIte]
    omega
  · have h1 : QString.compare b.package a.package ≠ 0 := by omega
    simp only [h0, h1, ↓reduceIte]
    omega

theorem packageVersionLessThan2_total (a b : PackageVersion) :
    packageVersionLessThan2 b a = false ∨ packageVersionLessThan2 a b = false := by
  rw [packageVersionLessThan2_eq_false, packageVersionLessThan2_eq_false]
  have hs := QString.compare_neg a.package b.package
  have hv := Version.compare_antisymm a.version b.version
  by_cases h0 : QString.compare a.package b.package = 0
  · have h1 : QString.compare b.package a.package = 0 := by omega
    simp only [h0, h1, ↓reduceIte]
    omega
  · have h1 : QString.compare b.package a.package ≠ 0 := by omega
    simp only [h0, h1, ↓reduceIte]
    omega

theorem packageVersionLessThan2_trans (a b c : PackageVersion)
    (h1 : packageVersionLessThan2 b a = false) (h2 : packageVersionLessThan2 c b = false) :
    packageVersionLessThan2 c a = false := by
  rw [packageVersionLessThan2_eq_false] at h1 h2 ⊢
  by_cases hab : QString.compare a.package b.package = 0
  · have e := QString.compare_eq_zero _ _ hab
    simp only [hab, ↓reduceIte] at h1
    rw [e]
    by_cases hbc : QString.compare b.package c.package = 0
    · simp only [hbc, ↓reduceIte] at h2 ⊢
      exact Version.compare_trans_le _ _ _ h1 h2
    · simp only [hbc, ↓reduceIte] at h2 ⊢
      exact h2
  · simp only [hab, ↓reduceIte] at h1
    by_cases hbc : QString.compare b.package c.package = 0
    · have e := QString.compare_eq_zero _ _ hbc
      rw [← e]
      simp only [hab, ↓reduceIte]
      exact h1
    · simp only [hbc, ↓reduceIte] at h2
      have hle := QString.compare_le_trans _ _ _ h1 h2
      by_cases hac : QString.compare a.package c.package = 0
      · exfalso
        have e := QString.compare_eq_zero _ _ hac
        rw [e] at h1 hab
        have := QString.compare_neg b.package c.package
        omega
      · simp only [hac, ↓reduceIte]
        exact hle

theorem qSort_sorted (l : List PackageVersion) :
    (qSort packageVersionLessThan2 l).Pairwise
      (fun x y => packageVersionLessThan2 y x = false) := by
  haveI : IsTotal PackageVersion (fun x y => packageVersionLessThan2 y x = false) :=
    ⟨packageVersionLessThan2_total⟩
  haveI : IsTrans PackageVersion (fun x y => packageVersionLessThan2 y x = false) :=
    ⟨packageVersionLessThan2_trans⟩
  exact List.sorted_insertionSort _ l

theorem qSort_perm (lessThan : PackageVersion → PackageVersion → Bool)
    (l : List PackageVersion) : (qSort lessThan l).Perm l :=
  List.perm_insertionSort _ l

/-- C23: `Repository::getPackageVersions_` and `getPackageVersions` return the same list, with
no error: a permutation of the package versions stored under the package name (nothing added,
nothing lost) in which no element is less than an earlier one by `packageVersionLessThan2`
(package id first, then version).  Where two elements have the same package id, which is the
case for all of them when every version is filed under its own package, the earlier one has
the version that compares lower or equal; in particular this holds for every adjacent
pair. -/
theorem getPackageVersions__sorted (rep : Repository) (package : String) :
    (rep.getPackageVersions_ package).1 = "" ∧
    (rep.getPackageVersions_ package).2 = rep.getPackageVersions package ∧
    (rep.getPackageVersions_ package).2.Perm (QMultiMap.values rep.package2versions package) ∧
    (rep.getPackageVersions_ package).2.Pairwise
      (fun x y => packageVersionLessThan2 y x = false) ∧
    (rep.getPackageVersions_ package).2.Pairwise
      (fun x y => x.package = y.package → x.version.compare y.version ≤ 0) ∧
    (rep.keysMatch →
      (∀ x ∈ (rep.getPackageVersions_ package).2, x.package = package) ∧
      (rep.getPackageVersions_ package).2.Pairwise
        (fun x y => x.version.compare y.version ≤ 0) ∧
      (rep.getPackageVersions_ package).2.Chain'
        (fun x y => x.version.compare y.version ≤ 0)) := by
  have hs := qSort_sorted (QMultiMap.values rep.package2versions package)
  have hv : (qSort packageVersionLessThan2
      (QMultiMap.values rep.package2versions package)).Pairwise
      (fun x y => x.package = y.package → x.version.compare y.version ≤ 0) := by
    refine hs.imp ?_
    intro x y hxy he
    rw [packageVersionLessThan2_eq_false, he, QString.compare_refl] at hxy
    simpa using hxy
  refine ⟨rfl, rfl, qSort_perm _ _, hs, hv, fun hk => ?_⟩
  have hp : ∀ x ∈ (rep.getPackageVersions_ package).2, x.package = package := by
    intro x hx
    exact mem_values_package rep hk package x ((mem_getPackageVersions_ rep package x).1 hx)
  have hv2 : (rep.getPackageVersions_ package).2.Pairwise
      (fun x y => x.version.compare y.version ≤ 0) := by
    refine (List.Pairwise.and_mem.1 hv).imp ?_
    rintro x y ⟨hx, hy, h⟩
    exact h ((hp x hx).trans (hp y hy).symm)
  exact ⟨hp, hv2, hv2.chain'⟩

/-- C23 at the catalog with A/2.0 and A/1.0 stored in this order in the index: the result is
"A/1.0, A/2.0". -/
theorem getPackageVersions__sorted_witness :
    Scenario.repA.keysMatch ∧
    QMultiMap.values Scenario.repA.package2versions "A" = [Scenario.a2, Scenario.a1] ∧
    (Scenario.repA.getPackageVersions_ "A").2 = [Scenario.a1, Scenario.a2] ∧
    (Scenario.repA.getPackageVersions_ "A").2.Chain'
      (fun x y => x.version.compare y.version ≤ 0) :=
  ⟨by unfold Repository.keysMatch; decide, by decide, by decide,
    ((getPackageVersions__sorted Scenario.repA "A").2.2.2.2.2
      (by unfold Repository.keysMatch; decide)).2.2⟩

/-! ## The stringId identifies a package version -/

theorem String.intercalate_go_append (acc x s : String) (l : List String) :
    String.intercalate.go (acc ++ x) s l = acc ++ String.intercalate.go x s l := by
  induction l generalizing x with
  | nil => rfl
  | cons a as ih =>
    simp only [String.intercalate.go]
    rw [String.append_assoc, String.append_assoc, ih, String.append_assoc]

theorem String.intercalate_cons_cons (s a b : String) (l : List String) :
    String.intercalate s (a :: b :: l) = a ++ (s ++ String.intercalate s (b :: l)) := by
  simp only [String.intercalate, String.intercalate.go]
  rw [String.append_assoc, String.intercalate_go_append, String.intercalate_go_append]

theorem String.intercalate_singleton (s a : String) : String.intercalate s [a] = a := rfl

/-- The value of a decimal digit character. -/
theorem Nat.digitChar_sub (k : Nat) (hk : k < 10) : (Nat.digitChar k).toNat - 48 = k := by
  interval_cases k <;> rfl

theorem Nat.digitChar_isDigit (k : Nat) (hk : k < 10) : (Nat.digitChar k).isDigit = true := by
  interval_cases k <;> rfl

theorem Nat.toDigitsCore_value (fuel n : Nat) (ds : List Char) (h : n < fuel) :
    (Nat.toDigitsCore 10 fuel n ds).foldl (fun acc c => acc * 10 + (c.toNat - 48)) 0 =
      ds.foldl (fun acc c => acc * 10 + (c.toNat - 48)) n := by
  induction fuel generalizing n ds with
  | zero => omega
  | succ fuel ih =>
    simp only [Nat.toDigitsCore]
    by_cases h0 : n / 10 = 0
    · simp only [h0, ↓reduceIte, List.foldl_cons, Nat.zero_mul, Nat.zero_add]
      rw [Nat.digitChar_sub _ (Nat.mod_lt _ (by decide))]
      congr 1
      omega
    · simp only [h0, ↓reduceIte]
      rw [ih (n / 10) _ (by omega)]
      simp only [List.foldl_cons]
      rw [Nat.digitChar_sub _ (Nat.mod_lt _ (by decide))]
      congr 1
      omega

theorem Nat.toDigitsCore_isDigit (fuel n : Nat) (ds : List Char)
    (hds : ∀ c ∈ ds, c.isDigit = true) :
    ∀ c ∈ Nat.toDigitsCore 10 fuel n ds, c.isDigit = true := by
  induction fuel generalizing n ds with
  | zero => simpa [Nat.toDigitsCore] using hds
  | succ fuel ih =>
    have hcons : ∀ c ∈ Nat.digitChar (n % 10) :: ds, c.isDigit = true := by
      intro c hc
      rcases List.mem_cons.1 hc with rfl | hc
      · exact Nat.digitChar_isDigit _ (Nat.mod_lt _ (by decide))
      · exact hds c hc
    simp only [Nat.toDigitsCore]
    by_cases h0 : n / 10 = 0
    · simpa only [h0, ↓reduceIte] using hcons
    · simp only [h0, ↓reduceIte]
      exact ih _ _ hcons

theorem Nat.toDigitsCore_ne_nil (fuel n : Nat) (ds : List Char) :
    Nat.toDigitsCore 10 (fuel + 1) n ds ≠ [] := by
  induction fuel generalizing n ds with
  | zero =>
    simp only [Nat.toDigitsCore]
    split_ifs <;> simp
  | succ fuel ih =>
    rw [Nat.toDigitsCore]
    split_ifs
    · simp
    · exact ih _ _

theorem Nat.toDigits_injective (a b : Nat) (h : Nat.toDigits 10 a = Nat.toDigits 10 b) :
    a = b := by
  have ha := Nat.toDigitsCore_value (a + 1) a [] (by omega)
  have hb := Nat.toDigitsCore_value (b + 1) b [] (by omega)
  unfold Nat.toDigits at h
  rw [h, hb] at ha
  simpa using ha.symm
theorem Nat.repr_data (n : Nat) : (toString n).data = Nat.toDigits 10 n := rfl

theorem Nat.toString_isDigit (n : Nat) : ∀ c ∈ (toString n).data, c.isDigit = true := by
  rw [Nat.repr_data]
  exact Nat.toDigitsCore_isDigit _ _ [] (fun c hc => by cases hc)

theorem Nat.toString_ne_nil (n : Nat) : (toString n).data ≠ [] := by
  rw [Nat.repr_data]
  exact Nat.toDigitsCore_ne_nil _ _ _

/-- Two texts that start with a run of digits followed by nothing or by a dot have the same
run of digits and the same rest. -/
theorem digits_run_split (l1 l2 t1 t2 : List Char)
    (h1 : ∀ c ∈ l1, c.isDigit = true) (h2 : ∀ c ∈ l2, c.isDigit = true)
    (ht1 : t1 = [] ∨ ∃ r, t1 = '.' :: r) (ht2 : t2 = [] ∨ ∃ r, t2 = '.' :: r)
    (h : l1 ++ t1 = l2 ++ t2) : l1 = l2 ∧ t1 = t2 := by
  induction l1 generalizing l2 with
  | nil =>
    cases l2 with
    | nil => exact ⟨rfl, by simpa using h⟩
    | cons d l2 =>
      exfalso
      have hd := h2 d (List.mem_cons_self _ _)
      rcases ht1 with rfl | ⟨r, rfl⟩
      · simp at h
      · simp only [List.nil_append, List.cons_append, List.cons.injEq] at h
        rw [← h.1] at hd
        exact absurd hd (by decide)
  | cons c l1 ih =>
    cases l2 with
    | nil =>
      exfalso
      have hc := h1 c (List.mem_cons_self _ _)
      rcases ht2 with rfl | ⟨r, rfl⟩
      · simp at h
      · simp only [List.nil_append, List.cons_append, List.cons.injEq] at h
        rw [h.1] at hc
        exact absurd hc (by decide)
    | cons d l2 =>
      simp only [List.cons_append, List.cons.injEq] at h
      have := ih l2 (fun x hx => h1 x (List.mem_cons_of_mem _ hx))
        (fun x hx => h2 x (List.mem_cons_of_mem _ hx)) h.2
      exact ⟨by rw [h.1, this.1], this.2⟩

theorem versionString_cons_data (a : Nat) (l : List Nat) :
    (String.intercalate "." ((a :: l).map toString)).data =
      (toString a).data ++
        (match l with
         | [] => []
         | b :: r => '.' :: (String.intercalate "." ((b :: r).map toString)).data) := by
  cases l with
  | nil => simp [String.intercalate_singleton]
  | cons b r =>
    simp only [List.map_cons]
    rw [String.intercalate_cons_cons]
    simp [String.data_append]

theorem versionString_injective (l1 l2 : List Nat)
    (h : String.intercalate "." (l1.map toString) = String.intercalate "." (l2.map toString)) :
    l1 = l2 := by
  induction l1 generalizing l2 with
  | nil =>
    cases l2 with
    | nil => rfl
    | cons b l2 =>
      exfalso
      have hd := congrArg String.data h
      rw [versionString_cons_data] at hd
      have hne := Nat.toString_ne_nil b
      have : (toString b).data = [] := by
        have h0 : (String.intercalate "." (([] : List Nat).map toString)).data = [] := rfl
        rw [h0] at hd
        exact (List.append_eq_nil.1 hd.symm).1
      exact hne this
  | cons a l1 ih =>
    cases l2 with
    | nil =>
      exfalso
      have hd := congrArg String.data h
      rw [versionString_cons_data] at hd
      have hne := Nat.toString_ne_nil a
      have : (toString a).data = [] := by
        have h0 : (String.intercalate "." (([] : List Nat).map toString)).data = [] := rfl
        rw [h0] at hd
        exact (List.append_eq_nil.1 hd).1
      exact hne this
    | cons b l2 =>
      have hd := congrArg String.data h
      rw [versionString_cons_data, versionString_cons_data] at hd
      have hs := digits_run_split _ _ _ _ (Nat.toString_isDigit a) (Nat.toString_isDigit b)
        (by cases l1 with
            | nil => exact Or.inl rfl
            | cons x xs => exact Or.inr ⟨_, rfl⟩)
        (by cases l2 with
            | nil => exact Or.inl rfl
            | cons x xs => exact Or.inr ⟨_, rfl⟩) hd
      have hab : a = b := by
        apply Nat.toDigits_injective
        rw [← Nat.repr_data, ← Nat.repr_data]
        exact hs.1
      subst hab
      congr 1
      cases l1 with
      | nil =>
        cases l2 with
        | nil => rfl
        | cons y ys => exact absurd hs.2 (by simp)
      | cons x xs =>
        cases l2 with
        | nil => exact absurd hs.2 (by simp)
        | cons y ys =>
          apply ih
          have h2 := hs.2
          simp only [List.cons.injEq, true_and] at h2
          exact String.ext h2

theorem Version.getVersionString_injective (v w : Version)
    (h : v.getVersionString = w.getVersionString) : v = w := by
  cases v with
  | mk a =>
    cases w with
    | mk b =>
      have := versionString_injective a b h
      rw [this]

theorem Version.getVersionString_no_slash (v : Version) : '/' ∉ v.getVersionString.data := by
  cases v with
  | mk l =>
    unfold Version.getVersionString
    simp only []
    induction l with
    | nil => simp [String.intercalate]
    | cons a l ih =>
      rw [versionString_cons_data]
      intro hm
      rcases List.mem_append.1 hm with hm | hm
      · exact absurd (Nat.toString_isDigit a _ hm) (by decide)
      · cases l with
        | nil => simp at hm
        | cons b r =>
          simp only [List.mem_cons] at hm
          rcases hm with hm | hm
          · exact absurd hm (by decide)
          · exact ih hm

/-- A text is split in one way only at its first separator. -/
theorem append_cons_inj_of_not_mem (c : Char) (l1 l2 r1 r2 : List Char)
    (h1 : c ∉ l1) (h2 : c ∉ l2) (h : l1 ++ c :: r1 = l2 ++ c :: r2) : l1 = l2 ∧ r1 = r2 := by
  induction l1 generalizing l2 with
  | nil =>
    cases l2 with
    | nil => exact ⟨rfl, by simpa using h⟩
    | cons d l2 =>
      simp only [List.nil_append, List.cons_append, List.cons.injEq] at h
      exact absurd (List.mem_cons.2 (Or.inl h.1)) h2
  | cons x l1 ih =>
    cases l2 with
    | nil =>
      simp only [List.nil_append, List.cons_append, List.cons.injEq] at h
      exact absurd (List.mem_cons.2 (Or.inl h.1.symm)) h1
    | cons d l2 =>
      simp only [List.cons_append, List.cons.injEq] at h
      have := ih l2 (fun hx => h1 (List.mem_cons_of_mem _ hx))
        (fun hx => h2 (List.mem_cons_of_mem _ hx)) h.2
      exact ⟨by rw [h.1, this.1], this.2⟩

theorem normalizeParts_cons_of_nil (a : Nat) (l : List Nat)
    (h : Version.normalizeParts l = []) :
    Version.normalizeParts (a :: l) = if a = 0 then [] else [a] := by
  rw [Version.normalizeParts, h]

theorem normalizeParts_cons_of_cons (a r : Nat) (l rs : List Nat)
    (h : Version.normalizeParts l = r :: rs) :
    Version.normalizeParts (a :: l) = a :: r :: rs := by
  rw [Version.normalizeParts, h]

theorem normalizeParts_of_compare_nil (l : List Nat) (h : Version.compareParts [] l = 0) :
    Version.normalizeParts l = [] := by
  induction l with
  | nil => rfl
  | cons b bs ih =>
    rw [compareParts_nil_cons] at h
    by_cases hb : 0 < b
    · simp [hb] at h
    · simp only [hb, ↓reduceIte] at h
      have hb0 : b = 0 := by omega
      rw [normalizeParts_cons_of_nil _ _ (ih h)]
      simp [hb0]

theorem normalizeParts_eq_of_compare (a b : List Nat) (h : Version.compareParts a b = 0) :
    Version.normalizeParts a = Version.normalizeParts b := by
  induction a generalizing b with
  | nil => rw [normalizeParts_of_compare_nil b h]; rfl
  | cons x xs ih =>
    cases b with
    | nil =>
      have h2 : Version.compareParts [] (x :: xs) = 0 := by
        have := compareParts_antisymm (x :: xs) []
        omega
      rw [normalizeParts_of_compare_nil _ h2]
      rfl
    | cons y ys =>
      rw [compareParts_cons_cons] at h
      by_cases h1 : x < y
      · simp [h1] at h
      · by_cases h2 : y < x
        · simp [h1, h2] at h
        · simp only [h1, h2, ↓reduceIte] at h
          have hxy : x = y := by omega
          subst hxy
          cases hn : Version.normalizeParts ys with
          | nil =>
            rw [normalizeParts_cons_of_nil _ _ hn, normalizeParts_cons_of_nil _ _ ((ih ys h).trans hn)]
          | cons r rs =>
            rw [normalizeParts_cons_of_cons _ _ _ _ hn,
              normalizeParts_cons_of_cons _ _ _ _ ((ih ys h).trans hn)]

theorem compareParts_normalizeParts (a : List Nat) :
    Version.compareParts (Version.normalizeParts a) a = 0 := by
  induction a with
  | nil => rfl
  | cons x xs ih =>
    cases hn : Version.normalizeParts xs with
    | nil =>
      rw [hn] at ih
      rw [normalizeParts_cons_of_nil _ _ hn]
      by_cases hx : x = 0
      · simp only [hx, ↓reduceIte]
        rw [compareParts_nil_cons]
        simpa using ih
      · simp only [hx, ↓reduceIte]
        rw [compareParts_cons_cons]
        simpa using ih
    | cons r rs =>
      rw [hn] at ih
      rw [normalizeParts_cons_of_cons _ _ _ _ hn]
      rw [compareParts_cons_cons]
      simpa using ih

theorem normalizeParts_ne_zero (a : List Nat) : Version.normalizeParts a ≠ [0] := by
  cases a with
  | nil => simp [Version.normalizeParts]
  | cons x xs =>
    cases hn : Version.normalizeParts xs with
    | nil =>
      rw [normalizeParts_cons_of_nil _ _ hn]
      by_cases hx : x = 0
      · simp [hx]
      · simp [hx]
    | cons r rs =>
      rw [normalizeParts_cons_of_cons _ _ _ _ hn]
      simp

theorem Version.normalize_eq_iff (v w : Version) :
    v.normalize = w.normalize ↔ v.compare w = 0 := by
  constructor
  · intro h
    have hv := compareParts_normalizeParts v.parts
    have hw := compareParts_normalizeParts w.parts
    have hp : Version.normalizeParts v.parts = Version.normalizeParts w.parts := by
      unfold Version.normalize at h
      cases hnv : Version.normalizeParts v.parts with
      | nil =>
        cases hnw : Version.normalizeParts w.parts with
        | nil => rfl
        | cons r rs =>
          rw [hnv, hnw] at h
          simp only [Version.mk.injEq, List.cons.injEq] at h
          exact absurd (by rw [hnw, ← h.1, ← h.2]) (normalizeParts_ne_zero w.parts)
      | cons r rs =>
        cases hnw : Version.normalizeParts w.parts with
        | nil =>
          rw [hnv, hnw] at h
          simp only [Version.mk.injEq, List.cons.injEq] at h
          exact absurd (by rw [hnv, h.1, h.2]) (normalizeParts_ne_zero v.parts)
        | cons r2 rs2 =>
          rw [hnv, hnw] at h
          simpa using h
    rw [hp] at hv
    have hv2 : (Version.mk v.parts).compare ⟨Version.normalizeParts w.parts⟩ = 0 := by
      have := Version.compare_antisymm ⟨Version.normalizeParts w.parts⟩ ⟨v.parts⟩
      unfold Version.compare at this ⊢
      simp only [] at this ⊢
      omega
    exact Version.compare_eq_zero_trans ⟨v.parts⟩ ⟨Version.normalizeParts w.parts⟩ ⟨w.parts⟩
      hv2 hw
  · intro h
    unfold Version.normalize
    rw [normalizeParts_eq_of_compare _ _ h]
/-- C24: `getStringId(package, version)` is `package + "/" +` the version string of the
normalized version, and for package names without `/` two stringIds are equal exactly when
the package names are equal and the versions compare equal. -/
theorem getStringId_identifies (p q : String) (v w : Version)
    (hp : '/' ∉ p.data) (hq : '/' ∉ q.data) :
    getStringId p v = p ++ "/" ++ v.normalize.getVersionString ∧
      (getStringId p v = getStringId q w ↔ p = q ∧ v.compare w = 0) := by
  refine ⟨rfl, ?_⟩
  constructor
  · intro h
    have hd := congrArg String.data h
    unfold getStringId at hd
    simp only [String.data_append, List.append_assoc] at hd
    simp only [List.singleton_append] at hd
    have := append_cons_inj_of_not_mem '/' _ _ _ _ hp hq hd
    refine ⟨String.ext this.1, ?_⟩
    have hv := Version.getVersionString_injective _ _ (String.ext this.2)
    exact (Version.normalize_eq_iff v w).1 hv
  · rintro ⟨rfl, hc⟩
    unfold getStringId
    rw [(Version.normalize_eq_iff v w).2 hc]

theorem getStringId_identifies_witness :
    getStringId "A" ⟨[1, 0]⟩ = "A/1" ∧ getStringId "A" ⟨[1, 0, 0]⟩ = "A/1" ∧
      (getStringId "A" ⟨[1, 0]⟩ = getStringId "A" ⟨[1, 0, 0]⟩ ↔
        "A" = "A" ∧ (Version.mk [1, 0]).compare ⟨[1, 0, 0]⟩ = 0) ∧
      (getStringId "A" ⟨[1, 0]⟩ = getStringId "B" ⟨[1, 0]⟩ ↔
        "A" = "B" ∧ (Version.mk [1, 0]).compare ⟨[1, 0]⟩ = 0) :=
  ⟨by decide, by decide,
    (getStringId_identifies "A" "A" ⟨[1, 0]⟩ ⟨[1, 0, 0]⟩ (by decide) (by decide)).2,
    (getStringId_identifies "A" "B" ⟨[1, 0]⟩ ⟨[1, 0]⟩ (by decide) (by decide)).2⟩

/-! ## The highest installed match of a dependency -/

theorem findHighestInstalledMatch_loop_of_some (l : List InstalledPackageVersion)
    (x : InstalledPackageVersion) :
    ∃ r, findHighestInstalledMatch.loop l (some x) = some r := by
  induction l generalizing x with
  | nil => exact ⟨x, rfl⟩
  | cons e rest ih =>
    unfold findHighestInstalledMatch.loop
    simp only [decide_eq_true_eq]
    by_cases hgt : e.version.compare x.version > 0
    · rw [if_pos hgt]; exact ih e
    · rw [if_neg hgt]; exact ih x

theorem findHighestInstalledMatch_loop_none (l : List InstalledPackageVersion) :
    findHighestInstalledMatch.loop l none = none ↔ l = [] := by
  cases l with
  | nil => simp [findHighestInstalledMatch.loop]
  | cons e rest =>
    unfold findHighestInstalledMatch.loop
    simp only [↓reduceIte]
    obtain ⟨r, hr⟩ := findHighestInstalledMatch_loop_of_some rest e
    rw [hr]
    simp

/-- C26: `findAllInstalledMatches` returns exactly the installed versions of `dep.package`
that pass `dep.test`, in the order of the installed list; `findHighestInstalledMatch` returns
nothing exactly when that list is empty and otherwise one of its entries such that no entry
of the list compares greater. -/
theorem findHighestInstalledMatch_highest (ip : InstalledPackages) (dep : Dependency) :
    (findHighestInstalledMatch ip dep = none ↔ findAllInstalledMatches ip dep = []) ∧
    (∀ r, findHighestInstalledMatch ip dep = some r →
      r ∈ findAllInstalledMatches ip dep ∧ r ∈ ip.getAll ∧ r.package = dep.package ∧
        dep.test r.version = true ∧
        ∀ e ∈ ip.getAll, e.package = dep.package → dep.test e.version = true →
          ¬ e.version.compare r.version > 0) ∧
    (∀ e, e ∈ findAllInstalledMatches ip dep ↔
      e ∈ ip.getAll ∧ e.package = dep.package ∧ dep.test e.version = true) ∧
    (findAllInstalledMatches ip dep).Sublist ip.getAll ∧
    findAllInstalledMatches ip dep =
      ip.getAll.filter
        (fun e => decide (e.package = dep.package ∧ dep.test e.version = true)) := by
  have hmem : ∀ e, e ∈ findAllInstalledMatches ip dep ↔
      e ∈ ip.getAll ∧ e.package = dep.package ∧ dep.test e.version = true := by
    intro e
    simp [findAllInstalledMatches, List.mem_filter]
  refine ⟨findHighestInstalledMatch_loop_none _, ?_, hmem, List.filter_sublist _, ?_⟩
  · intro r h
    obtain ⟨m1, m2, m3, m4⟩ := findHighestInstalledMatch_some ip dep r h
    refine ⟨(hmem r).2 ⟨m1, m2, m3⟩, m1, m2, m3, ?_⟩
    intro e he hp ht
    have := m4 e he hp ht
    omega
  · unfold findAllInstalledMatches
    apply List.filter_congr
    intro e _
    simp

/-! ## List accesses of `process` are in range -/

theorem process.downloadIter_lengths {W : Type} (env : Env W) (interactive : Bool) (n : Nat)
    (pvs : List PackageVersion) (i : Nat) (op : InstallOperation) (st s : Exec W) (f : Bool)
    (h : process.downloadIter env interactive n pvs i op st = some (s, f)) :
    s.dirs.length = st.dirs.length + 1 ∧ s.binaries.length = st.binaries.length + 1 := by
  unfold process.downloadIter at h
  cases hpv : pvs[i]? with
  | none => rw [hpv] at h; cases h
  | some pv =>
    simp only [hpv, Option.some.injEq, Prod.mk.injEq] at h
    rw [← h.1]
    exact ⟨(process.downloadStep_lengths env interactive n i op pv st).1,
      (process.downloadStep_lengths env interactive n i op pv st).2.1⟩

theorem process.downloadLoop_equal_lengths {W : Type} (env : Env W) (interactive : Bool)
    (n : Nat) (pvs : List PackageVersion) (ops : List InstallOperation) (i : Nat)
    (st b : Exec W) (h : process.downloadLoop env interactive n pvs i ops st = some b)
    (hl : st.dirs.length = st.binaries.length) : b.dirs.length = b.binaries.length := by
  rw [process.downloadLoop_eq_iterate] at h
  exact process.iterate_rel (process.downloadIter env interactive n pvs)
    (fun x y => x.dirs.length = x.binaries.length → y.dirs.length = y.binaries.length)
    (fun _ hx => hx) (fun _ _ _ h1 h2 hx => h2 (h1 hx))
    (fun i op st s c hi hx => by
      obtain ⟨a1, a2⟩ := process.downloadIter_lengths env interactive n pvs i op st s c hi
      rw [a1, a2, hx]) ops i st b h hl

theorem process.applyIter_lists {W : Type} (env : Env W) (programCloseType : Nat)
    (printScriptOutput : Bool) (n : Nat) (pvs : List PackageVersion) (i : Nat)
    (op : InstallOperation) (st s : Exec W) (f : Bool)
    (h : process.applyIter env programCloseType printScriptOutput n pvs i op st = some (s, f)) :
    s.dirs = st.dirs ∧ s.binaries = st.binaries := by
  obtain ⟨pv, _, hc⟩ := process.applyIter_cases env programCloseType printScriptOutput n pvs i
    op st s f h
  rcases hc with ⟨o, w, stp, _, _, he⟩ | ⟨w, dir, msg, _, _, _, he⟩
  · by_cases hp : (st.job.subJob (0.19 / n) true o).shouldProceed = true
    · simp only [hp, ↓reduceIte, Prod.mk.injEq] at he
      rw [he.1]
      exact ⟨rfl, rfl⟩
    · simp only [hp, Bool.false_eq_true, ↓reduceIte, Prod.mk.injEq] at he
      rw [he.1]
      exact ⟨rfl, rfl⟩
  · rw [he]
    exact ⟨rfl, rfl⟩

theorem process.applyLoop_lists {W : Type} (env : Env W) (programCloseType : Nat)
    (printScriptOutput : Bool) (n : Nat) (pvs : List PackageVersion)
    (ops : List InstallOperation) (i : Nat) (st b : Exec W)
    (h : process.applyLoop env programCloseType printScriptOutput n pvs i ops st = some b) :
    b.dirs = st.dirs ∧ b.binaries = st.binaries := by
  rw [process.applyLoop_eq_iterate] at h
  exact process.iterate_rel (process.applyIter env programCloseType printScriptOutput n pvs)
    (fun x y => y.dirs = x.dirs ∧ y.binaries = x.binaries)
    (fun _ => ⟨rfl, rfl⟩) (fun _ _ _ h1 h2 => ⟨h2.1.trans h1.1, h2.2.trans h1.2⟩)
    (fun i op st s c hi =>
      process.applyIter_lists env programCloseType printScriptOutput n pvs i op st s c hi)
    ops i st b h

theorem process.cleanupLoop_lists {W : Type} (env : Env W) (count : Nat)
    (dirs : List String) (st : Exec W) :
    (process.cleanupLoop env count dirs st).dirs = st.dirs ∧
    (process.cleanupLoop env count dirs st).binaries = st.binaries := by
  induction dirs generalizing st with
  | nil => exact ⟨rfl, rfl⟩
  | cons dir rest ih =>
    unfold process.cleanupLoop
    split_ifs
    · exact ih _
    · exact ih _

/-- C27: list accesses in `process` are always in range.  Every run returns (no access
fails).  A loop stage is entered only while `job->shouldProceed()` holds, and then the list
of resolved package versions has exactly `n` entries (`n` the number of operations), so that
`pvs.at(i)` exists in every iteration of the download, stop and apply loops; when the apply
loop is entered, and in every one of its iterations, `dirs` and `binaries` have exactly `n`
entries, so that `dirs.at(i)` and `binaries.at(i)` exist; `dirs` and `binaries` have equal
length after every stage and after every iteration of the download loop. -/
theorem process_list_accesses_in_range {W : Type} (env : Env W) (job : Job) (world : W)
    (locked : List String) (install_ : List InstallOperation) (programCloseType : Nat)
    (printScriptOutput interactive : Bool) :
    ∃ (st0 st1 st2 st3 st4 : Exec W) (r : ProcessResult W),
      st0 = { job := (process.resolveLoop env (process.reorder install_) job []).1,
              world := world, dirs := [], binaries := [], processed := 0, steps := [] } ∧
      (if st0.job.shouldProceed then
          process.downloadLoop env interactive (process.reorder install_).length
            (process.resolveLoop env (process.reorder install_) job []).2 0
            (process.reorder install_) st0
        else some st0) = some st1 ∧
      (if st1.job.shouldProceed then
          process.stopLoop env programCloseType printScriptOutput
            (process.reorder install_).length
            (process.resolveLoop env (process.reorder install_) job []).2 0
            (process.reorder install_) st1
        else some st1) = some st2 ∧
      (if st2.job.shouldProceed then
          process.applyLoop env programCloseType printScriptOutput
            (process.reorder install_).length
            (process.resolveLoop env (process.reorder install_) job []).2 0
            (process.reorder install_) { st2 with processed := 0 }
        else some { st2 with processed := 0 }) = some st3 ∧
      st4 = (if !st3.job.shouldProceed then
          process.cleanupLoop env st3.dirs.length (st3.dirs.drop st3.processed) st3
        else st3) ∧
      process env job world locked install_ programCloseType printScriptOutput interactive
        = some r ∧
      r.pvs = (process.resolveLoop env (process.reorder install_) job []).2 ∧
      r.dirs = st4.dirs ∧ r.binaries = st4.binaries ∧
      (process.reorder install_).length = install_.length ∧
      (st0.job.shouldProceed = true → r.pvs.length = install_.length) ∧
      (st1.job.shouldProceed = true → st0.job.shouldProceed = true) ∧
      (st2.job.shouldProceed = true → st1.job.shouldProceed = true) ∧
      (st2.job.shouldProceed = true →
        st2.dirs.length = install_.length ∧ st2.binaries.length = install_.length) ∧
      st1.dirs.length = st1.binaries.length ∧ st2.dirs.length = st2.binaries.length ∧
      st3.dirs.length = st3.binaries.length ∧ st4.dirs.length = st4.binaries.length ∧
      r.dirs.length = r.binaries.length ∧
      (∀ k a, st0.job.shouldProceed = true → k < install_.length →
        process.downloadLoop env interactive (process.reorder install_).length r.pvs 0
          ((process.reorder install_).take k) st0 = some a →
        (r.pvs[k]?).isSome = true ∧ a.dirs.length = a.binaries.length) ∧
      (∀ k a, st1.job.shouldProceed = true → k < install_.length →
        process.stopLoop env programCloseType printScriptOutput
          (process.reorder install_).length r.pvs 0
          ((process.reorder install_).take k) st1 = some a →
        (r.pvs[k]?).isSome = true) ∧
      (∀ k a, st2.job.shouldProceed = true → k < install_.length →
        process.applyLoop env programCloseType printScriptOutput
          (process.reorder install_).length r.pvs 0
          ((process.reorder install_).take k) { st2 with processed := 0 } = some a →
        (r.pvs[k]?).isSome = true ∧ (a.dirs[k]?).isSome = true ∧
          (a.binaries[k]?).isSome = true ∧
          a.dirs.length = install_.length ∧ a.binaries.length = install_.length) := by
  have hn := process.length_reorder install_
  have hp : (process.resolveLoop env (process.reorder install_) job []).1.shouldProceed = true →
      (process.resolveLoop env (process.reorder install_) job []).2.length
        = (process.reorder install_).length := by
    intro h
    have := (process.resolveLoop_proceed env _ job [] h).1
    simpa using this
  obtain ⟨st1, st2, st3, e1, e2, e3, e4⟩ :=
    process.stages_chain env programCloseType printScriptOutput interactive
      (process.reorder install_) (process.resolveLoop env (process.reorder install_) job []).2
      { job := (process.resolveLoop env (process.reorder install_) job []).1,
        world := world, dirs := [], binaries := [], processed := 0, steps := [] } hp rfl rfl
  obtain ⟨r, er, rp, rd, rb⟩ : ∃ r : ProcessResult W,
      process env job world locked install_ programCloseType printScriptOutput interactive
        = some r ∧
      r.pvs = (process.resolveLoop env (process.reorder install_) job []).2 ∧
      r.dirs = (if !st3.job.shouldProceed then
          process.cleanupLoop env st3.dirs.length (st3.dirs.drop st3.processed) st3
        else st3).dirs ∧
      r.binaries = (if !st3.job.shouldProceed then
          process.cleanupLoop env st3.dirs.length (st3.dirs.drop st3.processed) st3
        else st3).binaries := by
    unfold process
    simp only []
    rw [e4]
    exact ⟨_, rfl, rfl, rfl, rfl⟩
  have h10 : st1.job.shouldProceed = true →
      (process.resolveLoop env (process.reorder install_) job []).1.shouldProceed = true := by
    intro h1
    by_cases h0 : (process.resolveLoop env (process.reorder install_) job []).1.shouldProceed
        = true
    · exact h0
    · simp only [h0, Bool.false_eq_true, ↓reduceIte, Option.some.injEq] at e1
      rw [← e1] at h1
      exact absurd h1 h0
  have h21 : st2.job.shouldProceed = true → st1.job.shouldProceed = true := by
    intro h2
    by_cases h1 : st1.job.shouldProceed = true
    · exact h1
    · simp only [h1, Bool.false_eq_true, ↓reduceIte, Option.some.injEq] at e2
      rw [← e2] at h2
      exact absurd h2 h1
  have hl1 : st1.dirs.length = st1.binaries.length := by
    by_cases h0 : (process.resolveLoop env (process.reorder install_) job []).1.shouldProceed
        = true
    · simp only [h0, ↓reduceIte] at e1
      exact process.downloadLoop_equal_lengths env interactive _ _ _ _ _ _ e1 rfl
    · simp only [h0, Bool.false_eq_true, ↓reduceIte, Option.some.injEq] at e1
      rw [← e1]
  have hs2 : st2.dirs = st1.dirs ∧ st2.binaries = st1.binaries := by
    by_cases h1 : st1.job.shouldProceed = true
    · simp only [h1, ↓reduceIte] at e2
      have hlen := hp (h10 h1)
      obtain ⟨s, a1, a2, a3, _⟩ :=
        process.stopLoop_some env programCloseType printScriptOutput
          (process.reorder install_).length _ (process.reorder install_) 0 st1
          (by rw [hlen]; simp)
      rw [e2] at a1
      have a1 : st2 = s := Option.some.inj a1
      rw [a1]
      exact ⟨a2, a3⟩
    · simp only [h1, Bool.false_eq_true, ↓reduceIte, Option.some.injEq] at e2
      rw [← e2]
      exact ⟨rfl, rfl⟩
  have hs3 : st3.dirs = st2.dirs ∧ st3.binaries = st2.binaries := by
    by_cases h2 : st2.job.shouldProceed = true
    · simp only [h2, ↓reduceIte] at e3
      exact process.applyLoop_lists env programCloseType printScriptOutput _ _ _ _
        { st2 with processed := 0 } _ e3
    · simp only [h2, Bool.false_eq_true, ↓reduceIte, Option.some.injEq] at e3
      rw [← e3]
      exact ⟨rfl, rfl⟩
  have hs4 : (if !st3.job.shouldProceed then
        process.cleanupLoop env st3.dirs.length (st3.dirs.drop st3.processed) st3
      else st3).dirs = st3.dirs ∧
      (if !st3.job.shouldProceed then
        process.cleanupLoop env st3.dirs.length (st3.dirs.drop st3.processed) st3
      else st3).binaries = st3.binaries := by
    split_ifs
    · exact process.cleanupLoop_lists env _ _ _
    · exact ⟨rfl, rfl⟩
  have hlen2 : st2.job.shouldProceed = true →
      st2.dirs.length = install_.length ∧ st2.binaries.length = install_.length := by
    intro h2
    have h1 := h21 h2
    have h0 := h10 h1
    have hlen := hp h0
    simp only [h0, ↓reduceIte] at e1
    obtain ⟨s, a1, _, a3⟩ :=
      process.downloadLoop_some env interactive (process.reorder install_).length _
        (process.reorder install_) 0
        { job := (process.resolveLoop env (process.reorder install_) job []).1,
          world := world, dirs := [], binaries := [], processed := 0, steps := [] }
        (by rw [hlen]; simp)
    rw [e1] at a1
    have a1 : st1 = s := Option.some.inj a1
    rw [← a1] at a3
    obtain ⟨b1, b2⟩ := a3 h1
    rw [hs2.1, hs2.2, b1, b2, hn]
    simp
  have hpv : ∀ k, (process.resolveLoop env (process.reorder install_) job []).1.shouldProceed
      = true → k < install_.length → (r.pvs[k]?).isSome = true := by
    intro k h0 hk
    have hlen := hp h0
    rw [rp, List.getElem?_eq_getElem (by rw [hlen, hn]; exact hk)]
    rfl
  refine ⟨_, st1, st2, st3, _, r, rfl, e1, e2, e3, rfl, er, rp, rd, rb, hn, ?_, h10, h21, hlen2,
    hl1, ?_, ?_, ?_, ?_, ?_, ?_, ?_⟩
  · intro h0
    rw [rp, hp h0, hn]
  · rw [hs2.1, hs2.2, hl1]
  · rw [hs3.1, hs3.2, hs2.1, hs2.2, hl1]
  · rw [hs4.1, hs4.2, hs3.1, hs3.2, hs2.1, hs2.2, hl1]
  · rw [rd, rb, hs4.1, hs4.2, hs3.1, hs3.2, hs2.1, hs2.2, hl1]
  · intro k a h0 hk ha
    exact ⟨hpv k h0 hk,
      process.downloadLoop_equal_lengths env interactive _ _ _ _ _ _ ha rfl⟩
  · intro k a h1 hk _
    exact hpv k (h10 h1) hk
  · intro k a h2 hk ha
    obtain ⟨d1, d2⟩ :=
      process.applyLoop_lists env programCloseType printScriptOutput _ _ _ _
        { st2 with processed := 0 } _ ha
    obtain ⟨l1, l2⟩ := hlen2 h2
    have d1 : a.dirs = st2.dirs := d1
    have d2 : a.binaries = st2.binaries := d2
    refine ⟨hpv k (h10 (h21 h2)) hk, ?_, ?_, by rw [d1, l1], by rw [d2, l2]⟩
    · rw [d1, List.getElem?_eq_getElem (by rw [l1]; exact hk)]
      rfl
    · rw [d2, List.getElem?_eq_getElem (by rw [l2]; exact hk)]
      rfl

/-! ## Unique identities in the in-memory repository -/

theorem Repository.mem_values_of_indexMatches (rep : Repository) (h : rep.indexMatches)
    (package : String) (x : PackageVersion) :
    x ∈ QMultiMap.values rep.package2versions package ↔
      x ∈ rep.packageVersions ∧ x.package = package := by
  unfold Repository.indexMatches at h
  unfold QMultiMap.values
  rw [h]
  simp only [List.mem_map, List.mem_filter, List.mem_reverse, beq_iff_eq]
  constructor
  · rintro ⟨e, ⟨⟨y, hy, rfl⟩, hk⟩, rfl⟩
    exact ⟨hy, hk⟩
  · rintro ⟨hx, hk⟩
    exact ⟨(x.package, x), ⟨⟨x, hx, rfl⟩, hk⟩, rfl⟩

theorem Repository.findPackageVersion_stored (rep : Repository) (h : rep.indexMatches)
    (package : String) (v : Version) (fp : PackageVersion)
    (hf : rep.findPackageVersion package v = some fp) :
    fp ∈ rep.packageVersions ∧ fp.package = package ∧ fp.version.compare v = 0 := by
  obtain ⟨h1, h2⟩ := findPackageVersion_some rep package v fp hf
  obtain ⟨a, b⟩ := (Repository.mem_values_of_indexMatches rep h package fp).1 h1
  exact ⟨a, b, h2⟩

theorem Repository.findPackageVersion_none (rep : Repository) (h : rep.indexMatches)
    (package : String) (v : Version) (hf : rep.findPackageVersion package v = none) :
    ∀ x ∈ rep.packageVersions, ¬ (x.package = package ∧ x.version.compare v = 0) := by
  intro x hx hc
  unfold Repository.findPackageVersion at hf
  rw [List.find?_eq_none] at hf
  have hm : x ∈ rep.getPackageVersions package :=
    (mem_qSort _ _ x).2
      ((Repository.mem_values_of_indexMatches rep h package x).2 ⟨hx, hc.1⟩)
  have := hf x hm
  simp [hc.2] at this

theorem Repository.findPackageVersion_isSome (rep : Repository) (h : rep.indexMatches)
    (package : String) (v : Version)
    (hex : ∃ x ∈ rep.packageVersions, x.package = package ∧ x.version.compare v = 0) :
    ∃ fp, rep.findPackageVersion package v = some fp := by
  cases hf : rep.findPackageVersion package v with
  | some fp => exact ⟨fp, rfl⟩
  | none =>
    obtain ⟨x, hx, hc⟩ := hex
    exact absurd hc (Repository.findPackageVersion_none rep h package v hf x hx)

theorem Repository.append_invariant (rep : Repository) (p : PackageVersion)
    (hu : rep.uniqueIdentities) (hi : rep.indexMatches)
    (hf : rep.findPackageVersion p.package p.version = none) :
    Repository.uniqueIdentities
        { rep with
          packageVersions := rep.packageVersions ++ [p]
          package2versions := (p.package, p) :: rep.package2versions } ∧
      Repository.indexMatches
        { rep with
          packageVersions := rep.packageVersions ++ [p]
          package2versions := (p.package, p) :: rep.package2versions } := by
  constructor
  · unfold Repository.uniqueIdentities at hu ⊢
    simp only []
    rw [List.pairwise_append]
    refine ⟨hu, List.pairwise_singleton _ _, ?_⟩
    intro x hx y hy
    rw [List.mem_singleton] at hy
    subst hy
    exact Repository.findPackageVersion_none rep hi _ _ hf x hx
  · unfold Repository.indexMatches at hi ⊢
    simp only []
    rw [hi]
    simp

theorem Repository.replace_invariant (rep : Repository) (p fp : PackageVersion)
    (hu : rep.uniqueIdentities) (hi : rep.indexMatches)
    (hf : rep.findPackageVersion p.package p.version = some fp) :
    Repository.uniqueIdentities
        { rep with
          packageVersions := rep.packageVersions.map (fun x => if x = fp then p else x)
          package2versions :=
            rep.package2versions.map (fun e => if e.2 = fp then (e.1, p) else e) } ∧
      Repository.indexMatches
        { rep with
          packageVersions := rep.packageVersions.map (fun x => if x = fp then p else x)
          package2versions :=
            rep.package2versions.map (fun e => if e.2 = fp then (e.1, p) else e) } := by
  obtain ⟨_, hp, hc⟩ := Repository.findPackageVersion_stored rep hi _ _ fp hf
  have hsame : ∀ x : PackageVersion,
      (if x = fp then p else x).package = x.package ∧
      (if x = fp then p else x).version.compare x.version = 0 := by
    intro x
    by_cases hx : x = fp
    · subst hx
      simp only [↓reduceIte]
      refine ⟨hp.symm, ?_⟩
      have := Version.compare_antisymm x.version p.version
      omega
    · rw [if_neg hx]
      exact ⟨rfl, Version.compare_self _⟩
  constructor
  · unfold Repository.uniqueIdentities at hu ⊢
    simp only []
    refine List.Pairwise.map _ ?_ hu
    intro a b hab hn
    apply hab
    obtain ⟨a1, a2⟩ := hsame a
    obtain ⟨b1, b2⟩ := hsame b
    refine ⟨by rw [← a1, ← b1]; exact hn.1, ?_⟩
    have a3 : a.version.compare (if a = fp then p else a).version = 0 := by
      have := Version.compare_antisymm a.version (if a = fp then p else a).version
      omega
    exact Version.compare_eq_zero_trans _ _ _
      (Version.compare_eq_zero_trans _ _ _ a3 hn.2) b2
  · unfold Repository.indexMatches at hi ⊢
    simp only []
    rw [hi, List.map_reverse, List.map_map, List.map_map]
    congr 1
    apply List.map_congr_left
    intro x _
    simp only [Function.comp]
    by_cases hx : x = fp
    · subst hx
      simp only [↓reduceIte]
      rw [hp]
    · simp only [hx, ↓reduceIte]

theorem Repository.change_invariant (rep : Repository) (c : RepositoryChange)
    (hu : rep.uniqueIdentities) (hi : rep.indexMatches) :
    (rep.change c).uniqueIdentities ∧ (rep.change c).indexMatches := by
  cases c with
  | save p =>
    simp only [Repository.change, Repository.savePackageVersion]
    cases hf : rep.findPackageVersion p.package p.version with
    | none => exact Repository.append_invariant rep p hu hi hf
    | some fp => exact Repository.replace_invariant rep p fp hu hi hf
  | load pv =>
    simp only [Repository.change, Repository.loadVersion]
    cases hf : rep.findPackageVersion pv.package pv.version with
    | none => exact Repository.append_invariant rep pv hu hi hf
    | some fp => exact ⟨hu, hi⟩

theorem Repository.foldl_invariant (changes : List RepositoryChange) (rep : Repository)
    (hu : rep.uniqueIdentities) (hi : rep.indexMatches) :
    (changes.foldl Repository.change rep).uniqueIdentities ∧
      (changes.foldl Repository.change rep).indexMatches := by
  induction changes generalizing rep with
  | nil => exact ⟨hu, hi⟩
  | cons c rest ih =>
    obtain ⟨a, b⟩ := Repository.change_invariant rep c hu hi
    exact ih _ a b

theorem Repository.after_invariant (changes : List RepositoryChange) :
    (Repository.after changes).uniqueIdentities ∧ (Repository.after changes).indexMatches :=
  Repository.foldl_invariant changes Repository.empty List.Pairwise.nil rfl

/-- C28: starting from the empty repository, after any sequence of `savePackageVersion` calls
and `<version>` insertions by `loadOne`, no two stored package versions have the same package
name and versions that compare equal; the flat list `packageVersions` and the index
`package2versions` hold the same entries, each filed under its own package name; and saving
(or loading) a package version whose package and version are already stored adds no entry to
either container and returns no error. -/
theorem Repository.identities_stay_unique (changes : List RepositoryChange) :
    (Repository.after changes).packageVersions.Pairwise
      (fun x y => ¬ (x.package = y.package ∧ x.version.compare y.version = 0)) ∧
    (Repository.after changes).package2versions =
      ((Repository.after changes).packageVersions.map (fun pv => (pv.package, pv))).reverse ∧
    ((Repository.after changes).package2versions.map Prod.snd).Perm
      (Repository.after changes).packageVersions ∧
    (Repository.after changes).keysMatch ∧
    (∀ package x, x ∈ QMultiMap.values (Repository.after changes).package2versions package ↔
      x ∈ (Repository.after changes).packageVersions ∧ x.package = package) ∧
    (∀ p : PackageVersion,
      (∃ x ∈ (Repository.after changes).packageVersions,
        x.package = p.package ∧ x.version.compare p.version = 0) →
      ((Repository.after changes).savePackageVersion p).1 = "" ∧
      ((Repository.after changes).savePackageVersion p).2.packageVersions.length =
        (Repository.after changes).packageVersions.length ∧
      ((Repository.after changes).savePackageVersion p).2.package2versions.length =
        (Repository.after changes).package2versions.length ∧
      (Repository.after changes).loadVersion p = Repository.after changes) ∧
    (∀ p : PackageVersion,
      (¬ ∃ x ∈ (Repository.after changes).packageVersions,
        x.package = p.package ∧ x.version.compare p.version = 0) →
      ((Repository.after changes).savePackageVersion p).2.packageVersions =
        (Repository.after changes).packageVersions ++ [p]) := by
  obtain ⟨hu, hi⟩ := Repository.after_invariant changes
  refine ⟨hu, hi, ?_, ?_, Repository.mem_values_of_indexMatches _ hi, ?_, ?_⟩
  · have hi2 := hi
    unfold Repository.indexMatches at hi2
    rw [hi2, List.map_reverse, List.map_map]
    have : (Prod.snd ∘ fun pv : PackageVersion => (pv.package, pv)) = id := rfl
    rw [this, List.map_id]
    exact List.reverse_perm _
  · intro e he
    have hi2 := hi
    unfold Repository.indexMatches at hi2
    rw [hi2] at he
    simp only [List.mem_reverse, List.mem_map] at he
    obtain ⟨y, _, rfl⟩ := he
    rfl
  · intro p hex
    obtain ⟨fp, hf⟩ := Repository.findPackageVersion_isSome _ hi _ _ hex
    unfold Repository.savePackageVersion Repository.loadVersion
    rw [hf]
    simp
  · intro p hex
    have hf : (Repository.after changes).findPackageVersion p.package p.version = none := by
      cases hf : (Repository.after changes).findPackageVersion p.package p.version with
      | none => rfl
      | some fp =>
        obtain ⟨a, b, c⟩ := Repository.findPackageVersion_stored _ hi _ _ fp hf
        exact absurd ⟨fp, a, b, c⟩ hex
    unfold Repository.savePackageVersion
    rw [hf]

/-- The invariant at work: A/1.0 is saved, A/2.0 is loaded, A/1.0.0 (the identity of A/1.0)
is loaded and dropped, and saving A/1.0.0 fills the stored A/1.0 instead of adding an
entry. -/
theorem Repository.after_examples :
    Repository.after [RepositoryChange.save Scenario.a1, RepositoryChange.load Scenario.a2,
        RepositoryChange.load { Scenario.a1 with version := ⟨[1, 0, 0]⟩ }] =
      { Scenario.repA with packages := [] } ∧
    (Repository.after [RepositoryChange.save Scenario.a1, RepositoryChange.load Scenario.a2,
        RepositoryChange.save { Scenario.a1 with version := ⟨[1, 0, 0]⟩ }]).packageVersions =
      [{ Scenario.a1 with version := ⟨[1, 0, 0]⟩ }, Scenario.a2] := by
  decide

/-! ## Category check -/

theorem String.isEmpty_iff_data (s : String) : s.isEmpty = true ↔ s.data = [] := by
  rw [String.isEmpty_iff]
  constructor
  · intro h; rw [h]
  · intro h; exact String.ext h

theorem QString.dropTrailingSpace_cons_of_nil (c : Char) (l : List Char)
    (h : QString.dropTrailingSpace l = []) :
    QString.dropTrailingSpace (c :: l) = if QChar.isSpace c then [] else [c] := by
  rw [QString.dropTrailingSpace, h]

theorem QString.dropTrailingSpace_cons_of_cons (c r : Char) (l rs : List Char)
    (h : QString.dropTrailingSpace l = r :: rs) :
    QString.dropTrailingSpace (c :: l) = c :: r :: rs := by
  rw [QString.dropTrailingSpace, h]

theorem QString.dropTrailingSpace_idem (l : List Char) :
    QString.dropTrailingSpace (QString.dropTrailingSpace l) = QString.dropTrailingSpace l := by
  induction l with
  | nil => rfl
  | cons c cs ih =>
    cases hn : QString.dropTrailingSpace cs with
    | nil =>
      rw [QString.dropTrailingSpace_cons_of_nil _ _ hn]
      by_cases hc : QChar.isSpace c = true
      · simp only [hc, ↓reduceIte]
        rfl
      · simp only [hc, Bool.false_eq_true, ↓reduceIte]
        rw [QString.dropTrailingSpace_cons_of_nil c [] rfl]
        simp [hc]
    | cons r rs =>
      rw [QString.dropTrailingSpace_cons_of_cons _ _ _ _ hn]
      rw [hn] at ih
      rw [QString.dropTrailingSpace_cons_of_cons _ _ _ _ ih]

theorem QString.mem_dropTrailingSpace (l : List Char) (x : Char)
    (h : x ∈ QString.dropTrailingSpace l) : x ∈ l := by
  induction l with
  | nil => exact h
  | cons c cs ih =>
    cases hn : QString.dropTrailingSpace cs with
    | nil =>
      rw [QString.dropTrailingSpace_cons_of_nil _ _ hn] at h
      by_cases hc : QChar.isSpace c = true
      · simp [hc] at h
      · simp only [hc, Bool.false_eq_true, ↓reduceIte, List.mem_singleton] at h
        rw [h]
        exact List.mem_cons_self _ _
    | cons r rs =>
      rw [QString.dropTrailingSpace_cons_of_cons _ _ _ _ hn] at h
      rcases List.mem_cons.1 h with h | h
      · rw [h]; exact List.mem_cons_self _ _
      · exact List.mem_cons_of_mem _ (ih (by rw [hn]; exact h))

theorem QString.dropTrailingSpace_append (a b : List Char)
    (hb : QString.dropTrailingSpace b = b) (hne : b ≠ []) :
    QString.dropTrailingSpace (a ++ b) = a ++ b := by
  induction a with
  | nil => exact hb
  | cons x a ih =>
    cases hab : a ++ b with
    | nil =>
      exfalso
      exact hne (List.append_eq_nil.1 hab).2
    | cons r rs =>
      rw [List.cons_append, hab]
      rw [hab] at ih
      exact QString.dropTrailingSpace_cons_of_cons _ _ _ _ ih

theorem QString.dropWhile_cons_self (c : Char) (l : List Char)
    (h : (c :: l).dropWhile QChar.isSpace = c :: l) : QChar.isSpace c = false := by
  by_cases hc : QChar.isSpace c = true
  · rw [List.dropWhile_cons_of_pos hc] at h
    have := (List.dropWhile_sublist QChar.isSpace (l := l)).length_le
    rw [h] at this
    simp at this
  · simpa using hc

theorem QString.dropWhile_dropTrailingSpace (l : List Char)
    (h : l.dropWhile QChar.isSpace = l) :
    (QString.dropTrailingSpace l).dropWhile QChar.isSpace = QString.dropTrailingSpace l := by
  cases l with
  | nil => rfl
  | cons c cs =>
    have hc := QString.dropWhile_cons_self c cs h
    cases hn : QString.dropTrailingSpace cs with
    | nil =>
      rw [QString.dropTrailingSpace_cons_of_nil _ _ hn]
      simp [hc]
    | cons r rs =>
      rw [QString.dropTrailingSpace_cons_of_cons _ _ _ _ hn]
      simp [hc]

theorem QString.dropWhile_idem (l : List Char) :
    (l.dropWhile QChar.isSpace).dropWhile QChar.isSpace = l.dropWhile QChar.isSpace := by
  induction l with
  | nil => rfl
  | cons c cs ih =>
    by_cases hc : QChar.isSpace c = true
    · rw [List.dropWhile_cons_of_pos hc]
      exact ih
    · rw [List.dropWhile_cons_of_neg hc, List.dropWhile_cons_of_neg hc]

/-- A text that is not empty and neither starts nor ends with white space. -/
theorem QString.trimmedChars_of_tight (l : List Char)
    (h1 : l.dropWhile QChar.isSpace = l) (h2 : QString.dropTrailingSpace l = l) :
    QString.trimmedChars l = l := by
  unfold QString.trimmedChars
  rw [h1, h2]

theorem QString.trimmedChars_tight (l : List Char) :
    (QString.trimmedChars l).dropWhile QChar.isSpace = QString.trimmedChars l ∧
    QString.dropTrailingSpace (QString.trimmedChars l) = QString.trimmedChars l :=
  ⟨QString.dropWhile_dropTrailingSpace _ (QString.dropWhile_idem l),
    QString.dropTrailingSpace_idem _⟩

theorem QString.trimmedChars_idem (l : List Char) :
    QString.trimmedChars (QString.trimmedChars l) = QString.trimmedChars l :=
  QString.trimmedChars_of_tight _ (QString.trimmedChars_tight l).1
    (QString.trimmedChars_tight l).2

theorem QString.mem_trimmedChars (l : List Char) (x : Char)
    (h : x ∈ QString.trimmedChars l) : x ∈ l :=
  (List.dropWhile_sublist QChar.isSpace).subset (QString.mem_dropTrailingSpace _ x h)

theorem QString.trimmed_idem (s : String) :
    QString.trimmed (QString.trimmed s) = QString.trimmed s := by
  unfold QString.trimmed
  simp only []
  rw [QString.trimmedChars_idem]

theorem QString.splitChars_ne_nil (sep : Char) (l : List Char) :
    QString.splitChars sep l ≠ [] := by
  cases l with
  | nil => simp [QString.splitChars]
  | cons c cs =>
    unfold QString.splitChars
    split_ifs <;> simp

theorem QString.mem_splitChars (sep : Char) (l p : List Char)
    (h : p ∈ QString.splitChars sep l) : sep ∉ p := by
  induction l generalizing p with
  | nil =>
    simp only [QString.splitChars, List.mem_singleton] at h
    rw [h]
    simp
  | cons c cs ih =>
    unfold QString.splitChars at h
    by_cases hc : c = sep
    · simp only [hc, ↓reduceIte, List.mem_cons] at h
      rcases h with h | h
      · rw [h]; simp
      · exact ih p h
    · simp only [hc, ↓reduceIte, List.mem_cons] at h
      cases hs : QString.splitChars sep cs with
      | nil => exact absurd hs (QString.splitChars_ne_nil sep cs)
      | cons q qs =>
        rw [hs] at h ih
        simp only [List.headD_cons, List.tail_cons] at h
        rcases h with h | h
        · rw [h]
          intro hm
          rcases List.mem_cons.1 hm with hm | hm
          · exact hc hm.symm
          · exact ih q (List.mem_cons_self _ _) hm
        · exact ih p (List.mem_cons_of_mem _ h)

theorem QString.splitChars_of_not_mem (sep : Char) (p : List Char) (h : sep ∉ p) :
    QString.splitChars sep p = [p] := by
  induction p with
  | nil => rfl
  | cons c cs ih =>
    have hc : c ≠ sep := fun e => h (by rw [e]; exact List.mem_cons_self _ _)
    unfold QString.splitChars
    rw [if_neg hc, ih (fun hm => h (List.mem_cons_of_mem _ hm))]
    rfl

theorem QString.splitChars_append_sep (sep : Char) (p l : List Char) (h : sep ∉ p) :
    QString.splitChars sep (p ++ sep :: l) = p :: QString.splitChars sep l := by
  induction p with
  | nil =>
    rw [List.nil_append, QString.splitChars]
    simp
  | cons c cs ih =>
    have hc : c ≠ sep := fun e => h (by rw [e]; exact List.mem_cons_self _ _)
    rw [List.cons_append, QString.splitChars]
    rw [if_neg hc, ih (fun hm => h (List.mem_cons_of_mem _ hm))]
    rfl

/-- The characters of `parts.join("/")`. -/
theorem QStringList.join_data_cons_cons (a b : String) (l : List String) :
    (QStringList.join (a :: b :: l) "/").data =
      a.data ++ '/' :: (QStringList.join (b :: l) "/").data := by
  unfold QStringList.join
  rw [String.intercalate_cons_cons]
  simp [String.data_append]

theorem QStringList.join_singleton (a : String) : QStringList.join [a] "/" = a := rfl

theorem QStringList.split_join (ps : List String) (hne : ps ≠ [])
    (h : ∀ p ∈ ps, '/' ∉ p.data) :
    QString.split (QStringList.join ps "/") '/' = ps := by
  induction ps with
  | nil => exact absurd rfl hne
  | cons a rest ih =>
    cases rest with
    | nil =>
      unfold QString.split
      rw [QStringList.join_singleton,
        QString.splitChars_of_not_mem _ _ (h a (List.mem_cons_self _ _))]
      rfl
    | cons b l =>
      unfold QString.split
      rw [QStringList.join_data_cons_cons,
        QString.splitChars_append_sep _ _ _ (h a (List.mem_cons_self _ _))]
      have := ih (by simp) (fun p hp => h p (List.mem_cons_of_mem _ hp))
      unfold QString.split at this
      rw [List.map_cons, this]

theorem QStringList.join_tight (ps : List String) (hne : ps ≠ [])
    (h : ∀ p ∈ ps, p.data ≠ [] ∧ p.data.dropWhile QChar.isSpace = p.data ∧
      QString.dropTrailingSpace p.data = p.data) :
    (QStringList.join ps "/").data ≠ [] ∧
    (QStringList.join ps "/").data.dropWhile QChar.isSpace = (QStringList.join ps "/").data ∧
    QString.dropTrailingSpace (QStringList.join ps "/").data =
      (QStringList.join ps "/").data := by
  induction ps with
  | nil => exact absurd rfl hne
  | cons a rest ih =>
    cases rest with
    | nil =>
      rw [QStringList.join_singleton]
      exact h a (List.mem_cons_self _ _)
    | cons b l =>
      obtain ⟨i1, _, i3⟩ := ih (by simp) (fun p hp => h p (List.mem_cons_of_mem _ hp))
      obtain ⟨a1, a2, _⟩ := h a (List.mem_cons_self _ _)
      rw [QStringList.join_data_cons_cons]
      refine ⟨?_, ?_, ?_⟩
      · intro he
        exact a1 (List.append_eq_nil.1 he).1
      · cases ha : a.data with
        | nil => exact absurd ha a1
        | cons c cs =>
          rw [ha] at a2
          have hc := QString.dropWhile_cons_self c cs a2
          rw [List.cons_append, List.dropWhile_cons_of_neg (by simp [hc])]
      · have : a.data ++ '/' :: (QStringList.join (b :: l) "/").data =
            (a.data ++ ['/']) ++ (QStringList.join (b :: l) "/").data := by simp
        rw [this]
        exact QString.dropTrailingSpace_append _ _ i3 i1
theorem Repository.checkCategory.loop_accepts (parts : List String)
    (h : ∀ p ∈ parts, (QString.trimmed p).isEmpty = false) :
    Repository.checkCategory.loop parts = (parts.map QString.trimmed, "") := by
  induction parts with
  | nil => rfl
  | cons p rest ih =>
    unfold Repository.checkCategory.loop
    rw [h p (List.mem_cons_self _ _)]
    simp only [Bool.false_eq_true, ↓reduceIte]
    rw [ih (fun q hq => h q (List.mem_cons_of_mem _ hq))]
    rfl

theorem Repository.checkCategory.loop_rejects (parts : List String)
    (h : ∃ p ∈ parts, (QString.trimmed p).isEmpty = true) :
    (Repository.checkCategory.loop parts).2 = "Empty sub-category" := by
  induction parts with
  | nil => obtain ⟨p, hp, _⟩ := h; cases hp
  | cons p rest ih =>
    unfold Repository.checkCategory.loop
    by_cases hp : (QString.trimmed p).isEmpty = true
    · rw [if_pos hp]
    · rw [if_neg hp]
      simp only []
      apply ih
      obtain ⟨q, hq, hq2⟩ := h
      rcases List.mem_cons.1 hq with rfl | hq
      · exact absurd hq2 hp
      · exact ⟨q, hq, hq2⟩

theorem Repository.checkCategory_of_empty (category : String)
    (h : (QString.trimmed category).isEmpty = true) :
    Repository.checkCategory category = ("", "Empty category tag") := by
  have e1 : ("Empty category tag" : String).isEmpty = false := by decide
  unfold Repository.checkCategory
  simp only [h, ↓reduceIte, e1, Bool.false_eq_true]
  rfl

theorem Repository.checkCategory_of_not_empty (category : String)
    (h : (QString.trimmed category).isEmpty = false) :
    Repository.checkCategory category =
      (QStringList.join
        (Repository.checkCategory.loop (QString.split (QString.trimmed category) '/')).1 "/",
       (Repository.checkCategory.loop (QString.split (QString.trimmed category) '/')).2) := by
  have hl : (QString.split (QString.trimmed category) '/').length ≠ 0 := by
    unfold QString.split
    rw [List.length_map]
    intro h0
    exact QString.splitChars_ne_nil _ _ (List.length_eq_zero.1 h0)
  unfold Repository.checkCategory
  simp only [h, Bool.false_eq_true, ↓reduceIte, isEmpty_empty, hl]

/-- C30: `Repository::checkCategory` reports an error exactly when the trimmed category is
empty or one of its `/`-separated parts is empty after trimming; for every category accepted
without error the result is the trimmed parts joined by `/`, and checking the result again
returns the same text, again without error. -/
theorem Repository.checkCategory_idempotent (c : String) :
    ((Repository.checkCategory c).2 ≠ "" ↔
      (QString.trimmed c = "" ∨
        ∃ part ∈ QString.split (QString.trimmed c) '/', QString.trimmed part = "")) ∧
    ((Repository.checkCategory c).2 = "" →
      (Repository.checkCategory c).1 =
        QStringList.join ((QString.split (QString.trimmed c) '/').map QString.trimmed) "/" ∧
      Repository.checkCategory (Repository.checkCategory c).1 =
        ((Repository.checkCategory c).1, "")) := by
  by_cases he : (QString.trimmed c).isEmpty = true
  · rw [Repository.checkCategory_of_empty c he]
    refine ⟨⟨fun _ => Or.inl ((String.isEmpty_iff _).1 he), fun _ => by decide⟩, ?_⟩
    intro h
    exact absurd h (by decide)
  · have he : (QString.trimmed c).isEmpty = false := by simpa using he
    have hne : QString.trimmed c ≠ "" := by
      intro h0
      rw [h0] at he
      exact absurd he (by decide)
    rw [Repository.checkCategory_of_not_empty c he]
    by_cases hex : ∃ part ∈ QString.split (QString.trimmed c) '/',
        (QString.trimmed part).isEmpty = true
    · have hr := Repository.checkCategory.loop_rejects _ hex
      simp only []
      rw [hr]
      refine ⟨⟨fun _ => Or.inr ?_, fun _ => by decide⟩, fun h => absurd h (by decide)⟩
      obtain ⟨p, hp, hp2⟩ := hex
      exact ⟨p, hp, (String.isEmpty_iff _).1 hp2⟩
    · have hall : ∀ p ∈ QString.split (QString.trimmed c) '/',
          (QString.trimmed p).isEmpty = false := by
        intro p hp
        by_contra hc
        exact hex ⟨p, hp, by simpa using hc⟩
      rw [Repository.checkCategory.loop_accepts _ hall]
      simp only []
      refine ⟨⟨fun h => absurd rfl h, ?_⟩, fun _ => ⟨by trivial, ?_⟩⟩
      · rintro (h | ⟨p, hp, hp2⟩)
        · exact absurd h hne
        · have := hall p hp
          rw [hp2] at this
          exact absurd this (by decide)
      · have hparts : (QString.split (QString.trimmed c) '/').map QString.trimmed ≠ [] := by
          intro h0
          have h1 := List.map_eq_nil_iff.1 h0
          unfold QString.split at h1
          exact QString.splitChars_ne_nil _ _ (List.map_eq_nil_iff.1 h1)
        have hslash : ∀ p ∈ (QString.split (QString.trimmed c) '/').map QString.trimmed,
            '/' ∉ p.data := by
          intro p hp
          rw [List.mem_map] at hp
          obtain ⟨q, hq, rfl⟩ := hp
          unfold QString.split at hq
          rw [List.mem_map] at hq
          obtain ⟨l, hl, rfl⟩ := hq
          intro hm
          exact QString.mem_splitChars _ _ _ hl (QString.mem_trimmedChars _ _ hm)
        have htight : ∀ p ∈ (QString.split (QString.trimmed c) '/').map QString.trimmed,
            p.data ≠ [] ∧ p.data.dropWhile QChar.isSpace = p.data ∧
              QString.dropTrailingSpace p.data = p.data := by
          intro p hp
          rw [List.mem_map] at hp
          obtain ⟨q, hq, rfl⟩ := hp
          refine ⟨?_, (QString.trimmedChars_tight q.data).1,
            (QString.trimmedChars_tight q.data).2⟩
          intro h0
          have := hall q hq
          rw [(String.isEmpty_iff_data _).2 h0] at this
          cases this
        obtain ⟨j1, j2, j3⟩ := QStringList.join_tight _ hparts htight
        have htrim : QString.trimmed
            (QStringList.join ((QString.split (QString.trimmed c) '/').map QString.trimmed)
              "/") =
            QStringList.join ((QString.split (QString.trimmed c) '/').map QString.trimmed)
              "/" := by
          apply String.ext
          exact QString.trimmedChars_of_tight _ j2 j3
        have hne2 : (QString.trimmed
            (QStringList.join ((QString.split (QString.trimmed c) '/').map QString.trimmed)
              "/")).isEmpty = false := by
          rw [htrim, Bool.eq_false_iff, Ne, String.isEmpty_iff_data]
          exact j1
        rw [Repository.checkCategory_of_not_empty _ hne2, htrim,
          QStringList.split_join _ hparts hslash]
        have hall2 : ∀ p ∈ (QString.split (QString.trimmed c) '/').map QString.trimmed,
            (QString.trimmed p).isEmpty = false := by
          intro p hp
          rw [List.mem_map] at hp
          obtain ⟨q, hq, rfl⟩ := hp
          rw [QString.trimmed_idem]
          exact hall q hq
        rw [Repository.checkCategory.loop_accepts _ hall2, List.map_map]
        have hmm : (QString.trimmed ∘ QString.trimmed) = QString.trimmed := by
          funext s
          exact QString.trimmed_idem s
        rw [hmm]

theorem Repository.checkCategory_examples :
    Repository.checkCategory "  Dev / Tools " = ("Dev/Tools", "") ∧
    Repository.checkCategory "Dev/Tools" = ("Dev/Tools", "") ∧
    Repository.checkCategory " Dev //Tools" = ("Dev//Tools", "Empty sub-category") ∧
    Repository.checkCategory "   " = ("", "Empty category tag") := by
  decide

/-! ## The target directory chosen by `planUpdates` -/

theorem planInstallation_where_none (rep : Repository) (fuel : Nat) (pv : PackageVersion)
    (st : PlanState) (w w2 : String) (h : planInstallation rep fuel pv st w = none) :
    planInstallation rep fuel pv st w2 = none := by
  cases fuel with
  | zero => rfl
  | succ fuel =>
    rw [planInstallation] at h ⊢
    by_cases h1 : PackageVersion.contains st.installed pv = true
    · simp [h1] at h
    · simp only [h1, Bool.false_eq_true, ↓reduceIte] at h ⊢
      by_cases h2 : PackageVersion.contains st.avoid pv = true
      · simp [h2] at h
      · simp only [h2, Bool.false_eq_true, ↓reduceIte] at h ⊢
        cases hd : planInstallation.dependencies rep
            (fun c s => planInstallation rep fuel c s "") pv.dependencies
            { st with avoid := st.avoid ++ [pv] } with
        | none => rfl
        | some r1 =>
          rw [hd] at h
          simp only [] at h
          split_ifs at h

theorem planInstallation_where_some (rep : Repository) (fuel : Nat) (pv : PackageVersion)
    (st : PlanState) (w w2 : String) (r : String × PlanState)
    (h : planInstallation rep fuel pv st w = some r) :
    ∃ r2, planInstallation rep fuel pv st w2 = some r2 ∧ r2.1 = r.1 ∧
      r2.2.installed = r.2.installed ∧ r2.2.ops.length = r.2.ops.length := by
  cases fuel with
  | zero => simp [planInstallation] at h
  | succ fuel =>
    rw [planInstallation] at h ⊢
    by_cases h1 : PackageVersion.contains st.installed pv = true
    · simp only [h1, ↓reduceIte, Option.some.injEq] at h ⊢
      exact ⟨_, rfl, by rw [← h], by rw [← h], by rw [← h]⟩
    · simp only [h1, Bool.false_eq_true, ↓reduceIte] at h ⊢
      by_cases h2 : PackageVersion.contains st.avoid pv = true
      · simp only [h2, ↓reduceIte, Option.some.injEq] at h ⊢
        exact ⟨_, rfl, by rw [← h], by rw [← h], by rw [← h]⟩
      · simp only [h2, Bool.false_eq_true, ↓reduceIte] at h ⊢
        cases hd : planInstallation.dependencies rep
            (fun c s => planInstallation rep fuel c s "") pv.dependencies
            { st with avoid := st.avoid ++ [pv] } with
        | none => rw [hd] at h; cases h
        | some r1 =>
          rw [hd] at h
          simp only [] at h ⊢
          by_cases he : r1.1.isEmpty = true
          · simp only [he, Bool.not_true, Bool.false_eq_true, ↓reduceIte,
              Option.some.injEq] at h ⊢
            refine ⟨_, rfl, ?_, ?_, ?_⟩
            · rw [← h]
            · rw [← h]
            · rw [← h]; simp
          · simp only [he, Bool.not_false, ↓reduceIte, Option.some.injEq] at h ⊢
            exact ⟨_, rfl, by rw [← h], by rw [← h], by rw [← h]⟩

theorem planUpdates.combined_where_none (rep : Repository) (ip : InstalledPackages)
    (fuel : Nat) (keepDirectories : Bool) (w w2 : String) (i : Nat) (a b : PackageVersion)
    (installed : List PackageVersion)
    (h : planUpdates.combined rep ip fuel keepDirectories w i a b installed = none) :
    planUpdates.combined rep ip fuel keepDirectories w2 i a b installed = none := by
  unfold planUpdates.combined at h ⊢
  cases hu : planUninstallation fuel b installed [] with
  | none => rfl
  | some ru =>
    rw [hu] at h
    simp only [] at h ⊢
    by_cases he : ru.1.isEmpty = true
    · simp only [he, ↓reduceIte] at h ⊢
      cases hi : planInstallation rep fuel a { installed := ru.2.1, ops := ru.2.2, avoid := [] }
          (planUpdates.coLocateWhere ip keepDirectories w i b) with
      | none => rw [planInstallation_where_none rep fuel a _ _ _ hi]
      | some r => rw [hi] at h; cases h
    · simp [he] at h

theorem planUpdates.combined_where_some (rep : Repository) (ip : InstalledPackages)
    (fuel : Nat) (keepDirectories : Bool) (w w2 : String) (i : Nat) (a b : PackageVersion)
    (installed : List PackageVersion)
    (r : String × List PackageVersion × List InstallOperation)
    (h : planUpdates.combined rep ip fuel keepDirectories w i a b installed = some r) :
    ∃ r2, planUpdates.combined rep ip fuel keepDirectories w2 i a b installed = some r2 ∧
      r2.1 = r.1 ∧ r2.2.1 = r.2.1 ∧ r2.2.2.length = r.2.2.length := by
  unfold planUpdates.combined at h ⊢
  cases hu : planUninstallation fuel b installed [] with
  | none => rw [hu] at h; cases h
  | some ru =>
    rw [hu] at h
    simp only [] at h ⊢
    by_cases he : ru.1.isEmpty = true
    · simp only [he, ↓reduceIte] at h ⊢
      cases hi : planInstallation rep fuel a { installed := ru.2.1, ops := ru.2.2, avoid := [] }
          (planUpdates.coLocateWhere ip keepDirectories w i b) with
      | none => rw [hi] at h; cases h
      | some r1 =>
        rw [hi] at h
        simp only [Option.some.injEq] at h
        obtain ⟨r2, e2, a1, a2, a3⟩ := planInstallation_where_some rep fuel a _ _
          (planUpdates.coLocateWhere ip keepDirectories w2 i b) _ hi
        rw [e2]
        exact ⟨_, rfl, by rw [← h]; exact a1, by rw [← h]; exact a2, by rw [← h]; exact a3⟩
    · simp only [he, Bool.false_eq_true, ↓reduceIte, Option.some.injEq] at h ⊢
      exact ⟨_, rfl, by rw [← h], by rw [← h], by rw [← h]⟩

theorem planUpdates.coLocateWhere_succ (ip : InstalledPackages) (keepDirectories : Bool)
    (w w2 : String) (i : Nat) (b : PackageVersion) :
    planUpdates.coLocateWhere ip keepDirectories w (i + 1) b =
      planUpdates.coLocateWhere ip keepDirectories w2 (i + 1) b := by
  simp [planUpdates.coLocateWhere]

theorem planUpdates.combined_succ (rep : Repository) (ip : InstalledPackages)
    (fuel : Nat) (keepDirectories : Bool) (w w2 : String) (i : Nat) (a b : PackageVersion)
    (installed : List PackageVersion) :
    planUpdates.combined rep ip fuel keepDirectories w (i + 1) a b installed =
      planUpdates.combined rep ip fuel keepDirectories w2 (i + 1) a b installed := by
  unfold planUpdates.combined
  rw [planUpdates.coLocateWhere_succ ip keepDirectories w w2 i b]

theorem planUpdates.coLocationLoop_succ (rep : Repository) (ip : InstalledPackages)
    (fuel : Nat) (keepDirectories : Bool) (w w2 : String) (l : List UpdatePair) (i : Nat)
    (installed : List PackageVersion) (ops : List InstallOperation) :
    planUpdates.coLocationLoop rep ip fuel keepDirectories w (i + 1) l installed ops =
      planUpdates.coLocationLoop rep ip fuel keepDirectories w2 (i + 1) l installed ops := by
  induction l generalizing i installed ops with
  | nil => rfl
  | cons t rest ih =>
    rw [planUpdates.coLocationLoop, planUpdates.coLocationLoop]
    cases hb : t.newesti with
    | none =>
      simp only []
      rw [ih]
    | some b =>
      simp only []
      rw [planUpdates.combined_succ rep ip fuel keepDirectories w w2]
      cases hc : planUpdates.combined rep ip fuel keepDirectories w2 (i + 1) t.newest b
          installed with
      | none => rfl
      | some r =>
        simp only []
        split
        · rw [ih]
        · rw [ih]
theorem planUpdates.coLocationLoop_not_accepted (rep : Repository) (ip : InstalledPackages)
    (fuel : Nat) (keepDirectories : Bool) (w w2 : String) (t : UpdatePair)
    (rest : List UpdatePair) (installed : List PackageVersion) (ops : List InstallOperation)
    (h : t.newesti = none ∨ ∃ b, t.newesti = some b ∧
      ∀ r, planUpdates.combined rep ip fuel keepDirectories w 0 t.newest b installed = some r →
        ¬ (r.1.isEmpty = true ∧ r.2.2.length = 2)) :
    planUpdates.coLocationLoop rep ip fuel keepDirectories w 0 (t :: rest) installed ops =
      planUpdates.coLocationLoop rep ip fuel keepDirectories w2 0 (t :: rest) installed
        ops := by
  rw [planUpdates.coLocationLoop, planUpdates.coLocationLoop]
  rcases h with h | ⟨b, hb, h⟩
  · simp only [h]
    rw [planUpdates.coLocationLoop_succ rep ip fuel keepDirectories w w2]
  · simp only [hb]
    cases hc : planUpdates.combined rep ip fuel keepDirectories w 0 t.newest b installed with
    | none =>
      rw [planUpdates.combined_where_none rep ip fuel keepDirectories w w2 0 _ _ _ hc]
    | some r =>
      obtain ⟨r2, e2, a1, _, a3⟩ :=
        planUpdates.combined_where_some rep ip fuel keepDirectories w w2 0 _ _ _ r hc
      rw [e2]
      simp only []
      have hn := h r hc
      have hn2 : ¬ (r2.1.isEmpty = true ∧ r2.2.2.length = 2) := by
        rw [a1, a3]; exact hn
      split
      · rename_i o0 o1 x1 x2
        exact absurd ⟨x1, by rw [x2]; rfl⟩ hn
      · split
        · rename_i o0 o1 x1 x2
          exact absurd ⟨x1, by rw [x2]; rfl⟩ hn2
        · rw [planUpdates.coLocationLoop_succ rep ip fuel keepDirectories w w2]

/-- C29: the target directory chosen by `planUpdates`.  In the co-location pass, which plans
an installation only for a pair with an installed version `b`, the preferred directory
`where_` is passed only at index 0 and only when it is not empty; at every other index the
directory is the path of `b` when `keepDirectories` is set and empty otherwise, so the pass
from index 1 on does not depend on `where_`.  The ordinary install pass passes the path of
`b` when `keepDirectories` is set and `b` exists, and the empty text otherwise.  Hence, when
the first pair has no installed version or its co-location attempt is not accepted (or there
is no pair), the whole result of `planUpdates` is the one for an empty `where_`. -/
theorem planUpdates_where_only_first_coLocated (rep : Repository) (ip : InstalledPackages)
    (fuel : Nat) (packages : List Package) (ranges : List Dependency)
    (ops : List InstallOperation) (keepDirectories install : Bool) (where_ : String) :
    (∀ i b, planUpdates.coLocateWhere ip keepDirectories where_ i b =
      if i = 0 ∧ where_ ≠ "" then where_
      else if keepDirectories = true then b.getPath ip else "") ∧
    (∀ i l installed ops2,
      planUpdates.coLocationLoop rep ip fuel keepDirectories where_ (i + 1) l installed ops2 =
        planUpdates.coLocationLoop rep ip fuel keepDirectories "" (i + 1) l installed ops2) ∧
    (∀ i t rest installed ops2, t.newesti = none →
      planUpdates.coLocationLoop rep ip fuel keepDirectories where_ i (t :: rest) installed
          ops2 =
        (planUpdates.coLocationLoop rep ip fuel keepDirectories where_ (i + 1) rest installed
          ops2).map (fun r => (t :: r.1, r.2))) ∧
    (∀ t rest installed ops2, t.used = false →
      planUpdates.installLoop rep ip fuel keepDirectories (t :: rest) installed ops2 =
        (planInstallation rep fuel t.newest
            { installed := installed, ops := ops2, avoid := [] }
            (if keepDirectories = true ∧ t.newesti.isSome = true then
              (match t.newesti with
               | some b => b.getPath ip
               | none => "")
             else "")).bind
          (fun r =>
            if r.1.isEmpty then
              planUpdates.installLoop rep ip fuel keepDirectories rest r.2.installed r.2.ops
            else some (r.1, r.2.installed, r.2.ops))) ∧
    ((∀ t rest, (planUpdates.examine rep ip install packages ranges).2 = t :: rest →
        (t.newesti = none ∨ ∃ b, t.newesti = some b ∧
          ∀ r, planUpdates.combined rep ip fuel keepDirectories where_ 0 t.newest b
              (getInstalled_ rep ip).2 = some r →
            ¬ (r.1.isEmpty = true ∧ r.2.2.length = 2))) →
      planUpdates rep ip fuel packages ranges ops keepDirectories install where_ =
        planUpdates rep ip fuel packages ranges ops keepDirectories install "") := by
  refine ⟨?_, ?_, ?_, ?_, ?_⟩
  · intro i b
    unfold planUpdates.coLocateWhere
    by_cases hw : where_ = ""
    · subst hw
      simp [isEmpty_empty]
    · have hw2 : where_.isEmpty = false := by
        rw [Bool.eq_false_iff, Ne, String.isEmpty_iff]
        exact hw
      simp [hw, hw2]
  · intro i l installed ops2
    exact planUpdates.coLocationLoop_succ rep ip fuel keepDirectories where_ "" l i installed
      ops2
  · intro i t rest installed ops2 hb
    rw [planUpdates.coLocationLoop]
    simp only [hb]
  · intro t rest installed ops2 hu
    rw [planUpdates.installLoop]
    simp only [hu, Bool.not_false, ↓reduceIte]
    cases hb : t.newesti with
    | none =>
      simp only [Option.isSome_none, Bool.false_eq_true, and_false, ↓reduceIte]
      cases planInstallation rep fuel t.newest
          { installed := installed, ops := ops2, avoid := [] } "" with
      | none => rfl
      | some r =>
        simp only [Option.some_bind]
        by_cases he : r.1.isEmpty = true
        · simp [he]
        · simp [he]
    | some b =>
      simp only [Option.isSome_some, and_true]
      cases planInstallation rep fuel t.newest
          { installed := installed, ops := ops2, avoid := [] }
          (if keepDirectories = true then b.getPath ip else "") with
      | none => rfl
      | some r =>
        simp only [Option.some_bind]
        by_cases he : r.1.isEmpty = true
        · simp [he]
        · simp [he]
  · intro h
    unfold planUpdates
    simp only []
    cases hex : (planUpdates.examine rep ip install packages ranges).2 with
    | nil => rfl
    | cons t rest =>
      rw [planUpdates.coLocationLoop_not_accepted rep ip fuel keepDirectories where_ "" t rest
        _ ops (h t rest hex)]
/-- The preferred directory at work: the update of A (A/1.0 installed, A/2.0 newest) is
co-located at index 0 and receives the preferred directory; the installation of A where
nothing is installed goes through the ordinary install pass, which does not see it. -/
theorem planUpdates_where_examples :
    planUpdates Scenario.repA Scenario.ipA1 3 [Scenario.packageA] [] [] false false "D:\\A" =
      some ("", [{ package := "A", version := ⟨[1, 0]⟩, install := false, where_ := "" },
                 { package := "A", version := ⟨[2, 0]⟩, install := true,
                   where_ := "D:\\A" }]) ∧
    planUpdates Scenario.repA { data := [] } 3 [Scenario.packageA] [] [] false true "D:\\A" =
      some ("", [{ package := "A", version := ⟨[2, 0]⟩, install := true, where_ := "" }]) := by
  decide

/-! ## The order of the plan of `planUpdates` -/

theorem planUninstallation.dependents_uninstalls
    (recur : PackageVersion → List PackageVersion → List InstallOperation →
      Option (String × List PackageVersion × List InstallOperation))
    (hrec : ∀ x inst ops r, recur x inst ops = some r →
      ∃ t, r.2.2 = ops ++ t ∧ ∀ o ∈ t, o.install = false)
    (l : List PackageVersion) (inst : List PackageVersion) (ops : List InstallOperation)
    (r : String × List PackageVersion × List InstallOperation)
    (h : planUninstallation.dependents recur l inst ops = some r) :
    ∃ t, r.2.2 = ops ++ t ∧ ∀ o ∈ t, o.install = false := by
  induction l generalizing inst ops with
  | nil =>
    simp only [planUninstallation.dependents, Option.some.injEq] at h
    subst h
    exact ⟨[], by simp, by simp⟩
  | cons x rest ih =>
    rw [planUninstallation.dependents] at h
    cases hx : recur x inst ops with
    | none => rw [hx] at h; cases h
    | some r1 =>
      rw [hx] at h
      simp only [] at h
      obtain ⟨t1, ht1, hu1⟩ := hrec x inst ops r1 hx
      split at h
      · simp only [Option.some.injEq] at h
        subst h
        exact ⟨t1, ht1, hu1⟩
      · obtain ⟨t2, ht2, hu2⟩ := ih _ _ h
        refine ⟨t1 ++ t2, by rw [ht2, ht1, List.append_assoc], ?_⟩
        intro o ho
        rcases List.mem_append.1 ho with ho | ho
        · exact hu1 o ho
        · exact hu2 o ho

theorem planUninstallation_uninstalls (fuel : Nat) (pv : PackageVersion)
    (inst : List PackageVersion) (ops : List InstallOperation)
    (r : String × List PackageVersion × List InstallOperation)
    (h : planUninstallation fuel pv inst ops = some r) :
    ∃ t, r.2.2 = ops ++ t ∧ ∀ o ∈ t, o.install = false := by
  induction fuel generalizing pv inst ops r with
  | zero => simp [planUninstallation] at h
  | succ fuel ih =>
    rw [planUninstallation] at h
    cases hd : planUninstallation.dependents (planUninstallation fuel)
        (inst.filter (isLastProvider pv inst)) (inst.filter (fun q => !q.same pv)) ops with
    | none => rw [hd] at h; cases h
    | some r1 =>
      rw [hd] at h
      simp only [] at h
      obtain ⟨t1, ht1, hu1⟩ := planUninstallation.dependents_uninstalls _
        (fun x i o r hr => ih x i o r hr) _ _ _ _ hd
      split at h
      · simp only [Option.some.injEq] at h
        subst h
        exact ⟨t1, ht1, hu1⟩
      · simp only [Option.some.injEq] at h
        subst h
        refine ⟨t1 ++ [_], by simp only [ht1, List.append_assoc]; rfl, ?_⟩
        intro o ho
        rcases List.mem_append.1 ho with ho | ho
        · exact hu1 o ho
        · rw [List.mem_singleton] at ho
          rw [ho]

theorem planInstallation.dependencies_installs (rep : Repository)
    (recur : PackageVersion → PlanState → Option (String × PlanState))
    (hrec : ∀ c st r, recur c st = some r →
      ∃ t, r.2.ops = st.ops ++ t ∧ ∀ o ∈ t, o.install = true)
    (l : List Dependency) (st : PlanState) (r : String × PlanState)
    (h : planInstallation.dependencies rep recur l st = some r) :
    ∃ t, r.2.ops = st.ops ++ t ∧ ∀ o ∈ t, o.install = true := by
  induction l generalizing st with
  | nil =>
    simp only [planInstallation.dependencies, Option.some.injEq] at h
    subst h
    exact ⟨[], by simp, by simp⟩
  | cons d rest ih =>
    rw [planInstallation.dependencies] at h
    split at h
    · exact ih _ h
    · simp only [findBestMatchToInstall_err, isEmpty_empty, Bool.not_true,
        Bool.false_eq_true, ↓reduceIte] at h
      split at h
      · simp only [Option.some.injEq] at h
        subst h
        exact ⟨[], by simp, by simp⟩
      · rename_i c hc
        cases hx : recur c st with
        | none => rw [hx] at h; cases h
        | some r1 =>
          rw [hx] at h
          simp only [] at h
          obtain ⟨t1, ht1, hu1⟩ := hrec c st r1 hx
          split at h
          · simp only [Option.some.injEq] at h
            subst h
            exact ⟨t1, ht1, hu1⟩
          · obtain ⟨t2, ht2, hu2⟩ := ih _ h
            refine ⟨t1 ++ t2, by rw [ht2, ht1, List.append_assoc], ?_⟩
            intro o ho
            rcases List.mem_append.1 ho with ho | ho
            · exact hu1 o ho
            · exact hu2 o ho

theorem planInstallation_installs (rep : Repository) (fuel : Nat) (pv : PackageVersion)
    (st : PlanState) (where_ : String) (r : String × PlanState)
    (h : planInstallation rep fuel pv st where_ = some r) :
    ∃ t, r.2.ops = st.ops ++ t ∧ ∀ o ∈ t, o.install = true := by
  induction fuel generalizing pv st where_ r with
  | zero => simp [planInstallation] at h
  | succ fuel ih =>
    rw [planInstallation] at h
    split at h
    · simp only [Option.some.injEq] at h
      subst h
      exact ⟨[], by simp, by simp⟩
    · split at h
      · simp only [Option.some.injEq] at h
        subst h
        exact ⟨[], by simp, by simp⟩
      · cases hd : planInstallation.dependencies rep
            (fun c s => planInstallation rep fuel c s "") pv.dependencies
            { st with avoid := st.avoid ++ [pv] } with
        | none => rw [hd] at h; cases h
        | some r1 =>
          rw [hd] at h
          simp only [] at h
          obtain ⟨t1, ht1, hu1⟩ := planInstallation.dependencies_installs rep _
            (fun c s r hr => ih c s "" r hr) _ _ _ hd
          split at h
          · simp only [Option.some.injEq] at h
            subst h
            exact ⟨t1, ht1, hu1⟩
          · simp only [Option.some.injEq] at h
            subst h
            refine ⟨t1 ++ [_], by simp only [ht1, List.append_assoc]; rfl, ?_⟩
            intro o ho
            rcases List.mem_append.1 ho with ho | ho
            · exact hu1 o ho
            · rw [List.mem_singleton] at ho
              rw [ho]

theorem planUpdates.packagesLoop_unused (rep : Repository) (ip : InstalledPackages)
    (install : Bool) (l : List Package) (acc : List UpdatePair)
    (hacc : ∀ t ∈ acc, t.used = false) :
    ∀ t ∈ (planUpdates.packagesLoop rep ip install l acc).2, t.used = false := by
  induction l generalizing acc with
  | nil => simpa [planUpdates.packagesLoop] using hacc
  | cons p rest ih =>
    rw [planUpdates.packagesLoop]
    simp only [findNewestInstallablePackageVersion__err,
      findNewestInstalledPackageVersion__err, isEmpty_empty, Bool.not_true,
      Bool.false_eq_true, ↓reduceIte]
    split
    · exact hacc
    · split
      · exact hacc
      · split
        · apply ih
          intro t ht
          rcases List.mem_append.1 ht with ht | ht
          · exact hacc t ht
          · rw [List.mem_singleton] at ht
            rw [ht]
        · exact ih acc hacc

theorem planUpdates.rangesLoop_unused (rep : Repository) (ip : InstalledPackages)
    (install : Bool) (l : List Dependency) (acc : List UpdatePair)
    (hacc : ∀ t ∈ acc, t.used = false) :
    ∀ t ∈ (planUpdates.rangesLoop rep ip install l acc).2, t.used = false := by
  induction l generalizing acc with
  | nil => simpa [planUpdates.rangesLoop] using hacc
  | cons d rest ih =>
    rw [planUpdates.rangesLoop]
    split
    · exact hacc
    · simp only [findBestMatchToInstall_err, isEmpty_empty, Bool.not_true,
        Bool.false_eq_true, ↓reduceIte]
      split
      · exact hacc
      · cases hi : findHighestInstalledMatch ip d with
        | none =>
          simp only [isEmpty_empty, Bool.not_true, Bool.false_eq_true, ↓reduceIte]
          split
          · exact hacc
          · apply ih
            intro t ht
            rcases List.mem_append.1 ht with ht | ht
            · exact hacc t ht
            · rw [List.mem_singleton] at ht
              rw [ht]
        | some ipv =>
          have e : (rep.findPackageVersion_ ipv.package ipv.version).1 = "" := rfl
          simp only [e, isEmpty_empty, Bool.not_true, Bool.false_eq_true, ↓reduceIte]
          split
          · exact hacc
          · split
            · apply ih
              intro t ht
              rcases List.mem_append.1 ht with ht | ht
              · exact hacc t ht
              · rw [List.mem_singleton] at ht
                rw [ht]
            · exact ih acc hacc

theorem planUpdates.examine_unused (rep : Repository) (ip : InstalledPackages)
    (install : Bool) (packages : List Package) (ranges : List Dependency) :
    ∀ t ∈ (planUpdates.examine rep ip install packages ranges).2, t.used = false := by
  unfold planUpdates.examine
  simp only []
  split
  · exact planUpdates.rangesLoop_unused rep ip install ranges _
      (planUpdates.packagesLoop_unused rep ip install packages [] (by simp))
  · exact planUpdates.packagesLoop_unused rep ip install packages [] (by simp)
theorem planUpdates.coLocationLoop_operations (rep : Repository) (ip : InstalledPackages)
    (fuel : Nat) (keepDirectories : Bool) (where_ : String) (inst0 : List PackageVersion)
    (ps : List UpdatePair) (hG : planUpdates.pairsConsistent inst0 ps)
    (l : List UpdatePair) (i : Nat)
    (installed : List PackageVersion) (ops : List InstallOperation)
    (r : List UpdatePair × List PackageVersion × List InstallOperation)
    (hsub : ∀ t ∈ l, t ∈ ps)
    (hinv : planUpdates.coLocationInv installed l)
    (hun : ∀ t ∈ l, t.used = false)
    (h : planUpdates.coLocationLoop rep ip fuel keepDirectories where_ i l installed ops
      = some r) :
    r.2.2 = ops ++ planUpdates.coLocatedOperations ip keepDirectories where_ i r.1 ∧
    r.1.map (fun t => (t.newest, t.newesti)) = l.map (fun t => (t.newest, t.newesti)) ∧
    (∀ t ∈ r.1, t.used = true → t.newesti ≠ none) := by
  induction l generalizing i installed ops r with
  | nil =>
    simp only [planUpdates.coLocationLoop, Option.some.injEq] at h
    subst h
    exact ⟨by simp [planUpdates.coLocatedOperations], rfl, by simp⟩
  | cons s tl ih =>
    have hsub2 : ∀ t ∈ tl, t ∈ ps := fun t ht => hsub t (List.mem_cons_of_mem _ ht)
    have hinv2 : planUpdates.coLocationInv installed tl :=
      fun t ht => hinv t (List.mem_cons_of_mem _ ht)
    have hun2 : ∀ t ∈ tl, t.used = false := fun t ht => hun t (List.mem_cons_of_mem _ ht)
    have hus : s.used = false := hun s (List.mem_cons_self _ _)
    rw [planUpdates.coLocationLoop] at h
    split at h
    · rename_i hb
      simp only [Option.map_eq_some'] at h
      obtain ⟨r1, hr1, rfl⟩ := h
      obtain ⟨a1, a2, a3⟩ := ih _ _ _ r1 hsub2 hinv2 hun2 hr1
      refine ⟨?_, ?_, ?_⟩
      · simp only [planUpdates.coLocatedOperations, hus, Bool.false_eq_true, ↓reduceIte,
          List.nil_append]
        exact a1
      · simp only [List.map_cons, a2]
      · intro t ht hu
        rcases List.mem_cons.1 ht with rfl | ht
        · rw [hus] at hu; cases hu
        · exact a3 t ht hu
    · rename_i b hb
      split at h
      · cases h
      · rename_i rc hrc
        split at h
        · rename_i o0 o1 hemp hops
          simp only [Option.map_eq_some'] at h
          obtain ⟨r1, hr1, rfl⟩ := h
          obtain ⟨hshape, hinst⟩ := planUpdates_combined_accepted rep ip fuel keepDirectories
            where_ i s.newest b installed rc hrc hemp (by rw [hops]; rfl)
            (hinv s (List.mem_cons_self _ _) b hb)
          have hinv3 := planUpdates_coLocationInv_accept inst0 ps hG s b
              (hsub s (List.mem_cons_self _ _)) hb installed _ hsub2 hinv2
          rw [hinst] at hr1
          obtain ⟨a1, a2, a3⟩ := ih _ _ _ r1 hsub2 hinv3 hun2 hr1
          rw [hops] at hshape
          simp only [List.cons.injEq, and_true] at hshape
          refine ⟨?_, ?_, ?_⟩
          · simp only [planUpdates.coLocatedOperations, ↓reduceIte, hb]
            rw [a1, hshape.1, hshape.2]
            simp
          · simp only [List.map_cons, a2]
          · intro t ht hu
            rcases List.mem_cons.1 ht with rfl | ht
            · simp [hb]
            · exact a3 t ht hu
        · simp only [Option.map_eq_some'] at h
          obtain ⟨r1, hr1, rfl⟩ := h
          obtain ⟨a1, a2, a3⟩ := ih _ _ _ r1 hsub2 hinv2 hun2 hr1
          refine ⟨?_, ?_, ?_⟩
          · simp only [planUpdates.coLocatedOperations, hus, Bool.false_eq_true, ↓reduceIte,
              List.nil_append]
            exact a1
          · simp only [List.map_cons, a2]
          · intro t ht hu
            rcases List.mem_cons.1 ht with rfl | ht
            · rw [hus] at hu; cases hu
            · exact a3 t ht hu

theorem planUpdates.installLoop_segments (rep : Repository) (ip : InstalledPackages)
    (fuel : Nat) (keepDirectories : Bool) (l : List UpdatePair)
    (inst : List PackageVersion) (ops : List InstallOperation)
    (r : String × List PackageVersion × List InstallOperation)
    (h : planUpdates.installLoop rep ip fuel keepDirectories l inst ops = some r)
    (he : r.1.isEmpty = true) :
    ∃ segs : List (List InstallOperation), r.2.2 = ops ++ segs.flatten ∧
      List.Forall₂
        (fun t seg => (∀ o ∈ seg, o.install = true) ∧
          (seg = [] ∨ ∃ y w, seg = y ++
            [InstallOperation.mk t.newest.package t.newest.version true w]))
        (l.filter (fun t => !t.used)) segs := by
  induction l generalizing inst ops r with
  | nil =>
    simp only [planUpdates.installLoop, Option.some.injEq] at h
    subst h
    exact ⟨[], by simp, by simp⟩
  | cons t rest ih =>
    rw [planUpdates.installLoop] at h
    by_cases hu : t.used = true
    · simp only [hu, Bool.not_true, Bool.false_eq_true, ↓reduceIte] at h
      obtain ⟨segs, a1, a2⟩ := ih _ _ _ h he
      refine ⟨segs, a1, ?_⟩
      rw [List.filter_cons_of_neg (by simp [hu])]
      exact a2
    · have hu : t.used = false := by simpa using hu
      simp only [hu, Bool.not_false, ↓reduceIte] at h
      split at h
      · cases h
      · rename_i r1 hr1
        obtain ⟨t1, ht1, hi1⟩ := planInstallation_installs rep fuel _ _ _ _ hr1
        simp only [] at ht1
        by_cases he1 : r1.1.isEmpty = true
        · simp only [he1, Bool.not_true, Bool.false_eq_true, ↓reduceIte] at h
          obtain ⟨segs, a1, a2⟩ := ih _ _ _ h he
          obtain ⟨s1, s2⟩ := planInstallation_shape rep fuel _ _ _ _ hr1 he1
          refine ⟨t1 :: segs, by rw [a1, ht1]; simp, ?_⟩
          rw [List.filter_cons_of_pos (by simp [hu])]
          refine List.Forall₂.cons ⟨hi1, ?_⟩ a2
          by_cases hc : PackageVersion.contains inst t.newest = true
          · left
            have := s1 hc
            rw [this] at ht1
            simpa using ht1
          · right
            obtain ⟨y, hy, _⟩ := s2 (by simpa using hc)
            simp only [] at hy
            rw [ht1, List.append_assoc] at hy
            exact ⟨y, _, List.append_cancel_left hy⟩
        · simp only [he1, Bool.not_false, ↓reduceIte, Option.some.injEq] at h
          rw [← h] at he
          exact absurd he he1

theorem planUpdates.uninstallLoop_segments (fuel : Nat) (l : List UpdatePair)
    (inst : List PackageVersion) (ops : List InstallOperation)
    (r : String × List PackageVersion × List InstallOperation)
    (h : planUpdates.uninstallLoop fuel l inst ops = some r)
    (he : r.1.isEmpty = true) :
    ∃ segs : List (List InstallOperation), r.2.2 = ops ++ segs.flatten ∧
      List.Forall₂
        (fun t seg => (∀ o ∈ seg, o.install = false) ∧
          (t.newesti = none → seg = []) ∧
          (∀ b, t.newesti = some b → ∃ x, seg = x ++
            [InstallOperation.mk b.package b.version false ""]))
        (l.filter (fun t => !t.used)) segs := by
  induction l generalizing inst ops r with
  | nil =>
    simp only [planUpdates.uninstallLoop, Option.some.injEq] at h
    subst h
    exact ⟨[], by simp, by simp⟩
  | cons t rest ih =>
    rw [planUpdates.uninstallLoop] at h
    by_cases hu : t.used = true
    · simp only [hu, Bool.not_true, Bool.false_eq_true, ↓reduceIte] at h
      obtain ⟨segs, a1, a2⟩ := ih _ _ _ h he
      refine ⟨segs, a1, ?_⟩
      rw [List.filter_cons_of_neg (by simp [hu])]
      exact a2
    · have hu : t.used = false := by simpa using hu
      simp only [hu, Bool.not_false, ↓reduceIte] at h
      cases hb : t.newesti with
      | none =>
        simp only [hb] at h
        obtain ⟨segs, a1, a2⟩ := ih _ _ _ h he
        refine ⟨[] :: segs, by rw [a1]; simp, ?_⟩
        rw [List.filter_cons_of_pos (by simp [hu])]
        refine List.Forall₂.cons ⟨by simp, fun _ => rfl, ?_⟩ a2
        intro b hb2
        rw [hb] at hb2
        cases hb2
      | some b =>
        simp only [hb] at h
        cases hr1 : planUninstallation fuel b inst ops with
        | none => rw [hr1] at h; cases h
        | some r1 =>
          rw [hr1] at h
          simp only [] at h
          obtain ⟨t1, ht1, hi1⟩ := planUninstallation_uninstalls fuel _ _ _ _ hr1
          by_cases he1 : r1.1.isEmpty = true
          · simp only [he1, Bool.not_true, Bool.false_eq_true, ↓reduceIte] at h
            obtain ⟨segs, a1, a2⟩ := ih _ _ _ h he
            obtain ⟨⟨x, hx, _⟩, _⟩ := planUninstallation_shape fuel _ _ _ _ hr1 he1
            refine ⟨t1 :: segs, by rw [a1, ht1]; simp, ?_⟩
            rw [List.filter_cons_of_pos (by simp [hu])]
            refine List.Forall₂.cons ⟨hi1, ?_, ?_⟩ a2
            · intro hn
              rw [hb] at hn
              cases hn
            · intro b2 hb2
              rw [hb] at hb2
              have hb2 : b = b2 := Option.some.inj hb2
              subst hb2
              rw [ht1, List.append_assoc] at hx
              exact ⟨x, List.append_cancel_left hx⟩
          · simp only [he1, Bool.not_false, ↓reduceIte, Option.some.injEq] at h
            rw [← h] at he
            exact absurd he he1
/-- C25: the order of the plan that `planUpdates` builds before `simplify`, when it reports
no error, over a repository that files every version under its own package name.  The
operations on entry are followed by the operations of the co-located (used) pairs, each pair
as uninstall-old then install-new, in target order; then by the operations appended by the
ordinary install planning of the newest version of every pair not marked used, in target
order (install operations only, the part of a pair ending with the installation of its
newest version); and only then by the operations appended by the ordinary uninstall planning
of the installed versions of the pairs not marked used (uninstall operations only, the part
of a pair ending with the uninstallation of its installed version). -/
theorem planUpdates_plan_order (rep : Repository) (ip : InstalledPackages) (fuel : Nat)
    (packages : List Package) (ranges : List Dependency) (ops : List InstallOperation)
    (keepDirectories install : Bool) (where_ : String) (hkey : rep.keysMatch)
    (result : List InstallOperation)
    (h : planUpdates rep ip fuel packages ranges ops keepDirectories install where_ =
      some ("", result)) :
    ∃ (pairs : List UpdatePair) (installedC : List PackageVersion)
      (segsI segsU : List (List InstallOperation)),
      planUpdates.coLocationLoop rep ip fuel keepDirectories where_ 0
          (planUpdates.examine rep ip install packages ranges).2 (getInstalled_ rep ip).2 ops =
        some (pairs, installedC,
          ops ++ planUpdates.coLocatedOperations ip keepDirectories where_ 0 pairs) ∧
      pairs.map (fun t => (t.newest, t.newesti)) =
        (planUpdates.examine rep ip install packages ranges).2.map
          (fun t => (t.newest, t.newesti)) ∧
      (∀ t ∈ pairs, t.used = true → t.newesti ≠ none) ∧
      result = InstallOperation.simplify
        (ops ++ planUpdates.coLocatedOperations ip keepDirectories where_ 0 pairs ++
          segsI.flatten ++ segsU.flatten) ∧
      List.Forall₂
        (fun t seg => (∀ o ∈ seg, o.install = true) ∧
          (seg = [] ∨ ∃ y w, seg = y ++
            [InstallOperation.mk t.newest.package t.newest.version true w]))
        (pairs.filter (fun t => !t.used)) segsI ∧
      List.Forall₂
        (fun t seg => (∀ o ∈ seg, o.install = false) ∧
          (t.newesti = none → seg = []) ∧
          (∀ b, t.newesti = some b → ∃ x, seg = x ++
            [InstallOperation.mk b.package b.version false ""]))
        (pairs.filter (fun t => !t.used)) segsU := by
  have hne : ∀ s : String, (!s.isEmpty) = true → s ≠ "" := by
    intro s hs he
    rw [he] at hs
    exact absurd hs (by decide)
  unfold planUpdates at h
  simp only [] at h
  by_cases hg : (!(getInstalled_ rep ip).1.isEmpty) = true
  · rw [if_pos hg] at h
    simp only [Option.some.injEq, Prod.mk.injEq] at h
    exact absurd h.1 (hne _ hg)
  · rw [if_neg hg] at h
    by_cases hx : (!(planUpdates.examine rep ip install packages ranges).1.isEmpty) = true
    · rw [if_pos hx] at h
      simp only [Option.some.injEq, Prod.mk.injEq] at h
      exact absurd h.1 (hne _ hx)
    · rw [if_neg hx] at h
      cases hc : planUpdates.coLocationLoop rep ip fuel keepDirectories where_ 0
          (planUpdates.examine rep ip install packages ranges).2 (getInstalled_ rep ip).2
          ops with
      | none => rw [hc] at h; cases h
      | some c =>
        rw [hc] at h
        simp only [] at h
        cases hi : planUpdates.installLoop rep ip fuel keepDirectories c.1 c.2.1 c.2.2 with
        | none => rw [hi] at h; cases h
        | some r1 =>
          rw [hi] at h
          simp only [] at h
          by_cases h1 : (!r1.1.isEmpty) = true
          · rw [if_pos h1] at h
            simp only [Option.some.injEq, Prod.mk.injEq] at h
            exact absurd h.1 (hne _ h1)
          · rw [if_neg h1] at h
            cases hu : planUpdates.uninstallLoop fuel c.1 r1.2.1 r1.2.2 with
            | none => rw [hu] at h; cases h
            | some r2 =>
              rw [hu] at h
              simp only [] at h
              by_cases h2 : (!r2.1.isEmpty) = true
              · rw [if_pos h2] at h
                simp only [Option.some.injEq, Prod.mk.injEq] at h
                exact absurd h.1 (hne _ h2)
              · rw [if_neg h2] at h
                simp only [Option.some.injEq, Prod.mk.injEq, true_and] at h
                have hspec := planUpdates_examine_pairSpec rep ip hkey install packages ranges
                have hG := planUpdates_pairsConsistent rep ip hkey _ hspec
                have hinv0 : planUpdates.coLocationInv (getInstalled_ rep ip).2
                    (planUpdates.examine rep ip install packages ranges).2 :=
                  fun t2 ht2 b2 hb2 hm => hG.1 t2 ht2 b2 hb2 hm.1
                obtain ⟨c1, c2, c3⟩ := planUpdates.coLocationLoop_operations rep ip fuel
                  keepDirectories where_ _ _ hG _ 0 _ ops c (fun _ ht => ht) hinv0
                  (planUpdates.examine_unused rep ip install packages ranges) hc
                obtain ⟨segsI, i1, i2⟩ := planUpdates.installLoop_segments rep ip fuel
                  keepDirectories _ _ _ r1 hi (by simpa using h1)
                obtain ⟨segsU, u1, u2⟩ := planUpdates.uninstallLoop_segments fuel _ _ _ r2 hu
                  (by simpa using h2)
                refine ⟨c.1, c.2.1, segsI, segsU, ?_, c2, c3, ?_, i2, u2⟩
                · rw [← c1]
                · rw [← h, u1, i1, c1]

/-- C25 at a concrete update: B/1.0 and A/1.0 are installed, B/1.5 is the newest version of B
and A/3.0, which needs D, the newest version of A.  The update of B is co-located, the update
of A goes through the ordinary passes: the plan is "uninstall B/1.0, install B/1.5, install
D/1.0, install A/3.0, uninstall A/1.0". -/
theorem planUpdates_plan_order_witness :
    Scenario.repABD.keysMatch ∧
    planUpdates Scenario.repABD Scenario.ipA1B1 5 [Scenario.packageB, Scenario.packageA] [] []
        false false "" =
      some ("",
        [InstallOperation.mk "B" ⟨[1, 0]⟩ false "", InstallOperation.mk "B" ⟨[1, 5]⟩ true "",
          InstallOperation.mk "D" ⟨[1, 0]⟩ true "", InstallOperation.mk "A" ⟨[3, 0]⟩ true "",
          InstallOperation.mk "A" ⟨[1, 0]⟩ false ""]) ∧
    (∃ (pairs : List UpdatePair) (installedC : List PackageVersion)
      (segsI segsU : List (List InstallOperation)),
      planUpdates.coLocationLoop Scenario.repABD Scenario.ipA1B1 5 false "" 0
          (planUpdates.examine Scenario.repABD Scenario.ipA1B1 false
            [Scenario.packageB, Scenario.packageA] []).2
          (getInstalled_ Scenario.repABD Scenario.ipA1B1).2 [] =
        some (pairs, installedC,
          [] ++ planUpdates.coLocatedOperations Scenario.ipA1B1 false "" 0 pairs) ∧
      pairs.map (fun t => (t.newest, t.newesti)) =
        (planUpdates.examine Scenario.repABD Scenario.ipA1B1 false
          [Scenario.packageB, Scenario.packageA] []).2.map
          (fun t => (t.newest, t.newesti)) ∧
      (∀ t ∈ pairs, t.used = true → t.newesti ≠ none) ∧
      [InstallOperation.mk "B" ⟨[1, 0]⟩ false "", InstallOperation.mk "B" ⟨[1, 5]⟩ true "",
          InstallOperation.mk "D" ⟨[1, 0]⟩ true "", InstallOperation.mk "A" ⟨[3, 0]⟩ true "",
          InstallOperation.mk "A" ⟨[1, 0]⟩ false ""] = InstallOperation.simplify
        ([] ++ planUpdates.coLocatedOperations Scenario.ipA1B1 false "" 0 pairs ++
          segsI.flatten ++ segsU.flatten) ∧
      List.Forall₂
        (fun t seg => (∀ o ∈ seg, o.install = true) ∧
          (seg = [] ∨ ∃ y w, seg = y ++
            [InstallOperation.mk t.newest.package t.newest.version true w]))
        (pairs.filter (fun t => !t.used)) segsI ∧
      List.Forall₂
        (fun t seg => (∀ o ∈ seg, o.install = false) ∧
          (t.newesti = none → seg = []) ∧
          (∀ b, t.newesti = some b → ∃ x, seg = x ++
            [InstallOperation.mk b.package b.version false ""]))
        (pairs.filter (fun t => !t.used)) segsU) :=
  ⟨by unfold Repository.keysMatch; decide, by decide,
    planUpdates_plan_order Scenario.repABD Scenario.ipA1B1 5
      [Scenario.packageB, Scenario.packageA] [] [] false false ""
      (by unfold Repository.keysMatch; decide) _ (by decide)⟩

end Npackd
